import Mathlib

/-!
The library dson: a JSON parser and generator

A shallow embedding of `include/dson.hpp` and `src/dson.cpp`.

* `char` is modelled by `Char` (a byte is a character with code below 256), a
  `string_view`, `string` or `vector<char>` by `List Char`.
* `double` is modelled by its IEEE-754 binary64 bit pattern, a natural number.
* `std::unordered_map` is modelled by an association list with unique keys; its
  iteration order is the list order.
* Methods of `dson_parse_context` take the context (the members `view_` and
  `vec_`) and the pointed-to `dson_value` and return their new states.
* The recursion of `parse` through arrays and objects is bounded by a depth
  argument; a result of `none` means the bound was too small.
* `DsonParser.parse` returns, next to the error kind and the parser, the context as
  it stands at the final `assert(ctx.is_empty())`, so that the assertion is a statement
  about the result; `DsonParser.parse_asserted` is the call with that assertion: it
  returns only when the assertion holds.
-/

namespace dson

/-! ## The C library: `strtod` and the default stream output of a `double` -/

/-- A `double`, as its IEEE-754 binary64 bit pattern. -/
abbrev Double := Nat

/-- The bit pattern of positive infinity, `HUGE_VAL`. -/
def HUGE_VAL : Double := 2047 * 2 ^ 52

/-- Unary minus on a `double`: flips the sign bit. -/
def Double.neg (v : Double) : Double := if v < 2 ^ 63 then v + 2 ^ 63 else v - 2 ^ 63

/-- Number of binary digits of `n` (`0` for `0`); `fuel` bounds the search. -/
def bit_length : Nat → Nat → Nat
  | 0, _ => 0
  | fuel + 1, n => if n = 0 then 0 else bit_length fuel (n / 2) + 1

/-- The `double` nearest to the non-negative rational `n / d` (ties to even), with the
sign `neg`, and whether the conversion sets `errno` to `ERANGE` (the result overflowed to
infinity, or is inexact and below the normal range). -/
def round_to_double (neg : Bool) (n d : Nat) : Double × Bool :=
  let sign := if neg then 2 ^ 63 else 0
  if n = 0 then (sign, false) else
  let l : Int := (bit_length n n : Int) - (bit_length d d : Int)
  let ge : Bool := if 0 ≤ l then d * 2 ^ l.toNat ≤ n else d ≤ n * 2 ^ (-l).toNat
  let k : Int := if ge then l else l - 1
  let e : Int := max (k - 52) (-1074)
  let num := if 0 ≤ e then n else n * 2 ^ (-e).toNat
  let den := if 0 ≤ e then d * 2 ^ e.toNat else d
  let q := num / den
  let r := num % den
  let q1 := if den < 2 * r ∨ (2 * r = den ∧ q % 2 = 1) then q + 1 else q
  let b := (e + 1074).toNat * 2 ^ 52 + q1
  if 2047 * 2 ^ 52 ≤ b then (sign + 2047 * 2 ^ 52, true)
  else (sign + b, decide (b < 2 ^ 52 ∧ r ≠ 0))

def isdigit (c : Char) : Bool := decide ('0' ≤ c ∧ c ≤ '9')

def isxdigit (c : Char) : Bool :=
  isdigit c || decide ('a' ≤ c ∧ c ≤ 'f') || decide ('A' ≤ c ∧ c ≤ 'F')

/-- Value of a hexadecimal digit. -/
def xdigit_value (c : Char) : Nat :=
  if isdigit c then c.toNat - '0'.toNat
  else if decide ('a' ≤ c ∧ c ≤ 'f') then c.toNat - 'a'.toNat + 10
  else c.toNat - 'A'.toNat + 10

/-- Value of a digit string in the given base. -/
def digits_value (base : Nat) (ds : List Char) : Nat :=
  ds.foldl (fun acc c => acc * base + xdigit_value c) 0

/-- The characters that can occur in a decimal or hexadecimal floating constant. -/
def is_num_char (c : Char) : Bool :=
  isxdigit c || c == '.' || c == '+' || c == '-' || c == 'x' || c == 'X' || c == 'p' || c == 'P'

/-- An optional exponent part: the marker (one of `marks`), an optional sign and at least
one decimal digit. Returns the signed exponent, `0` when there is no exponent part. -/
def strtod_exponent (marks : List Char) (s : List Char) : Int :=
  match s with
  | [] => 0
  | m :: t =>
    if marks.contains m then
      let neg := t.head? == some '-'
      let t1 := if t.head? == some '-' || t.head? == some '+' then t.tail else t
      let ds := t1.takeWhile isdigit
      if ds.isEmpty then 0
      else if neg then - (digits_value 10 ds : Int) else (digits_value 10 ds : Int)
    else 0

/-- The rational `m * base ^ x` as a fraction. -/
def scale (m base : Nat) (x : Int) : Nat × Nat :=
  if 0 ≤ x then (m * base ^ x.toNat, 1) else (m, base ^ (-x).toNat)

/-- The magnitude denoted by the longest initial decimal or hexadecimal floating constant
of `s`, as a fraction; `(0, 1)` when `s` starts with neither. -/
def strtod_magnitude (s : List Char) : Nat × Nat :=
  let hex : Option (List Char) :=
    match s with
    | '0' :: x :: t =>
      if (x == 'x' || x == 'X') &&
          ((t.head?.map isxdigit == some true) ||
           (t.head? == some '.' && (t.tail.head?.map isxdigit == some true)))
      then some t else none
    | _ => none
  match hex with
  | some t =>
    let ip := t.takeWhile isxdigit
    let t1 := t.dropWhile isxdigit
    let fp := if t1.head? == some '.' then t1.tail.takeWhile isxdigit else []
    let t2 := if t1.head? == some '.' then t1.tail.dropWhile isxdigit else t1
    let x := strtod_exponent ['p', 'P'] t2
    scale (digits_value 16 (ip ++ fp)) 2 (x - 4 * (fp.length : Int))
  | none =>
    let ip := s.takeWhile isdigit
    let s1 := s.dropWhile isdigit
    let fp := if s1.head? == some '.' then s1.tail.takeWhile isdigit else []
    let s2 := if s1.head? == some '.' then s1.tail.dropWhile isdigit else s1
    if ip.isEmpty && fp.isEmpty then (0, 1)
    else
      let x := strtod_exponent ['e', 'E'] s2
      scale (digits_value 10 (ip ++ fp)) 10 (x - (fp.length : Int))

/-- The C library's `strtod(s, nullptr)` in the "C" locale, for a text that starts with
an optional sign and a digit (`parse_number` passes no other): the value of the longest
initial floating constant, correctly rounded, and whether `errno` is set to `ERANGE`.
The conversion never looks past the first character that cannot occur in a floating
constant. -/
def strtod (s : List Char) : Double × Bool :=
  let run := s.takeWhile is_num_char
  let neg := run.head? == some '-'
  let body := if run.head? == some '-' || run.head? == some '+' then run.tail else run
  let nd := strtod_magnitude body
  round_to_double neg nd.1 nd.2

/-- Decimal digits of `n`, most significant first, padded to at least `width` digits. -/
def dec_digits : Nat → Nat → List Char
  | 0, _ => []
  | width + 1, n => dec_digits width (n / 10) ++ [Char.ofNat ('0'.toNat + n % 10)]

/-- Number of decimal digits of `n` (`0` for `0`), searched below `fuel`. -/
def dec_length : Nat → Nat → Nat
  | 0, _ => 0
  | fuel + 1, n => if n = 0 then 0 else dec_length fuel (n / 10) + 1

/-- The least `k ≤ fuel` with `d ≤ n * 10 ^ k`. -/
def dec_shift : Nat → Nat → Nat → Nat
  | 0, _, _ => 0
  | fuel + 1, n, d => if d ≤ n then 0 else dec_shift fuel (n * 10) d + 1

/-- Removes trailing `'0'` characters. -/
def strip_zeros (ds : List Char) : List Char :=
  (ds.reverse.dropWhile (fun c => c == '0')).reverse

/-- `n / d` rounded to the nearest integer, ties to even. -/
def round_half_even (n d : Nat) : Nat :=
  let q := n / d
  let r := n % d
  if d < 2 * r ∨ (2 * r = d ∧ q % 2 = 1) then q + 1 else q

/-- The text written by `ostream << double` with the default format flags (precision 6,
no `floatfield`, "C" locale): the `%g` conversion of `printf`. -/
def put_double (v : Double) : List Char :=
  let neg := decide (2 ^ 63 ≤ v)
  let ef := (v / 2 ^ 52) % 2048
  let m := v % 2 ^ 52
  let sgn : List Char := if neg then ['-'] else []
  if ef = 2047 then sgn ++ (if m = 0 then "inf".toList else "nan".toList)
  else
    let mant := if ef = 0 then m else m + 2 ^ 52
    if mant = 0 then sgn ++ ['0']
    else
      let x : Int := ((max ef 1 : Nat) : Int) - 1075
      let nd := scale mant 2 x
      -- the decimal exponent of the value
      let X0 : Int :=
        if nd.2 ≤ nd.1 then (dec_length 400 (nd.1 / nd.2) : Int) - 1
        else - (dec_shift 400 nd.1 nd.2 : Int)
      -- six significant digits
      let s0 := scale nd.1 10 (5 - X0)
      let D0 := round_half_even s0.1 (s0.2 * nd.2)
      let X : Int := if D0 = 10 ^ 6 then X0 + 1 else X0
      let D := if D0 = 10 ^ 6 then 10 ^ 5 else D0
      let ds := dec_digits 6 D
      if -4 ≤ X ∧ X < 6 then
        if 0 ≤ X then
          let ip := ds.take (X.toNat + 1)
          let fp := strip_zeros (ds.drop (X.toNat + 1))
          sgn ++ ip ++ (if fp.isEmpty then [] else '.' :: fp)
        else
          sgn ++ ['0', '.'] ++ List.replicate ((-X).toNat - 1) '0' ++ strip_zeros ds
      else
        let fp := strip_zeros (ds.drop 1)
        let ax := X.natAbs
        sgn ++ ds.take 1 ++ (if fp.isEmpty then [] else '.' :: fp) ++
          ['e', if X < 0 then '-' else '+'] ++ dec_digits (max 2 (dec_length 400 ax)) ax

/-! ## `dson.hpp`: the value model -/

inductive dson_type where
  | DSON_NULL | DSON_FALSE | DSON_TRUE | DSON_NUMBER | DSON_STRING | DSON_ARRAY | DSON_OBJECT
deriving DecidableEq, Repr

inductive error_type where
  | DSON_OK
  | DSON_EXPECT_VALUE
  | DSON_INVALID_VALUE
  | DSON_ROOT_NOT_SINGULAR
  | DSON_NUMBER_TOO_BIG
  | DSON_MISS_QUOTATION_MARK
  | DSON_INVALID_STRING_ESCAPE
  | DSON_INVALID_STRING_CHAR
  | DSON_INVALID_UNICODE_HEX
  | DSON_INVALID_UNICODE_SURROGATE
  | DSON_MISS_COMMA_OR_SQUARE_BRACKET
  | DSON_MISS_KEY
  | DSON_MISS_COLON
  | DSON_MISS_COMMA_OR_CURLY_BRACKET
deriving DecidableEq, Repr

open dson_type error_type

/-- The payload `std::variant<double, std::string, std::vector<...>, std::unordered_map<...>>`
of `dson_value`, over the type `α` of the pointed-to children. -/
inductive value_type (α : Type) where
  | double (d : Double)
  | string (s : List Char)
  | vector (xs : List α)
  | unordered_map (m : List (List Char × α))

/-- The class `dson_value`: the members `type_` and `val_`. -/
inductive dson_value where
  | mk (type_ : dson_type) (val_ : Option (value_type dson_value))

namespace dson_value

/-- The constructor `dson_value()`. -/
def new : dson_value := mk DSON_NULL none

def type : dson_value → dson_type
  | mk t _ => t

def set_type : dson_value → dson_type → dson_value
  | mk _ v, t => mk t v

def option_value : dson_value → Option (value_type dson_value)
  | mk _ v => v

def set_option_value : dson_value → value_type dson_value → dson_value
  | mk t _, v => mk t (some v)

end dson_value

/-- The assignment `mp[key] = ptr` on a `std::unordered_map`: overwrites the entry of an
existing key, adds an entry otherwise. -/
def map_assign {α : Type} (mp : List (List Char × α)) (key : List Char) (ptr : α) :
    List (List Char × α) :=
  match mp with
  | [] => [(key, ptr)]
  | (k, v) :: rest => if k = key then (key, ptr) :: rest else (k, v) :: map_assign rest key ptr

/-! ## `dson.cpp`: the parser -/

/-- The class `dson_parse_context`. -/
structure dson_parse_context where
  view_ : List Char
  vec_ : List Char
deriving DecidableEq, Repr

namespace dson_parse_context

def is_whitespace (c : Char) : Bool := c == ' ' || c == '\t' || c == '\n' || c == '\r'

def skip_whitespace (self : dson_parse_context) : dson_parse_context :=
  { self with view_ := self.view_.dropWhile is_whitespace }

def is_completed (self : dson_parse_context) : Bool := self.view_.isEmpty

def is_empty (self : dson_parse_context) : Bool := self.vec_.isEmpty

def parse_null (self : dson_parse_context) (value : dson_value) :
    error_type × dson_value × dson_parse_context :=
  match self.view_ with
  | c0 :: c1 :: c2 :: c3 :: rest =>
    if c0 ≠ 'n' ∨ c1 ≠ 'u' ∨ c2 ≠ 'l' ∨ c3 ≠ 'l' then (DSON_INVALID_VALUE, value, self)
    else (DSON_OK, value.set_type DSON_NULL, { self with view_ := rest })
  | _ => (DSON_INVALID_VALUE, value, self)

def parse_false (self : dson_parse_context) (value : dson_value) :
    error_type × dson_value × dson_parse_context :=
  match self.view_ with
  | c0 :: c1 :: c2 :: c3 :: c4 :: rest =>
    if c0 ≠ 'f' ∨ c1 ≠ 'a' ∨ c2 ≠ 'l' ∨ c3 ≠ 's' ∨ c4 ≠ 'e' then (DSON_INVALID_VALUE, value, self)
    else (DSON_OK, value.set_type DSON_FALSE, { self with view_ := rest })
  | _ => (DSON_INVALID_VALUE, value, self)

def parse_true (self : dson_parse_context) (value : dson_value) :
    error_type × dson_value × dson_parse_context :=
  match self.view_ with
  | c0 :: c1 :: c2 :: c3 :: rest =>
    if c0 ≠ 't' ∨ c1 ≠ 'r' ∨ c2 ≠ 'u' ∨ c3 ≠ 'e' then (DSON_INVALID_VALUE, value, self)
    else (DSON_OK, value.set_type DSON_TRUE, { self with view_ := rest })
  | _ => (DSON_INVALID_VALUE, value, self)

/-- The membership test behind `find_first_not_of("123456789")`. -/
def in_123456789 (c : Char) : Bool := "123456789".toList.contains c

/-- The membership test behind `find_first_not_of("0123456789")`. -/
def in_0123456789 (c : Char) : Bool := "0123456789".toList.contains c

/-- The exponent part of `parse_number` (lines 111-117): the remaining `tmp`, or `none`
for `DSON_INVALID_VALUE`. -/
def number_exponent (tmp : List Char) : Option (List Char) :=
  match tmp with
  | e :: t1 =>
    if e = 'e' ∨ e = 'E' then
      match t1 with
      | [] => none
      | s :: t2 =>
        let t3 := if s = '+' ∨ s = '-' then t2 else t1
        match t3 with
        | [] => none
        | d :: _ => if !isdigit d then none else some (t3.dropWhile in_0123456789)
    else some tmp
  | [] => some tmp

/-- The fraction part of `parse_number` (lines 106-110). -/
def number_fraction (tmp : List Char) : Option (List Char) :=
  match tmp with
  | '.' :: t1 =>
    match t1 with
    | [] => none
    | d :: _ => if !isdigit d then none else some (t1.dropWhile in_0123456789)
  | _ => some tmp

/-- The sign and integer part of `parse_number` (lines 98-105). -/
def number_integer (view : List Char) : Option (List Char) :=
  let tmp := if view.head? = some '-' then view.tail else view
  match tmp with
  | [] => none
  | c :: t1 =>
    if c = '0' then some t1
    else if !isdigit c then none
    else some (tmp.dropWhile in_123456789)

/-- The scan of `parse_number` (lines 97-117): the view left after the number. -/
def number_scan (view : List Char) : Option (List Char) :=
  (number_integer view).bind fun t => (number_fraction t).bind number_exponent

def parse_number (self : dson_parse_context) (value : dson_value) :
    error_type × dson_value × dson_parse_context :=
  match number_scan self.view_ with
  | none => (DSON_INVALID_VALUE, value, self)
  | some tmp =>
    let r := strtod self.view_
    let value := value.set_option_value (value_type.double r.1)
    if r.2 && (r.1 == HUGE_VAL || r.1 == Double.neg HUGE_VAL) then (DSON_NUMBER_TOO_BIG, value, self)
    else (DSON_OK, value.set_type DSON_NUMBER, { self with view_ := tmp })

/-- The conversion of an `unsigned int` to `char` in `vec_.push_back`. -/
def to_char (x : Nat) : Char := Char.ofNat (x % 256)

def encode_utf8 (vec_ : List Char) (u : Nat) : List Char :=
  if u ≤ 0x7F then
    vec_ ++ [to_char (u &&& 0xFF)]
  else if u ≤ 0x7FF then
    vec_ ++ [to_char (0xC0 ||| ((u >>> 6) &&& 0xFF)), to_char (0x80 ||| (u &&& 0x3F))]
  else if u ≤ 0xFFFF then
    vec_ ++ [to_char (0xE0 ||| ((u >>> 12) &&& 0xFF)), to_char (0x80 ||| ((u >>> 6) &&& 0x3F)),
      to_char (0x80 ||| (u &&& 0x3F))]
  else
    vec_ ++ [to_char (0xF0 ||| ((u >>> 18) &&& 0xFF)), to_char (0x80 ||| ((u >>> 12) &&& 0x3F)),
      to_char (0x80 ||| ((u >>> 6) &&& 0x3F)), to_char (0x80 ||| (u &&& 0x3F))]

/-- One round of the loop of `parse_hex4`: the new `u`, or `none` for a character that is
not a hexadecimal digit. -/
def hex4_step (u : Nat) (ch : Char) : Option Nat :=
  if '0' ≤ ch ∧ ch ≤ '9' then some ((u <<< 4) ||| (ch.toNat - '0'.toNat))
  else if 'A' ≤ ch ∧ ch ≤ 'F' then some ((u <<< 4) ||| (ch.toNat - 'A'.toNat + 10))
  else if 'a' ≤ ch ∧ ch ≤ 'f' then some ((u <<< 4) ||| (ch.toNat - 'a'.toNat + 10))
  else none

/-- The function `parse_hex4`: the pair it returns and the view it leaves. -/
def parse_hex4 (view : List Char) : (Nat × Bool) × List Char :=
  match view with
  | c0 :: c1 :: c2 :: c3 :: rest =>
    match (((hex4_step 0 c0).bind (hex4_step · c1)).bind (hex4_step · c2)).bind (hex4_step · c3) with
    | some u => ((u, true), rest)
    | none => ((0, false), view)
  | _ => ((0, false), view)

/-- The start of the range erased by `vec_.erase(vec_.begin() + (sz > 0 ? sz - 1 : sz), vec_.end())`. -/
def erase_from (sz : Nat) : Nat := if sz > 0 then sz - 1 else sz

/-- The cases `\" \\ \/ \b \f \n \r \t` of the inner `switch` of `parse_string()`: the
character pushed to `vec_`, or `none` for any other character. -/
def simple_escape (e : Char) : Option Char :=
  if e = '"' then some '"'
  else if e = '\\' then some '\\'
  else if e = '/' then some '/'
  else if e = 'b' then some '\x08'
  else if e = 'f' then some '\x0c'
  else if e = 'n' then some '\n'
  else if e = 'r' then some '\r'
  else if e = 't' then some '\t'
  else none

/-- One round of the `while` loop of `parse_string()`, lines 132-187: `tmp` and `sz` are the
locals, `self` holds `view_` and `vec_`. The round either returns (left: the pair returned
and the context) or goes on (right: the new `tmp` and the context). -/
def string_step (sz : Nat) (tmp : List Char) (self : dson_parse_context) :
    ((List Char × error_type) × dson_parse_context) ⊕ (List Char × dson_parse_context) :=
  let erased : dson_parse_context := { self with vec_ := self.vec_.take (erase_from sz) }
  match tmp with
  | [] => .inl (([], DSON_MISS_QUOTATION_MARK), erased)
  | ch :: t1 =>
    if ch = '"' then
      .inl ((self.vec_.drop (erase_from sz), DSON_OK), { erased with view_ := t1 })
    else if ch = '\\' then
      match t1 with
      | [] => .inl (([], DSON_INVALID_STRING_ESCAPE), erased)
      | e :: t2 =>
        match simple_escape e with
        | some c => .inr (t2, { self with vec_ := self.vec_ ++ [c] })
        | none =>
          if e = 'u' then
            let r := parse_hex4 t2
            let u := r.1.1
            let t3 := r.2
            if !r.1.2 then .inl (([], DSON_INVALID_UNICODE_HEX), self)
            else if 0xD800 ≤ u ∧ u ≤ 0xDBFF then
              match t3 with
              | a :: b :: t4 =>
                if a ≠ '\\' ∨ b ≠ 'u' then .inl (([], DSON_INVALID_UNICODE_SURROGATE), erased)
                else
                  let r2 := parse_hex4 t4
                  let un := r2.1.1
                  if !r2.1.2 then .inl (([], DSON_INVALID_UNICODE_HEX), self)
                  else if un < 0xDC00 ∨ un > 0xDFFF then
                    .inl (([], DSON_INVALID_UNICODE_SURROGATE), erased)
                  else
                    .inr (r2.2,
                      { self with
                        vec_ := encode_utf8 self.vec_
                          ((((u - 0xD800) <<< 10) ||| (un - 0xDC00)) + 0x10000) })
              | _ => .inl (([], DSON_INVALID_UNICODE_SURROGATE), erased)
            else .inr (t3, { self with vec_ := encode_utf8 self.vec_ u })
          else .inl (([], DSON_INVALID_STRING_ESCAPE), erased)
    else if ch.toNat < 0x20 then .inl (([], DSON_INVALID_STRING_CHAR), erased)
    else .inr (t1, { self with vec_ := self.vec_ ++ [ch] })

/-- The `while` loop of `parse_string()` with the part after it, lines 131-190: `fuel`
bounds the number of rounds. -/
def parse_string_loop :
    Nat → Nat → List Char → dson_parse_context →
      Option ((List Char × error_type) × dson_parse_context)
  | 0, _, _, _ => none
  | fuel + 1, sz, tmp, self =>
    match string_step sz tmp self with
    | .inl r => some r
    | .inr (t, s) => parse_string_loop fuel sz t s

/-- The function `parse_string()`: it is entered with the opening `"` at the front of
`view_`. Every round of the loop removes a character of `tmp`, so the length of the view
bounds the number of rounds. -/
def parse_string (self : dson_parse_context) :
    Option ((List Char × error_type) × dson_parse_context) :=
  let self : dson_parse_context := { self with view_ := self.view_.tail }
  parse_string_loop (self.view_.length + 1) self.vec_.length self.view_ self

/-- The function `parse_string(const shared_ptr<dson_value>&)`. -/
def parse_string_value (self : dson_parse_context) (value : dson_value) :
    Option (error_type × dson_value × dson_parse_context) :=
  (parse_string self).map fun r =>
    if r.1.2 = DSON_OK then
      (r.1.2, (value.set_option_value (value_type.string r.1.1)).set_type DSON_STRING, r.2)
    else (r.1.2, value, r.2)

/-- The result of a parse method: the error kind, the pointed-to value and the context
afterwards. -/
abbrev parse_result := error_type × dson_value × dson_parse_context

/-- The `while (true)` loop of `parse_array`: `tmp` is the local vector, `self` the context;
`elem` is the call `parse(ptr)` on a new `dson_value`; `fuel` bounds the number of rounds. -/
def parse_array_loop (elem : dson_parse_context → Option parse_result) :
    Nat → List dson_value → dson_parse_context →
      Option (error_type × List dson_value × dson_parse_context)
  | 0, _, _ => none
  | fuel + 1, tmp, self =>
    match elem self with
    | none => none
    | some (err, ptr, self) =>
      if err ≠ DSON_OK then some (err, tmp, self)
      else
        let tmp := tmp ++ [ptr]
        let self := self.skip_whitespace
        match self.view_ with
        | ',' :: rest =>
          parse_array_loop elem fuel tmp ({ self with view_ := rest } : dson_parse_context).skip_whitespace
        | ']' :: rest => some (DSON_OK, tmp, { self with view_ := rest })
        | _ => some (DSON_MISS_COMMA_OR_SQUARE_BRACKET, tmp, self)

/-- The function `parse_array`, entered with `[` at the front of `view_`. A round of the
loop that goes on removes a character of `view_`, so its length bounds the rounds. -/
def parse_array (elem : dson_parse_context → Option parse_result)
    (self : dson_parse_context) (value : dson_value) : Option parse_result :=
  let self := ({ self with view_ := self.view_.tail } : dson_parse_context).skip_whitespace
  match self.view_ with
  | ']' :: rest =>
    some (DSON_OK, (value.set_option_value (value_type.vector [])).set_type DSON_ARRAY,
      { self with view_ := rest })
  | _ =>
    (parse_array_loop elem (self.view_.length + 1) [] self).map fun r =>
      if r.1 = DSON_OK then
        (DSON_OK, (value.set_type DSON_ARRAY).set_option_value (value_type.vector r.2.1), r.2.2)
      else (r.1, value, r.2.2)

/-- The `while (true)` loop of `parse_object`: `mp` is the local map. -/
def parse_object_loop (elem : dson_parse_context → Option parse_result) :
    Nat → List (List Char × dson_value) → dson_parse_context →
      Option (error_type × List (List Char × dson_value) × dson_parse_context)
  | 0, _, _ => none
  | fuel + 1, mp, self =>
    if self.view_.head? ≠ some '"' then some (DSON_MISS_KEY, mp, self)
    else
      match parse_string self with
      | none => none
      | some ((str, err), self) =>
        if err ≠ DSON_OK then some (err, mp, self)
        else
          let self := self.skip_whitespace
          if self.view_.head? ≠ some ':' then some (DSON_MISS_COLON, mp, self)
          else
            let self := ({ self with view_ := self.view_.tail } : dson_parse_context).skip_whitespace
            match elem self with
            | none => none
            | some (e, ptr, self) =>
              if e ≠ DSON_OK then some (e, mp, self)
              else
                let mp := map_assign mp str ptr
                let self := self.skip_whitespace
                match self.view_ with
                | ',' :: rest =>
                  parse_object_loop elem fuel mp
                    ({ self with view_ := rest } : dson_parse_context).skip_whitespace
                | '}' :: rest => some (DSON_OK, mp, { self with view_ := rest })
                | _ => some (DSON_MISS_COMMA_OR_CURLY_BRACKET, mp, self)

/-- The function `parse_object`, entered with `{` at the front of `view_`. -/
def parse_object (elem : dson_parse_context → Option parse_result)
    (self : dson_parse_context) (value : dson_value) : Option parse_result :=
  let self := ({ self with view_ := self.view_.tail } : dson_parse_context).skip_whitespace
  match self.view_ with
  | '}' :: rest =>
    some (DSON_OK, (value.set_option_value (value_type.unordered_map [])).set_type DSON_OBJECT,
      { self with view_ := rest })
  | _ =>
    (parse_object_loop elem (self.view_.length + 1) [] self).map fun r =>
      if r.1 = DSON_OK then
        (DSON_OK, (value.set_option_value (value_type.unordered_map r.2.1)).set_type DSON_OBJECT,
          r.2.2)
      else (r.1, value, r.2.2)

/-- The function `dson_parse_context::parse`; `depth` bounds the nesting of the recursion
through `parse_array` and `parse_object`, whose calls `parse(ptr)` are made on a new
`dson_value`. -/
def parse : Nat → dson_parse_context → dson_value → Option parse_result
  | 0, _, _ => none
  | depth + 1, self, value =>
    match self.view_ with
    | [] => some (DSON_EXPECT_VALUE, value, self)
    | 'n' :: _ => some (parse_null self value)
    | 'f' :: _ => some (parse_false self value)
    | 't' :: _ => some (parse_true self value)
    | '"' :: _ => parse_string_value self value
    | '[' :: _ => parse_array (fun c => parse depth c dson_value.new) self value
    | '{' :: _ => parse_object (fun c => parse depth c dson_value.new) self value
    | _ :: _ => some (parse_number self value)

end dson_parse_context

/-- The class `dson_parser`. -/
structure DsonParser where
  value_ : dson_value

namespace DsonParser

/-- The constructor of the class. -/
def new : DsonParser := ⟨dson_value.new⟩

def root (self : DsonParser) : dson_value := self.value_

/-- The member function `parse` of the class: the error kind it returns, the parser afterwards, and
the local `ctx` as it stands at the final `assert(ctx.is_empty())`. Every nested array or
object removes a character of the text, so its length bounds the depth of the recursion. -/
def parse (self : DsonParser) (json : List Char) :
    Option (error_type × DsonParser × dson_parse_context) :=
  let ctx : dson_parse_context := ⟨json, []⟩
  let ctx := ctx.skip_whitespace
  match dson_parse_context.parse (json.length + 1) ctx self.value_ with
  | none => none
  | some (ret, value, ctx) =>
    if ret = DSON_OK then
      let ctx := ctx.skip_whitespace
      if !ctx.is_completed then some (DSON_ROOT_NOT_SINGULAR, ⟨value.set_type DSON_NULL⟩, ctx)
      else some (ret, ⟨value⟩, ctx)
    else some (ret, ⟨value⟩, ctx)

end DsonParser

/-- How a call of the member function `parse` ends: it returns an error kind and leaves the
parser, or it is aborted by the final `assert(ctx.is_empty())`. -/
inductive parse_outcome where
  | returned (ret : error_type) (self : DsonParser)
  | assertion_failed

/-- The member function `parse` with its final `assert(ctx.is_empty())` (line 400): the
call returns what `DsonParser.parse` computes when the assertion holds, and is aborted
otherwise. -/
def DsonParser.parse_asserted (self : DsonParser) (json : List Char) : Option parse_outcome :=
  (self.parse json).map fun r =>
    if r.2.2.is_empty then parse_outcome.returned r.1 r.2.1
    else parse_outcome.assertion_failed

/-! ## `dson.cpp`: the generator -/

namespace dson_generate_context

def HEX_DIGITS : List Char :=
  ['0', '1', '2', '3', '4', '5', '6', '7', '8', '9', 'A', 'B', 'C', 'D', 'E', 'F']

/-- The text `stringify_string` writes for one character of the string. -/
def stringify_char (c : Char) : List Char :=
  if c = '"' then ['\\', '"']
  else if c = '\\' then ['\\', '\\']
  else if c = '\x08' then ['\\', 'b']
  else if c = '\x0c' then ['\\', 'f']
  else if c = '\n' then ['\\', 'n']
  else if c = '\r' then ['\\', 'r']
  else if c = '\t' then ['\\', 't']
  else if c.toNat < 0x20 then
    ['\\', 'u', '0', '0', HEX_DIGITS.getD (c.toNat >>> 4) '0', HEX_DIGITS.getD (c.toNat &&& 15) '0']
  else [c]

/-- The function `stringify_string`: the stream `sstream_` after the call. -/
def stringify_string (sstream_ : List Char) (str : List Char) : List Char :=
  sstream_ ++ ['"'] ++ (str.map stringify_char).flatten ++ ['"']

mutual
/-- The function `stringify`: the stream `sstream_` after the call, which is also the text
returned; `none` when `get` or `value` throws because the payload does not fit the kind. -/
def stringify (sstream_ : List Char) : dson_value → Option (List Char)
  | .mk DSON_NULL _ => some (sstream_ ++ "null".toList)
  | .mk DSON_FALSE _ => some (sstream_ ++ "false".toList)
  | .mk DSON_TRUE _ => some (sstream_ ++ "true".toList)
  | .mk DSON_NUMBER (some (.double d)) => some (sstream_ ++ put_double d)
  | .mk DSON_STRING (some (.string s)) => some (stringify_string sstream_ s)
  | .mk DSON_ARRAY (some (.vector arr)) =>
    (stringify_array (sstream_ ++ ['[']) 0 arr).map (· ++ [']'])
  | .mk DSON_OBJECT (some (.unordered_map obj)) =>
    (stringify_object (sstream_ ++ ['{']) 0 obj).map (· ++ ['}'])
  | _ => none
/-- The `for` loop of the array case, from index `i` on. -/
def stringify_array (sstream_ : List Char) (i : Nat) : List dson_value → Option (List Char)
  | [] => some sstream_
  | v :: rest =>
    (stringify (if i > 0 then sstream_ ++ [','] else sstream_) v).bind fun s =>
      stringify_array s (i + 1) rest
/-- The `for` loop of the object case, from index `i` on. -/
def stringify_object (sstream_ : List Char) (i : Nat) :
    List (List Char × dson_value) → Option (List Char)
  | [] => some sstream_
  | (k, v) :: rest =>
    (stringify (stringify_string (if i > 0 then sstream_ ++ [','] else sstream_) k ++ [':']) v).bind
      fun s => stringify_object s (i + 1) rest
end

end dson_generate_context

namespace dson_generator

def stringify_raw (root : dson_value) : Option (List Char) :=
  dson_generate_context.stringify [] root

end dson_generator

/-! ## Reference definitions taken from the specification -/

/-- The number grammar `-? (0 | [1-9][0-9]*) (\.[0-9]+)? ([eE][+-]?[0-9]+)?` of the
specification: what is left of `s` after its longest initial match, `none` when no initial
part of `s` matches. Every part of the grammar is decided by the next character, so the
longest match is the only candidate for a match of the whole text. -/
def number_grammar_rest (s : List Char) : Option (List Char) :=
  let s1 := if s.head? = some '-' then s.tail else s
  let int_rest : Option (List Char) :=
    match s1 with
    | [] => none
    | c :: t =>
      if c = '0' then some t
      else if '1' ≤ c ∧ c ≤ '9' then some (t.dropWhile isdigit)
      else none
  int_rest.map fun s2 =>
    let s3 :=
      match s2 with
      | '.' :: d :: t => if isdigit d then t.dropWhile isdigit else s2
      | _ => s2
    match s3 with
    | e :: t =>
      if e = 'e' ∨ e = 'E' then
        let t1 := if t.head? = some '+' ∨ t.head? = some '-' then t.tail else t
        match t1 with
        | d :: t2 => if isdigit d then t2.dropWhile isdigit else s3
        | [] => s3
      else s3
    | [] => s3

/-- The text matches the number grammar of the specification in full. -/
def matches_number_grammar (s : List Char) : Bool := number_grammar_rest s == some []

/-- Kind and payload of a value agree: a value of kind Null, False or True carries no
payload, a Number a double, a String a byte string, an Array a sequence and an Object a
mapping. -/
def payload_agrees : dson_value → Bool
  | .mk DSON_NULL none => true
  | .mk DSON_FALSE none => true
  | .mk DSON_TRUE none => true
  | .mk DSON_NUMBER (some (.double _)) => true
  | .mk DSON_STRING (some (.string _)) => true
  | .mk DSON_ARRAY (some (.vector _)) => true
  | .mk DSON_OBJECT (some (.unordered_map _)) => true
  | _ => false

/-- The payload fits the kind where the kind has one: a Number carries a double, a String a
byte string, an Array a sequence and an Object a mapping; nothing is asked of a value of
kind Null, False or True. -/
def payload_fits : dson_value → Bool
  | .mk DSON_NULL _ => true
  | .mk DSON_FALSE _ => true
  | .mk DSON_TRUE _ => true
  | v => payload_agrees v

/-- The standard UTF-8 encoding of the code point `u`, in one to four bytes. -/
def utf8 (u : Nat) : List Char :=
  if u < 0x80 then [Char.ofNat u]
  else if u < 0x800 then [Char.ofNat (0xC0 + u / 64), Char.ofNat (0x80 + u % 64)]
  else if u < 0x10000 then
    [Char.ofNat (0xE0 + u / 4096), Char.ofNat (0x80 + u / 64 % 64), Char.ofNat (0x80 + u % 64)]
  else
    [Char.ofNat (0xF0 + u / 262144), Char.ofNat (0x80 + u / 4096 % 64),
      Char.ofNat (0x80 + u / 64 % 64), Char.ofNat (0x80 + u % 64)]

/-- The base-16 value of four hexadecimal digits. -/
def hex4_value (d0 d1 d2 d3 : Char) : Nat :=
  ((xdigit_value d0 * 16 + xdigit_value d1) * 16 + xdigit_value d2) * 16 + xdigit_value d3

/-- The byte a simple escape `\e` stands for. -/
def escape_byte (e : Char) : Char :=
  match e with
  | 'b' => '\x08'
  | 'f' => '\x0c'
  | 'n' => '\n'
  | 'r' => '\r'
  | 't' => '\t'
  | c => c

/-- The items of the body of a string literal: a plain byte, a simple escape `\e`, an
escape `\uXXXX` and a pair `\uHHHH\uLLLL`. -/
inductive body_item where
  | plain (c : Char)
  | escape (e : Char)
  | unicode (d0 d1 d2 d3 : Char)
  | pair (h0 h1 h2 h3 l0 l1 l2 l3 : Char)

namespace body_item

/-- The item is well formed: a plain byte is at least `0x20` and neither `"` nor `\`; a
simple escape is one of the eight; the `XXXX` of `\uXXXX` are hexadecimal digits of a code
point that is no surrogate; in a pair `HHHH` is in `[0xD800, 0xDBFF]` and `LLLL` in
`[0xDC00, 0xDFFF]`. -/
def valid : body_item → Prop
  | plain c => 0x20 ≤ c.toNat ∧ c ≠ '"' ∧ c ≠ '\\'
  | escape e => e ∈ ['"', '\\', '/', 'b', 'f', 'n', 'r', 't']
  | unicode d0 d1 d2 d3 =>
    isxdigit d0 ∧ isxdigit d1 ∧ isxdigit d2 ∧ isxdigit d3 ∧
      ¬ (0xD800 ≤ hex4_value d0 d1 d2 d3 ∧ hex4_value d0 d1 d2 d3 ≤ 0xDFFF)
  | pair h0 h1 h2 h3 l0 l1 l2 l3 =>
    isxdigit h0 ∧ isxdigit h1 ∧ isxdigit h2 ∧ isxdigit h3 ∧
    isxdigit l0 ∧ isxdigit l1 ∧ isxdigit l2 ∧ isxdigit l3 ∧
    0xD800 ≤ hex4_value h0 h1 h2 h3 ∧ hex4_value h0 h1 h2 h3 ≤ 0xDBFF ∧
    0xDC00 ≤ hex4_value l0 l1 l2 l3 ∧ hex4_value l0 l1 l2 l3 ≤ 0xDFFF

instance (i : body_item) : Decidable i.valid := by
  cases i <;> unfold valid <;> infer_instance

/-- The text of the item in the literal. -/
def text : body_item → List Char
  | plain c => [c]
  | escape e => ['\\', e]
  | unicode d0 d1 d2 d3 => ['\\', 'u', d0, d1, d2, d3]
  | pair h0 h1 h2 h3 l0 l1 l2 l3 => ['\\', 'u', h0, h1, h2, h3, '\\', 'u', l0, l1, l2, l3]

/-- The bytes the item stands for, by the reference decoder. -/
def decode : body_item → List Char
  | plain c => [c]
  | escape e => [escape_byte e]
  | unicode d0 d1 d2 d3 => utf8 (hex4_value d0 d1 d2 d3)
  | pair h0 h1 h2 h3 l0 l1 l2 l3 =>
    utf8 ((((hex4_value h0 h1 h2 h3 - 0xD800) <<< 10) ||| (hex4_value l0 l1 l2 l3 - 0xDC00)) + 0x10000)

end body_item

/-- The text of a string literal with the given body. -/
def literal_text (body : List body_item) : List Char :=
  ['"'] ++ (body.map body_item.text).flatten ++ ['"']

/-- The bytes of a body, by the reference decoder. -/
def reference_decode (body : List body_item) : List Char :=
  (body.map body_item.decode).flatten

/-- The texts `t1`, ..., `tn` joined by commas. -/
def join_commas : List (List Char) → List Char
  | [] => []
  | [t] => t
  | t :: ts => t ++ ',' :: join_commas ts

/-- The text `[t1,...,tn]` of an array with the element texts `ts`. -/
def array_text (ts : List (List Char)) : List Char :=
  ['['] ++ join_commas ts ++ [']']

/-- A member `k:t` of an object text, with what its parts stand for: the text `k` of the
key, the bytes `key` it decodes to, the text `t` of the value and the value itself. -/
structure member where
  key_text : List Char
  key : List Char
  value_text : List Char
  value : dson_value

/-- The member texts `k1:t1`, ..., `kn:tn` joined by commas. -/
def join_members : List member → List Char
  | [] => []
  | [m] => m.key_text ++ ':' :: m.value_text
  | m :: ms => m.key_text ++ ':' :: m.value_text ++ ',' :: join_members ms

/-- The text `{k1:t1,...,kn:tn}` of an object with the given members. -/
def object_text (ms : List member) : List Char :=
  ['{'] ++ join_members ms ++ ['}']

/-- The member is well formed: its key text parses alone, on a new parser, to a String
with the bytes `key`, and its value text parses alone to `value`. -/
def member.valid (m : member) : Prop :=
  (∃ c, DsonParser.new.parse m.key_text =
    some (DSON_OK, ⟨.mk DSON_STRING (some (.string m.key))⟩, c)) ∧
  (∃ c, DsonParser.new.parse m.value_text = some (DSON_OK, ⟨m.value⟩, c))

/-- The mapping built from the members in the order of the text, by `mp[key] = value`. -/
def members_map (ms : List member) : List (List Char × dson_value) :=
  ms.foldl (fun mp m => map_assign mp m.key m.value) []

/-! ## Auxiliary definitions for the proofs -/



/-- The text `x` that follows a value starts with a character that cannot continue a
number, or is empty. -/
def stops (x : List Char) : Prop := ∀ c, x.head? = some c → is_num_char c = false

/-- All characters of `r` are whitespace. -/
def all_whitespace (r : List Char) : Prop := ∀ c ∈ r, dson_parse_context.is_whitespace c = true

instance (r : List Char) : Decidable (all_whitespace r) := by
  unfold all_whitespace; infer_instance

namespace dson_parse_context

/-- The cases of one round of the loop of `parse_string()`: `string_case sz self tmp r`
lists, by the shape of `tmp`, what `string_step sz tmp self` is. -/
inductive string_case (sz : Nat) (self : dson_parse_context) :
    List Char → ((List Char × error_type) × dson_parse_context) ⊕ (List Char × dson_parse_context)
      → Prop where
  | eof : string_case sz self []
      (.inl (([], DSON_MISS_QUOTATION_MARK), ⟨self.view_, self.vec_.take (erase_from sz)⟩))
  | quote (t1 : List Char) : string_case sz self ('"' :: t1)
      (.inl ((self.vec_.drop (erase_from sz), DSON_OK), ⟨t1, self.vec_.take (erase_from sz)⟩))
  | backslash_eof : string_case sz self ['\\']
      (.inl (([], DSON_INVALID_STRING_ESCAPE), ⟨self.view_, self.vec_.take (erase_from sz)⟩))
  | simple (e c : Char) (t2 : List Char) (h : simple_escape e = some c) :
      string_case sz self ('\\' :: e :: t2) (.inr (t2, ⟨self.view_, self.vec_ ++ [c]⟩))
  | bad_escape (e : Char) (t2 : List Char) (h : simple_escape e = none) (hu : e ≠ 'u') :
      string_case sz self ('\\' :: e :: t2)
        (.inl (([], DSON_INVALID_STRING_ESCAPE), ⟨self.view_, self.vec_.take (erase_from sz)⟩))
  | bad_hex (t2 : List Char) (h : (parse_hex4 t2).1.2 = false) :
      string_case sz self ('\\' :: 'u' :: t2) (.inl (([], DSON_INVALID_UNICODE_HEX), self))
  | unicode (t2 t3 : List Char) (u : Nat) (h : parse_hex4 t2 = ((u, true), t3))
      (hs : ¬ (0xD800 ≤ u ∧ u ≤ 0xDBFF)) :
      string_case sz self ('\\' :: 'u' :: t2) (.inr (t3, ⟨self.view_, encode_utf8 self.vec_ u⟩))
  | lone_high (t2 t3 : List Char) (u : Nat) (h : parse_hex4 t2 = ((u, true), t3))
      (hs : 0xD800 ≤ u ∧ u ≤ 0xDBFF)
      (h3 : ∀ t4, t3 ≠ '\\' :: 'u' :: t4) :
      string_case sz self ('\\' :: 'u' :: t2)
        (.inl (([], DSON_INVALID_UNICODE_SURROGATE),
          ⟨self.view_, self.vec_.take (erase_from sz)⟩))
  | bad_low_hex (t2 t4 : List Char) (u : Nat)
      (h : parse_hex4 t2 = ((u, true), '\\' :: 'u' :: t4))
      (hs : 0xD800 ≤ u ∧ u ≤ 0xDBFF) (h4 : (parse_hex4 t4).1.2 = false) :
      string_case sz self ('\\' :: 'u' :: t2) (.inl (([], DSON_INVALID_UNICODE_HEX), self))
  | bad_low (t2 t4 t5 : List Char) (u un : Nat)
      (h : parse_hex4 t2 = ((u, true), '\\' :: 'u' :: t4))
      (hs : 0xD800 ≤ u ∧ u ≤ 0xDBFF) (h4 : parse_hex4 t4 = ((un, true), t5))
      (hl : un < 0xDC00 ∨ un > 0xDFFF) :
      string_case sz self ('\\' :: 'u' :: t2)
        (.inl (([], DSON_INVALID_UNICODE_SURROGATE),
          ⟨self.view_, self.vec_.take (erase_from sz)⟩))
  | pair (t2 t4 t5 : List Char) (u un : Nat)
      (h : parse_hex4 t2 = ((u, true), '\\' :: 'u' :: t4))
      (hs : 0xD800 ≤ u ∧ u ≤ 0xDBFF) (h4 : parse_hex4 t4 = ((un, true), t5))
      (hl : ¬ (un < 0xDC00 ∨ un > 0xDFFF)) :
      string_case sz self ('\\' :: 'u' :: t2)
        (.inr (t5, ⟨self.view_,
          encode_utf8 self.vec_ ((((u - 0xD800) <<< 10) ||| (un - 0xDC00)) + 0x10000)⟩))
  | control (ch : Char) (t1 : List Char) (h1 : ch ≠ '"') (h2 : ch ≠ '\\')
      (h3 : ch.toNat < 0x20) :
      string_case sz self (ch :: t1)
        (.inl (([], DSON_INVALID_STRING_CHAR), ⟨self.view_, self.vec_.take (erase_from sz)⟩))
  | plain (ch : Char) (t1 : List Char) (h1 : ch ≠ '"') (h2 : ch ≠ '\\')
      (h3 : ¬ ch.toNat < 0x20) :
      string_case sz self (ch :: t1) (.inr (t1, ⟨self.view_, self.vec_ ++ [ch]⟩))

end dson_parse_context

/-- What the proofs need of the call `parse(ptr)` made by the loops of `parse_array` and
`parse_object`, when it starts with an empty `vec_` and returns `DSON_OK`: it leaves `vec_`
empty, it was given a non-empty view, and it returns the same with `x` left over when `x`
is added to the view, for every `x` that cannot continue a number. -/
def good_elem (elem : dson_parse_context → Option dson_parse_context.parse_result) : Prop :=
  ∀ v ptr rem vec', elem ⟨v, []⟩ = some (DSON_OK, ptr, ⟨rem, vec'⟩) →
    vec' = [] ∧ v ≠ [] ∧
      ∀ x, stops x → elem ⟨v ++ x, []⟩ = some (DSON_OK, ptr, ⟨rem ++ x, []⟩)


/-- What the loop of `parse_object` needs of a member, at the depth `D` of the elements. -/
def member_ok (D : Nat) (m : member) : Prop :=
  (∃ remk, (m.key_text.dropWhile dson_parse_context.is_whitespace).head? = some '"' ∧
    dson_parse_context.parse_string
      ⟨m.key_text.dropWhile dson_parse_context.is_whitespace, []⟩ =
        some ((m.key, DSON_OK), ⟨remk, []⟩) ∧
    remk.dropWhile dson_parse_context.is_whitespace = []) ∧
  (∃ rem, dson_parse_context.parse D
      ⟨m.value_text.dropWhile dson_parse_context.is_whitespace, []⟩ dson_value.new =
        some (DSON_OK, m.value, ⟨rem, []⟩) ∧
    rem.dropWhile dson_parse_context.is_whitespace = [])


/-- What the proofs need of the call `parse(ptr)` made by the loops, when whitespace `r`
is added to the text: a call that returns an error on a view without leading whitespace
returns the same error, with the same value, on the view with `r` added and leading
whitespace skipped; for `DSON_MISS_QUOTATION_MARK` this is asked only when `r` is made of
spaces. -/
def whitespace_elem (r : List Char)
    (elem : dson_parse_context → Option dson_parse_context.parse_result) : Prop :=
  ∀ v e ptr c, v.dropWhile dson_parse_context.is_whitespace = v →
    elem ⟨v, []⟩ = some (e, ptr, c) → e ≠ DSON_OK →
    (e = DSON_MISS_QUOTATION_MARK → ∀ c ∈ r, c = ' ') →
    ∃ c', elem ⟨(v ++ r).dropWhile dson_parse_context.is_whitespace, []⟩ = some (e, ptr, c')
/-! ## Reference definitions for the round trip -/

/-- The item of a literal body that `stringify_string` writes for the character `c`. -/
def char_item (c : Char) : body_item :=
  if c = '"' then .escape '"'
  else if c = '\\' then .escape '\\'
  else if c = '\x08' then .escape 'b'
  else if c = '\x0c' then .escape 'f'
  else if c = '\n' then .escape 'n'
  else if c = '\r' then .escape 'r'
  else if c = '\t' then .escape 't'
  else if c.toNat < 0x20 then
    .unicode '0' '0' (dson_generate_context.HEX_DIGITS.getD (c.toNat >>> 4) '0')
      (dson_generate_context.HEX_DIGITS.getD (c.toNat &&& 15) '0')
  else .plain c

/-- The Number is read back from its own text: `parse`, on a new parser, of the text that
`stringify_raw` writes for it returns `DSON_OK` with a Number root holding the same double. -/
def number_reads_back (d : Double) : Bool :=
  match DsonParser.new.parse (put_double d) with
  | some (DSON_OK, ⟨.mk DSON_NUMBER (some (.double x))⟩, _) => x == d
  | _ => false

mutual
/-- The value is well formed and its Numbers are read back: kind and payload agree at every
level, no Object holds a key twice, and every Number in it is read back from its own
text. -/
def readable : dson_value → Bool
  | .mk DSON_NULL none => true
  | .mk DSON_FALSE none => true
  | .mk DSON_TRUE none => true
  | .mk DSON_NUMBER (some (.double d)) => number_reads_back d
  | .mk DSON_STRING (some (.string _)) => true
  | .mk DSON_ARRAY (some (.vector arr)) => readable_array arr
  | .mk DSON_OBJECT (some (.unordered_map obj)) =>
    decide (obj.map Prod.fst).Nodup && readable_object obj
  | _ => false
/-- Every element of the sequence is `readable`. -/
def readable_array : List dson_value → Bool
  | [] => true
  | v :: rest => readable v && readable_array rest
/-- Every value of the mapping is `readable`. -/
def readable_object : List (List Char × dson_value) → Bool
  | [] => true
  | (_, v) :: rest => readable v && readable_object rest
end

/-- What the members `ms` say of the entries of a mapping: each key text is the one written
for the key, and each value text the one written for the value. -/
def writes (m : member) (kv : List Char × dson_value) : Prop :=
  m.key_text = literal_text (kv.1.map char_item) ∧ m.key = kv.1 ∧ m.value = kv.2 ∧
    ∀ s, dson_generate_context.stringify s kv.2 = some (s ++ m.value_text)


/-- The text `t` is the one written for the value `v`, after whatever the stream holds, and
`parse` reads `v` back from it on a new parser. -/
def round_trips (t : List Char) (v : dson_value) : Prop :=
  (∀ s, dson_generate_context.stringify s v = some (s ++ t)) ∧
    ∃ c, DsonParser.new.parse t = some (DSON_OK, ⟨v⟩, c)


/-! ## Reference definitions for the error kinds -/

/-- The text `q` after `\u` does not start with four hexadecimal digits: it has fewer than
four characters, or one of its first four characters is no hexadecimal digit. -/
def lacks_hex4 (q : List Char) : Prop :=
  q.length < 4 ∨ ∃ c ∈ q.take 4, isxdigit c = false

instance (q : List Char) : Decidable (lacks_hex4 q) := by
  unfold lacks_hex4; infer_instance

/-! ## Reference definitions for the generator -/

mutual
/-- The value is well formed and holds no Number: it is built from Null, False, True (with
no payload), Strings, Arrays and Objects, and no Object holds a key twice. -/
def number_free : dson_value → Bool
  | .mk DSON_NULL none => true
  | .mk DSON_FALSE none => true
  | .mk DSON_TRUE none => true
  | .mk DSON_STRING (some (.string _)) => true
  | .mk DSON_ARRAY (some (.vector arr)) => number_free_array arr
  | .mk DSON_OBJECT (some (.unordered_map obj)) =>
    decide (obj.map Prod.fst).Nodup && number_free_object obj
  | _ => false
/-- Every element of the sequence is `number_free`. -/
def number_free_array : List dson_value → Bool
  | [] => true
  | v :: rest => number_free v && number_free_array rest
/-- Every value of the mapping is `number_free`. -/
def number_free_object : List (List Char × dson_value) → Bool
  | [] => true
  | (_, v) :: rest => number_free v && number_free_object rest
end

/-- The uppercase hexadecimal digit of a number below 16. -/
def upper_hex_digit (n : Nat) : Char :=
  if n < 10 then Char.ofNat ('0'.toNat + n) else Char.ofNat ('A'.toNat + (n - 10))

/-- The bytes with a two-character escape, each with the character after the backslash. -/
def short_escapes : List (Char × Char) :=
  [(Char.ofNat 0x22, Char.ofNat 0x22), (Char.ofNat 0x5C, Char.ofNat 0x5C),
    (Char.ofNat 8, 'b'), (Char.ofNat 12, 'f'), (Char.ofNat 10, 'n'), (Char.ofNat 13, 'r'),
    (Char.ofNat 9, 't')]

/-- The reference rendering of one byte of a String: a byte with a two-character escape
becomes a backslash and its character, any other byte below `0x20` becomes `\u00XX` with
two uppercase hexadecimal digits, and every other byte is copied. -/
def escaped_byte (c : Char) : List Char :=
  match short_escapes.lookup c with
  | some e => [Char.ofNat 0x5C, e]
  | none =>
    if 0x20 ≤ c.toNat then [c]
    else "\\u00".toList ++ [upper_hex_digit (c.toNat / 16), upper_hex_digit (c.toNat % 16)]

/-- The reference rendering of a String: `"`, the escaped bytes, `"`. -/
def escaped_text (str : List Char) : List Char :=
  ['"'] ++ (str.map escaped_byte).flatten ++ ['"']

/-- The reference rendering of the member `key: value` of an Object, given the rendering
`t` of the value: the escaped key, `:` and `t`. -/
def member_text (kv : List Char × dson_value) (t : List Char) : List Char :=
  escaped_text kv.1 ++ ':' :: t


/-! ## Reference definitions for the loop of `parse_string()` -/

namespace dson_parse_context

/-- The argument `u` of the call `encode_utf8(u)` in one round of the loop of
`parse_string()` on `tmp` (lines 156-176), when the round makes the call: the value of a
`\uXXXX` escape that is no high surrogate, or the code point combined from a pair. -/
def encode_utf8_argument (tmp : List Char) : Option Nat :=
  match tmp with
  | '\\' :: 'u' :: t2 =>
    let r := parse_hex4 t2
    let u := r.1.1
    if !r.1.2 then none
    else if 0xD800 ≤ u ∧ u ≤ 0xDBFF then
      match r.2 with
      | a :: b :: t4 =>
        if a ≠ '\\' ∨ b ≠ 'u' then none
        else
          let r2 := parse_hex4 t4
          let un := r2.1.1
          if !r2.1.2 then none
          else if un < 0xDC00 ∨ un > 0xDFFF then none
          else some ((((u - 0xD800) <<< 10) ||| (un - 0xDC00)) + 0x10000)
      | _ => none
    else some u
  | _ => none

end dson_parse_context


/-! ## The number grammar, part by part -/

/-- The integer part of `number_grammar_rest`: what follows `-?(0|[1-9][0-9]*)`. -/
def grammar_integer (s : List Char) : Option (List Char) :=
  let s1 := if s.head? = some '-' then s.tail else s
  match s1 with
  | [] => none
  | c :: t =>
    if c = '0' then some t
    else if '1' ≤ c ∧ c ≤ '9' then some (t.dropWhile isdigit)
    else none

/-- The fraction part of `number_grammar_rest`: what follows an optional `\.[0-9]+`. -/
def grammar_fraction (s2 : List Char) : List Char :=
  match s2 with
  | '.' :: d :: t => if isdigit d then t.dropWhile isdigit else s2
  | _ => s2

/-- The exponent part of `number_grammar_rest`: what follows an optional
`[eE][+-]?[0-9]+`. -/
def grammar_exponent (s3 : List Char) : List Char :=
  match s3 with
  | e :: t =>
    if e = 'e' ∨ e = 'E' then
      let t1 := if t.head? = some '+' ∨ t.head? = some '-' then t.tail else t
      match t1 with
      | d :: t2 => if isdigit d then t2.dropWhile isdigit else s3
      | [] => s3
    else s3
  | [] => s3

/-- The text without its leading and trailing whitespace. -/
def trim (s : List Char) : List Char :=
  ((s.dropWhile dson_parse_context.is_whitespace).reverse.dropWhile
    dson_parse_context.is_whitespace).reverse


/-! ## The text written for a Number, part by part -/

/-- The exponent field of a `double`. -/
def Double.exponent_field (v : Double) : Nat := (v / 2 ^ 52) % 2048

/-- The significand of a finite `double`, an integer: the fraction field, with the hidden
bit unless the exponent field is zero. -/
def Double.significand (v : Double) : Nat :=
  if v.exponent_field = 0 then v % 2 ^ 52 else v % 2 ^ 52 + 2 ^ 52

/-- The binary exponent that goes with `Double.significand`. -/
def Double.binary_exponent (v : Double) : Int := ((max v.exponent_field 1 : Nat) : Int) - 1075

/-- The six significant digits of the positive fraction `n / d` as `put_double` finds them:
the integer `D` and the decimal exponent `X` of the first digit. -/
def six_digits (n d : Nat) : Nat × Int :=
  let X0 : Int :=
    if d ≤ n then (dec_length 400 (n / d) : Int) - 1 else - (dec_shift 400 n d : Int)
  let s0 := scale n 10 (5 - X0)
  let D0 := round_half_even s0.1 (s0.2 * d)
  (if D0 = 10 ^ 6 then 10 ^ 5 else D0, if D0 = 10 ^ 6 then X0 + 1 else X0)

/-- The text `put_double` writes for the sign `sgn`, the six digits `D` and the decimal
exponent `X`: fixed notation for `-4 ≤ X < 6`, scientific notation otherwise, trailing
zeros removed. -/
def format_six (sgn : List Char) (D : Nat) (X : Int) : List Char :=
  let ds := dec_digits 6 D
  if -4 ≤ X ∧ X < 6 then
    if 0 ≤ X then
      let ip := ds.take (X.toNat + 1)
      let fp := strip_zeros (ds.drop (X.toNat + 1))
      sgn ++ ip ++ (if fp.isEmpty then [] else '.' :: fp)
    else
      sgn ++ ['0', '.'] ++ List.replicate ((-X).toNat - 1) '0' ++ strip_zeros ds
  else
    let fp := strip_zeros (ds.drop 1)
    let ax := X.natAbs
    sgn ++ ds.take 1 ++ (if fp.isEmpty then [] else '.' :: fp) ++
      ['e', if X < 0 then '-' else '+'] ++ dec_digits (max 2 (dec_length 400 ax)) ax

/-! ## Reference definitions for Numbers in the round trip -/

/-- The `double` is a bit pattern of 64 bits that is neither an infinity nor a NaN. -/
def Double.is_finite (v : Double) : Bool := decide (v < 2 ^ 64) && v.exponent_field != 2047

/-- The magnitude of a finite `double`, a rational number. -/
def Double.magnitude (v : Double) : ℚ := (v.significand : ℚ) * 2 ^ v.binary_exponent

/-- The integer part of the text written for the Number holds no digit `0` after its first
digit: the texts on which the digit set `"123456789"` of `parse_number` does not stop
early. -/
def inner_zero_free (x : Double) : Bool :=
  ((((put_double x).dropWhile (fun c => c == '-')).takeWhile isdigit).tail).all
    (fun c => c != '0')

/-- The Number that `strtod` reads from the text written for `x`. -/
def reread (x : Double) : Double := (strtod (put_double x)).1

/-- The Number `y` is `x` rounded to six significant decimal digits: a zero is itself;
otherwise `y` is the `double` nearest to a decimal `D * 10 ^ (X - 5)` of six digits,
`10 ^ 5 ≤ D < 10 ^ 6`, that lies within half a unit of its sixth digit from `x`. -/
def six_digit_rounding (x y : Double) : Prop :=
  if x.significand = 0 then y = x
  else ∃ (D : Nat) (X : Int) (n d : Nat), 10 ^ 5 ≤ D ∧ D < 10 ^ 6 ∧
    |x.magnitude - (D : ℚ) * 10 ^ (X - 5)| ≤ 10 ^ (X - 5) / 2 ∧
    0 < d ∧ (n : ℚ) / d = (D : ℚ) * 10 ^ (X - 5) ∧
    y = (round_to_double (decide (2 ^ 63 ≤ x)) n d).1

mutual
/-- The value is well formed and can be written and read: kind and payload agree at every
level, no Object holds a key twice, and every Number is finite and `inner_zero_free`. -/
def writable : dson_value → Bool
  | .mk DSON_NULL none => true
  | .mk DSON_FALSE none => true
  | .mk DSON_TRUE none => true
  | .mk DSON_NUMBER (some (.double d)) => d.is_finite && inner_zero_free d
  | .mk DSON_STRING (some (.string _)) => true
  | .mk DSON_ARRAY (some (.vector arr)) => writable_array arr
  | .mk DSON_OBJECT (some (.unordered_map obj)) =>
    decide (obj.map Prod.fst).Nodup && writable_object obj
  | _ => false
/-- Every element of the sequence is `writable`. -/
def writable_array : List dson_value → Bool
  | [] => true
  | v :: rest => writable v && writable_array rest
/-- Every value of the mapping is `writable`. -/
def writable_object : List (List Char × dson_value) → Bool
  | [] => true
  | (_, v) :: rest => writable v && writable_object rest
end

mutual
/-- The value with every Number replaced by the one read from the text written for it. -/
def reread_numbers : dson_value → dson_value
  | .mk DSON_NUMBER (some (.double d)) => .mk DSON_NUMBER (some (.double (reread d)))
  | .mk DSON_ARRAY (some (.vector arr)) =>
    .mk DSON_ARRAY (some (.vector (reread_numbers_array arr)))
  | .mk DSON_OBJECT (some (.unordered_map obj)) =>
    .mk DSON_OBJECT (some (.unordered_map (reread_numbers_object obj)))
  | v => v
/-- The elements with their Numbers replaced. -/
def reread_numbers_array : List dson_value → List dson_value
  | [] => []
  | v :: rest => reread_numbers v :: reread_numbers_array rest
/-- The members with the Numbers of their values replaced. -/
def reread_numbers_object : List (List Char × dson_value) → List (List Char × dson_value)
  | [] => []
  | (k, v) :: rest => (k, reread_numbers v) :: reread_numbers_object rest
end


/-! ## Decimal constants, part by part -/

/-- A decimal floating constant put together from its parts: the sign, the digits of the
integer part, the digits of the fraction (no point when there is none) and the exponent
part. -/
def decimal_text (sgn ip fp ex : List Char) : List Char :=
  sgn ++ ip ++ (if fp.isEmpty then [] else '.' :: fp) ++ ex

/-- The exponent part `ex` of a decimal constant denotes the exponent `E`: it is empty and
`E` is `0`, or it is `e`, a sign and at least one digit. -/
def exponent_part (ex : List Char) (E : Int) : Prop :=
  (ex = [] ∧ E = 0) ∨ ∃ es : List Char, es ≠ [] ∧ (∀ c ∈ es, isdigit c = true) ∧
    ((ex = 'e' :: '+' :: es ∧ E = (digits_value 10 es : Int)) ∨
      (ex = 'e' :: '-' :: es ∧ E = -(digits_value 10 es : Int)))

/-! ## The rounding of `strtod`, part by part -/

/-- The binary order of the positive fraction `n / d` as `round_to_double` finds it: the
`k` with `2 ^ k ≤ n / d < 2 ^ (k + 1)`. -/
def binary_order (n d : Nat) : Int :=
  let l : Int := (bit_length n n : Int) - (bit_length d d : Int)
  let ge : Bool := if 0 ≤ l then d * 2 ^ l.toNat ≤ n else d ≤ n * 2 ^ (-l).toNat
  if ge then l else l - 1

/-- The exponent and fraction fields that `round_to_double` finds for the positive
fraction `n / d`, before the test for overflow. -/
def rounded_fields (n d : Nat) : Nat :=
  let e : Int := max (binary_order n d - 52) (-1074)
  let num := if 0 ≤ e then n else n * 2 ^ (-e).toNat
  let den := if 0 ≤ e then d * 2 ^ e.toNat else d
  let q := num / den
  let r := num % den
  let q1 := if den < 2 * r ∨ (2 * r = den ∧ q % 2 = 1) then q + 1 else q
  (e + 1074).toNat * 2 ^ 52 + q1

/-- The text `t` is the one written for the value `v`, after whatever the stream holds, and
`parse` reads from it, on a new parser, `v` with its Numbers replaced as in
`reread_numbers`. -/
def round_trips_reread (t : List Char) (v : dson_value) : Prop :=
  (∀ s, dson_generate_context.stringify s v = some (s ++ t)) ∧
    ∃ c, DsonParser.new.parse t = some (DSON_OK, ⟨reread_numbers v⟩, c)

/-- The member `m` of an object text is written for the entry `kv` of a mapping and read
as that entry with its Numbers replaced. -/
def member_reread (m : member) (kv : List Char × dson_value) : Prop :=
  m.key_text = literal_text (kv.1.map char_item) ∧ m.key = kv.1 ∧
    m.value = reread_numbers kv.2 ∧ round_trips_reread m.value_text kv.2
/-! ## Evaluations at concrete inputs -/

/-- C2, at its failing input: a parser that has parsed `true` and then fails on `nu` with
`DSON_INVALID_VALUE` still has a root of kind True, not Null. -/
theorem parse_error_keeps_stale_root :
    ((DsonParser.new.parse "true".toList).bind fun r =>
      (r.2.1.parse "nu".toList).map fun r2 => (r.1, r2.1, r2.2.1.root.type)) =
      some (DSON_OK, DSON_INVALID_VALUE, DSON_TRUE) := by
  decide

/-- C3, at its failing input: the text `10` matches the number grammar, yet `parse` on a
new parser returns `DSON_ROOT_NOT_SINGULAR`, the root is of kind Null and the view left by
`parse_number` is `0`. -/
theorem parse_number_stops_at_zero_digit :
    matches_number_grammar "10".toList = true ∧
    (DsonParser.new.parse "10".toList).map (fun r => (r.1, r.2.1.root.type, r.2.2.view_)) =
      some (DSON_ROOT_NOT_SINGULAR, DSON_NULL, ['0']) := by
  decide

/-- C6, at its failing input: on the text `"a\u12"` the call returns
`DSON_INVALID_UNICODE_HEX` while `vec_` still holds the byte `a`, so `ctx.is_empty()` is
false at the final assertion. -/
theorem parse_invalid_hex_leaves_scratch :
    (DsonParser.new.parse ['"', 'a', '\\', 'u', '1', '2', '"']).map
      (fun r => (r.1, r.2.2.vec_, r.2.2.is_empty)) =
      some (DSON_INVALID_UNICODE_HEX, ['a'], false) := by
  decide

/-- C7, at its failing input: the text `"\uDC00"`, a lone low surrogate, is parsed with
`DSON_OK` to a String holding the three bytes `ED B0 80`. -/
theorem parse_accepts_lone_low_surrogate :
    (DsonParser.new.parse ['"', '\\', 'u', 'D', 'C', '0', '0', '"']).map
      (fun r => (r.1, r.2.1.root.type)) = some (DSON_OK, DSON_STRING) ∧
    ∃ c, DsonParser.new.parse ['"', '\\', 'u', 'D', 'C', '0', '0', '"'] =
      some (DSON_OK, ⟨.mk DSON_STRING (some (.string ['\xed', '\xb0', '\x80']))⟩, c) :=
  ⟨by decide, _, rfl⟩

/-- The digit set of `parse_number` seen through the generator: the Number 10 is written as
`10`, on which `parse` returns `DSON_ROOT_NOT_SINGULAR` and leaves a root of kind Null. -/
theorem round_trip_fails_on_ten :
    dson_generator.stringify_raw (.mk DSON_NUMBER (some (.double 0x4024000000000000))) =
      some "10".toList ∧
    ((dson_generator.stringify_raw (.mk DSON_NUMBER (some (.double 0x4024000000000000)))).bind
      fun t => (DsonParser.new.parse t).map fun r => (r.1, r.2.1.root.type)) =
      some (DSON_ROOT_NOT_SINGULAR, DSON_NULL) := by
  decide

/-- C4 fails: the text `"` alone gives `DSON_MISS_QUOTATION_MARK`, followed by a line feed
it gives `DSON_INVALID_STRING_CHAR`. -/
theorem padding_changes_unterminated_string :
    (DsonParser.new.parse ['"']).map (fun r => r.1) = some DSON_MISS_QUOTATION_MARK ∧
    (DsonParser.new.parse ([] ++ ['"'] ++ ['\n'])).map (fun r => r.1) =
      some DSON_INVALID_STRING_CHAR := by
  decide

/-- C5 fails: on the text `0 0` a new parser returns `DSON_ROOT_NOT_SINGULAR` and its root
is of kind Null but carries a double; and a parser that has parsed `"a"` returns `DSON_OK`
on `null` with a root of kind Null that still carries the string. -/
theorem parse_leaves_stale_payload :
    (DsonParser.new.parse "0 0".toList).map
      (fun r => (r.1, r.2.1.root.type, payload_agrees r.2.1.root)) =
      some (DSON_ROOT_NOT_SINGULAR, DSON_NULL, false) ∧
    (∃ c, DsonParser.new.parse "0 0".toList =
      some (DSON_ROOT_NOT_SINGULAR, ⟨.mk DSON_NULL (some (.double 0))⟩, c)) ∧
    (((DsonParser.new.parse "\"a\"".toList).bind fun r => r.2.1.parse "null".toList).map
      (fun r => (r.1, r.2.1.root.type, payload_agrees r.2.1.root)) =
      some (DSON_OK, DSON_NULL, false)) ∧
    ∃ c, ((DsonParser.new.parse "\"a\"".toList).bind fun r => r.2.1.parse "null".toList) =
      some (DSON_OK, ⟨.mk DSON_NULL (some (.string ['a']))⟩, c) :=
  ⟨by decide, ⟨_, rfl⟩, by decide, _, rfl⟩
/-! ## String decoding -/

theorem xdigit_value_lt (c : Char) (h : isxdigit c = true) : xdigit_value c < 16 := by
  have h0 : ('0' ≤ c) ↔ 48 ≤ c.toNat := Iff.rfl
  have h9 : (c ≤ '9') ↔ c.toNat ≤ 57 := Iff.rfl
  have ha : ('a' ≤ c) ↔ 97 ≤ c.toNat := Iff.rfl
  have hf : (c ≤ 'f') ↔ c.toNat ≤ 102 := Iff.rfl
  have hA : ('A' ≤ c) ↔ 65 ≤ c.toNat := Iff.rfl
  have hF : (c ≤ 'F') ↔ c.toNat ≤ 70 := Iff.rfl
  simp only [isxdigit, isdigit, Bool.or_eq_true, decide_eq_true_eq, h0, h9, ha, hf, hA, hF] at h
  unfold xdigit_value
  simp only [isdigit, decide_eq_true_eq, h0, h9, ha, hf]
  have e0 : '0'.toNat = 48 := rfl
  have ea : 'a'.toNat = 97 := rfl
  have eA : 'A'.toNat = 65 := rfl
  split_ifs <;> omega

theorem hex4_step_eq (u : Nat) (c : Char) (h : isxdigit c = true) :
    dson_parse_context.hex4_step u c = some (u * 16 + xdigit_value c) := by
  have hlt := xdigit_value_lt c h
  have h0 : ('0' ≤ c) ↔ 48 ≤ c.toNat := Iff.rfl
  have h9 : (c ≤ '9') ↔ c.toNat ≤ 57 := Iff.rfl
  have ha : ('a' ≤ c) ↔ 97 ≤ c.toNat := Iff.rfl
  have hf : (c ≤ 'f') ↔ c.toNat ≤ 102 := Iff.rfl
  have hA : ('A' ≤ c) ↔ 65 ≤ c.toNat := Iff.rfl
  have hF : (c ≤ 'F') ↔ c.toNat ≤ 70 := Iff.rfl
  have key : ∀ v, v < 16 → (u <<< 4) ||| v = u * 16 + v := by
    intro v hv
    rw [Nat.shiftLeft_eq, Nat.mul_comm u, ← Nat.mul_add_lt_is_or (by simpa using hv)]
  simp only [isxdigit, isdigit, Bool.or_eq_true, decide_eq_true_eq, h0, h9, ha, hf, hA, hF] at h
  unfold xdigit_value at hlt ⊢
  unfold dson_parse_context.hex4_step
  simp only [isdigit, decide_eq_true_eq, h0, h9, ha, hf, hA, hF] at hlt ⊢
  split_ifs at hlt ⊢ <;> first | omega | (rw [key _ hlt])

theorem parse_hex4_eq (d0 d1 d2 d3 : Char) (rest : List Char)
    (h0 : isxdigit d0 = true) (h1 : isxdigit d1 = true) (h2 : isxdigit d2 = true)
    (h3 : isxdigit d3 = true) :
    dson_parse_context.parse_hex4 (d0 :: d1 :: d2 :: d3 :: rest) =
      ((hex4_value d0 d1 d2 d3, true), rest) := by
  simp [dson_parse_context.parse_hex4, hex4_step_eq, h0, h1, h2, h3, hex4_value]

theorem hex4_value_lt (d0 d1 d2 d3 : Char)
    (h0 : isxdigit d0 = true) (h1 : isxdigit d1 = true) (h2 : isxdigit d2 = true)
    (h3 : isxdigit d3 = true) : hex4_value d0 d1 d2 d3 < 0x10000 := by
  have := xdigit_value_lt d0 h0
  have := xdigit_value_lt d1 h1
  have := xdigit_value_lt d2 h2
  have := xdigit_value_lt d3 h3
  unfold hex4_value
  omega

theorem encode_utf8_eq (vec : List Char) (u : Nat) (hu : u ≤ 0x10FFFF) :
    dson_parse_context.encode_utf8 vec u = vec ++ utf8 u := by
  have hC0 : ∀ y, y < 64 → 0xC0 ||| y = 0xC0 + y := by decide
  have h80 : ∀ y, y < 64 → 0x80 ||| y = 0x80 + y := by decide
  have hE0 : ∀ y, y < 16 → 0xE0 ||| y = 0xE0 + y := by decide
  have hF0 : ∀ y, y < 8 → 0xF0 ||| y = 0xF0 + y := by decide
  have m3F : ∀ x : Nat, x &&& 0x3F = x % 64 := fun x => Nat.and_pow_two_sub_one_eq_mod x 6
  have mFF : ∀ x : Nat, x &&& 0xFF = x % 256 := fun x => Nat.and_pow_two_sub_one_eq_mod x 8
  have s6 : u >>> 6 = u / 64 := Nat.shiftRight_eq_div_pow u 6
  have s12 : u >>> 12 = u / 4096 := Nat.shiftRight_eq_div_pow u 12
  have s18 : u >>> 18 = u / 262144 := Nat.shiftRight_eq_div_pow u 18
  have b80 : ∀ x : Nat, (0x80 ||| x % 64) % 256 = 0x80 + x % 64 := by
    intro x
    rw [h80 _ (Nat.mod_lt _ (by norm_num))]
    omega
  unfold dson_parse_context.encode_utf8 utf8 dson_parse_context.to_char
  simp only [m3F, mFF, s6, s12, s18, b80]
  split_ifs <;> first | (exfalso; omega) | skip
  · rw [show u % 256 % 256 = u by omega]
  · rw [show u / 64 % 256 = u / 64 by omega, hC0 _ (by omega),
      show (0xC0 + u / 64) % 256 = 0xC0 + u / 64 by omega]
  · rw [show u / 4096 % 256 = u / 4096 by omega,
      hE0 _ (by omega), show (0xE0 + u / 4096) % 256 = 0xE0 + u / 4096 by omega]
  · rw [show u / 262144 % 256 = u / 262144 by omega,
      hF0 _ (by omega), show (0xF0 + u / 262144) % 256 = 0xF0 + u / 262144 by omega]

namespace dson_parse_context

theorem parse_string_loop_quote (fuel sz : Nat) (t : List Char) (self : dson_parse_context) :
    parse_string_loop (fuel + 1) sz ('"' :: t) self =
      some ((self.vec_.drop (erase_from sz), DSON_OK),
        ⟨t, self.vec_.take (erase_from sz)⟩) := by
  simp [parse_string_loop, string_step]

theorem parse_string_loop_plain (fuel sz : Nat) (c : Char) (t : List Char)
    (self : dson_parse_context) (h1 : c ≠ '"') (h2 : c ≠ '\\') (h3 : 0x20 ≤ c.toNat) :
    parse_string_loop (fuel + 1) sz (c :: t) self =
      parse_string_loop fuel sz t ⟨self.view_, self.vec_ ++ [c]⟩ := by
  simp [parse_string_loop, string_step, h1, h2, Nat.not_lt.mpr h3]

theorem parse_string_loop_escape (fuel sz : Nat) (e c : Char) (t : List Char)
    (self : dson_parse_context) (h : simple_escape e = some c) :
    parse_string_loop (fuel + 1) sz ('\\' :: e :: t) self =
      parse_string_loop fuel sz t ⟨self.view_, self.vec_ ++ [c]⟩ := by
  simp [parse_string_loop, string_step, h]

theorem parse_string_loop_unicode (fuel sz : Nat) (d0 d1 d2 d3 : Char) (t : List Char)
    (self : dson_parse_context)
    (h0 : isxdigit d0 = true) (h1 : isxdigit d1 = true) (h2 : isxdigit d2 = true)
    (h3 : isxdigit d3 = true)
    (hs : ¬ (0xD800 ≤ hex4_value d0 d1 d2 d3 ∧ hex4_value d0 d1 d2 d3 ≤ 0xDBFF)) :
    parse_string_loop (fuel + 1) sz ('\\' :: 'u' :: d0 :: d1 :: d2 :: d3 :: t) self =
      parse_string_loop fuel sz t
        ⟨self.view_, encode_utf8 self.vec_ (hex4_value d0 d1 d2 d3)⟩ := by
  have hu : simple_escape 'u' = none := by decide
  simp only [parse_string_loop, string_step, hu, parse_hex4_eq _ _ _ _ _ h0 h1 h2 h3]
  simp [hs]

theorem parse_string_loop_pair (fuel sz : Nat) (h0 h1 h2 h3 l0 l1 l2 l3 : Char)
    (t : List Char) (self : dson_parse_context)
    (x0 : isxdigit h0 = true) (x1 : isxdigit h1 = true) (x2 : isxdigit h2 = true)
    (x3 : isxdigit h3 = true) (y0 : isxdigit l0 = true) (y1 : isxdigit l1 = true)
    (y2 : isxdigit l2 = true) (y3 : isxdigit l3 = true)
    (hh : 0xD800 ≤ hex4_value h0 h1 h2 h3 ∧ hex4_value h0 h1 h2 h3 ≤ 0xDBFF)
    (hl : 0xDC00 ≤ hex4_value l0 l1 l2 l3 ∧ hex4_value l0 l1 l2 l3 ≤ 0xDFFF) :
    parse_string_loop (fuel + 1) sz
        ('\\' :: 'u' :: h0 :: h1 :: h2 :: h3 :: '\\' :: 'u' :: l0 :: l1 :: l2 :: l3 :: t) self =
      parse_string_loop fuel sz t
        ⟨self.view_, encode_utf8 self.vec_
          ((((hex4_value h0 h1 h2 h3 - 0xD800) <<< 10) ||| (hex4_value l0 l1 l2 l3 - 0xDC00))
            + 0x10000)⟩ := by
  have hu : simple_escape 'u' = none := by decide
  simp only [parse_string_loop, string_step, hu, parse_hex4_eq _ _ _ _ _ x0 x1 x2 x3,
    parse_hex4_eq _ _ _ _ _ y0 y1 y2 y3]
  have : ¬ (hex4_value l0 l1 l2 l3 < 0xDC00 ∨ hex4_value l0 l1 l2 l3 > 0xDFFF) := by omega
  simp [hh, this]

end dson_parse_context

theorem simple_escape_eq (e : Char) (h : e ∈ ['"', '\\', '/', 'b', 'f', 'n', 'r', 't']) :
    dson_parse_context.simple_escape e = some (escape_byte e) := by
  simp only [List.mem_cons, List.mem_singleton, List.not_mem_nil, or_false] at h
  rcases h with h | h | h | h | h | h | h | h <;> subst h <;> decide

theorem surrogate_pair_le (h l : Nat) (hh : 0xD800 ≤ h ∧ h ≤ 0xDBFF)
    (hl : 0xDC00 ≤ l ∧ l ≤ 0xDFFF) :
    (((h - 0xD800) <<< 10) ||| (l - 0xDC00)) + 0x10000 ≤ 0x10FFFF := by
  have : ((h - 0xD800) <<< 10) ||| (l - 0xDC00) < 2 ^ 20 := by
    apply Nat.or_lt_two_pow
    · rw [Nat.shiftLeft_eq]; omega
    · omega
  omega

/-- The loop of `parse_string()` on a well-formed body followed by the closing `"`: the
decoded bytes are appended to `vec_`, and the closing `"` ends the string. -/
theorem parse_string_loop_body (body : List body_item) (hb : ∀ i ∈ body, i.valid) :
    ∀ (fuel : Nat) (view rest vec : List Char), body.length < fuel →
      dson_parse_context.parse_string_loop fuel 0
          ((body.map body_item.text).flatten ++ '"' :: rest) ⟨view, vec⟩ =
        some ((vec ++ reference_decode body, DSON_OK), ⟨rest, []⟩) := by
  induction body with
  | nil =>
    intro fuel view rest vec hf
    obtain ⟨f, rfl⟩ : ∃ f, fuel = f + 1 := ⟨fuel - 1, by omega⟩
    simp [dson_parse_context.parse_string_loop_quote, dson_parse_context.erase_from,
      reference_decode]
  | cons i body ih =>
    intro fuel view rest vec hf
    obtain ⟨f, rfl⟩ : ∃ f, fuel = f + 1 := ⟨fuel - 1, by omega⟩
    have hi := hb i (List.mem_cons_self _ _)
    have ih' := ih (fun j hj => hb j (List.mem_cons_of_mem _ hj)) f view rest
    have hf' : body.length < f := by simpa using hf
    cases i with
    | plain c =>
      obtain ⟨h3, h1, h2⟩ := hi
      simp only [List.map_cons, List.flatten_cons, body_item.text, List.cons_append,
        List.nil_append]
      rw [dson_parse_context.parse_string_loop_plain _ _ _ _ _ h1 h2 h3, ih' _ hf']
      simp [reference_decode, body_item.decode]
    | escape e =>
      simp only [List.map_cons, List.flatten_cons, body_item.text, List.cons_append,
        List.nil_append]
      rw [dson_parse_context.parse_string_loop_escape _ _ _ _ _ _ (simple_escape_eq e hi),
        ih' _ hf']
      simp [reference_decode, body_item.decode]
    | unicode d0 d1 d2 d3 =>
      obtain ⟨h0, h1, h2, h3, hs⟩ := hi
      have hlt := hex4_value_lt d0 d1 d2 d3 h0 h1 h2 h3
      simp only [List.map_cons, List.flatten_cons, body_item.text, List.cons_append,
        List.nil_append]
      rw [dson_parse_context.parse_string_loop_unicode _ _ _ _ _ _ _ _ h0 h1 h2 h3 (by omega),
        ih' _ hf', encode_utf8_eq _ _ (by omega)]
      simp [reference_decode, body_item.decode]
    | pair h0 h1 h2 h3 l0 l1 l2 l3 =>
      obtain ⟨x0, x1, x2, x3, y0, y1, y2, y3, hh1, hh2, hl1, hl2⟩ := hi
      simp only [List.map_cons, List.flatten_cons, body_item.text, List.cons_append,
        List.nil_append]
      rw [dson_parse_context.parse_string_loop_pair _ _ _ _ _ _ _ _ _ _ _ _
          x0 x1 x2 x3 y0 y1 y2 y3 ⟨hh1, hh2⟩ ⟨hl1, hl2⟩,
        ih' _ hf', encode_utf8_eq _ _ (surrogate_pair_le _ _ ⟨hh1, hh2⟩ ⟨hl1, hl2⟩)]
      simp [reference_decode, body_item.decode]

theorem text_length_ge (body : List body_item) :
    body.length ≤ ((body.map body_item.text).flatten).length := by
  induction body with
  | nil => simp
  | cons i body ih =>
    cases i <;>
      simp only [List.map_cons, List.flatten_cons, List.length_append, List.length_cons,
        List.length_nil, body_item.text] <;> omega

/-- The text of a well-formed string literal parses to the String of its decoded bytes. -/
theorem parse_literal_text (body : List body_item)
    (hb : ∀ i ∈ body, i.valid) :
    DsonParser.new.parse (literal_text body) =
      some (DSON_OK, ⟨.mk DSON_STRING (some (.string (reference_decode body)))⟩, ⟨[], []⟩) := by
  have hl := text_length_ge body
  have h := parse_string_loop_body body hb
    (((body.map body_item.text).flatten ++ ['"']).length + 1)
    ((body.map body_item.text).flatten ++ ['"']) [] []
    (by rw [List.length_append]; omega)
  have hskip : ∀ t vec, dson_parse_context.skip_whitespace ⟨'"' :: t, vec⟩ = ⟨'"' :: t, vec⟩ := by
    intro t vec
    simp [dson_parse_context.skip_whitespace, dson_parse_context.is_whitespace]
  have hparse : ∀ d t vec value,
      dson_parse_context.parse (d + 1) ⟨'"' :: t, vec⟩ value =
        dson_parse_context.parse_string_value ⟨'"' :: t, vec⟩ value := by
    intro d t vec value
    simp [dson_parse_context.parse]
  unfold DsonParser.parse literal_text
  simp only [List.cons_append, List.nil_append, hskip, hparse,
    dson_parse_context.parse_string_value, dson_parse_context.parse_string, List.tail_cons,
    List.length_nil, h]
  simp [DsonParser.new, dson_value.new, dson_value.set_option_value,
    dson_value.set_type, dson_parse_context.is_completed, dson_parse_context.skip_whitespace]

/-- C8: for every string literal whose body is made of plain bytes, simple escapes,
escapes `\uXXXX` of a code point that is no surrogate and surrogate pairs, `parse` on a new
parser returns `DSON_OK` with a String root whose bytes are those of the reference decoder:
the plain byte, the byte of the simple escape, the standard UTF-8 encoding of `XXXX`, and
the 4-byte UTF-8 encoding of `((H-0xD800)<<10 | (L-0xDC00)) + 0x10000`. -/
theorem parse_string_literal_eq_reference (body : List body_item)
    (hb : ∀ i ∈ body, i.valid) :
    DsonParser.new.parse (literal_text body) =
      some (DSON_OK, ⟨.mk DSON_STRING (some (.string (reference_decode body)))⟩, ⟨[], []⟩) :=
  parse_literal_text body hb

/-- C8 at a concrete literal: the body `a\n€𝄞`. -/
theorem parse_string_literal_eq_reference_witness :
    (∀ i ∈ [body_item.plain 'a', .escape 'n', .unicode '2' '0' 'A' 'C',
        .pair 'D' '8' '3' '4' 'D' 'D' '1' 'E'], i.valid) ∧
    DsonParser.new.parse (literal_text [body_item.plain 'a', .escape 'n',
        .unicode '2' '0' 'A' 'C', .pair 'D' '8' '3' '4' 'D' 'D' '1' 'E']) =
      some (DSON_OK, ⟨.mk DSON_STRING (some (.string (reference_decode
        [body_item.plain 'a', .escape 'n', .unicode '2' '0' 'A' 'C',
          .pair 'D' '8' '3' '4' 'D' 'D' '1' 'E'])))⟩, ⟨[], []⟩) :=
  ⟨by decide, parse_string_literal_eq_reference _ (by decide)⟩

/-! ## The cases of a round of the string loop -/

namespace dson_parse_context

theorem string_step_cases (sz : Nat) (tmp : List Char) (self : dson_parse_context) :
    string_case sz self tmp (string_step sz tmp self) := by
  unfold string_step
  cases tmp with
  | nil => exact .eof
  | cons ch t1 =>
    simp only
    by_cases h1 : ch = '"'
    · subst h1; simp only [if_true]; exact .quote t1
    · rw [if_neg h1]
      by_cases h2 : ch = '\\'
      · subst h2
        simp only [if_true]
        cases t1 with
        | nil => exact .backslash_eof
        | cons e t2 =>
          simp only
          cases he : simple_escape e with
          | some c => exact .simple e c t2 he
          | none =>
            simp only
            by_cases hu : e = 'u'
            · subst hu
              simp only [if_true]
              cases hp : parse_hex4 t2 with
              | mk ub t3 =>
                obtain ⟨u, b⟩ := ub
                cases b with
                | false => exact .bad_hex t2 (by rw [hp])
                | true =>
                  simp only [Bool.not_true, Bool.false_eq_true, if_false]
                  by_cases hs : 0xD800 ≤ u ∧ u ≤ 0xDBFF
                  · rw [if_pos hs]
                    match t3, hp with
                    | [], hp => exact .lone_high t2 [] u hp hs (by simp)
                    | [a], hp => exact .lone_high t2 [a] u hp hs (by simp)
                    | a :: b :: t4, hp =>
                      simp only
                      by_cases hab : a ≠ '\\' ∨ b ≠ 'u'
                      · rw [if_pos hab]
                        refine .lone_high t2 _ u hp hs ?_
                        intro t4' heq
                        simp only [List.cons.injEq] at heq
                        rcases hab with hab | hab
                        · exact hab heq.1
                        · exact hab heq.2.1
                      · rw [if_neg hab]
                        have ha : a = '\\' := by
                          by_contra hne; exact hab (Or.inl hne)
                        have hb : b = 'u' := by
                          by_contra hne; exact hab (Or.inr hne)
                        subst ha hb
                        cases hp2 : parse_hex4 t4 with
                        | mk ub2 t5 =>
                          obtain ⟨un, b2⟩ := ub2
                          cases b2 with
                          | false => exact .bad_low_hex t2 t4 u hp hs (by rw [hp2])
                          | true =>
                            simp only [Bool.not_true, Bool.false_eq_true, if_false]
                            by_cases hl : un < 0xDC00 ∨ un > 0xDFFF
                            · rw [if_pos hl]; exact .bad_low t2 t4 t5 u un hp hs hp2 hl
                            · rw [if_neg hl]; exact .pair t2 t4 t5 u un hp hs hp2 hl
                  · rw [if_neg hs]; exact .unicode t2 t3 u hp hs
            · rw [if_neg hu]; exact .bad_escape e t2 he hu
      · rw [if_neg h2]
        by_cases h3 : ch.toNat < 0x20
        · rw [if_pos h3]; exact .control ch t1 h1 h2 h3
        · rw [if_neg h3]; exact .plain ch t1 h1 h2 h3

theorem string_step_of_case (sz : Nat) (tmp : List Char) (self : dson_parse_context) r
    (h : string_case sz self tmp r) : string_step sz tmp self = r := by
  have hu : simple_escape 'u' = none := by decide
  cases h with
  | eof => rfl
  | quote t1 => simp [string_step]
  | backslash_eof => simp [string_step]
  | simple e c t2 h => simp [string_step, h]
  | bad_escape e t2 h hu => simp [string_step, h, hu]
  | bad_hex t2 h => simp [string_step, hu, h]
  | unicode t2 t3 u h hs => simp only [string_step, hu, h]; simp [hs]
  | lone_high t2 t3 u h hs h3 =>
    simp only [string_step, hu, h]
    simp only [Char.reduceEq, if_false, if_true, Bool.not_true, Bool.false_eq_true, hs,
      and_self]
    match t3, h3 with
    | [], _ => rfl
    | [_], _ => rfl
    | a :: b :: t4, h3 =>
      simp only
      have : a ≠ '\\' ∨ b ≠ 'u' := by
        by_contra hc
        simp only [not_or, not_not] at hc
        exact h3 t4 (by rw [hc.1, hc.2])
      rw [if_pos this]
  | bad_low_hex t2 t4 u h hs h4 =>
    simp only [string_step, hu, h]
    simp [hs, h4]
  | bad_low t2 t4 t5 u un h hs h4 hl =>
    simp only [string_step, hu, h, h4]
    simp [hs, hl]
  | pair t2 t4 t5 u un h hs h4 hl =>
    simp only [string_step, hu, h, h4]
    simp [hs, hl]
  | control ch t1 h1 h2 h3 => simp [string_step, h1, h2, h3]
  | plain ch t1 h1 h2 h3 => simp [string_step, h1, h2, h3]

/-- The context a round of the string loop leaves when it is run with another `view_`. -/
theorem string_step_view (sz : Nat) (tmp w w' vec : List Char) :
    string_step sz tmp ⟨w', vec⟩ =
      match string_step sz tmp ⟨w, vec⟩ with
      | .inl r => .inl (r.1, if r.1.2 = DSON_OK then r.2 else ⟨w', r.2.vec_⟩)
      | .inr (t, s) => .inr (t, ⟨w', s.vec_⟩) := by
  have hc := string_step_cases sz tmp ⟨w, vec⟩
  generalize string_step sz tmp ⟨w, vec⟩ = r at hc
  apply string_step_of_case
  cases hc with
  | eof => exact .eof
  | quote t1 => exact .quote t1
  | backslash_eof => exact .backslash_eof
  | simple e c t2 h => exact .simple e c t2 h
  | bad_escape e t2 h hu => exact .bad_escape e t2 h hu
  | bad_hex t2 h => exact .bad_hex t2 h
  | unicode t2 t3 u h hs => exact .unicode t2 t3 u h hs
  | lone_high t2 t3 u h hs h3 => exact .lone_high t2 t3 u h hs h3
  | bad_low_hex t2 t4 u h hs h4 => exact .bad_low_hex t2 t4 u h hs h4
  | bad_low t2 t4 t5 u un h hs h4 hl => exact .bad_low t2 t4 t5 u un h hs h4 hl
  | pair t2 t4 t5 u un h hs h4 hl =>
    dsimp only
    exact .pair t2 t4 t5 u un h hs h4 hl
  | control ch t1 h1 h2 h3 => exact .control ch t1 h1 h2 h3
  | plain ch t1 h1 h2 h3 => exact .plain ch t1 h1 h2 h3

end dson_parse_context

/-! ## More fuel, and more text after a value -/

namespace dson_parse_context

theorem parse_string_loop_succ (f sz : Nat) (tmp : List Char) (self : dson_parse_context) :
    parse_string_loop (f + 1) sz tmp self =
      match string_step sz tmp self with
      | .inl r => some r
      | .inr (t, s) => parse_string_loop f sz t s := rfl

theorem parse_string_loop_mono (sz : Nat) :
    ∀ (f f' : Nat) (tmp : List Char) (self : dson_parse_context) r, f ≤ f' →
      parse_string_loop f sz tmp self = some r → parse_string_loop f' sz tmp self = some r := by
  intro f
  induction f with
  | zero => intro f' tmp self r _ h; simp [parse_string_loop] at h
  | succ f ih =>
    intro f' tmp self r hle h
    obtain ⟨g, rfl⟩ : ∃ g, f' = g + 1 := ⟨f' - 1, by omega⟩
    rw [parse_string_loop_succ] at h ⊢
    cases hs : string_step sz tmp self with
    | inl r' => rw [hs] at h; exact h
    | inr p => rw [hs] at h; exact ih _ _ _ _ (by omega) h

theorem parse_hex4_append (v x r : List Char) (u : Nat)
    (h : parse_hex4 v = ((u, true), r)) : parse_hex4 (v ++ x) = ((u, true), r ++ x) := by
  match v, h with
  | c0 :: c1 :: c2 :: c3 :: rest, h =>
    simp only [parse_hex4, List.cons_append] at h ⊢
    generalize (((hex4_step 0 c0).bind fun x => hex4_step x c1).bind
      fun x => hex4_step x c2).bind (fun x => hex4_step x c3) = o at h ⊢
    cases o with
    | none => simp at h
    | some u' =>
      simp only [Prod.mk.injEq, and_true] at h ⊢
      simp [h.1, h.2]
  | [], h => simp [parse_hex4] at h
  | [_], h => simp [parse_hex4] at h
  | [_, _], h => simp [parse_hex4] at h
  | [_, _, _], h => simp [parse_hex4] at h

theorem string_step_ok_iff (sz : Nat) (tmp : List Char) (self : dson_parse_context)
    (s : List Char) (c : dson_parse_context)
    (h : string_step sz tmp self = .inl ((s, DSON_OK), c)) :
    ∃ t1, tmp = '"' :: t1 ∧ s = self.vec_.drop (erase_from sz) ∧
      c = ⟨t1, self.vec_.take (erase_from sz)⟩ := by
  have hc := string_step_cases sz tmp self
  rw [h] at hc
  cases hc
  exact ⟨_, rfl, rfl, rfl⟩

theorem string_step_append_ok (sz : Nat) (tmp x : List Char) (self : dson_parse_context)
    (s : List Char) (c : dson_parse_context)
    (h : string_step sz tmp self = .inl ((s, DSON_OK), c)) :
    string_step sz (tmp ++ x) self = .inl ((s, DSON_OK), ⟨c.view_ ++ x, c.vec_⟩) := by
  obtain ⟨t1, rfl, rfl, rfl⟩ := string_step_ok_iff _ _ _ _ _ h
  simp [string_step]

theorem string_step_simple (sz : Nat) (e c : Char) (t2 : List Char)
    (self : dson_parse_context) (h : simple_escape e = some c) :
    string_step sz ('\\' :: e :: t2) self = .inr (t2, ⟨self.view_, self.vec_ ++ [c]⟩) := by
  simp [string_step, h]

theorem string_step_plain (sz : Nat) (ch : Char) (t1 : List Char)
    (self : dson_parse_context) (h1 : ch ≠ '"') (h2 : ch ≠ '\\') (h3 : ¬ ch.toNat < 0x20) :
    string_step sz (ch :: t1) self = .inr (t1, ⟨self.view_, self.vec_ ++ [ch]⟩) := by
  simp [string_step, h1, h2, h3]

theorem string_step_unicode (sz : Nat) (t2 t3 : List Char) (u : Nat)
    (self : dson_parse_context) (h : parse_hex4 t2 = ((u, true), t3))
    (hs : ¬ (0xD800 ≤ u ∧ u ≤ 0xDBFF)) :
    string_step sz ('\\' :: 'u' :: t2) self =
      .inr (t3, ⟨self.view_, encode_utf8 self.vec_ u⟩) := by
  have hu : simple_escape 'u' = none := by decide
  simp only [string_step, hu, h]
  simp [hs]

theorem string_step_pair (sz : Nat) (t2 t4 t5 : List Char) (u un : Nat)
    (self : dson_parse_context) (h : parse_hex4 t2 = ((u, true), '\\' :: 'u' :: t4))
    (hs : 0xD800 ≤ u ∧ u ≤ 0xDBFF) (h4 : parse_hex4 t4 = ((un, true), t5))
    (hl : ¬ (un < 0xDC00 ∨ un > 0xDFFF)) :
    string_step sz ('\\' :: 'u' :: t2) self =
      .inr (t5, ⟨self.view_,
        encode_utf8 self.vec_ ((((u - 0xD800) <<< 10) ||| (un - 0xDC00)) + 0x10000)⟩) := by
  have hu : simple_escape 'u' = none := by decide
  simp only [string_step, hu, h, h4]
  simp [hs, hl]

theorem string_step_append_next (sz : Nat) (tmp x t : List Char)
    (self s : dson_parse_context) (h : string_step sz tmp self = .inr (t, s)) :
    string_step sz (tmp ++ x) self = .inr (t ++ x, s) := by
  have hc := string_step_cases sz tmp self
  rw [h] at hc
  cases hc with
  | simple e c t2 he => exact string_step_simple _ _ _ _ _ he
  | unicode t2 t3 u hp hs =>
    exact string_step_unicode _ _ _ _ _ (parse_hex4_append _ x _ _ hp) hs
  | pair t2 t4 t5 u un hp hs hp2 hl =>
    exact string_step_pair _ _ _ _ _ _ _ (parse_hex4_append _ x _ _ hp) hs
      (parse_hex4_append _ x _ _ hp2) hl
  | plain ch t1 h1 h2 h3 => exact string_step_plain _ _ _ _ h1 h2 h3

theorem string_step_next_view (sz : Nat) (tmp t : List Char) (self s : dson_parse_context)
    (h : string_step sz tmp self = .inr (t, s)) : s.view_ = self.view_ := by
  have hc := string_step_cases sz tmp self
  rw [h] at hc
  cases hc <;> rfl

theorem parse_string_loop_append (sz : Nat) (x : List Char) :
    ∀ (f : Nat) (tmp : List Char) (self : dson_parse_context) (s : List Char)
      (c : dson_parse_context),
      parse_string_loop f sz tmp self = some ((s, DSON_OK), c) →
      parse_string_loop f sz (tmp ++ x) self = some ((s, DSON_OK), ⟨c.view_ ++ x, c.vec_⟩) := by
  intro f
  induction f with
  | zero => intro tmp self s c h; simp [parse_string_loop] at h
  | succ f ih =>
    intro tmp self s c h
    rw [parse_string_loop_succ] at h ⊢
    cases hs : string_step sz tmp self with
    | inl r =>
      rw [hs] at h
      simp only [Option.some.injEq] at h
      subst h
      rw [string_step_append_ok _ _ x _ _ _ hs]
    | inr p =>
      obtain ⟨t, s'⟩ := p
      rw [hs] at h
      rw [string_step_append_next _ _ x _ _ _ hs]
      exact ih _ _ _ _ h

theorem parse_string_loop_view (sz : Nat) (w' : List Char) :
    ∀ (f : Nat) (tmp w vec : List Char),
      parse_string_loop f sz tmp ⟨w', vec⟩ =
        (parse_string_loop f sz tmp ⟨w, vec⟩).map
          (fun r => (r.1, if r.1.2 = DSON_OK then r.2 else ⟨w', r.2.vec_⟩)) := by
  intro f
  induction f with
  | zero => intro tmp w vec; rfl
  | succ f ih =>
    intro tmp w vec
    rw [parse_string_loop_succ, parse_string_loop_succ, string_step_view sz tmp w w' vec]
    cases hs : string_step sz tmp ⟨w, vec⟩ with
    | inl r => rfl
    | inr p =>
      obtain ⟨t, s⟩ := p
      have hv := string_step_next_view _ _ _ _ _ hs
      obtain ⟨sv, svec⟩ := s
      simp only at hv
      subst hv
      exact ih t sv svec

theorem parse_string_append (v x vec : List Char) (s : List Char) (c : dson_parse_context)
    (h : parse_string ⟨v, vec⟩ = some ((s, DSON_OK), c)) :
    parse_string ⟨v ++ x, vec⟩ = some ((s, DSON_OK), ⟨c.view_ ++ x, c.vec_⟩) := by
  unfold parse_string at h ⊢
  simp only at h ⊢
  cases v with
  | nil =>
    simp [parse_string_loop, string_step] at h
  | cons q t =>
    simp only [List.cons_append, List.tail_cons] at h ⊢
    have h1 := parse_string_loop_mono _ _ ((t ++ x).length + 1) _ _ _
      (by simp) h
    have h2 := dson_parse_context.parse_string_loop_append _ x _ _ _ _ _ h1
    rw [parse_string_loop_view _ (t ++ x) _ _ t vec, h2]
    rfl

end dson_parse_context
/-! ## More text after a number or a literal -/

theorem dropWhile_append_stop {p : Char → Bool} (l x : List Char)
    (hx : ∀ c, x.head? = some c → p c = false) :
    (l ++ x).dropWhile p = l.dropWhile p ++ x := by
  induction l with
  | nil =>
    cases x with
    | nil => rfl
    | cons c t => simp [List.dropWhile_cons, hx c rfl]
  | cons a l ih =>
    by_cases ha : p a = true
    · simp [List.dropWhile_cons, ha, ih]
    · simp [List.dropWhile_cons, ha]

theorem takeWhile_append_stop {p : Char → Bool} (l x : List Char)
    (hx : ∀ c, x.head? = some c → p c = false) :
    (l ++ x).takeWhile p = l.takeWhile p := by
  induction l with
  | nil =>
    cases x with
    | nil => rfl
    | cons c t => simp [List.takeWhile_cons, hx c rfl]
  | cons a l ih =>
    by_cases ha : p a = true
    · simp [List.takeWhile_cons, ha, ih]
    · simp [List.takeWhile_cons, ha]

theorem isdigit_num_char (c : Char) (h : isdigit c = true) : is_num_char c = true := by
  simp [is_num_char, isxdigit, h]

theorem in_0123456789_iff (c : Char) :
    dson_parse_context.in_0123456789 c = isdigit c := by
  have h0 : ('0' ≤ c) ↔ 48 ≤ c.toNat := Iff.rfl
  have h9 : (c ≤ '9') ↔ c.toNat ≤ 57 := Iff.rfl
  have key : ∀ n : Nat, n < 10 → ∀ c : Char, c.toNat = 48 + n → c = Char.ofNat (48 + n) := by
    intro n hn c hc
    apply Char.ext
    apply UInt32.ext
    interval_cases n <;> exact hc
  rw [Bool.eq_iff_iff]
  simp only [dson_parse_context.in_0123456789, isdigit, decide_eq_true_eq, h0, h9,
    List.contains_iff_exists_mem_beq, beq_iff_eq]
  constructor
  · rintro ⟨a, ha, rfl⟩
    simp only [String.toList, List.mem_cons, List.mem_singleton, List.not_mem_nil,
      or_false] at ha
    rcases ha with h | h | h | h | h | h | h | h | h | h <;> subst h <;> decide
  · rintro ⟨h1, h2⟩
    refine ⟨c, ?_, rfl⟩
    have := key (c.toNat - 48) (by omega) c (by omega)
    rw [this]
    have hn : c.toNat - 48 < 10 := by omega
    generalize c.toNat - 48 = n at hn
    interval_cases n <;> decide

theorem in_123456789_digit (c : Char) (h : dson_parse_context.in_123456789 c = true) :
    isdigit c = true := by
  rw [← in_0123456789_iff]
  simp only [dson_parse_context.in_123456789, dson_parse_context.in_0123456789,
    List.contains_iff_exists_mem_beq, beq_iff_eq] at h ⊢
  obtain ⟨a, ha, rfl⟩ := h
  refine ⟨c, ?_, rfl⟩
  simp only [String.toList, List.mem_cons, List.mem_singleton, List.not_mem_nil,
    or_false] at ha ⊢
  tauto

/-- What `stops x` says of the first character of `x`. -/
theorem stops_head {x : List Char} (hx : stops x) (c : Char) (hc : x.head? = some c) :
    isdigit c = false ∧ dson_parse_context.in_0123456789 c = false ∧
      dson_parse_context.in_123456789 c = false ∧
      c ≠ '.' ∧ c ≠ 'e' ∧ c ≠ 'E' ∧ c ≠ '+' ∧ c ≠ '-' := by
  have h := hx c hc
  have hd : isdigit c = false := by
    cases hd : isdigit c with
    | false => rfl
    | true => rw [isdigit_num_char c hd] at h; cases h
  refine ⟨hd, by rw [in_0123456789_iff, hd], ?_, ?_, ?_, ?_, ?_, ?_⟩
  · cases h3 : dson_parse_context.in_123456789 c with
    | false => rfl
    | true => rw [in_123456789_digit c h3] at hd; cases hd
  all_goals (rintro rfl; revert h; decide)

namespace dson_parse_context

theorem number_integer_append (v x t : List Char) (hx : stops x)
    (h : number_integer v = some t) : number_integer (v ++ x) = some (t ++ x) := by
  have key : ∀ tmp : List Char,
      (match tmp with
        | [] => none
        | c :: t1 =>
          if c = '0' then some t1
          else if (!isdigit c) = true then none
          else some (tmp.dropWhile in_123456789)) = some t →
      (match tmp ++ x with
        | [] => none
        | c :: t1 =>
          if c = '0' then some t1
          else if (!isdigit c) = true then none
          else some ((tmp ++ x).dropWhile in_123456789)) = some (t ++ x) := by
    intro tmp h
    cases tmp with
    | nil => simp at h
    | cons c t1 =>
      simp only [List.cons_append] at h ⊢
      split_ifs at h ⊢
      · simp only [Option.some.injEq] at h ⊢; rw [h]
      · simp only [Option.some.injEq] at h ⊢
        rw [← h, ← List.cons_append, dropWhile_append_stop _ _ (fun c hc => (stops_head hx c hc).2.2.1)]
  unfold number_integer at h ⊢
  cases v with
  | nil => simp at h
  | cons a v' =>
    simp only [List.cons_append, List.head?_cons, List.tail_cons] at h ⊢
    split_ifs at h ⊢
    · exact key _ h
    · exact key (a :: v') h

theorem number_fraction_append (t x t' : List Char) (hx : stops x)
    (h : number_fraction t = some t') : number_fraction (t ++ x) = some (t' ++ x) := by
  unfold number_fraction at h ⊢
  cases t with
  | nil =>
    simp only [Option.some.injEq] at h
    subst h
    cases x with
    | nil => rfl
    | cons c x' =>
      have := (stops_head hx c rfl).2.2.2.1
      simp only [List.nil_append]
      split
      · next heq => simp at heq; exact absurd heq.1 this
      · rfl
  | cons a t1 =>
    simp only [List.cons_append] at h ⊢
    by_cases ha : a = '.'
    · subst ha
      simp only at h ⊢
      cases t1 with
      | nil => simp at h
      | cons d t2 =>
        simp only [List.cons_append] at h ⊢
        split_ifs at h ⊢
        simp only [Option.some.injEq] at h ⊢
        rw [← h, ← List.cons_append, dropWhile_append_stop _ _ (fun c hc => (stops_head hx c hc).2.1)]
    · split at h
      · next heq => simp at heq; exact absurd heq.1 ha
      · split
        · next heq => simp at heq; exact absurd heq.1 ha
        · simp only [Option.some.injEq] at h ⊢
          rw [← h]; rfl

end dson_parse_context
namespace dson_parse_context

theorem number_exponent_append (t x t' : List Char) (hx : stops x)
    (h : number_exponent t = some t') : number_exponent (t ++ x) = some (t' ++ x) := by
  unfold number_exponent at h ⊢
  cases t with
  | nil =>
    simp only [Option.some.injEq] at h
    subst h
    cases x with
    | nil => rfl
    | cons c x' =>
      have h1 := (stops_head hx c rfl).2.2.2.2.1
      have h2 := (stops_head hx c rfl).2.2.2.2.2.1
      simp [h1, h2]
  | cons e t1 =>
    simp only [List.cons_append] at h ⊢
    by_cases he : e = 'e' ∨ e = 'E'
    · rw [if_pos he] at h ⊢
      cases t1 with
      | nil => simp at h
      | cons s t2 =>
        simp only [List.cons_append] at h ⊢
        by_cases hs : s = '+' ∨ s = '-'
        · simp only [if_pos hs] at h ⊢
          cases t2 with
          | nil => simp at h
          | cons d t3 =>
            simp only [List.cons_append] at h ⊢
            split_ifs at h ⊢
            simp only [Option.some.injEq] at h ⊢
            rw [← h, ← List.cons_append,
              dropWhile_append_stop _ _ (fun c hc => (stops_head hx c hc).2.1)]
        · simp only [if_neg hs] at h ⊢
          split_ifs at h ⊢
          simp only [Option.some.injEq] at h ⊢
          rw [← h, ← List.cons_append,
            dropWhile_append_stop _ _ (fun c hc => (stops_head hx c hc).2.1)]
    · rw [if_neg he] at h ⊢
      simp only [Option.some.injEq] at h ⊢
      rw [← h]; rfl

theorem number_scan_append (v x t : List Char) (hx : stops x)
    (h : number_scan v = some t) : number_scan (v ++ x) = some (t ++ x) := by
  unfold number_scan at h ⊢
  cases h1 : number_integer v with
  | none => simp [h1] at h
  | some t1 =>
    rw [h1] at h
    simp only [Option.some_bind] at h
    cases h2 : number_fraction t1 with
    | none => simp [h2] at h
    | some t2 =>
      rw [h2] at h
      simp only [Option.some_bind] at h
      rw [number_integer_append _ _ _ hx h1]
      simp only [Option.some_bind]
      rw [number_fraction_append _ _ _ hx h2]
      simp only [Option.some_bind]
      exact number_exponent_append _ _ _ hx h

theorem strtod_append (v x : List Char) (hx : stops x) : strtod (v ++ x) = strtod v := by
  unfold strtod
  rw [takeWhile_append_stop _ _ hx]

theorem parse_number_append (v x vec rem vec' : List Char) (value value' : dson_value)
    (hx : stops x)
    (h : parse_number ⟨v, vec⟩ value = (DSON_OK, value', ⟨rem, vec'⟩)) :
    parse_number ⟨v ++ x, vec⟩ value = (DSON_OK, value', ⟨rem ++ x, vec'⟩) := by
  unfold parse_number at h ⊢
  simp only at h ⊢
  cases hs : number_scan v with
  | none => simp [hs] at h
  | some t =>
    rw [hs] at h
    rw [number_scan_append _ _ _ hx hs, strtod_append _ _ hx]
    simp only at h ⊢
    split_ifs at h ⊢
    · simp at h
    · simp only [Prod.mk.injEq, dson_parse_context.mk.injEq, true_and] at h
      obtain ⟨rfl, rfl, rfl⟩ := h
      rfl

theorem parse_null_append (v x vec rem vec' : List Char) (value value' : dson_value)
    (h : parse_null ⟨v, vec⟩ value = (DSON_OK, value', ⟨rem, vec'⟩)) :
    parse_null ⟨v ++ x, vec⟩ value = (DSON_OK, value', ⟨rem ++ x, vec'⟩) := by
  unfold parse_null at h ⊢
  match v, h with
  | c0 :: c1 :: c2 :: c3 :: rest, h =>
    simp only [List.cons_append] at h ⊢
    split_ifs at h ⊢
    · simp at h
    · simp only [Prod.mk.injEq, dson_parse_context.mk.injEq, true_and] at h
      obtain ⟨rfl, rfl, rfl⟩ := h
      rfl
  | [], h => simp at h
  | [_], h => simp at h
  | [_, _], h => simp at h
  | [_, _, _], h => simp at h

theorem parse_true_append (v x vec rem vec' : List Char) (value value' : dson_value)
    (h : parse_true ⟨v, vec⟩ value = (DSON_OK, value', ⟨rem, vec'⟩)) :
    parse_true ⟨v ++ x, vec⟩ value = (DSON_OK, value', ⟨rem ++ x, vec'⟩) := by
  unfold parse_true at h ⊢
  match v, h with
  | c0 :: c1 :: c2 :: c3 :: rest, h =>
    simp only [List.cons_append] at h ⊢
    split_ifs at h ⊢
    · simp at h
    · simp only [Prod.mk.injEq, dson_parse_context.mk.injEq, true_and] at h
      obtain ⟨rfl, rfl, rfl⟩ := h
      rfl
  | [], h => simp at h
  | [_], h => simp at h
  | [_, _], h => simp at h
  | [_, _, _], h => simp at h

theorem parse_false_append (v x vec rem vec' : List Char) (value value' : dson_value)
    (h : parse_false ⟨v, vec⟩ value = (DSON_OK, value', ⟨rem, vec'⟩)) :
    parse_false ⟨v ++ x, vec⟩ value = (DSON_OK, value', ⟨rem ++ x, vec'⟩) := by
  unfold parse_false at h ⊢
  match v, h with
  | c0 :: c1 :: c2 :: c3 :: c4 :: rest, h =>
    simp only [List.cons_append] at h ⊢
    split_ifs at h ⊢
    · simp at h
    · simp only [Prod.mk.injEq, dson_parse_context.mk.injEq, true_and] at h
      obtain ⟨rfl, rfl, rfl⟩ := h
      rfl
  | [], h => simp at h
  | [_], h => simp at h
  | [_, _], h => simp at h
  | [_, _, _], h => simp at h
  | [_, _, _, _], h => simp at h

end dson_parse_context
/-! ## The loops of `parse_array` and `parse_object` -/

theorem dropWhile_append_of_ne_nil {p : Char → Bool} (l x : List Char)
    (h : l.dropWhile p ≠ []) : (l ++ x).dropWhile p = l.dropWhile p ++ x := by
  induction l with
  | nil => simp at h
  | cons a l ih =>
    by_cases ha : p a = true
    · simp only [List.cons_append, List.dropWhile_cons, ha, if_true] at h ⊢
      exact ih h
    · simp [List.dropWhile_cons, ha]

namespace dson_parse_context

theorem parse_array_loop_mono (elem elem' : dson_parse_context → Option parse_result)
    (he : ∀ c r, elem c = some r → elem' c = some r) :
    ∀ (f f' : Nat) (tmp : List dson_value) (self : dson_parse_context) r, f ≤ f' →
      parse_array_loop elem f tmp self = some r →
      parse_array_loop elem' f' tmp self = some r := by
  intro f
  induction f with
  | zero => intro f' tmp self r _ h; simp [parse_array_loop] at h
  | succ f ih =>
    intro f' tmp self r hle h
    obtain ⟨g, rfl⟩ : ∃ g, f' = g + 1 := ⟨f' - 1, by omega⟩
    rw [parse_array_loop] at h ⊢
    cases h1 : elem self with
    | none => simp [h1] at h
    | some r1 =>
      obtain ⟨err, ptr, self1⟩ := r1
      rw [he _ _ h1]
      rw [h1] at h
      simp only at h ⊢
      split_ifs at h ⊢
      · exact h
      · split at h
        · exact ih _ _ _ _ (by omega) h
        · exact h
        · exact h

theorem parse_array_loop_good (elem : dson_parse_context → Option parse_result)
    (he : good_elem elem) :
    ∀ (f : Nat) (tmp : List dson_value) (v : List Char) tmp' rem vec',
      parse_array_loop elem f tmp ⟨v, []⟩ = some (DSON_OK, tmp', ⟨rem, vec'⟩) →
      vec' = [] ∧ v ≠ [] ∧
        ∀ x, stops x →
          parse_array_loop elem f tmp ⟨v ++ x, []⟩ = some (DSON_OK, tmp', ⟨rem ++ x, []⟩) := by
  intro f
  induction f with
  | zero => intro tmp v tmp' rem vec' h; simp [parse_array_loop] at h
  | succ f ih =>
    intro tmp v tmp' rem vec' h
    rw [parse_array_loop] at h
    cases h1 : elem ⟨v, []⟩ with
    | none => simp [h1] at h
    | some r1 =>
      obtain ⟨err, ptr, ⟨rem1, vec1⟩⟩ := r1
      rw [h1] at h
      simp only at h
      by_cases herr : err = DSON_OK
      · subst herr
        obtain ⟨hv1, hne, hx⟩ := he _ _ _ _ h1
        subst hv1
        simp only [ne_eq, not_true_eq_false, if_false, skip_whitespace] at h
        split at h
        · next rest heq =>
          obtain ⟨hv, hne', hx'⟩ := ih _ _ _ _ _ h
          refine ⟨hv, hne, ?_⟩
          intro x sx
          rw [parse_array_loop, hx x sx]
          simp only [ne_eq, not_true_eq_false, if_false, skip_whitespace]
          rw [dropWhile_append_of_ne_nil _ _ (by rw [heq]; simp), heq]
          simp only [List.cons_append]
          rw [dropWhile_append_of_ne_nil _ _ hne']
          exact hx' x sx
        · next rest heq =>
          simp only [Option.some.injEq, Prod.mk.injEq, dson_parse_context.mk.injEq,
            true_and] at h
          obtain ⟨rfl, rfl, rfl⟩ := h
          refine ⟨rfl, hne, ?_⟩
          intro x sx
          rw [parse_array_loop, hx x sx]
          simp only [ne_eq, not_true_eq_false, if_false, skip_whitespace]
          rw [dropWhile_append_of_ne_nil _ _ (by rw [heq]; simp), heq]
          rfl
        · simp at h
      · simp [herr] at h

end dson_parse_context
namespace dson_parse_context

theorem parse_array_mono (elem elem' : dson_parse_context → Option parse_result)
    (he : ∀ c r, elem c = some r → elem' c = some r)
    (self : dson_parse_context) (value : dson_value) (r : parse_result)
    (h : parse_array elem self value = some r) : parse_array elem' self value = some r := by
  unfold parse_array at h ⊢
  simp only at h ⊢
  split at h
  · exact h
  · simp only [Option.map_eq_some'] at h ⊢
    obtain ⟨a, ha, hr⟩ := h
    exact ⟨a, parse_array_loop_mono elem elem' he _ _ _ _ _ (le_refl _) ha, hr⟩

theorem parse_array_good (elem : dson_parse_context → Option parse_result)
    (he : good_elem elem) (v : List Char) (value value' : dson_value) (rem vec' : List Char)
    (h : parse_array elem ⟨v, []⟩ value = some (DSON_OK, value', ⟨rem, vec'⟩))
    (hv : v ≠ []) :
    vec' = [] ∧
      ∀ x, stops x →
        parse_array elem ⟨v ++ x, []⟩ value = some (DSON_OK, value', ⟨rem ++ x, []⟩) := by
  obtain ⟨c, t, rfl⟩ : ∃ c t, v = c :: t := by
    cases v with
    | nil => exact absurd rfl hv
    | cons c t => exact ⟨c, t, rfl⟩
  unfold parse_array at h ⊢
  simp only [List.tail_cons, skip_whitespace, List.cons_append] at h ⊢
  split at h
  · next rest heq =>
    simp only [Option.some.injEq, Prod.mk.injEq, dson_parse_context.mk.injEq, true_and] at h
    obtain ⟨rfl, rfl, rfl⟩ := h
    refine ⟨rfl, ?_⟩
    intro x sx
    rw [dropWhile_append_of_ne_nil _ _ (by rw [heq]; simp), heq]
    rfl
  · next hnot =>
    simp only [Option.map_eq_some'] at h
    obtain ⟨⟨e, tmp', c'⟩, ha, hr⟩ := h
    simp only at hr
    by_cases hok : e = DSON_OK
    · subst hok
      simp only [if_true, Prod.mk.injEq, true_and] at hr
      obtain ⟨rfl, rfl⟩ := hr
      obtain ⟨hvec, hne, hx⟩ := parse_array_loop_good elem he _ _ _ _ _ _ ha
      refine ⟨hvec, ?_⟩
      intro x sx
      rw [dropWhile_append_of_ne_nil _ _ hne]
      have h2 := parse_array_loop_mono elem elem (fun _ _ h => h) _
        ((List.dropWhile is_whitespace t ++ x).length + 1) _ _ _ (by simp) (hx x sx)
      split
      · next rest heq =>
        exfalso
        cases hd : List.dropWhile is_whitespace t with
        | nil => exact hne hd
        | cons a l =>
          rw [hd] at heq
          simp only [List.cons_append, List.cons.injEq] at heq
          exact hnot l (by rw [hd, heq.1])
      · rw [h2]
        rfl
    · simp [hok] at hr

theorem parse_string_loop_vec (f : Nat) :
    ∀ (tmp : List Char) (self : dson_parse_context) (s : List Char) (c : dson_parse_context),
      parse_string_loop f 0 tmp self = some ((s, DSON_OK), c) → c.vec_ = [] := by
  induction f with
  | zero => intro tmp self s c h; simp [parse_string_loop] at h
  | succ f ih =>
    intro tmp self s c h
    rw [parse_string_loop_succ] at h
    cases hs : string_step 0 tmp self with
    | inl r =>
      rw [hs] at h
      simp only [Option.some.injEq] at h
      subst h
      obtain ⟨t1, -, -, rfl⟩ := string_step_ok_iff _ _ _ _ _ hs
      simp [erase_from]
    | inr p =>
      obtain ⟨t, s'⟩ := p
      rw [hs] at h
      exact ih _ _ _ _ h

theorem parse_string_vec (v : List Char) (s : List Char) (c : dson_parse_context)
    (h : parse_string ⟨v, []⟩ = some ((s, DSON_OK), c)) : c.vec_ = [] := by
  unfold parse_string at h
  exact parse_string_loop_vec _ _ _ _ _ h

end dson_parse_context
namespace dson_parse_context

theorem parse_object_loop_mono (elem elem' : dson_parse_context → Option parse_result)
    (he : ∀ c r, elem c = some r → elem' c = some r) :
    ∀ (f f' : Nat) (mp : List (List Char × dson_value)) (self : dson_parse_context) r, f ≤ f' →
      parse_object_loop elem f mp self = some r →
      parse_object_loop elem' f' mp self = some r := by
  intro f
  induction f with
  | zero => intro f' mp self r _ h; simp [parse_object_loop] at h
  | succ f ih =>
    intro f' mp self r hle h
    obtain ⟨g, rfl⟩ : ∃ g, f' = g + 1 := ⟨f' - 1, by omega⟩
    rw [parse_object_loop] at h ⊢
    split_ifs at h ⊢
    · exact h
    · cases h1 : parse_string self with
      | none => simp [h1] at h
      | some r1 =>
        obtain ⟨⟨str, err⟩, self1⟩ := r1
        rw [h1] at h
        simp only at h ⊢
        split_ifs at h ⊢
        · exact h
        · exact h
        · cases h2 : elem (skip_whitespace ⟨self1.skip_whitespace.view_.tail,
              self1.skip_whitespace.vec_⟩) with
          | none => simp [h2] at h
          | some r2 =>
            obtain ⟨e, ptr, self2⟩ := r2
            rw [he _ _ h2]
            rw [h2] at h
            simp only at h ⊢
            split_ifs at h ⊢
            · exact h
            · split at h
              · exact ih _ _ _ _ (by omega) h
              · exact h
              · exact h

theorem parse_object_loop_good (elem : dson_parse_context → Option parse_result)
    (he : good_elem elem) :
    ∀ (f : Nat) (mp : List (List Char × dson_value)) (v : List Char) mp' rem vec',
      parse_object_loop elem f mp ⟨v, []⟩ = some (DSON_OK, mp', ⟨rem, vec'⟩) →
      vec' = [] ∧ v ≠ [] ∧
        ∀ x, stops x →
          parse_object_loop elem f mp ⟨v ++ x, []⟩ = some (DSON_OK, mp', ⟨rem ++ x, []⟩) := by
  intro f
  induction f with
  | zero => intro mp v mp' rem vec' h; simp [parse_object_loop] at h
  | succ f ih =>
    intro mp v mp' rem vec' h
    rw [parse_object_loop] at h
    simp only at h
    by_cases hq : v.head? = some '"'
    · have hvne : v ≠ [] := by rintro rfl; simp at hq
      rw [if_neg (by simpa using hq)] at h
      cases h1 : parse_string ⟨v, []⟩ with
      | none => simp [h1] at h
      | some r1 =>
        obtain ⟨⟨str, err⟩, ⟨v1, vec1⟩⟩ := r1
        rw [h1] at h
        simp only at h
        by_cases herr : err = DSON_OK
        · subst herr
          have hvec1 : vec1 = [] := parse_string_vec _ _ _ h1
          subst hvec1
          have hs := fun x => parse_string_append v x [] _ _ h1
          simp only [ne_eq, not_true_eq_false, if_false, skip_whitespace] at h
          by_cases hcolon : (List.dropWhile is_whitespace v1).head? = some ':'
          · rw [if_neg (by simpa using hcolon)] at h
            obtain ⟨t2, ht2⟩ : ∃ t2, List.dropWhile is_whitespace v1 = ':' :: t2 := by
              cases hd : List.dropWhile is_whitespace v1 with
              | nil => rw [hd] at hcolon; simp at hcolon
              | cons a l =>
                rw [hd] at hcolon
                simp only [List.head?_cons, Option.some.injEq] at hcolon
                exact ⟨l, by rw [hcolon]⟩
            rw [ht2] at h
            simp only [List.tail_cons] at h
            cases h2 : elem ⟨List.dropWhile is_whitespace t2, []⟩ with
            | none => simp [h2] at h
            | some r2 =>
              obtain ⟨e, ptr, ⟨v3, vec3⟩⟩ := r2
              rw [h2] at h
              simp only at h
              by_cases he2 : e = DSON_OK
              · subst he2
                obtain ⟨hv3, hne3, hx3⟩ := he _ _ _ _ h2
                subst hv3
                simp only [ne_eq, not_true_eq_false, if_false] at h
                -- the new side, up to the element
                have hnew : ∀ x, stops x →
                    parse_object_loop elem (f + 1) mp ⟨v ++ x, []⟩ =
                      (match List.dropWhile is_whitespace (v3 ++ x) with
                        | ',' :: rest =>
                          parse_object_loop elem f (map_assign mp str ptr)
                            ⟨List.dropWhile is_whitespace rest, []⟩
                        | '}' :: rest => some (DSON_OK, map_assign mp str ptr, ⟨rest, []⟩)
                        | _ => some (DSON_MISS_COMMA_OR_CURLY_BRACKET, map_assign mp str ptr,
                            ⟨List.dropWhile is_whitespace (v3 ++ x), []⟩)) := by
                  intro x sx
                  rw [parse_object_loop]
                  simp only
                  have hq' : (v ++ x).head? = some '"' := by
                    cases v with
                    | nil => exact absurd rfl hvne
                    | cons a l => simpa using hq
                  rw [if_neg (not_not.mpr hq'), hs x]
                  simp only [ne_eq, not_true_eq_false, if_false, skip_whitespace]
                  rw [dropWhile_append_of_ne_nil _ _ (by rw [ht2]; simp), ht2]
                  simp only [List.cons_append, List.head?_cons, not_true_eq_false, if_false,
                    List.tail_cons]
                  rw [dropWhile_append_of_ne_nil _ _ hne3, hx3 x sx]
                  rfl
                split at h
                · next rest heq =>
                  obtain ⟨hv, hne', hx'⟩ := ih _ _ _ _ _ h
                  refine ⟨hv, hvne, ?_⟩
                  intro x sx
                  rw [hnew x sx, dropWhile_append_of_ne_nil _ _ (by rw [heq]; simp), heq]
                  simp only [List.cons_append]
                  rw [dropWhile_append_of_ne_nil _ _ hne']
                  exact hx' x sx
                · next rest heq =>
                  simp only [Option.some.injEq, Prod.mk.injEq, dson_parse_context.mk.injEq,
                    true_and] at h
                  obtain ⟨rfl, rfl, rfl⟩ := h
                  refine ⟨rfl, hvne, ?_⟩
                  intro x sx
                  rw [hnew x sx, dropWhile_append_of_ne_nil _ _ (by rw [heq]; simp), heq]
                  rfl
                · simp at h
              · simp [he2] at h
          · rw [if_pos (by simpa using hcolon)] at h
            simp at h
        · simp [herr] at h
    · rw [if_pos (by simpa using hq)] at h
      simp at h

end dson_parse_context
namespace dson_parse_context

theorem parse_object_mono (elem elem' : dson_parse_context → Option parse_result)
    (he : ∀ c r, elem c = some r → elem' c = some r)
    (self : dson_parse_context) (value : dson_value) (r : parse_result)
    (h : parse_object elem self value = some r) : parse_object elem' self value = some r := by
  unfold parse_object at h ⊢
  simp only at h ⊢
  split at h
  · exact h
  · simp only [Option.map_eq_some'] at h ⊢
    obtain ⟨a, ha, hr⟩ := h
    exact ⟨a, parse_object_loop_mono elem elem' he _ _ _ _ _ (le_refl _) ha, hr⟩

theorem parse_object_good (elem : dson_parse_context → Option parse_result)
    (he : good_elem elem) (v : List Char) (value value' : dson_value) (rem vec' : List Char)
    (h : parse_object elem ⟨v, []⟩ value = some (DSON_OK, value', ⟨rem, vec'⟩))
    (hv : v ≠ []) :
    vec' = [] ∧
      ∀ x, stops x →
        parse_object elem ⟨v ++ x, []⟩ value = some (DSON_OK, value', ⟨rem ++ x, []⟩) := by
  obtain ⟨c, t, rfl⟩ : ∃ c t, v = c :: t := by
    cases v with
    | nil => exact absurd rfl hv
    | cons c t => exact ⟨c, t, rfl⟩
  unfold parse_object at h ⊢
  simp only [List.tail_cons, skip_whitespace, List.cons_append] at h ⊢
  split at h
  · next rest heq =>
    simp only [Option.some.injEq, Prod.mk.injEq, dson_parse_context.mk.injEq, true_and] at h
    obtain ⟨rfl, rfl, rfl⟩ := h
    refine ⟨rfl, ?_⟩
    intro x sx
    rw [dropWhile_append_of_ne_nil _ _ (by rw [heq]; simp), heq]
    rfl
  · next hnot =>
    simp only [Option.map_eq_some'] at h
    obtain ⟨⟨e, mp', c'⟩, ha, hr⟩ := h
    simp only at hr
    by_cases hok : e = DSON_OK
    · subst hok
      simp only [if_true, Prod.mk.injEq, true_and] at hr
      obtain ⟨rfl, rfl⟩ := hr
      obtain ⟨hvec, hne, hx⟩ := parse_object_loop_good elem he _ _ _ _ _ _ ha
      refine ⟨hvec, ?_⟩
      intro x sx
      rw [dropWhile_append_of_ne_nil _ _ hne]
      have h2 := parse_object_loop_mono elem elem (fun _ _ h => h) _
        ((List.dropWhile is_whitespace t ++ x).length + 1) _ _ _ (by simp) (hx x sx)
      split
      · next rest heq =>
        exfalso
        cases hd : List.dropWhile is_whitespace t with
        | nil => exact hne hd
        | cons a l =>
          rw [hd] at heq
          simp only [List.cons_append, List.cons.injEq] at heq
          exact hnot l (by rw [hd, heq.1])
      · rw [h2]
        rfl
    · simp [hok] at hr

/-- The dispatch of `parse` on the first character of a non-empty view. -/
theorem parse_cons (d : Nat) (c : Char) (t vec : List Char) (value : dson_value) :
    parse (d + 1) ⟨c :: t, vec⟩ value =
      if c = 'n' then some (parse_null ⟨c :: t, vec⟩ value)
      else if c = 'f' then some (parse_false ⟨c :: t, vec⟩ value)
      else if c = 't' then some (parse_true ⟨c :: t, vec⟩ value)
      else if c = '"' then parse_string_value ⟨c :: t, vec⟩ value
      else if c = '[' then
        parse_array (fun c => parse d c dson_value.new) ⟨c :: t, vec⟩ value
      else if c = '{' then
        parse_object (fun c => parse d c dson_value.new) ⟨c :: t, vec⟩ value
      else some (parse_number ⟨c :: t, vec⟩ value) := by
  rw [parse]
  split
  · next h => simp at h
  · next h => simp only [List.cons.injEq] at h; obtain ⟨rfl, -⟩ := h; simp
  · next h => simp only [List.cons.injEq] at h; obtain ⟨rfl, -⟩ := h; simp
  · next h => simp only [List.cons.injEq] at h; obtain ⟨rfl, -⟩ := h; simp
  · next h => simp only [List.cons.injEq] at h; obtain ⟨rfl, -⟩ := h; simp
  · next h => simp only [List.cons.injEq] at h; obtain ⟨rfl, -⟩ := h; simp
  · next h => simp only [List.cons.injEq] at h; obtain ⟨rfl, -⟩ := h; simp
  · next h1 h2 h3 h4 h5 h6 h =>
    simp only [List.cons.injEq] at h
    obtain ⟨rfl, rfl⟩ := h
    rw [if_neg h1, if_neg h2, if_neg h3, if_neg h4, if_neg h5, if_neg h6]

theorem parse_nil (d : Nat) (vec : List Char) (value : dson_value) :
    parse (d + 1) ⟨[], vec⟩ value = some (DSON_EXPECT_VALUE, value, ⟨[], vec⟩) := by
  rw [parse]

end dson_parse_context
namespace dson_parse_context

theorem parse_mono :
    ∀ (d d' : Nat) (self : dson_parse_context) (value : dson_value) (r : parse_result),
      d ≤ d' → parse d self value = some r → parse d' self value = some r := by
  intro d
  induction d with
  | zero => intro d' self value r _ h; simp [parse] at h
  | succ d ih =>
    intro d' self value r hle h
    obtain ⟨g, rfl⟩ : ∃ g, d' = g + 1 := ⟨d' - 1, by omega⟩
    obtain ⟨v, vec⟩ := self
    cases v with
    | nil => rw [parse_nil] at h ⊢; exact h
    | cons c t =>
      rw [parse_cons] at h ⊢
      have he : ∀ (c : dson_parse_context) (r : parse_result),
          parse d c dson_value.new = some r → parse g c dson_value.new = some r :=
        fun c r h => ih g c _ r (by omega) h
      split_ifs at h ⊢
      · exact h
      · exact h
      · exact h
      · exact h
      · exact parse_array_mono _ _ he _ _ _ h
      · exact parse_object_mono _ _ he _ _ _ h
      · exact h

theorem parse_null_vec (self : dson_parse_context) (value : dson_value) :
    (parse_null self value).2.2.vec_ = self.vec_ := by
  unfold parse_null
  split
  · split_ifs <;> rfl
  · rfl

theorem parse_true_vec (self : dson_parse_context) (value : dson_value) :
    (parse_true self value).2.2.vec_ = self.vec_ := by
  unfold parse_true
  split
  · split_ifs <;> rfl
  · rfl

theorem parse_false_vec (self : dson_parse_context) (value : dson_value) :
    (parse_false self value).2.2.vec_ = self.vec_ := by
  unfold parse_false
  split
  · split_ifs <;> rfl
  · rfl

theorem parse_number_vec (self : dson_parse_context) (value : dson_value) :
    (parse_number self value).2.2.vec_ = self.vec_ := by
  unfold parse_number
  split
  · rfl
  · simp only
    split_ifs <;> rfl

/-- A call of `parse` that starts with an empty `vec_` and returns `DSON_OK` leaves `vec_`
empty, was given a non-empty view, and returns the same, with `x` left over, when `x` is
added to the view, for every `x` that cannot continue a number. -/
theorem parse_good (d : Nat) :
    ∀ (value : dson_value) (v : List Char) (value' : dson_value) (rem vec' : List Char),
      parse d ⟨v, []⟩ value = some (DSON_OK, value', ⟨rem, vec'⟩) →
      vec' = [] ∧ v ≠ [] ∧
        ∀ x, stops x → parse d ⟨v ++ x, []⟩ value = some (DSON_OK, value', ⟨rem ++ x, []⟩) := by
  induction d with
  | zero => intro value v value' rem vec' h; simp [parse] at h
  | succ d ih =>
    intro value v value' rem vec' h
    cases v with
    | nil => rw [parse_nil] at h; simp at h
    | cons c t =>
      have he : good_elem (fun c => parse d c dson_value.new) := fun v ptr rem vec' h =>
        ih dson_value.new v ptr rem vec' h
      rw [parse_cons] at h
      refine ⟨?_, by simp, ?_⟩
      · split_ifs at h
        · have := parse_null_vec ⟨c :: t, []⟩ value
          simp only [Option.some.injEq] at h
          rw [h] at this; exact this
        · have := parse_false_vec ⟨c :: t, []⟩ value
          simp only [Option.some.injEq] at h
          rw [h] at this; exact this
        · have := parse_true_vec ⟨c :: t, []⟩ value
          simp only [Option.some.injEq] at h
          rw [h] at this; exact this
        · unfold parse_string_value at h
          simp only [Option.map_eq_some'] at h
          obtain ⟨⟨⟨s, e⟩, c'⟩, hs, hr⟩ := h
          simp only at hr
          split_ifs at hr with hok
          · subst hok
            simp only [Prod.mk.injEq, true_and] at hr
            have := parse_string_vec _ _ _ hs
            rw [hr.2] at this
            exact this
          · simp only [Prod.mk.injEq] at hr
            exact absurd hr.1 hok
        · exact (parse_array_good _ he _ _ _ _ _ h (by simp)).1
        · exact (parse_object_good _ he _ _ _ _ _ h (by simp)).1
        · have := parse_number_vec ⟨c :: t, []⟩ value
          simp only [Option.some.injEq] at h
          rw [h] at this; exact this
      · intro x sx
        rw [List.cons_append, parse_cons]
        split_ifs at h ⊢
        · simp only [Option.some.injEq] at h ⊢
          have hv := parse_null_vec ⟨c :: t, []⟩ value
          rw [h] at hv
          simp only at hv
          subst hv
          exact parse_null_append _ x _ _ _ _ _ h
        · simp only [Option.some.injEq] at h ⊢
          have hv := parse_false_vec ⟨c :: t, []⟩ value
          rw [h] at hv
          simp only at hv
          subst hv
          exact parse_false_append _ x _ _ _ _ _ h
        · simp only [Option.some.injEq] at h ⊢
          have hv := parse_true_vec ⟨c :: t, []⟩ value
          rw [h] at hv
          simp only at hv
          subst hv
          exact parse_true_append _ x _ _ _ _ _ h
        · unfold parse_string_value at h ⊢
          simp only [Option.map_eq_some'] at h
          obtain ⟨⟨⟨s, e⟩, c'⟩, hs, hr⟩ := h
          simp only at hr
          split_ifs at hr with hok
          · subst hok
            simp only [Prod.mk.injEq, true_and] at hr
            have hv := parse_string_vec _ _ _ hs
            have := parse_string_append _ x _ _ _ hs
            rw [← List.cons_append, this]
            obtain ⟨hr1, hr2⟩ := hr
            subst hr2
            simp only at hv
            subst hv
            simp [hr1]
          · simp only [Prod.mk.injEq] at hr
            exact absurd hr.1 hok
        · exact (parse_array_good _ he _ _ _ _ _ h (by simp)).2 x sx
        · exact (parse_object_good _ he _ _ _ _ _ h (by simp)).2 x sx
        · simp only [Option.some.injEq] at h ⊢
          have hv := parse_number_vec ⟨c :: t, []⟩ value
          rw [h] at hv
          simp only at hv
          subst hv
          exact parse_number_append _ x _ _ _ _ _ sx h

end dson_parse_context
/-! ## Arrays -/

theorem dropWhile_append_of_nil {p : Char → Bool} (l x : List Char)
    (h : l.dropWhile p = []) : (l ++ x).dropWhile p = x.dropWhile p := by
  induction l with
  | nil => rfl
  | cons a l ih =>
    by_cases ha : p a = true
    · simp only [List.cons_append, List.dropWhile_cons, ha, if_true] at h ⊢
      exact ih h
    · simp [List.dropWhile_cons, ha] at h

theorem stops_cons (c : Char) (x : List Char) (h : is_num_char c = false) :
    stops (c :: x) := by
  intro c' hc
  simp only [List.head?_cons, Option.some.injEq] at hc
  rw [← hc]; exact h

namespace DsonParser

/-- What a call of `parse` that returns `DSON_OK` says of the call of
`dson_parse_context::parse` inside. -/
theorem parse_ok_inv (p : DsonParser) (json : List Char) (v : dson_value)
    (c : dson_parse_context) (h : p.parse json = some (DSON_OK, ⟨v⟩, c)) :
    ∃ rem, dson_parse_context.parse (json.length + 1)
        ⟨json.dropWhile dson_parse_context.is_whitespace, []⟩ p.value_ =
          some (DSON_OK, v, ⟨rem, []⟩) ∧
      rem.dropWhile dson_parse_context.is_whitespace = [] ∧ c = ⟨[], []⟩ := by
  unfold parse at h
  simp only [dson_parse_context.skip_whitespace] at h
  cases hp : dson_parse_context.parse (json.length + 1)
      ⟨json.dropWhile dson_parse_context.is_whitespace, []⟩ p.value_ with
  | none => simp [hp] at h
  | some r =>
    obtain ⟨ret, value, ⟨rem, vec'⟩⟩ := r
    rw [hp] at h
    simp only at h
    by_cases hok : ret = DSON_OK
    · subst hok
      obtain ⟨hvec, -, -⟩ := dson_parse_context.parse_good _ _ _ _ _ _ hp
      subst hvec
      simp only [if_true, dson_parse_context.is_completed] at h
      split_ifs at h with hc
      · simp at h
      · simp only [Option.some.injEq, Prod.mk.injEq, true_and, DsonParser.mk.injEq] at h
        obtain ⟨rfl, rfl⟩ := h
        simp only [Bool.not_eq_true', Bool.not_eq_false, List.isEmpty_iff] at hc
        exact ⟨rem, rfl, hc, by simp [hc]⟩
    · simp only [if_neg hok, Option.some.injEq, Prod.mk.injEq] at h
      exact absurd h.1 hok

/-- A call of `dson_parse_context::parse` that returns `DSON_OK` and leaves only
whitespace makes `parse` return `DSON_OK`. -/
theorem parse_ok_of (p : DsonParser) (json : List Char) (v : dson_value) (d : Nat)
    (rem : List Char) (hd : d ≤ json.length + 1)
    (h : dson_parse_context.parse d
        ⟨json.dropWhile dson_parse_context.is_whitespace, []⟩ p.value_ =
          some (DSON_OK, v, ⟨rem, []⟩))
    (hrem : rem.dropWhile dson_parse_context.is_whitespace = []) :
    p.parse json = some (DSON_OK, ⟨v⟩, ⟨[], []⟩) := by
  unfold parse
  simp only [dson_parse_context.skip_whitespace]
  rw [dson_parse_context.parse_mono _ _ _ _ _ hd h]
  simp [dson_parse_context.is_completed, hrem]

end DsonParser

theorem join_commas_cons_cons (t t' : List Char) (ts : List (List Char)) :
    join_commas (t :: t' :: ts) = t ++ ',' :: join_commas (t' :: ts) := rfl

theorem length_le_join_commas (ts : List (List Char)) :
    ∀ t ∈ ts, t.length ≤ (join_commas ts).length := by
  induction ts with
  | nil => intro t ht; simp at ht
  | cons a ts ih =>
    intro t ht
    cases ts with
    | nil =>
      simp only [List.mem_singleton] at ht
      subst ht
      simp [join_commas]
    | cons b ts =>
      rw [join_commas_cons_cons, List.length_append, List.length_cons]
      rcases List.mem_cons.mp ht with h | h
      · subst h; omega
      · have := ih t h
        omega

theorem length_join_commas (ts : List (List Char)) :
    ts.length ≤ (join_commas ts).length + 1 := by
  induction ts with
  | nil => simp
  | cons a ts ih =>
    cases ts with
    | nil => simp
    | cons b ts =>
      simp only [join_commas_cons_cons, List.length_append, List.length_cons] at ih ⊢
      omega
theorem not_whitespace_dropWhile (c : Char) (t : List Char)
    (h : dson_parse_context.is_whitespace c = false) :
    (c :: t).dropWhile dson_parse_context.is_whitespace = c :: t := by
  simp [List.dropWhile_cons, h]

/-- The loop of `parse_array` on the texts `ts` joined by commas and closed by `]`: each
text parses, with only whitespace left, to the value at the same place in `vs`. -/
theorem parse_array_loop_elems (D : Nat) (ts : List (List Char)) (vs : List dson_value)
    (h : List.Forall₂ (fun t v => ∃ rem,
      dson_parse_context.parse D ⟨t.dropWhile dson_parse_context.is_whitespace, []⟩
        dson_value.new = some (DSON_OK, v, ⟨rem, []⟩) ∧
      rem.dropWhile dson_parse_context.is_whitespace = []) ts vs) :
    ts ≠ [] → ∀ (f : Nat) (tmp : List dson_value) (rest : List Char), ts.length ≤ f →
      dson_parse_context.parse_array_loop (fun c => dson_parse_context.parse D c dson_value.new)
        f tmp ⟨(join_commas ts ++ ']' :: rest).dropWhile dson_parse_context.is_whitespace, []⟩ =
        some (DSON_OK, tmp ++ vs, ⟨rest, []⟩) := by
  induction h with
  | nil => intro hne; exact absurd rfl hne
  | @cons t v ts vs hR hrest ih =>
    intro _ f tmp rest hf
    obtain ⟨rem, hp, hrem⟩ := hR
    obtain ⟨-, hne, hx⟩ := dson_parse_context.parse_good _ _ _ _ _ _ hp
    obtain ⟨g, rfl⟩ : ∃ g, f = g + 1 := ⟨f - 1, by simp at hf; omega⟩
    cases hrest with
    | nil =>
      simp only [join_commas]
      rw [dropWhile_append_of_ne_nil _ _ hne, dson_parse_context.parse_array_loop,
        hx _ (stops_cons ']' rest (by decide))]
      simp only [ne_eq, not_true_eq_false, if_false, dson_parse_context.skip_whitespace]
      rw [dropWhile_append_of_nil _ _ hrem, not_whitespace_dropWhile _ _ (by decide)]
      simp
    | @cons t' v' ts' vs' hR' hrest' =>
      rw [join_commas_cons_cons, List.append_assoc, List.cons_append,
        dropWhile_append_of_ne_nil _ _ hne, dson_parse_context.parse_array_loop,
        hx _ (stops_cons ',' _ (by decide))]
      simp only [ne_eq, not_true_eq_false, if_false, dson_parse_context.skip_whitespace]
      rw [dropWhile_append_of_nil _ _ hrem, not_whitespace_dropWhile _ _ (by decide)]
      simp only
      rw [ih (by simp) g (tmp ++ [v]) rest (by simp at hf ⊢; omega)]
      simp

theorem parse_closing_bracket (d : Nat) (t vec : List Char) (value : dson_value) :
    dson_parse_context.parse (d + 1) ⟨']' :: t, vec⟩ value =
      some (DSON_INVALID_VALUE, value, ⟨']' :: t, vec⟩) := by
  rw [dson_parse_context.parse_cons]
  simp [dson_parse_context.parse_number, dson_parse_context.number_scan,
    dson_parse_context.number_integer, isdigit]

theorem forall₂_imp_mem {α β : Type} {R S : α → β → Prop} {l : List α} {m : List β}
    (h : List.Forall₂ R l m) (himp : ∀ a b, a ∈ l → R a b → S a b) : List.Forall₂ S l m := by
  induction h with
  | nil => exact .nil
  | cons hR _ ih =>
    exact .cons (himp _ _ (List.mem_cons_self _ _) hR)
      (ih (fun a b ha => himp a b (List.mem_cons_of_mem _ ha)))

/-- The text `[t1,...,tn]` parses to the Array of the values of its element texts. -/
theorem parse_array_text (ts : List (List Char)) (vs : List dson_value)
    (h : List.Forall₂ (fun t v => ∃ c, DsonParser.new.parse t = some (DSON_OK, ⟨v⟩, c)) ts vs) :
    DsonParser.new.parse (array_text ts) =
      some (DSON_OK, ⟨.mk DSON_ARRAY (some (.vector vs))⟩, ⟨[], []⟩) := by
  apply DsonParser.parse_ok_of _ _ _ ((array_text ts).length + 1) [] (le_refl _) _ rfl
  have hview : (array_text ts).dropWhile dson_parse_context.is_whitespace = array_text ts := by
    simp only [array_text, List.cons_append, List.nil_append]
    exact not_whitespace_dropWhile _ _ (by decide)
  rw [hview]
  simp only [array_text, List.cons_append, List.nil_append, List.length_cons]
  rw [dson_parse_context.parse_cons]
  simp only [Char.reduceEq, if_false, if_true]
  unfold dson_parse_context.parse_array
  simp only [List.tail_cons, dson_parse_context.skip_whitespace]
  cases ts with
  | nil =>
    cases h
    simp only [join_commas, List.nil_append]
    rw [not_whitespace_dropWhile _ _ (by decide)]
    rfl
  | cons t ts' =>
    -- every text parses at the depth of the array
    have hall := forall₂_imp_mem (S := fun a b => ∃ rem,
        dson_parse_context.parse ((join_commas (t :: ts') ++ [']']).length + 1)
          ⟨a.dropWhile dson_parse_context.is_whitespace, []⟩
          dson_value.new = some (DSON_OK, b, ⟨rem, []⟩) ∧
        rem.dropWhile dson_parse_context.is_whitespace = []) h (by
      intro a b ha ⟨c, hc⟩
      obtain ⟨rem, hp, hrem, -⟩ := DsonParser.parse_ok_inv _ _ _ _ hc
      refine ⟨rem, dson_parse_context.parse_mono _ _ _ _ _ ?_ hp, hrem⟩
      have := length_le_join_commas (t :: ts') a ha
      rw [List.length_append]
      omega)
    have hloop := parse_array_loop_elems _ _ _ hall (by simp)
    cases hall with
    | @cons _ v _ vs' hR hrest =>
      obtain ⟨rem, hp, hrem⟩ := hR
      obtain ⟨-, hne, -⟩ := dson_parse_context.parse_good _ _ _ _ _ _ hp
      -- the first text does not start with `]`
      obtain ⟨c, t0, hct⟩ : ∃ c t0, t.dropWhile dson_parse_context.is_whitespace = c :: t0 := by
        cases hd : t.dropWhile dson_parse_context.is_whitespace with
        | nil => exact absurd hd hne
        | cons c t0 => exact ⟨c, t0, rfl⟩
      have hc : c ≠ ']' := by
        rintro rfl
        rw [hct, parse_closing_bracket] at hp
        simp at hp
      have hfuel : (t :: ts').length ≤
          ((join_commas (t :: ts') ++ [']']).dropWhile
            dson_parse_context.is_whitespace).length + 1 := by
        cases ts' with
        | nil => simp
        | cons t' ts'' =>
          have := length_join_commas (t' :: ts'')
          rw [join_commas_cons_cons, List.append_assoc, dropWhile_append_of_ne_nil _ _ hne]
          simp only [List.length_cons, List.length_append, List.length_nil] at this ⊢
          omega
      have hl := hloop _ [] [] hfuel
      split
      · next rest heq =>
        exfalso
        have hj : join_commas (t :: ts') ++ [']'] = t ++ (join_commas (t :: ts') ++ [']']).drop t.length := by
          cases ts' with
          | nil => simp [join_commas]
          | cons t' ts'' => simp [join_commas_cons_cons]
        rw [hj, dropWhile_append_of_ne_nil _ _ hne, hct] at heq
        simp only [List.cons_append, List.cons.injEq] at heq
        exact hc heq.1
      · rw [hl]
        rfl

/-- C9: array parsing is compositional and order-preserving. For every list of texts
`t1..tn` (`n ≥ 0`) each of which parses alone, on a new parser, to `DSON_OK` with the root
`vi`, `parse` of `[t1,...,tn]` on a new parser returns `DSON_OK` with a root of kind Array
that holds exactly the values `v1..vn` in this order. -/
theorem parse_array_of_elements (ts : List (List Char)) (vs : List dson_value)
    (h : List.Forall₂ (fun t v => ∃ c, DsonParser.new.parse t = some (DSON_OK, ⟨v⟩, c)) ts vs) :
    DsonParser.new.parse (array_text ts) =
      some (DSON_OK, ⟨.mk DSON_ARRAY (some (.vector vs))⟩, ⟨[], []⟩) :=
  parse_array_text ts vs h

/-- C9 at the texts `1.5`, ` true `, `[null]` and `"a"`. -/
theorem parse_array_of_elements_witness :
    List.Forall₂ (fun t v => ∃ c, DsonParser.new.parse t = some (DSON_OK, ⟨v⟩, c))
      ["1.5".toList, " true ".toList, "[null]".toList, "\"a\"".toList]
      [.mk DSON_NUMBER (some (.double 0x3FF8000000000000)), .mk DSON_TRUE none,
        .mk DSON_ARRAY (some (.vector [.mk DSON_NULL none])),
        .mk DSON_STRING (some (.string ['a']))] ∧
    DsonParser.new.parse
        (array_text ["1.5".toList, " true ".toList, "[null]".toList, "\"a\"".toList]) =
      some (DSON_OK, ⟨.mk DSON_ARRAY (some (.vector
        [.mk DSON_NUMBER (some (.double 0x3FF8000000000000)), .mk DSON_TRUE none,
          .mk DSON_ARRAY (some (.vector [.mk DSON_NULL none])),
          .mk DSON_STRING (some (.string ['a']))]))⟩, ⟨[], []⟩) :=
  ⟨.cons ⟨_, rfl⟩ (.cons ⟨_, rfl⟩ (.cons ⟨_, rfl⟩ (.cons ⟨_, rfl⟩ .nil))),
    parse_array_of_elements _ _
      (.cons ⟨_, rfl⟩ (.cons ⟨_, rfl⟩ (.cons ⟨_, rfl⟩ (.cons ⟨_, rfl⟩ .nil))))⟩
/-! ## Kinds of parsed values -/

namespace dson_parse_context

theorem parse_null_type (self : dson_parse_context) (value value' : dson_value)
    (c : dson_parse_context) (h : parse_null self value = (DSON_OK, value', c)) :
    value'.type = DSON_NULL := by
  unfold parse_null at h
  split at h
  · split_ifs at h
    · simp at h
    · simp only [Prod.mk.injEq, true_and] at h
      rw [← h.1]; cases value; rfl
  · simp at h

theorem parse_true_type (self : dson_parse_context) (value value' : dson_value)
    (c : dson_parse_context) (h : parse_true self value = (DSON_OK, value', c)) :
    value'.type = DSON_TRUE := by
  unfold parse_true at h
  split at h
  · split_ifs at h
    · simp at h
    · simp only [Prod.mk.injEq, true_and] at h
      rw [← h.1]; cases value; rfl
  · simp at h

theorem parse_false_type (self : dson_parse_context) (value value' : dson_value)
    (c : dson_parse_context) (h : parse_false self value = (DSON_OK, value', c)) :
    value'.type = DSON_FALSE := by
  unfold parse_false at h
  split at h
  · split_ifs at h
    · simp at h
    · simp only [Prod.mk.injEq, true_and] at h
      rw [← h.1]; cases value; rfl
  · simp at h

theorem parse_number_type (self : dson_parse_context) (value value' : dson_value)
    (c : dson_parse_context) (h : parse_number self value = (DSON_OK, value', c)) :
    value'.type = DSON_NUMBER ∧ ∃ d, value'.option_value = some (.double d) := by
  unfold parse_number at h
  split at h
  · simp at h
  · simp only at h
    split_ifs at h
    · simp at h
    · simp only [Prod.mk.injEq, true_and] at h
      rw [← h.1]; cases value; exact ⟨rfl, _, rfl⟩

theorem parse_array_type (elem : dson_parse_context → Option parse_result)
    (self : dson_parse_context) (value value' : dson_value)
    (c : dson_parse_context) (h : parse_array elem self value = some (DSON_OK, value', c)) :
    value'.type = DSON_ARRAY ∧ ∃ xs, value'.option_value = some (.vector xs) := by
  unfold parse_array at h
  simp only at h
  split at h
  · simp only [Option.some.injEq, Prod.mk.injEq, true_and] at h
    rw [← h.1]; cases value; exact ⟨rfl, _, rfl⟩
  · simp only [Option.map_eq_some'] at h
    obtain ⟨⟨e, tmp, c'⟩, -, hr⟩ := h
    simp only at hr
    split_ifs at hr
    · simp only [Prod.mk.injEq, true_and] at hr
      rw [← hr.1]; cases value; exact ⟨rfl, _, rfl⟩
    · simp only [Prod.mk.injEq] at hr
      exact absurd hr.1 (by assumption)

theorem parse_object_type (elem : dson_parse_context → Option parse_result)
    (self : dson_parse_context) (value value' : dson_value)
    (c : dson_parse_context) (h : parse_object elem self value = some (DSON_OK, value', c)) :
    value'.type = DSON_OBJECT ∧ ∃ m, value'.option_value = some (.unordered_map m) := by
  unfold parse_object at h
  simp only at h
  split at h
  · simp only [Option.some.injEq, Prod.mk.injEq, true_and] at h
    rw [← h.1]; cases value; exact ⟨rfl, _, rfl⟩
  · simp only [Option.map_eq_some'] at h
    obtain ⟨⟨e, tmp, c'⟩, -, hr⟩ := h
    simp only at hr
    split_ifs at hr
    · simp only [Prod.mk.injEq, true_and] at hr
      rw [← hr.1]; cases value; exact ⟨rfl, _, rfl⟩
    · simp only [Prod.mk.injEq] at hr
      exact absurd hr.1 (by assumption)

theorem parse_string_value_ok (self : dson_parse_context) (value value' : dson_value)
    (c : dson_parse_context) (h : parse_string_value self value = some (DSON_OK, value', c)) :
    ∃ s, parse_string self = some ((s, DSON_OK), c) ∧
      value' = (value.set_option_value (.string s)).set_type DSON_STRING := by
  unfold parse_string_value at h
  simp only [Option.map_eq_some'] at h
  obtain ⟨⟨⟨s, e⟩, c'⟩, hs, hr⟩ := h
  simp only at hr
  split_ifs at hr with hok
  · subst hok
    simp only [Prod.mk.injEq, true_and] at hr
    exact ⟨s, by rw [hs, hr.2], hr.1.symm⟩
  · simp only [Prod.mk.injEq] at hr
    exact absurd hr.1 hok

/-- A call of `parse` that returns `DSON_OK` with a value of kind String was a call of
`parse_string` on a view that starts with `"`. -/
theorem parse_string_inv (d : Nat) (v vec : List Char) (value value' : dson_value)
    (c : dson_parse_context) (h : parse d ⟨v, vec⟩ value = some (DSON_OK, value', c))
    (ht : value'.type = DSON_STRING) :
    v.head? = some '"' ∧
      ∃ s, parse_string ⟨v, vec⟩ = some ((s, DSON_OK), c) ∧
        value' = (value.set_option_value (.string s)).set_type DSON_STRING := by
  cases d with
  | zero => simp [parse] at h
  | succ d =>
    cases v with
    | nil => rw [parse_nil] at h; simp at h
    | cons ch t =>
      rw [parse_cons] at h
      split_ifs at h with h1 h2 h3 h4 h5 h6
      · simp only [Option.some.injEq] at h
        rw [parse_null_type _ _ _ _ h] at ht; cases ht
      · simp only [Option.some.injEq] at h
        rw [parse_false_type _ _ _ _ h] at ht; cases ht
      · simp only [Option.some.injEq] at h
        rw [parse_true_type _ _ _ _ h] at ht; cases ht
      · exact ⟨by rw [h4]; rfl, parse_string_value_ok _ _ _ _ h⟩
      · rw [(parse_array_type _ _ _ _ _ h).1] at ht; cases ht
      · rw [(parse_object_type _ _ _ _ _ h).1] at ht; cases ht
      · simp only [Option.some.injEq] at h
        rw [(parse_number_type _ _ _ _ h).1] at ht; cases ht

end dson_parse_context
/-! ## Objects -/

theorem join_members_cons_cons (m m' : member) (ms : List member) :
    join_members (m :: m' :: ms) =
      m.key_text ++ ':' :: m.value_text ++ ',' :: join_members (m' :: ms) := rfl

theorem parse_object_loop_members (D : Nat) (ms : List member)
    (h : ∀ m ∈ ms, member_ok D m) :
    ms ≠ [] → ∀ (f : Nat) (mp : List (List Char × dson_value)) (rest : List Char),
      ms.length ≤ f →
      dson_parse_context.parse_object_loop
        (fun c => dson_parse_context.parse D c dson_value.new)
        f mp ⟨(join_members ms ++ '}' :: rest).dropWhile dson_parse_context.is_whitespace, []⟩ =
        some (DSON_OK, ms.foldl (fun mp m => map_assign mp m.key m.value) mp, ⟨rest, []⟩) := by
  induction ms with
  | nil => intro hne; exact absurd rfl hne
  | cons m ms ih =>
    intro _ f mp rest hf
    obtain ⟨⟨remk, hq, hk, hremk⟩, ⟨rem, hp, hrem⟩⟩ := h m (List.mem_cons_self _ _)
    obtain ⟨-, hne, hx⟩ := dson_parse_context.parse_good _ _ _ _ _ _ hp
    have hkne : m.key_text.dropWhile dson_parse_context.is_whitespace ≠ [] := by
      intro h0; rw [h0] at hq; simp at hq
    obtain ⟨g, rfl⟩ : ∃ g, f = g + 1 := ⟨f - 1, by simp at hf; omega⟩
    -- one member, followed by `y`
    have hstep : ∀ y : List Char, stops y →
        dson_parse_context.parse_object_loop
          (fun c => dson_parse_context.parse D c dson_value.new) (g + 1) mp
          ⟨(m.key_text ++ ':' :: (m.value_text ++ y)).dropWhile
            dson_parse_context.is_whitespace, []⟩ =
        (match y.dropWhile dson_parse_context.is_whitespace with
          | ',' :: rest =>
            dson_parse_context.parse_object_loop
              (fun c => dson_parse_context.parse D c dson_value.new) g
              (map_assign mp m.key m.value)
              ⟨rest.dropWhile dson_parse_context.is_whitespace, []⟩
          | '}' :: rest => some (DSON_OK, map_assign mp m.key m.value, ⟨rest, []⟩)
          | _ => some (DSON_MISS_COMMA_OR_CURLY_BRACKET, map_assign mp m.key m.value,
              ⟨y.dropWhile dson_parse_context.is_whitespace, []⟩)) := by
      intro y sy
      rw [dropWhile_append_of_ne_nil _ _ hkne,
        dson_parse_context.parse_object_loop]
      simp only
      have hq' : ((m.key_text.dropWhile dson_parse_context.is_whitespace) ++
          (':' :: (m.value_text ++ y))).head? = some '"' := by
        cases hd : m.key_text.dropWhile dson_parse_context.is_whitespace with
        | nil => exact absurd hd hkne
        | cons a l => rw [hd] at hq; simpa using hq
      rw [if_neg (not_not.mpr hq'), dson_parse_context.parse_string_append _ _ _ _ _ hk]
      simp only [ne_eq, not_true_eq_false, if_false, dson_parse_context.skip_whitespace]
      rw [dropWhile_append_of_nil _ _ hremk,
        not_whitespace_dropWhile _ _ (by decide)]
      simp only [List.head?_cons, not_true_eq_false, if_false, List.tail_cons]
      rw [dropWhile_append_of_ne_nil _ _ hne, hx y sy]
      simp only [not_true_eq_false, if_false]
      rw [dropWhile_append_of_nil _ _ hrem]
    cases ms with
    | nil =>
      simp only [join_members, List.foldl_cons, List.foldl_nil, List.append_assoc,
        List.cons_append]
      rw [hstep _ (stops_cons '}' rest (by decide)),
        not_whitespace_dropWhile _ _ (by decide)]
      simp
    | cons m' ms' =>
      simp only [join_members_cons_cons, List.foldl_cons, List.append_assoc,
        List.cons_append]
      rw [hstep _ (stops_cons ',' _ (by decide)),
        not_whitespace_dropWhile _ _ (by decide)]
      simp only
      have := ih (fun a ha => h a (List.mem_cons_of_mem _ ha)) (by simp) g
        (map_assign mp m.key m.value) rest (by simp at hf ⊢; omega)
      simp only [List.foldl_cons] at this
      exact this

/-! The mapping `mp[key] = value` builds. -/

theorem map_assign_keys {α : Type} (mp : List (List Char × α)) (k : List Char) (v : α) :
    ∀ k', k' ∈ (map_assign mp k v).map Prod.fst ↔ k' = k ∨ k' ∈ mp.map Prod.fst := by
  induction mp with
  | nil => intro k'; simp [map_assign]
  | cons a mp ih =>
    intro k'
    obtain ⟨ka, va⟩ := a
    unfold map_assign
    split_ifs with hk
    · subst hk
      simp only [List.map_cons, List.mem_cons]
      tauto
    · simp only [List.map_cons, List.mem_cons, ih k']
      tauto

theorem map_assign_nodup {α : Type} (mp : List (List Char × α)) (k : List Char) (v : α)
    (h : (mp.map Prod.fst).Nodup) : ((map_assign mp k v).map Prod.fst).Nodup := by
  induction mp with
  | nil => simp [map_assign]
  | cons a mp ih =>
    obtain ⟨ka, va⟩ := a
    simp only [List.map_cons, List.nodup_cons] at h
    unfold map_assign
    split_ifs with hk
    · subst hk
      simp only [List.map_cons, List.nodup_cons]
      exact h
    · simp only [List.map_cons, List.nodup_cons]
      refine ⟨?_, ih h.2⟩
      rw [map_assign_keys]
      rintro (h1 | h1)
      · exact hk h1
      · exact h.1 h1

theorem map_assign_mem_self {α : Type} (mp : List (List Char × α)) (k : List Char) (v : α) :
    (k, v) ∈ map_assign mp k v := by
  induction mp with
  | nil => simp [map_assign]
  | cons a mp ih =>
    obtain ⟨ka, va⟩ := a
    unfold map_assign
    split_ifs with hk
    · simp
    · exact List.mem_cons.mpr (Or.inr ih)

theorem map_assign_mem_of_ne {α : Type} (mp : List (List Char × α)) (k k' : List Char)
    (v v' : α) (hne : k' ≠ k) (h : (k', v') ∈ mp) : (k', v') ∈ map_assign mp k v := by
  induction mp with
  | nil => simp at h
  | cons a mp ih =>
    obtain ⟨ka, va⟩ := a
    unfold map_assign
    split_ifs with hk
    · subst hk
      rcases List.mem_cons.mp h with h1 | h1
      · simp only [Prod.mk.injEq] at h1
        exact absurd h1.1 hne
      · exact List.mem_cons.mpr (Or.inr h1)
    · rcases List.mem_cons.mp h with h1 | h1
      · exact List.mem_cons.mpr (Or.inl h1)
      · exact List.mem_cons.mpr (Or.inr (ih h1))

theorem foldl_map_assign_keys (ms : List member) :
    ∀ (mp : List (List Char × dson_value)) k,
      k ∈ (ms.foldl (fun mp m => map_assign mp m.key m.value) mp).map Prod.fst ↔
        k ∈ mp.map Prod.fst ∨ k ∈ ms.map member.key := by
  induction ms with
  | nil =>
    intro mp k
    simp only [List.foldl_nil, List.map_nil, List.not_mem_nil, or_false]
  | cons m ms ih =>
    intro mp k
    simp only [List.foldl_cons, ih, map_assign_keys, List.map_cons, List.mem_cons]
    tauto

theorem foldl_map_assign_nodup (ms : List member) :
    ∀ (mp : List (List Char × dson_value)), (mp.map Prod.fst).Nodup →
      ((ms.foldl (fun mp m => map_assign mp m.key m.value) mp).map Prod.fst).Nodup := by
  induction ms with
  | nil => intro mp h; exact h
  | cons m ms ih =>
    intro mp h
    exact ih _ (map_assign_nodup _ _ _ h)

theorem foldl_map_assign_mem (ms : List member) :
    ∀ (mp : List (List Char × dson_value)) k v, (k, v) ∈ mp →
      (∀ m ∈ ms, m.key ≠ k) →
      (k, v) ∈ ms.foldl (fun mp m => map_assign mp m.key m.value) mp := by
  induction ms with
  | nil => intro mp k v h _; exact h
  | cons m ms ih =>
    intro mp k v h hne
    simp only [List.foldl_cons]
    apply ih
    · exact map_assign_mem_of_ne _ _ _ _ _
        (fun e => hne m (List.mem_cons.mpr (Or.inl rfl)) e.symm) h
    · exact fun m' hm' => hne m' (List.mem_cons.mpr (Or.inr hm'))

/-- The mapping built from the members has no key twice, has as many entries as there are
distinct keys, and maps the key of a member that is not followed by a member with the same
key to the value of that member. -/
theorem members_map_spec (ms : List member) :
    ((members_map ms).map Prod.fst).Nodup ∧
    (members_map ms).length = ((ms.map member.key).dedup).length ∧
    ∀ pre m post, ms = pre ++ m :: post → (∀ m' ∈ post, m'.key ≠ m.key) →
      (m.key, m.value) ∈ members_map ms := by
  have hnd := foldl_map_assign_nodup ms [] (by simp)
  refine ⟨hnd, ?_, ?_⟩
  · have hperm : ((members_map ms).map Prod.fst).Perm ((ms.map member.key).dedup) := by
      unfold members_map
      rw [List.perm_ext_iff_of_nodup hnd (List.nodup_dedup _)]
      intro k
      simp only [foldl_map_assign_keys, List.map_nil, List.not_mem_nil, false_or,
        List.mem_dedup]
    have := hperm.length_eq
    simpa using this
  · intro pre m post hms hpost
    subst hms
    simp only [members_map, List.foldl_append, List.foldl_cons]
    exact foldl_map_assign_mem _ _ _ _ (map_assign_mem_self _ _ _) hpost
theorem length_le_join_members (ms : List member) :
    ∀ m ∈ ms, m.value_text.length ≤ (join_members ms).length := by
  induction ms with
  | nil => intro m hm; simp at hm
  | cons a ms ih =>
    intro m hm
    cases ms with
    | nil =>
      simp only [List.mem_singleton] at hm
      subst hm
      simp only [join_members, List.length_append, List.length_cons]
      omega
    | cons b ms =>
      simp only [join_members_cons_cons, List.length_append, List.length_cons]
      rcases List.mem_cons.mp hm with h | h
      · subst h; omega
      · have := ih m h
        omega

theorem length_join_members (ms : List member) :
    ms.length ≤ (join_members ms).length + 1 := by
  induction ms with
  | nil => simp
  | cons a ms ih =>
    cases ms with
    | nil => simp
    | cons b ms =>
      simp only [join_members_cons_cons, List.length_append, List.length_cons] at ih ⊢
      omega

theorem member_ok_of_valid (D : Nat) (m : member) (h : m.valid)
    (hv : m.value_text.length + 1 ≤ D) : member_ok D m := by
  obtain ⟨⟨ck, hck⟩, ⟨cv, hcv⟩⟩ := h
  constructor
  · obtain ⟨rem, hp, hrem, -⟩ := DsonParser.parse_ok_inv _ _ _ _ hck
    obtain ⟨hq, s, hs, hval⟩ := dson_parse_context.parse_string_inv _ _ _ _ _ _ hp rfl
    have : s = m.key := by
      simp only [DsonParser.new, dson_value.new, dson_value.set_option_value,
        dson_value.set_type, dson_value.mk.injEq, Option.some.injEq,
        value_type.string.injEq, true_and] at hval
      exact hval.symm
    subst this
    exact ⟨rem, hq, hs, hrem⟩
  · obtain ⟨rem, hp, hrem, -⟩ := DsonParser.parse_ok_inv _ _ _ _ hcv
    exact ⟨rem, dson_parse_context.parse_mono _ _ _ _ _ hv hp, hrem⟩

/-- The text `{k1:t1,...,kn:tn}` parses to the Object built from its members by
`mp[key] = value`. -/
theorem parse_object_text (ms : List member) (h : ∀ m ∈ ms, m.valid) :
    DsonParser.new.parse (object_text ms) =
      some (DSON_OK, ⟨.mk DSON_OBJECT (some (.unordered_map (members_map ms)))⟩, ⟨[], []⟩) := by
  apply DsonParser.parse_ok_of _ _ _ ((object_text ms).length + 1) [] (le_refl _) _ rfl
  have hview : (object_text ms).dropWhile dson_parse_context.is_whitespace = object_text ms := by
    simp only [object_text, List.cons_append, List.nil_append]
    exact not_whitespace_dropWhile _ _ (by decide)
  rw [hview]
  simp only [object_text, List.cons_append, List.nil_append, List.length_cons]
  rw [dson_parse_context.parse_cons]
  simp only [Char.reduceEq, if_false, if_true]
  unfold dson_parse_context.parse_object
  simp only [List.tail_cons, dson_parse_context.skip_whitespace]
  cases ms with
  | nil =>
    simp only [join_members, List.nil_append]
    rw [not_whitespace_dropWhile _ _ (by decide)]
    rfl
  | cons m ms' =>
    have hall : ∀ a ∈ m :: ms',
        member_ok ((join_members (m :: ms') ++ ['}']).length + 1) a := by
      intro a ha
      apply member_ok_of_valid _ _ (h a ha)
      have := length_le_join_members (m :: ms') a ha
      rw [List.length_append]
      omega
    have hloop := parse_object_loop_members _ _ hall (by simp)
    obtain ⟨⟨remk, hq, hk, hremk⟩, -⟩ := hall m (List.mem_cons_self _ _)
    have hkne : m.key_text.dropWhile dson_parse_context.is_whitespace ≠ [] := by
      intro h0; rw [h0] at hq; simp at hq
    have hj : join_members (m :: ms') ++ ['}'] =
        m.key_text ++ (join_members (m :: ms') ++ ['}']).drop m.key_text.length := by
      cases ms' with
      | nil => simp [join_members]
      | cons m' ms'' => simp [join_members_cons_cons]
    have hfuel : (m :: ms').length ≤
        ((join_members (m :: ms') ++ ['}']).dropWhile
          dson_parse_context.is_whitespace).length + 1 := by
      cases ms' with
      | nil => simp
      | cons m' ms'' =>
        have := length_join_members (m' :: ms'')
        rw [join_members_cons_cons, List.append_assoc, List.append_assoc,
          dropWhile_append_of_ne_nil _ _ hkne]
        simp only [List.length_cons, List.length_append, List.length_nil] at this ⊢
        omega
    have hl := hloop _ [] [] hfuel
    split
    · next rest heq =>
      exfalso
      rw [hj, dropWhile_append_of_ne_nil _ _ hkne] at heq
      cases hd : m.key_text.dropWhile dson_parse_context.is_whitespace with
      | nil => exact hkne hd
      | cons c t0 =>
        rw [hd] at heq hq
        simp only [List.cons_append, List.cons.injEq] at heq
        simp only [List.head?_cons, Option.some.injEq] at hq
        rw [hq] at heq
        exact absurd heq.1 (by decide)
    · rw [hl]
      rfl

/-- C10: duplicate keys, last write wins. For every object text `{k1:t1,...,kn:tn}` whose
key texts parse alone to Strings and whose value texts parse alone to values `vi`, `parse`
on a new parser returns `DSON_OK` with an Object root whose mapping has no key twice, has
as many members as there are distinct decoded keys, and maps each key to the value `vi` of
its last occurrence in the text. -/
theorem parse_object_last_write_wins (ms : List member) (h : ∀ m ∈ ms, m.valid) :
    DsonParser.new.parse (object_text ms) =
      some (DSON_OK, ⟨.mk DSON_OBJECT (some (.unordered_map (members_map ms)))⟩, ⟨[], []⟩) ∧
    ((members_map ms).map Prod.fst).Nodup ∧
    (members_map ms).length = ((ms.map member.key).dedup).length ∧
    ∀ pre m post, ms = pre ++ m :: post → (∀ m' ∈ post, m'.key ≠ m.key) →
      (m.key, m.value) ∈ members_map ms :=
  ⟨parse_object_text ms h, members_map_spec ms⟩

/-- C10 at the text `{"a":1,"b":true,"a":[null]}`, where the key `a` is given twice. -/
theorem parse_object_last_write_wins_witness :
    (∀ m ∈ [member.mk "\"a\"".toList ['a'] "1".toList
          (.mk DSON_NUMBER (some (.double 0x3FF0000000000000))),
        member.mk "\"b\"".toList ['b'] "true".toList (.mk DSON_TRUE none),
        member.mk "\"a\"".toList ['a'] "[null]".toList
          (.mk DSON_ARRAY (some (.vector [.mk DSON_NULL none])))], m.valid) ∧
    DsonParser.new.parse (object_text [member.mk "\"a\"".toList ['a'] "1".toList
          (.mk DSON_NUMBER (some (.double 0x3FF0000000000000))),
        member.mk "\"b\"".toList ['b'] "true".toList (.mk DSON_TRUE none),
        member.mk "\"a\"".toList ['a'] "[null]".toList
          (.mk DSON_ARRAY (some (.vector [.mk DSON_NULL none])))]) =
      some (DSON_OK, ⟨.mk DSON_OBJECT (some (.unordered_map
        [(['a'], .mk DSON_ARRAY (some (.vector [.mk DSON_NULL none]))),
          (['b'], .mk DSON_TRUE none)]))⟩, ⟨[], []⟩) :=
  have hv : ∀ m ∈ [member.mk "\"a\"".toList ['a'] "1".toList
          (.mk DSON_NUMBER (some (.double 0x3FF0000000000000))),
        member.mk "\"b\"".toList ['b'] "true".toList (.mk DSON_TRUE none),
        member.mk "\"a\"".toList ['a'] "[null]".toList
          (.mk DSON_ARRAY (some (.vector [.mk DSON_NULL none])))], m.valid := by
    intro m hm
    simp only [List.mem_cons, List.mem_singleton, List.not_mem_nil, or_false] at hm
    rcases hm with rfl | rfl | rfl <;> exact ⟨⟨_, rfl⟩, ⟨_, rfl⟩⟩
  ⟨hv, (parse_object_last_write_wins _ hv).1⟩
/-! ## Kind and payload after a successful parse -/

namespace dson_parse_context

theorem parse_null_ok (self : dson_parse_context) (value value' : dson_value)
    (c : dson_parse_context) (h : parse_null self value = (DSON_OK, value', c)) :
    value' = value.set_type DSON_NULL := by
  unfold parse_null at h
  split at h
  · split_ifs at h
    · simp at h
    · simp only [Prod.mk.injEq, true_and] at h
      exact h.1.symm
  · simp at h

theorem parse_true_ok (self : dson_parse_context) (value value' : dson_value)
    (c : dson_parse_context) (h : parse_true self value = (DSON_OK, value', c)) :
    value' = value.set_type DSON_TRUE := by
  unfold parse_true at h
  split at h
  · split_ifs at h
    · simp at h
    · simp only [Prod.mk.injEq, true_and] at h
      exact h.1.symm
  · simp at h

theorem parse_false_ok (self : dson_parse_context) (value value' : dson_value)
    (c : dson_parse_context) (h : parse_false self value = (DSON_OK, value', c)) :
    value' = value.set_type DSON_FALSE := by
  unfold parse_false at h
  split at h
  · split_ifs at h
    · simp at h
    · simp only [Prod.mk.injEq, true_and] at h
      exact h.1.symm
  · simp at h

/-- The kind and the payload of the value after a call of `parse` that returns `DSON_OK`:
a literal sets only the kind, every other value sets the kind and a payload that fits. -/
theorem parse_ok_kind (d : Nat) (self : dson_parse_context) (value value' : dson_value)
    (c : dson_parse_context) (h : parse d self value = some (DSON_OK, value', c)) :
    ((value'.type = DSON_NULL ∨ value'.type = DSON_FALSE ∨ value'.type = DSON_TRUE) ∧
      value'.option_value = value.option_value) ∨
    (value'.type = DSON_NUMBER ∧ ∃ x, value'.option_value = some (.double x)) ∨
    (value'.type = DSON_STRING ∧ ∃ s, value'.option_value = some (.string s)) ∨
    (value'.type = DSON_ARRAY ∧ ∃ xs, value'.option_value = some (.vector xs)) ∨
    (value'.type = DSON_OBJECT ∧ ∃ m, value'.option_value = some (.unordered_map m)) := by
  cases d with
  | zero => simp [parse] at h
  | succ d =>
    obtain ⟨v, vec⟩ := self
    cases v with
    | nil => rw [parse_nil] at h; simp at h
    | cons ch t =>
      rw [parse_cons] at h
      split_ifs at h
      · simp only [Option.some.injEq] at h
        rw [parse_null_ok _ _ _ _ h]
        cases value; exact Or.inl ⟨Or.inl rfl, rfl⟩
      · simp only [Option.some.injEq] at h
        rw [parse_false_ok _ _ _ _ h]
        cases value; exact Or.inl ⟨Or.inr (Or.inl rfl), rfl⟩
      · simp only [Option.some.injEq] at h
        rw [parse_true_ok _ _ _ _ h]
        cases value; exact Or.inl ⟨Or.inr (Or.inr rfl), rfl⟩
      · obtain ⟨s, -, hv⟩ := parse_string_value_ok _ _ _ _ h
        rw [hv]
        cases value; exact Or.inr (Or.inr (Or.inl ⟨rfl, _, rfl⟩))
      · exact Or.inr (Or.inr (Or.inr (Or.inl (parse_array_type _ _ _ _ _ h))))
      · exact Or.inr (Or.inr (Or.inr (Or.inr (parse_object_type _ _ _ _ _ h))))
      · simp only [Option.some.injEq] at h
        exact Or.inr (Or.inl (parse_number_type _ _ _ _ h))

end dson_parse_context

/-- What a call of `parse` that returns `DSON_OK` says of the call of
`dson_parse_context::parse` inside, for any parser left. -/
theorem DsonParser.parse_ok_inv' (p p' : DsonParser) (json : List Char)
    (c : dson_parse_context) (h : p.parse json = some (DSON_OK, p', c)) :
    ∃ c', dson_parse_context.parse (json.length + 1)
        ⟨json.dropWhile dson_parse_context.is_whitespace, []⟩ p.value_ =
          some (DSON_OK, p'.value_, c') := by
  obtain ⟨v⟩ := p'
  obtain ⟨rem, h1, -, -⟩ := DsonParser.parse_ok_inv p json v c h
  exact ⟨_, h1⟩

/-- C5, amended: after every call to `parse` that returns `DSON_OK`, on a new or a used
parser, a root of kind Number carries a double, a root of kind String a byte string, a root
of kind Array a sequence and a root of kind Object a mapping; a root of kind Null, False or
True carries the payload the root had before the call, so kind and payload agree when the
root carried none before, as on a new parser. -/
theorem parse_ok_payload_fits (p p' : DsonParser) (json : List Char)
    (c : dson_parse_context) (h : p.parse json = some (DSON_OK, p', c)) :
    payload_fits p'.root = true ∧
    ((p'.root.type = DSON_NULL ∨ p'.root.type = DSON_FALSE ∨ p'.root.type = DSON_TRUE) →
      p'.root.option_value = p.root.option_value) ∧
    (p.root.option_value = none → payload_agrees p'.root = true) := by
  obtain ⟨c', hp⟩ := DsonParser.parse_ok_inv' p p' json c h
  have hk := dson_parse_context.parse_ok_kind _ _ _ _ _ hp
  obtain ⟨v'⟩ := p'
  obtain ⟨v⟩ := p
  simp only [DsonParser.root] at hk ⊢
  obtain ⟨t', o'⟩ := v'
  obtain ⟨t, o⟩ := v
  simp only [dson_value.type, dson_value.option_value] at hk ⊢
  rcases hk with ⟨hk, ho⟩ | ⟨hk, x, ho⟩ | ⟨hk, x, ho⟩ | ⟨hk, x, ho⟩ | ⟨hk, x, ho⟩
  · subst ho
    rcases hk with rfl | rfl | rfl
    all_goals
      refine ⟨rfl, fun _ => rfl, ?_⟩
      rintro rfl
      rfl
  all_goals
    subst hk ho
    refine ⟨rfl, ?_, fun _ => rfl⟩
    intro h'
    simp at h'

/-- C5, amended, at a new parser and the text `true`. -/
theorem parse_ok_payload_fits_witness :
    DsonParser.new.parse "true".toList =
      some (DSON_OK, ⟨.mk DSON_TRUE none⟩, ⟨[], []⟩) ∧
    payload_fits (DsonParser.root ⟨.mk DSON_TRUE none⟩) = true ∧
    (((DsonParser.root ⟨.mk DSON_TRUE none⟩).type = DSON_NULL ∨
        (DsonParser.root ⟨.mk DSON_TRUE none⟩).type = DSON_FALSE ∨
        (DsonParser.root ⟨.mk DSON_TRUE none⟩).type = DSON_TRUE) →
      (DsonParser.root ⟨.mk DSON_TRUE none⟩).option_value = DsonParser.new.root.option_value) ∧
    (DsonParser.new.root.option_value = none →
      payload_agrees (DsonParser.root ⟨.mk DSON_TRUE none⟩) = true) :=
  ⟨rfl, parse_ok_payload_fits _ _ _ _ (rfl : DsonParser.new.parse "true".toList =
      some (DSON_OK, ⟨.mk DSON_TRUE none⟩, ⟨[], []⟩))⟩
/-! ## Whitespace after the text -/

theorem whitespace_cases (c : Char) (h : dson_parse_context.is_whitespace c = true) :
    c = ' ' ∨ c = '\t' ∨ c = '\n' ∨ c = '\r' := by
  simpa [dson_parse_context.is_whitespace, or_assoc] using h

theorem whitespace_not_num_char (c : Char) (h : dson_parse_context.is_whitespace c = true) :
    is_num_char c = false := by
  rcases whitespace_cases c h with rfl | rfl | rfl | rfl <;> decide

theorem all_whitespace_stops (r : List Char) (h : all_whitespace r) : stops r := by
  intro c hc
  cases r with
  | nil => simp at hc
  | cons a r =>
    simp only [List.head?_cons, Option.some.injEq] at hc
    subst hc
    exact whitespace_not_num_char _ (h _ (List.mem_cons_self _ _))

theorem all_whitespace_dropWhile (r : List Char) (h : all_whitespace r) :
    r.dropWhile dson_parse_context.is_whitespace = [] := by
  induction r with
  | nil => rfl
  | cons a r ih =>
    rw [List.dropWhile_cons, if_pos (h a (List.mem_cons_self _ _))]
    exact ih (fun c hc => h c (List.mem_cons_of_mem _ hc))

theorem all_whitespace_tail (a : Char) (r : List Char) (h : all_whitespace (a :: r)) :
    all_whitespace r := fun c hc => h c (List.mem_cons_of_mem _ hc)

namespace dson_parse_context

theorem hex4_step_isxdigit (u : Nat) (c : Char) (v : Nat) (h : hex4_step u c = some v) :
    isxdigit c = true := by
  unfold hex4_step at h
  simp only [isxdigit, isdigit, Bool.or_eq_true, decide_eq_true_eq]
  split_ifs at h with h1 h2 h3
  · exact Or.inl (Or.inl h1)
  · exact Or.inr h2
  · exact Or.inl (Or.inr h3)

theorem parse_hex4_true (t : List Char) (h : (parse_hex4 t).1.2 = true) :
    ∃ c0 c1 c2 c3 rest, t = c0 :: c1 :: c2 :: c3 :: rest ∧ isxdigit c0 = true ∧
      isxdigit c1 = true ∧ isxdigit c2 = true ∧ isxdigit c3 = true := by
  match t, h with
  | c0 :: c1 :: c2 :: c3 :: rest, h =>
    refine ⟨c0, c1, c2, c3, rest, rfl, ?_⟩
    simp only [parse_hex4] at h
    cases h0 : hex4_step 0 c0 with
    | none => simp [h0] at h
    | some u0 =>
      cases h1 : hex4_step u0 c1 with
      | none => simp [h0, h1] at h
      | some u1 =>
        cases h2 : hex4_step u1 c2 with
        | none => simp [h0, h1, h2] at h
        | some u2 =>
          cases h3 : hex4_step u2 c3 with
          | none => simp [h0, h1, h2, h3] at h
          | some u3 =>
            exact ⟨hex4_step_isxdigit _ _ _ h0, hex4_step_isxdigit _ _ _ h1,
              hex4_step_isxdigit _ _ _ h2, hex4_step_isxdigit _ _ _ h3⟩
  | [], h => simp [parse_hex4] at h
  | [_], h => simp [parse_hex4] at h
  | [_, _], h => simp [parse_hex4] at h
  | [_, _, _], h => simp [parse_hex4] at h

theorem whitespace_not_xdigit (c : Char) (h : is_whitespace c = true) : isxdigit c = false := by
  rcases whitespace_cases c h with rfl | rfl | rfl | rfl <;> decide

/-- A failing `parse_hex4` still fails when whitespace is added to the view. -/
theorem parse_hex4_whitespace (t r : List Char) (hr : all_whitespace r)
    (h : (parse_hex4 t).1.2 = false) : (parse_hex4 (t ++ r)).1.2 = false := by
  cases hb : (parse_hex4 (t ++ r)).1.2 with
  | false => rfl
  | true =>
    exfalso
    obtain ⟨c0, c1, c2, c3, rest, heq, x0, x1, x2, x3⟩ := parse_hex4_true _ hb
    have hx : ∀ c ∈ r, isxdigit c = false := fun c hc => whitespace_not_xdigit c (hr c hc)
    have hne : ∀ (c : Char) (l : List Char), isxdigit c = true → r ≠ c :: l := by
      intro c l hc he
      have := hx c (by rw [he]; exact List.mem_cons_self _ _)
      rw [hc] at this; cases this
    match t, h, heq with
    | [], _, heq => exact hne _ _ x0 heq
    | [a], _, heq =>
      simp only [List.cons_append, List.nil_append, List.cons.injEq] at heq
      exact hne _ _ x1 heq.2
    | [a, b], _, heq =>
      simp only [List.cons_append, List.nil_append, List.cons.injEq] at heq
      exact hne _ _ x2 heq.2.2
    | [a, b, c], _, heq =>
      simp only [List.cons_append, List.nil_append, List.cons.injEq] at heq
      exact hne _ _ x3 heq.2.2.2
    | a :: b :: c :: d :: t', h, heq =>
      simp only [List.cons_append, List.cons.injEq] at heq
      obtain ⟨rfl, rfl, rfl, rfl, -⟩ := heq
      rw [parse_hex4_eq _ _ _ _ _ x0 x1 x2 x3] at h
      cases h

theorem simple_escape_whitespace (c : Char) (h : is_whitespace c = true) :
    simple_escape c = none ∧ c ≠ 'u' ∧ c ≠ '\\' ∧ c ≠ '"' := by
  rcases whitespace_cases c h with rfl | rfl | rfl | rfl <;> decide

/-- The string loop on spaces only runs to the end of the text. -/
theorem parse_string_loop_spaces (sz : Nat) (r : List Char) (hr : ∀ c ∈ r, c = ' ') :
    ∀ (f : Nat) (self : dson_parse_context), r.length < f →
      parse_string_loop f sz r self =
        some (([], DSON_MISS_QUOTATION_MARK),
          ⟨self.view_, (self.vec_ ++ r).take (erase_from sz)⟩) := by
  induction r with
  | nil =>
    intro f self hf
    obtain ⟨g, rfl⟩ : ∃ g, f = g + 1 := ⟨f - 1, by omega⟩
    rw [parse_string_loop_succ, string_step_of_case _ _ _ _ .eof]
    simp
  | cons a r ih =>
    intro f self hf
    obtain ⟨g, rfl⟩ : ∃ g, f = g + 1 := ⟨f - 1, by omega⟩
    have ha : a = ' ' := hr a (List.mem_cons_self _ _)
    subst ha
    rw [parse_string_loop_succ,
      string_step_plain _ _ _ _ (by decide) (by decide) (by decide)]
    simp only
    rw [ih (fun c hc => hr c (List.mem_cons_of_mem _ hc)) g _ (by simpa using hf)]
    simp

end dson_parse_context
namespace dson_parse_context

/-- A round of the string loop that returns an error other than
`DSON_MISS_QUOTATION_MARK` returns the same error when whitespace is added to the text. -/
theorem string_step_whitespace (sz : Nat) (tmp r : List Char) (self : dson_parse_context)
    (hr : all_whitespace r) (s : List Char) (e : error_type) (c : dson_parse_context)
    (h : string_step sz tmp self = .inl ((s, e), c))
    (he : e ≠ DSON_OK) (hq : e ≠ DSON_MISS_QUOTATION_MARK) :
    string_step sz (tmp ++ r) self = .inl ((s, e), c) := by
  have hc := string_step_cases sz tmp self
  rw [h] at hc
  apply string_step_of_case
  cases hc with
  | eof => exact absurd rfl hq
  | quote t1 => exact absurd rfl he
  | backslash_eof =>
    cases r with
    | nil => exact .backslash_eof
    | cons a r' =>
      obtain ⟨h1, h2, -, -⟩ := simple_escape_whitespace a (hr a (List.mem_cons_self _ _))
      exact .bad_escape a r' h1 h2
  | bad_escape e' t2 h1 h2 => exact .bad_escape e' (t2 ++ r) h1 h2
  | bad_hex t2 h1 => exact .bad_hex (t2 ++ r) (parse_hex4_whitespace _ _ hr h1)
  | lone_high t2 t3 u h1 hs h3 =>
    refine .lone_high (t2 ++ r) (t3 ++ r) u (parse_hex4_append _ r _ _ h1) hs ?_
    intro t4 heq
    match t3, h3, heq with
    | [], _, heq =>
      cases r with
      | nil => simp at heq
      | cons a r' =>
        simp only [List.nil_append, List.cons.injEq] at heq
        exact (simple_escape_whitespace a (hr a (List.mem_cons_self _ _))).2.2.1 heq.1
    | [x], _, heq =>
      cases r with
      | nil => simp at heq
      | cons a r' =>
        simp only [List.cons_append, List.nil_append, List.cons.injEq] at heq
        exact (simple_escape_whitespace a (hr a (List.mem_cons_self _ _))).2.1 heq.2.1
    | x :: y :: t', h3, heq =>
      simp only [List.cons_append, List.cons.injEq] at heq
      exact h3 t' (by rw [heq.1, heq.2.1])
  | bad_low_hex t2 t4 u h1 hs h4 =>
    exact .bad_low_hex (t2 ++ r) (t4 ++ r) u (parse_hex4_append _ r _ _ h1) hs
      (parse_hex4_whitespace _ _ hr h4)
  | bad_low t2 t4 t5 u un h1 hs h4 hl =>
    exact .bad_low (t2 ++ r) (t4 ++ r) (t5 ++ r) u un (parse_hex4_append _ r _ _ h1) hs
      (parse_hex4_append _ r _ _ h4) hl
  | control ch t1 h1 h2 h3 => exact .control ch (t1 ++ r) h1 h2 h3

/-- The string loop returns the same error when whitespace is added to the text, unless
the error is `DSON_MISS_QUOTATION_MARK` and the whitespace is not made of spaces. -/
theorem parse_string_loop_whitespace (sz : Nat) (r : List Char) (hr : all_whitespace r) :
    ∀ (f : Nat) (tmp : List Char) (self : dson_parse_context) (s : List Char)
      (e : error_type) (c : dson_parse_context),
      parse_string_loop f sz tmp self = some ((s, e), c) → e ≠ DSON_OK →
      (e = DSON_MISS_QUOTATION_MARK → ∀ c ∈ r, c = ' ') →
      ∃ c', parse_string_loop (f + r.length) sz (tmp ++ r) self = some ((s, e), c') := by
  intro f
  induction f with
  | zero => intro tmp self s e c h; simp [parse_string_loop] at h
  | succ f ih =>
    intro tmp self s e c h he hq
    rw [parse_string_loop_succ] at h
    rw [show f + 1 + r.length = (f + r.length) + 1 by omega, parse_string_loop_succ]
    cases hs : string_step sz tmp self with
    | inl r0 =>
      rw [hs] at h
      simp only [Option.some.injEq] at h
      subst h
      by_cases hm : e = DSON_MISS_QUOTATION_MARK
      · subst hm
        have hc := string_step_cases sz tmp self
        rw [hs] at hc
        cases hc
        rw [List.nil_append, ← parse_string_loop_succ,
          parse_string_loop_spaces _ _ (hq rfl) _ _ (by omega)]
        exact ⟨_, rfl⟩
      · rw [string_step_whitespace _ _ _ _ hr _ _ _ hs he hm]
        exact ⟨_, rfl⟩
    | inr p =>
      obtain ⟨t, s'⟩ := p
      rw [hs] at h
      rw [string_step_append_next _ _ r _ _ _ hs]
      exact ih _ _ _ _ _ h he hq

theorem parse_string_whitespace (r : List Char) (hr : all_whitespace r)
    (v vec : List Char) (hv : v ≠ []) (s : List Char) (e : error_type)
    (c : dson_parse_context)
    (h : parse_string ⟨v, vec⟩ = some ((s, e), c)) (he : e ≠ DSON_OK)
    (hq : e = DSON_MISS_QUOTATION_MARK → ∀ c ∈ r, c = ' ') :
    ∃ c', parse_string ⟨v ++ r, vec⟩ = some ((s, e), c') := by
  unfold parse_string at h ⊢
  simp only at h ⊢
  cases v with
  | nil => exact absurd rfl hv
  | cons q t =>
    simp only [List.cons_append, List.tail_cons] at h ⊢
    obtain ⟨c', hc'⟩ := parse_string_loop_whitespace _ r hr _ _ _ _ _ _ h he hq
    rw [parse_string_loop_view _ (t ++ r) _ _ t vec,
      show (t ++ r).length + 1 = t.length + 1 + r.length by rw [List.length_append]; omega,
      hc']
    exact ⟨_, rfl⟩

end dson_parse_context
theorem whitespace_not_digit (c : Char) (h : dson_parse_context.is_whitespace c = true) :
    isdigit c = false ∧ c ≠ '0' ∧ c ≠ '-' ∧ c ≠ '+' ∧ c ≠ '.' ∧ c ≠ 'e' ∧ c ≠ 'E' ∧
      c ≠ 'l' ∧ c ≠ 'u' ∧ c ≠ 'n' := by
  rcases whitespace_cases c h with rfl | rfl | rfl | rfl <;> decide

namespace dson_parse_context

theorem number_integer_whitespace (v r : List Char) (hr : all_whitespace r)
    (h : number_integer v = none) : number_integer (v ++ r) = none := by
  have key : ∀ tmp : List Char,
      (match tmp with
        | [] => none
        | c :: t1 =>
          if c = '0' then some t1
          else if (!isdigit c) = true then none
          else some (tmp.dropWhile in_123456789)) = none →
      (match tmp ++ r with
        | [] => none
        | c :: t1 =>
          if c = '0' then some t1
          else if (!isdigit c) = true then none
          else some ((tmp ++ r).dropWhile in_123456789)) = none := by
    intro tmp h
    cases tmp with
    | nil =>
      cases r with
      | nil => rfl
      | cons a r' =>
        obtain ⟨h1, h2, -⟩ := whitespace_not_digit a (hr a (List.mem_cons_self _ _))
        simp [h1, h2]
    | cons c t1 =>
      simp only [List.cons_append] at h ⊢
      split_ifs at h ⊢
      rfl
  unfold number_integer at h ⊢
  cases v with
  | nil =>
    cases r with
    | nil => rfl
    | cons a r' =>
      obtain ⟨h1, h2, h3, -⟩ := whitespace_not_digit a (hr a (List.mem_cons_self _ _))
      simp [h1, h2, h3]
  | cons a v' =>
    simp only [List.cons_append, List.head?_cons, List.tail_cons] at h ⊢
    split_ifs at h ⊢
    · exact key _ h
    · exact key (a :: v') h

theorem number_fraction_whitespace (t r : List Char) (hr : all_whitespace r)
    (h : number_fraction t = none) : number_fraction (t ++ r) = none := by
  unfold number_fraction at h ⊢
  cases t with
  | nil => simp at h
  | cons a t1 =>
    simp only [List.cons_append] at h ⊢
    by_cases ha : a = '.'
    · subst ha
      simp only at h ⊢
      cases t1 with
      | nil =>
        cases r with
        | nil => rfl
        | cons d r' =>
          obtain ⟨h1, -⟩ := whitespace_not_digit d (hr d (List.mem_cons_self _ _))
          simp [h1]
      | cons d t2 =>
        simp only [List.cons_append] at h ⊢
        split_ifs at h ⊢
        rfl
    · split at h
      · next heq => simp at heq; exact absurd heq.1 ha
      · simp at h

theorem number_exponent_whitespace (t r : List Char) (hr : all_whitespace r)
    (h : number_exponent t = none) : number_exponent (t ++ r) = none := by
  have hnil : (match r with
      | [] => (none : Option (List Char))
      | d :: _ => if (!isdigit d) = true then none else some (r.dropWhile in_0123456789)) =
        none := by
    cases r with
    | nil => rfl
    | cons d r' =>
      obtain ⟨h1, -⟩ := whitespace_not_digit d (hr d (List.mem_cons_self _ _))
      simp [h1]
  unfold number_exponent at h ⊢
  cases t with
  | nil => simp at h
  | cons e t1 =>
    simp only [List.cons_append] at h ⊢
    by_cases he : e = 'e' ∨ e = 'E'
    · rw [if_pos he] at h ⊢
      cases t1 with
      | nil =>
        cases r with
        | nil => rfl
        | cons s r' =>
          obtain ⟨h1, -, h3, h4, -⟩ := whitespace_not_digit s (hr s (List.mem_cons_self _ _))
          simp [h1, h3, h4]
      | cons s t2 =>
        simp only [List.cons_append] at h ⊢
        by_cases hs : s = '+' ∨ s = '-'
        · simp only [if_pos hs] at h ⊢
          cases t2 with
          | nil => exact hnil
          | cons d t3 =>
            simp only [List.cons_append] at h ⊢
            split_ifs at h ⊢
            rfl
        · simp only [if_neg hs] at h ⊢
          split_ifs at h ⊢
          rfl
    · rw [if_neg he] at h
      simp at h

theorem number_scan_whitespace (v r : List Char) (hr : all_whitespace r)
    (h : number_scan v = none) : number_scan (v ++ r) = none := by
  have sr := all_whitespace_stops r hr
  unfold number_scan at h ⊢
  cases h1 : number_integer v with
  | none => rw [number_integer_whitespace _ _ hr h1]; rfl
  | some t1 =>
    rw [h1] at h
    simp only [Option.some_bind] at h
    rw [number_integer_append _ _ _ sr h1]
    simp only [Option.some_bind]
    cases h2 : number_fraction t1 with
    | none => rw [number_fraction_whitespace _ _ hr h2]; rfl
    | some t2 =>
      rw [h2] at h
      simp only [Option.some_bind] at h
      rw [number_fraction_append _ _ _ sr h2]
      simp only [Option.some_bind]
      exact number_exponent_whitespace _ _ hr h

theorem parse_number_whitespace (v r vec : List Char) (hr : all_whitespace r)
    (value value' : dson_value) (e : error_type) (c : dson_parse_context)
    (h : parse_number ⟨v, vec⟩ value = (e, value', c)) (he : e ≠ DSON_OK) :
    parse_number ⟨v ++ r, vec⟩ value = (e, value', ⟨v ++ r, vec⟩) := by
  have sr := all_whitespace_stops r hr
  unfold parse_number at h ⊢
  simp only at h ⊢
  cases hs : number_scan v with
  | none =>
    rw [hs] at h
    rw [number_scan_whitespace _ _ hr hs]
    simp only [Prod.mk.injEq] at h ⊢
    exact ⟨h.1, h.2.1, trivial⟩
  | some t =>
    rw [hs] at h
    rw [number_scan_append _ _ _ sr hs, strtod_append _ _ sr]
    simp only at h ⊢
    split_ifs at h ⊢
    · simp only [Prod.mk.injEq] at h ⊢
      exact ⟨h.1, h.2.1, trivial⟩
    · simp only [Prod.mk.injEq] at h
      exact absurd h.1.symm he

theorem parse_null_whitespace (v r vec : List Char) (hr : all_whitespace r)
    (value value' : dson_value) (e : error_type) (c : dson_parse_context)
    (h : parse_null ⟨v, vec⟩ value = (e, value', c)) (he : e ≠ DSON_OK) :
    parse_null ⟨v ++ r, vec⟩ value = (e, value', ⟨v ++ r, vec⟩) := by
  have hw : ∀ d ∈ r, d ≠ 'l' := fun d hd => (whitespace_not_digit d (hr d hd)).2.2.2.2.2.2.2.1
  have h0 : e = DSON_INVALID_VALUE ∧ value' = value := by
    unfold parse_null at h
    split at h
    · split_ifs at h
      · simp only [Prod.mk.injEq] at h; exact ⟨h.1.symm, h.2.1.symm⟩
      · simp only [Prod.mk.injEq] at h; exact absurd h.1.symm he
    · simp only [Prod.mk.injEq] at h; exact ⟨h.1.symm, h.2.1.symm⟩
  obtain ⟨rfl, rfl⟩ := h0
  unfold parse_null at h ⊢
  match v, r, hw, h with
  | c0 :: c1 :: c2 :: c3 :: rest, r, _, h =>
    simp only [List.cons_append] at h ⊢
    split_ifs at h ⊢
    · rfl
    · simp at h
  | [], [], _, _ => rfl
  | [], [_], _, _ => rfl
  | [], [_, _], _, _ => rfl
  | [], [_, _, _], _, _ => rfl
  | [], _ :: _ :: _ :: d :: _, hw, _ => simp [hw d (by simp)]
  | [_], [], _, _ => rfl
  | [_], [_], _, _ => rfl
  | [_], [_, _], _, _ => rfl
  | [_], _ :: _ :: d :: _, hw, _ => simp [hw d (by simp)]
  | [_, _], [], _, _ => rfl
  | [_, _], [_], _, _ => rfl
  | [_, _], _ :: d :: _, hw, _ => simp [hw d (by simp)]
  | [_, _, _], [], _, _ => rfl
  | [_, _, _], d :: _, hw, _ => simp [hw d (by simp)]

theorem parse_true_whitespace (v r vec : List Char) (hr : all_whitespace r)
    (value value' : dson_value) (e : error_type) (c : dson_parse_context)
    (h : parse_true ⟨v, vec⟩ value = (e, value', c)) (he : e ≠ DSON_OK) :
    parse_true ⟨v ++ r, vec⟩ value = (e, value', ⟨v ++ r, vec⟩) := by
  have hw : ∀ d ∈ r, d ≠ 'e' := fun d hd => (whitespace_not_digit d (hr d hd)).2.2.2.2.2.1
  have h0 : e = DSON_INVALID_VALUE ∧ value' = value := by
    unfold parse_true at h
    split at h
    · split_ifs at h
      · simp only [Prod.mk.injEq] at h; exact ⟨h.1.symm, h.2.1.symm⟩
      · simp only [Prod.mk.injEq] at h; exact absurd h.1.symm he
    · simp only [Prod.mk.injEq] at h; exact ⟨h.1.symm, h.2.1.symm⟩
  obtain ⟨rfl, rfl⟩ := h0
  unfold parse_true at h ⊢
  match v, r, hw, h with
  | c0 :: c1 :: c2 :: c3 :: rest, r, _, h =>
    simp only [List.cons_append] at h ⊢
    split_ifs at h ⊢
    · rfl
    · simp at h
  | [], [], _, _ => rfl
  | [], [_], _, _ => rfl
  | [], [_, _], _, _ => rfl
  | [], [_, _, _], _, _ => rfl
  | [], _ :: _ :: _ :: d :: _, hw, _ => simp [hw d (by simp)]
  | [_], [], _, _ => rfl
  | [_], [_], _, _ => rfl
  | [_], [_, _], _, _ => rfl
  | [_], _ :: _ :: d :: _, hw, _ => simp [hw d (by simp)]
  | [_, _], [], _, _ => rfl
  | [_, _], [_], _, _ => rfl
  | [_, _], _ :: d :: _, hw, _ => simp [hw d (by simp)]
  | [_, _, _], [], _, _ => rfl
  | [_, _, _], d :: _, hw, _ => simp [hw d (by simp)]

theorem parse_false_whitespace (v r vec : List Char) (hr : all_whitespace r)
    (value value' : dson_value) (e : error_type) (c : dson_parse_context)
    (h : parse_false ⟨v, vec⟩ value = (e, value', c)) (he : e ≠ DSON_OK) :
    parse_false ⟨v ++ r, vec⟩ value = (e, value', ⟨v ++ r, vec⟩) := by
  have hw : ∀ d ∈ r, d ≠ 'e' := fun d hd => (whitespace_not_digit d (hr d hd)).2.2.2.2.2.1
  have h0 : e = DSON_INVALID_VALUE ∧ value' = value := by
    unfold parse_false at h
    split at h
    · split_ifs at h
      · simp only [Prod.mk.injEq] at h; exact ⟨h.1.symm, h.2.1.symm⟩
      · simp only [Prod.mk.injEq] at h; exact absurd h.1.symm he
    · simp only [Prod.mk.injEq] at h; exact ⟨h.1.symm, h.2.1.symm⟩
  obtain ⟨rfl, rfl⟩ := h0
  unfold parse_false at h ⊢
  match v, r, hw, h with
  | c0 :: c1 :: c2 :: c3 :: c4 :: rest, r, _, h =>
    simp only [List.cons_append] at h ⊢
    split_ifs at h ⊢
    · rfl
    · simp at h
  | [], [], _, _ => rfl
  | [], [_], _, _ => rfl
  | [], [_, _], _, _ => rfl
  | [], [_, _, _], _, _ => rfl
  | [], [_, _, _, _], _, _ => rfl
  | [], _ :: _ :: _ :: _ :: d :: _, hw, _ => simp [hw d (by simp)]
  | [_], [], _, _ => rfl
  | [_], [_], _, _ => rfl
  | [_], [_, _], _, _ => rfl
  | [_], [_, _, _], _, _ => rfl
  | [_], _ :: _ :: _ :: d :: _, hw, _ => simp [hw d (by simp)]
  | [_, _], [], _, _ => rfl
  | [_, _], [_], _, _ => rfl
  | [_, _], [_, _], _, _ => rfl
  | [_, _], _ :: _ :: d :: _, hw, _ => simp [hw d (by simp)]
  | [_, _, _], [], _, _ => rfl
  | [_, _, _], [_], _, _ => rfl
  | [_, _, _], _ :: d :: _, hw, _ => simp [hw d (by simp)]
  | [_, _, _, _], [], _, _ => rfl
  | [_, _, _, _], d :: _, hw, _ => simp [hw d (by simp)]

end dson_parse_context
theorem dropWhile_dropWhile (p : Char → Bool) (l : List Char) :
    (l.dropWhile p).dropWhile p = l.dropWhile p := by
  induction l with
  | nil => rfl
  | cons a l ih =>
    by_cases ha : p a = true
    · simp only [List.dropWhile_cons, ha, if_true]; exact ih
    · simp [List.dropWhile_cons, ha]

theorem dropWhile_append_norm (l r : List Char) :
    (l ++ r).dropWhile dson_parse_context.is_whitespace =
      (l.dropWhile dson_parse_context.is_whitespace ++ r).dropWhile
        dson_parse_context.is_whitespace := by
  by_cases h : l.dropWhile dson_parse_context.is_whitespace = []
  · rw [dropWhile_append_of_nil _ _ h, h]; rfl
  · rw [dropWhile_append_of_ne_nil _ _ h,
      dropWhile_append_of_ne_nil _ _ (by rw [dropWhile_dropWhile]; exact h),
      dropWhile_dropWhile]

theorem dropWhile_append_of_norm (v r : List Char)
    (hn : v.dropWhile dson_parse_context.is_whitespace = v) (hv : v ≠ []) :
    (v ++ r).dropWhile dson_parse_context.is_whitespace = v ++ r := by
  rw [dropWhile_append_of_ne_nil _ _ (by rw [hn]; exact hv), hn]

namespace dson_parse_context

theorem parse_array_loop_whitespace (r : List Char) (hr : all_whitespace r)
    (elem : dson_parse_context → Option parse_result)
    (hg : good_elem elem) (hw : whitespace_elem r elem) :
    ∀ (f : Nat) (tmp : List dson_value) (v : List Char) e tmp' c,
      v.dropWhile is_whitespace = v →
      parse_array_loop elem f tmp ⟨v, []⟩ = some (e, tmp', c) → e ≠ DSON_OK →
      (e = DSON_MISS_QUOTATION_MARK → ∀ c ∈ r, c = ' ') →
      ∃ c', parse_array_loop elem f tmp ⟨(v ++ r).dropWhile is_whitespace, []⟩ =
        some (e, tmp', c') := by
  intro f
  induction f with
  | zero => intro tmp v e tmp' c _ h; simp [parse_array_loop] at h
  | succ f ih =>
    intro tmp v e tmp' c hn h he hq
    rw [parse_array_loop] at h ⊢
    cases h1 : elem ⟨v, []⟩ with
    | none => simp [h1] at h
    | some r1 =>
      obtain ⟨err, ptr, ⟨rem1, vec1⟩⟩ := r1
      rw [h1] at h
      simp only at h
      by_cases herr : err = DSON_OK
      · subst herr
        obtain ⟨hv1, hne, hx⟩ := hg _ _ _ _ h1
        subst hv1
        rw [dropWhile_append_of_norm _ _ hn hne, hx r (all_whitespace_stops r hr)]
        simp only [ne_eq, not_true_eq_false, if_false, skip_whitespace] at h ⊢
        by_cases hd : rem1.dropWhile is_whitespace = []
        · rw [hd] at h
          rw [dropWhile_append_of_nil _ _ hd, all_whitespace_dropWhile r hr]
          simp only [Option.some.injEq, Prod.mk.injEq] at h ⊢
          exact ⟨_, h.1, h.2.1, rfl⟩
        · rw [dropWhile_append_of_ne_nil _ _ hd]
          split at h
          · next rest heq =>
            rw [heq]
            simp only [List.cons_append]
            obtain ⟨c', hc'⟩ := ih _ _ _ _ _ (dropWhile_dropWhile _ _) h he hq
            rw [← dropWhile_append_norm] at hc'
            exact ⟨c', hc'⟩
          · next rest heq =>
            simp only [Option.some.injEq, Prod.mk.injEq] at h
            exact absurd h.1.symm he
          · next h2 h3 =>
            cases hd' : rem1.dropWhile is_whitespace with
            | nil => exact absurd hd' hd
            | cons c0 rest =>
              rw [hd'] at h
              simp only [Option.some.injEq, Prod.mk.injEq] at h
              have hc1 : c0 ≠ ',' := fun hc => h2 rest (by rw [hd', hc])
              have hc2 : c0 ≠ ']' := fun hc => h3 rest (by rw [hd', hc])
              simp only [List.cons_append]
              split
              · next rest' heq' =>
                simp only [List.cons.injEq] at heq'
                exact absurd heq'.1 hc1
              · next rest' heq' =>
                simp only [List.cons.injEq] at heq'
                exact absurd heq'.1 hc2
              · simp only [Option.some.injEq, Prod.mk.injEq]
                exact ⟨_, h.1, h.2.1, rfl⟩
      · simp only [ne_eq, herr, not_false_eq_true, if_true, Option.some.injEq,
          Prod.mk.injEq] at h
        obtain ⟨rfl, rfl, -⟩ := h
        obtain ⟨c', hc'⟩ := hw _ _ _ _ hn h1 he hq
        rw [hc']
        simp only [ne_eq, herr, not_false_eq_true, if_true]
        exact ⟨_, rfl⟩

end dson_parse_context
namespace dson_parse_context

theorem parse_array_whitespace (r : List Char) (hr : all_whitespace r)
    (elem : dson_parse_context → Option parse_result)
    (hg : good_elem elem) (hw : whitespace_elem r elem)
    (ch : Char) (t : List Char) (value value' : dson_value) (e : error_type)
    (c : dson_parse_context)
    (h : parse_array elem ⟨ch :: t, []⟩ value = some (e, value', c)) (he : e ≠ DSON_OK)
    (hq : e = DSON_MISS_QUOTATION_MARK → ∀ c ∈ r, c = ' ') :
    ∃ c', parse_array elem ⟨ch :: t ++ r, []⟩ value = some (e, value', c') := by
  unfold parse_array at h ⊢
  simp only [List.tail_cons, skip_whitespace, List.cons_append] at h ⊢
  split at h
  · simp only [Option.some.injEq, Prod.mk.injEq] at h
    exact absurd h.1.symm he
  · next hnot =>
    simp only [Option.map_eq_some'] at h
    obtain ⟨⟨e0, tmp', c0⟩, ha, hres⟩ := h
    simp only at hres
    have he0 : e0 = e ∧ value' = value := by
      split_ifs at hres with hok
      · simp only [Prod.mk.injEq] at hres; exact absurd hres.1.symm he
      · simp only [Prod.mk.injEq] at hres; exact ⟨hres.1, hres.2.1.symm⟩
    obtain ⟨rfl, rfl⟩ := he0
    obtain ⟨c', hc'⟩ := parse_array_loop_whitespace r hr elem hg hw _ _ _ _ _ _
      (dropWhile_dropWhile _ _) ha he hq
    rw [← dropWhile_append_norm] at hc'
    have hlen : (t.dropWhile is_whitespace).length ≤
        ((t ++ r).dropWhile is_whitespace).length := by
      by_cases hd : t.dropWhile is_whitespace = []
      · rw [hd]; simp
      · rw [dropWhile_append_of_ne_nil _ _ hd]; simp
    have h2 := parse_array_loop_mono elem elem (fun _ _ h => h) _
      (((t ++ r).dropWhile is_whitespace).length + 1) _ _ _ (by omega) hc'
    split
    · next rest heq =>
      exfalso
      by_cases hd : t.dropWhile is_whitespace = []
      · rw [dropWhile_append_of_nil _ _ hd, all_whitespace_dropWhile r hr] at heq
        simp at heq
      · rw [dropWhile_append_of_ne_nil _ _ hd] at heq
        cases hd' : t.dropWhile is_whitespace with
        | nil => exact hd hd'
        | cons a l =>
          rw [hd'] at heq
          simp only [List.cons_append, List.cons.injEq] at heq
          exact hnot l (by rw [hd', heq.1])
    · rw [h2]
      simp only [Option.map_some', he, if_false]
      exact ⟨_, rfl⟩

theorem parse_object_loop_whitespace (r : List Char) (hr : all_whitespace r)
    (elem : dson_parse_context → Option parse_result)
    (hg : good_elem elem) (hw : whitespace_elem r elem) :
    ∀ (f : Nat) (mp : List (List Char × dson_value)) (v : List Char) e mp' c,
      v.dropWhile is_whitespace = v →
      parse_object_loop elem f mp ⟨v, []⟩ = some (e, mp', c) → e ≠ DSON_OK →
      (e = DSON_MISS_QUOTATION_MARK → ∀ c ∈ r, c = ' ') →
      ∃ c', parse_object_loop elem f mp ⟨(v ++ r).dropWhile is_whitespace, []⟩ =
        some (e, mp', c') := by
  intro f
  induction f with
  | zero => intro mp v e mp' c _ h; simp [parse_object_loop] at h
  | succ f ih =>
    intro mp v e mp' c hn h he hq
    have sr := all_whitespace_stops r hr
    rw [parse_object_loop] at h ⊢
    simp only at h ⊢
    by_cases hquote : v.head? = some '"'
    · have hvne : v ≠ [] := by rintro rfl; simp at hquote
      rw [dropWhile_append_of_norm _ _ hn hvne]
      have hquote' : (v ++ r).head? = some '"' := by
        cases v with
        | nil => exact absurd rfl hvne
        | cons a l => simpa using hquote
      rw [if_neg (not_not.mpr hquote)] at h
      rw [if_neg (not_not.mpr hquote')]
      cases h1 : parse_string ⟨v, []⟩ with
      | none => simp [h1] at h
      | some r1 =>
        obtain ⟨⟨str, err⟩, ⟨v1, vec1⟩⟩ := r1
        rw [h1] at h
        simp only at h
        by_cases herr : err = DSON_OK
        · subst herr
          have hvec1 : vec1 = [] := parse_string_vec _ _ _ h1
          subst hvec1
          rw [parse_string_append v r [] _ _ h1]
          simp only [ne_eq, not_true_eq_false, if_false, skip_whitespace] at h ⊢
          by_cases hcolon : (List.dropWhile is_whitespace v1).head? = some ':'
          · rw [if_neg (not_not.mpr hcolon)] at h
            obtain ⟨t2, ht2⟩ : ∃ t2, List.dropWhile is_whitespace v1 = ':' :: t2 := by
              cases hd : List.dropWhile is_whitespace v1 with
              | nil => rw [hd] at hcolon; simp at hcolon
              | cons a l =>
                rw [hd] at hcolon
                simp only [List.head?_cons, Option.some.injEq] at hcolon
                exact ⟨l, by rw [hcolon]⟩
            rw [ht2] at h
            rw [dropWhile_append_of_ne_nil _ _ (by rw [ht2]; simp), ht2]
            simp only [List.tail_cons, List.cons_append, List.head?_cons, not_true_eq_false,
              if_false] at h ⊢
            cases h2 : elem ⟨List.dropWhile is_whitespace t2, []⟩ with
            | none => simp [h2] at h
            | some r2 =>
              obtain ⟨e2, ptr, ⟨v3, vec3⟩⟩ := r2
              rw [h2] at h
              simp only at h
              by_cases he2 : e2 = DSON_OK
              · subst he2
                obtain ⟨hv3, hne3, hx3⟩ := hg _ _ _ _ h2
                subst hv3
                rw [dropWhile_append_of_ne_nil _ _ hne3, hx3 r sr]
                simp only [ne_eq, not_true_eq_false, if_false] at h ⊢
                by_cases hd : v3.dropWhile is_whitespace = []
                · rw [hd] at h
                  rw [dropWhile_append_of_nil _ _ hd, all_whitespace_dropWhile r hr]
                  simp only [Option.some.injEq, Prod.mk.injEq] at h ⊢
                  exact ⟨_, h.1, h.2.1, rfl⟩
                · rw [dropWhile_append_of_ne_nil _ _ hd]
                  split at h
                  · next rest heq =>
                    rw [heq]
                    simp only [List.cons_append]
                    obtain ⟨c', hc'⟩ := ih _ _ _ _ _ (dropWhile_dropWhile _ _) h he hq
                    rw [← dropWhile_append_norm] at hc'
                    exact ⟨c', hc'⟩
                  · next rest heq =>
                    simp only [Option.some.injEq, Prod.mk.injEq] at h
                    exact absurd h.1.symm he
                  · next h2' h3' =>
                    cases hd' : v3.dropWhile is_whitespace with
                    | nil => exact absurd hd' hd
                    | cons c0 rest =>
                      rw [hd'] at h
                      simp only [Option.some.injEq, Prod.mk.injEq] at h
                      have hc1 : c0 ≠ ',' := fun hc => h2' rest (by rw [hd', hc])
                      have hc2 : c0 ≠ '}' := fun hc => h3' rest (by rw [hd', hc])
                      simp only [List.cons_append]
                      split
                      · next rest' heq' =>
                        simp only [List.cons.injEq] at heq'
                        exact absurd heq'.1 hc1
                      · next rest' heq' =>
                        simp only [List.cons.injEq] at heq'
                        exact absurd heq'.1 hc2
                      · simp only [Option.some.injEq, Prod.mk.injEq]
                        exact ⟨_, h.1, h.2.1, rfl⟩
              · simp only [ne_eq, he2, not_false_eq_true, if_true, Option.some.injEq,
                  Prod.mk.injEq] at h
                obtain ⟨rfl, rfl, -⟩ := h
                obtain ⟨c', hc'⟩ := hw _ _ _ _ (dropWhile_dropWhile _ _) h2 he hq
                rw [← dropWhile_append_norm] at hc'
                rw [hc']
                simp only [ne_eq, he2, not_false_eq_true, if_true]
                exact ⟨_, rfl⟩
          · rw [if_pos hcolon] at h
            simp only [Option.some.injEq, Prod.mk.injEq] at h
            have hcolon' : ¬ (List.dropWhile is_whitespace (v1 ++ r)).head? = some ':' := by
              by_cases hd : v1.dropWhile is_whitespace = []
              · rw [dropWhile_append_of_nil _ _ hd, all_whitespace_dropWhile r hr]
                simp
              · rw [dropWhile_append_of_ne_nil _ _ hd]
                cases hd' : v1.dropWhile is_whitespace with
                | nil => exact absurd hd' hd
                | cons a l => rw [hd'] at hcolon; simpa using hcolon
            rw [if_pos hcolon']
            exact ⟨_, by rw [h.1, h.2.1]⟩
        · simp only [ne_eq, herr, not_false_eq_true, if_true, Option.some.injEq,
            Prod.mk.injEq] at h
          obtain ⟨rfl, rfl, -⟩ := h
          obtain ⟨c', hc'⟩ := parse_string_whitespace r hr _ _ hvne _ _ _ h1 he hq
          rw [hc']
          simp only [ne_eq, herr, not_false_eq_true, if_true]
          exact ⟨_, rfl⟩
    · rw [if_pos hquote] at h
      simp only [Option.some.injEq, Prod.mk.injEq] at h
      have hquote' : ¬ ((v ++ r).dropWhile is_whitespace).head? = some '"' := by
        cases v with
        | nil => rw [List.nil_append, all_whitespace_dropWhile r hr]; simp
        | cons a l =>
          rw [dropWhile_append_of_norm _ _ hn (by simp)]
          simpa using hquote
      rw [if_pos hquote']
      exact ⟨_, by rw [h.1, h.2.1]⟩

end dson_parse_context
namespace dson_parse_context

theorem parse_object_whitespace (r : List Char) (hr : all_whitespace r)
    (elem : dson_parse_context → Option parse_result)
    (hg : good_elem elem) (hw : whitespace_elem r elem)
    (ch : Char) (t : List Char) (value value' : dson_value) (e : error_type)
    (c : dson_parse_context)
    (h : parse_object elem ⟨ch :: t, []⟩ value = some (e, value', c)) (he : e ≠ DSON_OK)
    (hq : e = DSON_MISS_QUOTATION_MARK → ∀ c ∈ r, c = ' ') :
    ∃ c', parse_object elem ⟨ch :: t ++ r, []⟩ value = some (e, value', c') := by
  unfold parse_object at h ⊢
  simp only [List.tail_cons, skip_whitespace, List.cons_append] at h ⊢
  split at h
  · simp only [Option.some.injEq, Prod.mk.injEq] at h
    exact absurd h.1.symm he
  · next hnot =>
    simp only [Option.map_eq_some'] at h
    obtain ⟨⟨e0, mp', c0⟩, ha, hres⟩ := h
    simp only at hres
    have he0 : e0 = e ∧ value' = value := by
      split_ifs at hres with hok
      · simp only [Prod.mk.injEq] at hres; exact absurd hres.1.symm he
      · simp only [Prod.mk.injEq] at hres; exact ⟨hres.1, hres.2.1.symm⟩
    obtain ⟨rfl, rfl⟩ := he0
    obtain ⟨c', hc'⟩ := parse_object_loop_whitespace r hr elem hg hw _ _ _ _ _ _
      (dropWhile_dropWhile _ _) ha he hq
    rw [← dropWhile_append_norm] at hc'
    have hlen : (t.dropWhile is_whitespace).length ≤
        ((t ++ r).dropWhile is_whitespace).length := by
      by_cases hd : t.dropWhile is_whitespace = []
      · rw [hd]; simp
      · rw [dropWhile_append_of_ne_nil _ _ hd]; simp
    have h2 := parse_object_loop_mono elem elem (fun _ _ h => h) _
      (((t ++ r).dropWhile is_whitespace).length + 1) _ _ _ (by omega) hc'
    split
    · next rest heq =>
      exfalso
      by_cases hd : t.dropWhile is_whitespace = []
      · rw [dropWhile_append_of_nil _ _ hd, all_whitespace_dropWhile r hr] at heq
        simp at heq
      · rw [dropWhile_append_of_ne_nil _ _ hd] at heq
        cases hd' : t.dropWhile is_whitespace with
        | nil => exact hd hd'
        | cons a l =>
          rw [hd'] at heq
          simp only [List.cons_append, List.cons.injEq] at heq
          exact hnot l (by rw [hd', heq.1])
    · rw [h2]
      simp only [Option.map_some', he, if_false]
      exact ⟨_, rfl⟩

/-- A call of `parse` that starts with an empty `vec_` on a view without leading whitespace
and returns an error returns the same error, with the same value, when whitespace is added
to the view; for `DSON_MISS_QUOTATION_MARK` only when the whitespace is made of spaces. -/
theorem parse_whitespace (r : List Char) (hr : all_whitespace r) (d : Nat) :
    ∀ (value : dson_value) (v : List Char) (e : error_type) (value' : dson_value)
      (c : dson_parse_context),
      v.dropWhile is_whitespace = v →
      parse d ⟨v, []⟩ value = some (e, value', c) → e ≠ DSON_OK →
      (e = DSON_MISS_QUOTATION_MARK → ∀ c ∈ r, c = ' ') →
      ∃ c', parse d ⟨(v ++ r).dropWhile is_whitespace, []⟩ value = some (e, value', c') := by
  induction d with
  | zero => intro value v e value' c _ h; simp [parse] at h
  | succ d ih =>
    intro value v e value' c hn h he hq
    cases v with
    | nil =>
      rw [List.nil_append, all_whitespace_dropWhile r hr]
      exact ⟨_, h⟩
    | cons ch t =>
      have hg : good_elem (fun c => parse d c dson_value.new) := fun v ptr rem vec' h =>
        parse_good d dson_value.new v ptr rem vec' h
      have hw : whitespace_elem r (fun c => parse d c dson_value.new) :=
        fun v e ptr c hn h he hq => ih dson_value.new v e ptr c hn h he hq
      rw [dropWhile_append_of_norm _ _ hn (by simp), List.cons_append, parse_cons]
      rw [parse_cons] at h
      split_ifs at h ⊢
      · simp only [Option.some.injEq] at h
        exact ⟨_, by rw [← List.cons_append, parse_null_whitespace _ _ _ hr _ _ _ _ h he]⟩
      · simp only [Option.some.injEq] at h
        exact ⟨_, by rw [← List.cons_append, parse_false_whitespace _ _ _ hr _ _ _ _ h he]⟩
      · simp only [Option.some.injEq] at h
        exact ⟨_, by rw [← List.cons_append, parse_true_whitespace _ _ _ hr _ _ _ _ h he]⟩
      · unfold parse_string_value at h ⊢
        simp only [Option.map_eq_some'] at h
        obtain ⟨⟨⟨s, e0⟩, c0⟩, hs, hres⟩ := h
        simp only at hres
        have he0 : e0 = e ∧ value' = value := by
          split_ifs at hres with hok
          · simp only [Prod.mk.injEq] at hres; exact absurd hres.1.symm (hok ▸ he)
          · simp only [Prod.mk.injEq] at hres; exact ⟨hres.1, hres.2.1.symm⟩
        obtain ⟨rfl, rfl⟩ := he0
        obtain ⟨c', hc'⟩ := parse_string_whitespace r hr _ _ (by simp) _ _ _ hs he hq
        rw [← List.cons_append, hc']
        simp only [Option.map_some', he, if_false]
        exact ⟨_, rfl⟩
      · exact parse_array_whitespace r hr _ hg hw _ _ _ _ _ _ h he hq
      · exact parse_object_whitespace r hr _ hg hw _ _ _ _ _ _ h he hq
      · simp only [Option.some.injEq] at h
        exact ⟨_, by rw [← List.cons_append, parse_number_whitespace _ _ _ hr _ _ _ _ h he]⟩

end dson_parse_context
/-- C4, amended: whitespace padding does not change the result, except after an
unterminated string. For every text `s` and all strings `l` and `r` of whitespace,
`parse (l ++ s ++ r)` returns the same error kind and leaves the same root as `parse s`,
on any parser, provided that `parse s` does not return `DSON_MISS_QUOTATION_MARK` or `r`
is made of spaces only. -/
theorem parse_whitespace_padding (p : DsonParser) (s l r : List Char)
    (hl : all_whitespace l) (hr : all_whitespace r)
    (e : error_type) (p' : DsonParser) (c : dson_parse_context)
    (h : p.parse s = some (e, p', c))
    (hq : e = DSON_MISS_QUOTATION_MARK → ∀ c ∈ r, c = ' ') :
    ∃ c', p.parse (l ++ s ++ r) = some (e, p', c') := by
  have hview : (l ++ s ++ r).dropWhile dson_parse_context.is_whitespace =
      (s.dropWhile dson_parse_context.is_whitespace ++ r).dropWhile
        dson_parse_context.is_whitespace := by
    rw [List.append_assoc, dropWhile_append_of_nil _ _ (all_whitespace_dropWhile l hl),
      dropWhile_append_norm]
  have hdepth : s.length + 1 ≤ (l ++ s ++ r).length + 1 := by
    simp only [List.length_append]; omega
  unfold DsonParser.parse at h ⊢
  simp only [dson_parse_context.skip_whitespace] at h ⊢
  rw [hview]
  generalize hv : s.dropWhile dson_parse_context.is_whitespace = v at h ⊢
  have hn : v.dropWhile dson_parse_context.is_whitespace = v := by
    rw [← hv]; exact dropWhile_dropWhile _ _
  cases hp : dson_parse_context.parse (s.length + 1) ⟨v, []⟩ p.value_ with
  | none => simp [hp] at h
  | some res =>
    obtain ⟨ret, value, ⟨rem, vec'⟩⟩ := res
    rw [hp] at h
    simp only at h
    by_cases hok : ret = DSON_OK
    · subst hok
      obtain ⟨hvec, hne, hx⟩ := dson_parse_context.parse_good _ _ _ _ _ _ hp
      subst hvec
      rw [dropWhile_append_of_norm _ _ hn hne,
        dson_parse_context.parse_mono _ _ _ _ _ hdepth (hx r (all_whitespace_stops r hr))]
      simp only [if_true, dson_parse_context.is_completed] at h ⊢
      by_cases hd : rem.dropWhile dson_parse_context.is_whitespace = []
      · rw [hd] at h
        rw [dropWhile_append_of_nil _ _ hd, all_whitespace_dropWhile r hr]
        simp only [List.isEmpty_nil, Bool.not_true, Bool.false_eq_true, if_false,
          Option.some.injEq, Prod.mk.injEq] at h ⊢
        exact ⟨_, h.1, h.2.1, rfl⟩
      · rw [dropWhile_append_of_ne_nil _ _ hd]
        have h1 : (!(rem.dropWhile dson_parse_context.is_whitespace).isEmpty) = true := by
          cases hq : rem.dropWhile dson_parse_context.is_whitespace with
          | nil => exact absurd hq hd
          | cons a t => rfl
        have h2 : (!(rem.dropWhile dson_parse_context.is_whitespace ++ r).isEmpty) = true := by
          cases hq : rem.dropWhile dson_parse_context.is_whitespace with
          | nil => exact absurd hq hd
          | cons a t => rfl
        rw [if_pos h1] at h
        rw [if_pos h2]
        simp only [Option.some.injEq, Prod.mk.injEq] at h ⊢
        exact ⟨_, h.1, h.2.1, rfl⟩
    · simp only [if_neg hok, Option.some.injEq, Prod.mk.injEq] at h
      obtain ⟨rfl, rfl, -⟩ := h
      obtain ⟨c', hc'⟩ := dson_parse_context.parse_whitespace r hr _ _ _ _ _ _ hn hp hok hq
      rw [dson_parse_context.parse_mono _ _ _ _ _ hdepth hc']
      simp only [if_neg hok]
      exact ⟨_, rfl⟩

/-- C4, amended, at the text `[1, nul` padded with a space and a line feed. -/
theorem parse_whitespace_padding_witness :
    all_whitespace [' '] ∧ all_whitespace ['\n'] ∧
    DsonParser.new.parse "[1, nul".toList =
      some (DSON_INVALID_VALUE, ⟨.mk DSON_NULL none⟩, ⟨"nul".toList, []⟩) ∧
    (DSON_INVALID_VALUE = DSON_MISS_QUOTATION_MARK → ∀ c ∈ ['\n'], c = ' ') ∧
    ∃ c', DsonParser.new.parse ([' '] ++ "[1, nul".toList ++ ['\n']) =
      some (DSON_INVALID_VALUE, ⟨.mk DSON_NULL none⟩, c') :=
  ⟨by decide, by decide, rfl, by decide,
    parse_whitespace_padding DsonParser.new "[1, nul".toList [' '] ['\n'] (by decide)
      (by decide) _ _ _ rfl (by decide)⟩
/-! ## The round trip through `stringify_raw` and `parse` -/

theorem char_item_text (c : Char) :
    (char_item c).text = dson_generate_context.stringify_char c := by
  unfold char_item dson_generate_context.stringify_char
  split_ifs <;> rfl

theorem char_item_low :
    ∀ n < 32, (char_item (Char.ofNat n)).valid ∧
      (char_item (Char.ofNat n)).decode = [Char.ofNat n] := by
  decide

theorem char_item_spec (c : Char) : (char_item c).valid ∧ (char_item c).decode = [c] := by
  by_cases h : c.toNat < 0x20
  · have := char_item_low c.toNat h
    rwa [Char.ofNat_toNat] at this
  · unfold char_item
    split_ifs with h1 h2 h3 h4 h5 h6 h7
    · subst h1; decide
    · subst h2; decide
    · subst h3; decide
    · subst h4; decide
    · subst h5; decide
    · subst h6; decide
    · subst h7; decide
    · exact ⟨⟨by omega, h1, h2⟩, rfl⟩

theorem stringify_string_eq (s str : List Char) :
    dson_generate_context.stringify_string s str = s ++ literal_text (str.map char_item) := by
  unfold dson_generate_context.stringify_string literal_text
  have : (str.map dson_generate_context.stringify_char).flatten =
      ((str.map char_item).map body_item.text).flatten := by
    rw [List.map_map]
    congr 1
    apply List.map_congr_left
    intro c _
    exact (char_item_text c).symm
  rw [this]
  simp only [List.append_assoc]

theorem reference_decode_char_items (str : List Char) :
    reference_decode (str.map char_item) = str := by
  unfold reference_decode
  induction str with
  | nil => rfl
  | cons c t ih =>
    simp only [List.map_cons, List.flatten_cons, (char_item_spec c).2, ih]
    rfl

/-- The text written for a String parses back to it. -/
theorem parse_stringify_string (str : List Char) :
    DsonParser.new.parse (literal_text (str.map char_item)) =
      some (DSON_OK, ⟨.mk DSON_STRING (some (.string str))⟩, ⟨[], []⟩) := by
  have h := parse_literal_text (str.map char_item) (by
    intro i hi
    obtain ⟨c, -, rfl⟩ := List.mem_map.mp hi
    exact (char_item_spec c).1)
  rwa [reference_decode_char_items] at h
theorem join_commas_eq (t : List Char) (ts : List (List Char)) :
    join_commas (t :: ts) = t ++ (ts.map (fun x => ',' :: x)).flatten := by
  induction ts generalizing t with
  | nil => simp [join_commas]
  | cons t' ts ih =>
    rw [join_commas_cons_cons, ih t']
    simp only [List.map_cons, List.flatten_cons, List.cons_append]

theorem stringify_array_tail (ts : List (List Char)) (vs : List dson_value)
    (h : List.Forall₂ (fun t v => ∀ s, dson_generate_context.stringify s v = some (s ++ t))
      ts vs) :
    ∀ s i, 0 < i → dson_generate_context.stringify_array s i vs =
      some (s ++ (ts.map (fun x => ',' :: x)).flatten) := by
  induction h with
  | nil =>
    intro s i _
    simp [dson_generate_context.stringify_array]
  | cons hR _ ih =>
    intro s i hi
    rw [dson_generate_context.stringify_array, if_pos hi, hR, Option.some_bind,
      ih _ _ (Nat.succ_pos i)]
    simp only [List.map_cons, List.flatten_cons, List.append_assoc, List.cons_append,
      List.nil_append]

theorem stringify_array_eq (ts : List (List Char)) (vs : List dson_value)
    (h : List.Forall₂ (fun t v => ∀ s, dson_generate_context.stringify s v = some (s ++ t))
      ts vs) (s : List Char) :
    dson_generate_context.stringify s (.mk DSON_ARRAY (some (.vector vs))) =
      some (s ++ array_text ts) := by
  rw [dson_generate_context.stringify]
  cases h with
  | nil => simp [dson_generate_context.stringify_array, array_text, join_commas]
  | cons hR hrest =>
    rw [dson_generate_context.stringify_array, if_neg (by decide), hR, Option.some_bind,
      stringify_array_tail _ _ hrest _ _ (by decide)]
    simp only [array_text, join_commas_eq, Option.map_some', List.append_assoc,
      List.cons_append, List.nil_append]

theorem join_members_eq (m : member) (ms : List member) :
    join_members (m :: ms) = m.key_text ++ ':' :: m.value_text ++
      (ms.map (fun x => ',' :: (x.key_text ++ ':' :: x.value_text))).flatten := by
  induction ms generalizing m with
  | nil => simp [join_members]
  | cons m' ms ih =>
    rw [join_members_cons_cons, ih m']
    simp only [List.map_cons, List.flatten_cons, List.cons_append, List.append_assoc]

theorem stringify_object_tail (ms : List member) (obj : List (List Char × dson_value))
    (h : List.Forall₂ writes ms obj) :
    ∀ s i, 0 < i → dson_generate_context.stringify_object s i obj =
      some (s ++ (ms.map (fun x => ',' :: (x.key_text ++ ':' :: x.value_text))).flatten) := by
  induction h with
  | nil =>
    intro s i _
    simp [dson_generate_context.stringify_object]
  | @cons m kv _ _ hR _ ih =>
    intro s i hi
    obtain ⟨k, v⟩ := kv
    obtain ⟨hk, -, -, hv⟩ := hR
    rw [dson_generate_context.stringify_object, if_pos hi, stringify_string_eq, hv,
      Option.some_bind, ih _ _ (Nat.succ_pos i)]
    simp only [hk, List.map_cons, List.flatten_cons, List.append_assoc, List.cons_append,
      List.nil_append]

theorem stringify_object_eq (ms : List member) (obj : List (List Char × dson_value))
    (h : List.Forall₂ writes ms obj) (s : List Char) :
    dson_generate_context.stringify s (.mk DSON_OBJECT (some (.unordered_map obj))) =
      some (s ++ object_text ms) := by
  rw [dson_generate_context.stringify]
  cases h with
  | nil => simp [dson_generate_context.stringify_object, object_text, join_members]
  | @cons m kv _ _ hR hrest =>
    obtain ⟨k, v⟩ := kv
    obtain ⟨hk, -, -, hv⟩ := hR
    rw [dson_generate_context.stringify_object, if_neg (by decide), stringify_string_eq, hv,
      Option.some_bind, stringify_object_tail _ _ hrest _ _ (by decide)]
    simp only [object_text, join_members_eq, hk, Option.map_some', List.append_assoc,
      List.cons_append, List.nil_append]

theorem map_assign_new {α : Type} (mp : List (List Char × α)) (key : List Char) (ptr : α)
    (h : key ∉ mp.map Prod.fst) : map_assign mp key ptr = mp ++ [(key, ptr)] := by
  induction mp with
  | nil => rfl
  | cons kv rest ih =>
    obtain ⟨k, v⟩ := kv
    simp only [List.map_cons, List.mem_cons, not_or] at h
    rw [map_assign, if_neg (fun hk => h.1 hk.symm), ih h.2]
    rfl

theorem members_map_writes (ms : List member) (obj : List (List Char × dson_value))
    (h : List.Forall₂ writes ms obj) :
    ∀ acc : List (List Char × dson_value), ((acc ++ obj).map Prod.fst).Nodup →
      ms.foldl (fun mp m => map_assign mp m.key m.value) acc = acc ++ obj := by
  induction h with
  | nil =>
    intro acc _
    simp
  | @cons m kv _ _ hR _ ih =>
    intro acc hnd
    obtain ⟨k, v⟩ := kv
    obtain ⟨-, hk, hv, -⟩ := hR
    simp only at hk hv
    have hnew : k ∉ acc.map Prod.fst := by
      intro hmem
      rw [List.map_append, List.map_cons] at hnd
      exact (List.nodup_append.mp hnd).2.2 hmem (List.mem_cons_self _ _)
    rw [List.foldl_cons, hk, hv, map_assign_new _ _ _ hnew, ih]
    · simp only [List.append_assoc, List.cons_append, List.nil_append]
    · simpa only [List.append_assoc, List.cons_append, List.nil_append] using hnd
theorem number_round_trips (d : Double) (h : number_reads_back d = true) :
    round_trips (put_double d) (.mk DSON_NUMBER (some (.double d))) := by
  refine ⟨fun s => by rw [dson_generate_context.stringify], ?_⟩
  unfold number_reads_back at h
  split at h
  · next x c heq =>
    have hx : x = d := by simpa using h
    subst hx
    exact ⟨c, heq⟩
  · simp at h

theorem string_round_trips (str : List Char) :
    round_trips (literal_text (str.map char_item)) (.mk DSON_STRING (some (.string str))) := by
  refine ⟨fun s => ?_, _, parse_stringify_string str⟩
  rw [dson_generate_context.stringify, stringify_string_eq]

theorem array_round_trips (ts : List (List Char)) (vs : List dson_value)
    (h : List.Forall₂ round_trips ts vs) :
    round_trips (array_text ts) (.mk DSON_ARRAY (some (.vector vs))) := by
  refine ⟨fun s => stringify_array_eq ts vs (forall₂_imp_mem h fun _ _ _ hr => hr.1) s, _,
    parse_array_text ts vs (forall₂_imp_mem h fun _ _ _ hr => hr.2)⟩

theorem forall₂_left_mem {α β : Type} {R : α → β → Prop} {l : List α} {m : List β}
    (h : List.Forall₂ R l m) : ∀ a ∈ l, ∃ b, R a b := by
  induction h with
  | nil => intro a ha; cases ha
  | cons hR _ ih =>
    intro a ha
    rcases List.mem_cons.mp ha with rfl | ha
    · exact ⟨_, hR⟩
    · exact ih a ha

theorem object_round_trips (ms : List member) (obj : List (List Char × dson_value))
    (h : List.Forall₂ (fun m kv => writes m kv ∧ round_trips m.value_text kv.2) ms obj)
    (hnd : (obj.map Prod.fst).Nodup) :
    round_trips (object_text ms) (.mk DSON_OBJECT (some (.unordered_map obj))) := by
  have hw : List.Forall₂ writes ms obj := forall₂_imp_mem h fun _ _ _ hr => hr.1
  have hvalid : ∀ m ∈ ms, m.valid := by
    intro m hm
    obtain ⟨kv, hkv⟩ := forall₂_left_mem h m hm
    obtain ⟨⟨hk, hkey, hval, -⟩, -, c, hc⟩ := hkv
    refine ⟨⟨⟨[], []⟩, ?_⟩, c, ?_⟩
    · rw [hk, hkey]; exact parse_stringify_string kv.1
    · rw [hval]; exact hc
  have hmap : members_map ms = obj := by
    have := members_map_writes ms obj hw [] (by simpa using hnd)
    simpa [members_map] using this
  have hp := parse_object_text ms hvalid
  rw [hmap] at hp
  exact ⟨fun s => stringify_object_eq ms obj hw s, _, hp⟩

mutual
theorem readable_round_trips (v : dson_value) (h : readable v = true) :
    ∃ t, round_trips t v := by
  cases v with
  | mk ty val =>
    cases ty <;> cases val with
    | none =>
      first
      | exact ⟨"null".toList, fun s => by rw [dson_generate_context.stringify], _, rfl⟩
      | exact ⟨"true".toList, fun s => by rw [dson_generate_context.stringify], _, rfl⟩
      | exact ⟨"false".toList, fun s => by rw [dson_generate_context.stringify], _, rfl⟩
      | simp [readable] at h
    | some p =>
      cases p with
      | double d =>
        first
        | exact ⟨_, number_round_trips d (by simpa [readable] using h)⟩
        | simp [readable] at h
      | string str =>
        first
        | exact ⟨_, string_round_trips str⟩
        | simp [readable] at h
      | vector arr =>
        first
        | (obtain ⟨ts, hts⟩ := readable_array_round_trips arr (by simpa [readable] using h)
           exact ⟨_, array_round_trips ts arr hts⟩)
        | simp [readable] at h
      | unordered_map obj =>
        first
        | (have h2 : (obj.map Prod.fst).Nodup ∧ readable_object obj = true := by
             simpa [readable] using h
           obtain ⟨ms, hms⟩ := readable_object_round_trips obj h2.2
           exact ⟨_, object_round_trips ms obj hms h2.1⟩)
        | simp [readable] at h
theorem readable_array_round_trips (arr : List dson_value) (h : readable_array arr = true) :
    ∃ ts, List.Forall₂ round_trips ts arr := by
  cases arr with
  | nil => exact ⟨[], .nil⟩
  | cons v rest =>
    have h2 : readable v = true ∧ readable_array rest = true := by
      simpa [readable_array] using h
    obtain ⟨t, ht⟩ := readable_round_trips v h2.1
    obtain ⟨ts, hts⟩ := readable_array_round_trips rest h2.2
    exact ⟨t :: ts, .cons ht hts⟩
theorem readable_object_round_trips (obj : List (List Char × dson_value))
    (h : readable_object obj = true) :
    ∃ ms, List.Forall₂ (fun m kv => writes m kv ∧ round_trips m.value_text kv.2) ms obj := by
  cases obj with
  | nil => exact ⟨[], .nil⟩
  | cons kv rest =>
    obtain ⟨k, v⟩ := kv
    have h2 : readable v = true ∧ readable_object rest = true := by
      simpa [readable_object] using h
    obtain ⟨t, ht⟩ := readable_round_trips v h2.1
    obtain ⟨ms, hms⟩ := readable_object_round_trips rest h2.2
    exact ⟨⟨literal_text (k.map char_item), k, t, v⟩ :: ms, .cons ⟨⟨rfl, rfl, rfl, ht.1⟩, ht⟩ hms⟩
end
/-- C1 fails: the Number 0.1234567 is written with six significant digits, as `0.123457`,
and `parse` reads that text with `DSON_OK` as another double. -/
theorem round_trip_loses_digits :
    dson_generator.stringify_raw (.mk DSON_NUMBER (some (.double 0x3fbf9adbb8f8da72))) =
      some "0.123457".toList ∧
    (∃ c, DsonParser.new.parse "0.123457".toList =
      some (DSON_OK, ⟨.mk DSON_NUMBER (some (.double 0x3fbf9ae0c1765775))⟩, c)) ∧
    (0x3fbf9ae0c1765775 : Double) ≠ 0x3fbf9adbb8f8da72 :=
  ⟨by decide, ⟨_, rfl⟩, by decide⟩
/-! ## Error kinds -/

namespace DsonParser

/-- A call of `parse` whose inner call of `dson_parse_context::parse` returns an error
kind returns that kind and leaves the value the inner call left. -/
theorem parse_error_of (p : DsonParser) (json : List Char) (e : error_type)
    (v : dson_value) (c : dson_parse_context) (d : Nat) (hd : d ≤ json.length + 1)
    (he : e ≠ DSON_OK)
    (h : dson_parse_context.parse d
        ⟨json.dropWhile dson_parse_context.is_whitespace, []⟩ p.value_ = some (e, v, c)) :
    p.parse json = some (e, ⟨v⟩, c) := by
  unfold parse
  simp only [dson_parse_context.skip_whitespace]
  rw [dson_parse_context.parse_mono _ _ _ _ _ hd h]
  simp only [if_neg he]

end DsonParser

/-- The view left by `skip_whitespace` on whitespace followed by a character that is not
whitespace. -/
theorem dropWhile_whitespace_cons (l : List Char) (hl : all_whitespace l) (c : Char)
    (rest : List Char) (hc : dson_parse_context.is_whitespace c = false) :
    (l ++ c :: rest).dropWhile dson_parse_context.is_whitespace = c :: rest := by
  rw [dropWhile_append_of_nil _ _ (all_whitespace_dropWhile l hl),
    not_whitespace_dropWhile _ _ hc]

/-- C20: for every text that is empty or made only of space, tab, `\n` and `\r`, `parse`
on a new parser returns `DSON_EXPECT_VALUE` and the root is still of kind Null. -/
theorem parse_whitespace_only_expects_value (s : List Char) (hs : all_whitespace s) :
    ∃ p c, DsonParser.new.parse s = some (DSON_EXPECT_VALUE, p, c) ∧
      p.root.type = DSON_NULL := by
  refine ⟨DsonParser.new, ⟨[], []⟩, ?_, rfl⟩
  apply DsonParser.parse_error_of _ _ _ _ _ 1 (by omega) (by decide)
  rw [all_whitespace_dropWhile s hs, dson_parse_context.parse_nil]
  rfl

/-- C20 at the text made of a space, a tab, a line feed and a carriage return. -/
theorem parse_whitespace_only_expects_value_witness :
    all_whitespace [' ', '\t', '\n', '\r'] ∧
    ∃ p c, DsonParser.new.parse [' ', '\t', '\n', '\r'] = some (DSON_EXPECT_VALUE, p, c) ∧
      p.root.type = DSON_NULL :=
  ⟨by decide, parse_whitespace_only_expects_value _ (by decide)⟩
namespace dson_parse_context

theorem parse_null_invalid (rest vec : List Char) (value : dson_value)
    (h : ¬ "null".toList <+: 'n' :: rest) :
    parse_null ⟨'n' :: rest, vec⟩ value = (DSON_INVALID_VALUE, value, ⟨'n' :: rest, vec⟩) := by
  rcases rest with _ | ⟨c1, _ | ⟨c2, _ | ⟨c3, r⟩⟩⟩ <;> try rfl
  unfold parse_null
  simp only
  split_ifs with h1
  · rfl
  · exfalso
    simp only [not_or, not_not] at h1
    obtain ⟨-, rfl, rfl, rfl⟩ := h1
    exact h ⟨r, rfl⟩

theorem parse_true_invalid (rest vec : List Char) (value : dson_value)
    (h : ¬ "true".toList <+: 't' :: rest) :
    parse_true ⟨'t' :: rest, vec⟩ value = (DSON_INVALID_VALUE, value, ⟨'t' :: rest, vec⟩) := by
  rcases rest with _ | ⟨c1, _ | ⟨c2, _ | ⟨c3, r⟩⟩⟩ <;> try rfl
  unfold parse_true
  simp only
  split_ifs with h1
  · rfl
  · exfalso
    simp only [not_or, not_not] at h1
    obtain ⟨-, rfl, rfl, rfl⟩ := h1
    exact h ⟨r, rfl⟩

theorem parse_false_invalid (rest vec : List Char) (value : dson_value)
    (h : ¬ "false".toList <+: 'f' :: rest) :
    parse_false ⟨'f' :: rest, vec⟩ value =
      (DSON_INVALID_VALUE, value, ⟨'f' :: rest, vec⟩) := by
  rcases rest with _ | ⟨c1, _ | ⟨c2, _ | ⟨c3, _ | ⟨c4, r⟩⟩⟩⟩ <;> try rfl
  unfold parse_false
  simp only
  split_ifs with h1
  · rfl
  · exfalso
    simp only [not_or, not_not] at h1
    obtain ⟨-, rfl, rfl, rfl, rfl⟩ := h1
    exact h ⟨r, rfl⟩

theorem parse_number_invalid (c : Char) (rest vec : List Char) (value : dson_value)
    (hm : c ≠ '-') (hd : isdigit c = false) :
    parse_number ⟨c :: rest, vec⟩ value = (DSON_INVALID_VALUE, value, ⟨c :: rest, vec⟩) := by
  have h0 : c ≠ '0' := by
    rintro rfl
    simp [isdigit] at hd
  have : number_scan (c :: rest) = none := by
    simp [number_scan, number_integer, hm, h0, hd]
  simp only [parse_number, this]

end dson_parse_context

/-- C16: malformed literals and bad leading characters are `DSON_INVALID_VALUE`. For every
text whose first character after the whitespace is `n`, `t` or `f` but which does not go on
with `null`, `true` or `false`, and for every text whose first character after the
whitespace is none of `n`, `f`, `t`, `"`, `[`, `{`, `-` and no digit, `parse` on a new
parser returns `DSON_INVALID_VALUE` and the root is still of kind Null. -/
theorem parse_invalid_value (l : List Char) (hl : all_whitespace l) (c : Char)
    (rest : List Char) (hc : dson_parse_context.is_whitespace c = false)
    (h : (c = 'n' ∧ ¬ "null".toList <+: c :: rest) ∨
      (c = 't' ∧ ¬ "true".toList <+: c :: rest) ∨
      (c = 'f' ∧ ¬ "false".toList <+: c :: rest) ∨
      (c ∉ ['n', 'f', 't', '"', '[', '{', '-'] ∧ isdigit c = false)) :
    ∃ p ctx, DsonParser.new.parse (l ++ c :: rest) = some (DSON_INVALID_VALUE, p, ctx) ∧
      p.root.type = DSON_NULL := by
  refine ⟨DsonParser.new, ⟨c :: rest, []⟩, ?_, rfl⟩
  apply DsonParser.parse_error_of _ _ _ _ _ 1
    (by simp only [List.length_append, List.length_cons]; omega) (by decide)
  rw [dropWhile_whitespace_cons l hl c rest hc, dson_parse_context.parse_cons]
  rcases h with ⟨rfl, h⟩ | ⟨rfl, h⟩ | ⟨rfl, h⟩ | ⟨hn, hd⟩
  · rw [if_pos rfl, dson_parse_context.parse_null_invalid _ _ _ h]
    rfl
  · rw [if_neg (by decide), if_neg (by decide), if_pos rfl,
      dson_parse_context.parse_true_invalid _ _ _ h]
    rfl
  · rw [if_neg (by decide), if_pos rfl, dson_parse_context.parse_false_invalid _ _ _ h]
    rfl
  · simp only [List.mem_cons, List.mem_singleton, List.not_mem_nil, or_false, not_or] at hn
    obtain ⟨h1, h2, h3, h4, h5, h6, h7⟩ := hn
    rw [if_neg h1, if_neg h2, if_neg h3, if_neg h4, if_neg h5, if_neg h6,
      dson_parse_context.parse_number_invalid _ _ _ _ h7 hd]
    rfl

/-- C16 at the text ` nul`, and at the text `+1`. -/
theorem parse_invalid_value_witness :
    (all_whitespace [' '] ∧ dson_parse_context.is_whitespace 'n' = false ∧
      ¬ "null".toList <+: "nul".toList ∧
      ∃ p ctx, DsonParser.new.parse ([' '] ++ "nul".toList) =
        some (DSON_INVALID_VALUE, p, ctx) ∧ p.root.type = DSON_NULL) ∧
    (all_whitespace [] ∧ dson_parse_context.is_whitespace '+' = false ∧
      ('+' ∉ ['n', 'f', 't', '"', '[', '{', '-'] ∧ isdigit '+' = false) ∧
      ∃ p ctx, DsonParser.new.parse ([] ++ "+1".toList) =
        some (DSON_INVALID_VALUE, p, ctx) ∧ p.root.type = DSON_NULL) :=
  ⟨⟨by decide, by decide, by decide,
      parse_invalid_value [' '] (by decide) 'n' "ul".toList (by decide)
        (Or.inl ⟨rfl, by decide⟩)⟩,
    ⟨by decide, by decide, by decide,
      parse_invalid_value [] (by decide) '+' "1".toList (by decide)
        (Or.inr (Or.inr (Or.inr (by decide))))⟩⟩
/-- The loop of `parse_string()` over a well-formed part of a body: the decoded bytes are
appended to `vec_`, and the loop goes on with what follows. -/
theorem parse_string_loop_part (body : List body_item) (hb : ∀ i ∈ body, i.valid) :
    ∀ (fuel sz : Nat) (view rest vec : List Char),
      dson_parse_context.parse_string_loop (body.length + fuel) sz
          ((body.map body_item.text).flatten ++ rest) ⟨view, vec⟩ =
        dson_parse_context.parse_string_loop fuel sz rest
          ⟨view, vec ++ reference_decode body⟩ := by
  induction body with
  | nil =>
    intro fuel sz view rest vec
    simp [reference_decode]
  | cons i body ih =>
    intro fuel sz view rest vec
    have hi := hb i (List.mem_cons_self _ _)
    have ih' := ih (fun j hj => hb j (List.mem_cons_of_mem _ hj)) fuel sz view rest
    have hf : (i :: body).length + fuel = (body.length + fuel) + 1 := by
      simp only [List.length_cons]; omega
    rw [hf]
    cases i with
    | plain c =>
      obtain ⟨h3, h1, h2⟩ := hi
      simp only [List.map_cons, List.flatten_cons, body_item.text, List.cons_append,
        List.nil_append]
      rw [dson_parse_context.parse_string_loop_plain _ _ _ _ _ h1 h2 h3, ih']
      simp [reference_decode, body_item.decode]
    | escape e =>
      simp only [List.map_cons, List.flatten_cons, body_item.text, List.cons_append,
        List.nil_append]
      rw [dson_parse_context.parse_string_loop_escape _ _ _ _ _ _ (simple_escape_eq e hi),
        ih']
      simp [reference_decode, body_item.decode]
    | unicode d0 d1 d2 d3 =>
      obtain ⟨h0, h1, h2, h3, hs⟩ := hi
      have hlt := hex4_value_lt d0 d1 d2 d3 h0 h1 h2 h3
      simp only [List.map_cons, List.flatten_cons, body_item.text, List.cons_append,
        List.nil_append]
      rw [dson_parse_context.parse_string_loop_unicode _ _ _ _ _ _ _ _ h0 h1 h2 h3 (by omega),
        ih', encode_utf8_eq _ _ (by omega)]
      simp [reference_decode, body_item.decode]
    | pair h0 h1 h2 h3 l0 l1 l2 l3 =>
      obtain ⟨x0, x1, x2, x3, y0, y1, y2, y3, hh1, hh2, hl1, hl2⟩ := hi
      simp only [List.map_cons, List.flatten_cons, body_item.text, List.cons_append,
        List.nil_append]
      rw [dson_parse_context.parse_string_loop_pair _ _ _ _ _ _ _ _ _ _ _ _
          x0 x1 x2 x3 y0 y1 y2 y3 ⟨hh1, hh2⟩ ⟨hl1, hl2⟩,
        ih', encode_utf8_eq _ _ (surrogate_pair_le _ _ ⟨hh1, hh2⟩ ⟨hl1, hl2⟩)]
      simp [reference_decode, body_item.decode]

/-- A string literal whose body is a well-formed part followed by a text at which the round
of the loop of `parse_string()` returns the error kind `e`: `parse` returns `e` and leaves
the root as it was. -/
theorem parse_literal_stops (p : DsonParser) (body : List body_item)
    (hb : ∀ i ∈ body, i.valid) (rest : List Char) (e : error_type) (he : e ≠ DSON_OK)
    (hstep : ∀ self : dson_parse_context, ∃ r c,
      dson_parse_context.string_step 0 rest self = .inl ((r, e), c)) :
    ∃ c, p.parse ('"' :: ((body.map body_item.text).flatten ++ rest)) = some (e, p, c) := by
  obtain ⟨r, c, hc⟩ := hstep ⟨(body.map body_item.text).flatten ++ rest, [] ++ reference_decode body⟩
  refine ⟨c, ?_⟩
  apply DsonParser.parse_error_of _ _ _ _ _ 1 (by simp only [List.length_cons]; omega) he
  rw [not_whitespace_dropWhile _ _ (by decide), dson_parse_context.parse_cons]
  simp only [Char.reduceEq, if_false, if_true]
  unfold dson_parse_context.parse_string_value dson_parse_context.parse_string
  simp only [List.tail_cons, List.length_nil]
  have hloop : dson_parse_context.parse_string_loop (body.length + 1) 0
      ((body.map body_item.text).flatten ++ rest)
      ⟨(body.map body_item.text).flatten ++ rest, []⟩ = some ((r, e), c) := by
    rw [parse_string_loop_part body hb, dson_parse_context.parse_string_loop, hc]
  rw [dson_parse_context.parse_string_loop_mono _ _ _ _ _ _
    (by have := text_length_ge body; rw [List.length_append]; omega) hloop]
  simp only [Option.map_some', if_neg he]
theorem parse_hex4_lacks (q : List Char) (h : lacks_hex4 q) :
    (dson_parse_context.parse_hex4 q).1.2 = false := by
  cases hq : (dson_parse_context.parse_hex4 q).1.2 with
  | false => rfl
  | true =>
    exfalso
    obtain ⟨c0, c1, c2, c3, rest, rfl, h0, h1, h2, h3⟩ :=
      dson_parse_context.parse_hex4_true q hq
    rcases h with h | ⟨c, hc, hx⟩
    · simp only [List.length_cons] at h; omega
    · simp only [List.take_succ_cons, List.take_zero, List.mem_cons, List.mem_singleton,
        List.not_mem_nil, or_false] at hc
      rcases hc with rfl | rfl | rfl | rfl <;> simp_all

/-- C18: unknown escapes are `DSON_INVALID_STRING_ESCAPE`. For every string literal whose
body is a well-formed part followed by a backslash and a character `c` that is none of
`"`, `\`, `/`, `b`, `f`, `n`, `r`, `t`, `u`, whatever follows, `parse` on a new parser
returns `DSON_INVALID_STRING_ESCAPE` and the root is still of kind Null. -/
theorem parse_unknown_escape (body : List body_item) (hb : ∀ i ∈ body, i.valid) (c : Char)
    (hc : c ∉ ['"', '\\', '/', 'b', 'f', 'n', 'r', 't', 'u']) (rest : List Char) :
    ∃ p ctx, DsonParser.new.parse
        ('"' :: ((body.map body_item.text).flatten ++ '\\' :: c :: rest)) =
          some (DSON_INVALID_STRING_ESCAPE, p, ctx) ∧ p.root.type = DSON_NULL := by
  obtain ⟨ctx, h⟩ := parse_literal_stops DsonParser.new body hb ('\\' :: c :: rest)
    DSON_INVALID_STRING_ESCAPE (by decide) (by
      intro self
      simp only [List.mem_cons, List.mem_singleton, List.not_mem_nil, or_false, not_or] at hc
      obtain ⟨h1, h2, h3, h4, h5, h6, h7, h8, h9⟩ := hc
      have hs : dson_parse_context.simple_escape c = none := by
        simp [dson_parse_context.simple_escape, h1, h2, h3, h4, h5, h6, h7, h8]
      refine ⟨[], ⟨self.view_, self.vec_.take (dson_parse_context.erase_from 0)⟩, ?_⟩
      simp [dson_parse_context.string_step, hs, h9])
  exact ⟨_, _, h, rfl⟩

/-- C18 at the literal `"xx\xxx"`. -/
theorem parse_unknown_escape_witness :
    (∀ i ∈ [body_item.plain 'x', .plain 'x'], i.valid) ∧
    'x' ∉ ['"', '\\', '/', 'b', 'f', 'n', 'r', 't', 'u'] ∧
    ∃ p ctx, DsonParser.new.parse
        ('"' :: (([body_item.plain 'x', .plain 'x'].map body_item.text).flatten ++
          '\\' :: 'x' :: ['x', 'x', '"'])) =
          some (DSON_INVALID_STRING_ESCAPE, p, ctx) ∧ p.root.type = DSON_NULL :=
  ⟨by decide, by decide, parse_unknown_escape _ (by decide) 'x' (by decide) _⟩

/-- C19: raw control bytes are `DSON_INVALID_STRING_CHAR`. For every string literal whose
body is a well-formed part followed by an unescaped byte below `0x20`, whatever follows,
`parse` on a new parser returns `DSON_INVALID_STRING_CHAR` and the root is still of kind
Null. -/
theorem parse_raw_control_byte (body : List body_item) (hb : ∀ i ∈ body, i.valid) (b : Char)
    (hlt : b.toNat < 0x20) (rest : List Char) :
    ∃ p ctx, DsonParser.new.parse
        ('"' :: ((body.map body_item.text).flatten ++ b :: rest)) =
          some (DSON_INVALID_STRING_CHAR, p, ctx) ∧ p.root.type = DSON_NULL := by
  obtain ⟨ctx, h⟩ := parse_literal_stops DsonParser.new body hb (b :: rest)
    DSON_INVALID_STRING_CHAR (by decide) (by
      intro self
      have h1 : b ≠ '"' := by rintro rfl; revert hlt; decide
      have h2 : b ≠ '\\' := by rintro rfl; revert hlt; decide
      refine ⟨[], ⟨self.view_, self.vec_.take (dson_parse_context.erase_from 0)⟩, ?_⟩
      simp [dson_parse_context.string_step, h1, h2, hlt])
  exact ⟨_, _, h, rfl⟩

/-- C19 at the literal `"cc\x1F"`, with the raw byte `0x1F`. -/
theorem parse_raw_control_byte_witness :
    (∀ i ∈ [body_item.plain 'c', .plain 'c'], i.valid) ∧ '\x1f'.toNat < 0x20 ∧
    ∃ p ctx, DsonParser.new.parse
        ('"' :: (([body_item.plain 'c', .plain 'c'].map body_item.text).flatten ++
          '\x1f' :: ['"'])) =
          some (DSON_INVALID_STRING_CHAR, p, ctx) ∧ p.root.type = DSON_NULL :=
  ⟨by decide, by decide, parse_raw_control_byte _ (by decide) '\x1f' (by decide) _⟩
/-- C15 fails: the text `"a\`, an unterminated string whose last character is a backslash,
gives `DSON_INVALID_STRING_ESCAPE`, not `DSON_MISS_QUOTATION_MARK`. -/
theorem trailing_backslash_is_invalid_escape :
    (DsonParser.new.parse ['"', 'a', '\\']).map (fun r => (r.1, r.2.1.root.type)) =
      some (DSON_INVALID_STRING_ESCAPE, DSON_NULL) := by
  decide

/-- C15, amended: an unterminated string is `DSON_MISS_QUOTATION_MARK`, except after a last
backslash. For every text that is an opening `"` followed by a well-formed body (plain
characters at or above `0x20`, simple escapes, well-formed `\u` escapes and pairs) that
reaches the end of the input, `parse` on a new parser returns `DSON_MISS_QUOTATION_MARK`;
when a backslash with nothing after it follows such a body, it returns
`DSON_INVALID_STRING_ESCAPE`. The root is still of kind Null in both cases. -/
theorem parse_unterminated_string (body : List body_item) (hb : ∀ i ∈ body, i.valid) :
    (∃ p ctx, DsonParser.new.parse ('"' :: (body.map body_item.text).flatten) =
        some (DSON_MISS_QUOTATION_MARK, p, ctx) ∧ p.root.type = DSON_NULL) ∧
    (∃ p ctx, DsonParser.new.parse ('"' :: ((body.map body_item.text).flatten ++ ['\\'])) =
        some (DSON_INVALID_STRING_ESCAPE, p, ctx) ∧ p.root.type = DSON_NULL) := by
  constructor
  · obtain ⟨ctx, h⟩ := parse_literal_stops DsonParser.new body hb []
      DSON_MISS_QUOTATION_MARK (by decide) (fun self => ⟨_, _, rfl⟩)
    rw [List.append_nil] at h
    exact ⟨_, _, h, rfl⟩
  · obtain ⟨ctx, h⟩ := parse_literal_stops DsonParser.new body hb ['\\']
      DSON_INVALID_STRING_ESCAPE (by decide) (fun self => ⟨_, _, rfl⟩)
    exact ⟨_, _, h, rfl⟩

/-- C15, amended, at the body `xxx\n`. -/
theorem parse_unterminated_string_witness :
    (∀ i ∈ [body_item.plain 'x', .plain 'x', .plain 'x', .escape 'n'], i.valid) ∧
    (∃ p ctx, DsonParser.new.parse ('"' ::
        ([body_item.plain 'x', .plain 'x', .plain 'x', .escape 'n'].map
          body_item.text).flatten) =
        some (DSON_MISS_QUOTATION_MARK, p, ctx) ∧ p.root.type = DSON_NULL) ∧
    (∃ p ctx, DsonParser.new.parse ('"' ::
        (([body_item.plain 'x', .plain 'x', .plain 'x', .escape 'n'].map
          body_item.text).flatten ++ ['\\'])) =
        some (DSON_INVALID_STRING_ESCAPE, p, ctx) ∧ p.root.type = DSON_NULL) :=
  ⟨by decide, parse_unterminated_string _ (by decide)⟩

/-- C14: an unpaired high surrogate is rejected. For every string literal whose body is a
well-formed part followed by an escape `\uHHHH` with `HHHH` in `[0xD800, 0xDBFF]`, which is
followed either by anything that does not start with the two characters `\u` (the closing
quote and the end of the input included), or by an escape `\uXXXX` of four hexadecimal
digits with `XXXX` outside `[0xDC00, 0xDFFF]`, `parse` on a new parser returns
`DSON_INVALID_UNICODE_SURROGATE` and the root is still of kind Null. -/
theorem parse_unpaired_high_surrogate (body : List body_item) (hb : ∀ i ∈ body, i.valid)
    (h0 h1 h2 h3 : Char) (x0 : isxdigit h0 = true) (x1 : isxdigit h1 = true)
    (x2 : isxdigit h2 = true) (x3 : isxdigit h3 = true)
    (hh : 0xD800 ≤ hex4_value h0 h1 h2 h3 ∧ hex4_value h0 h1 h2 h3 ≤ 0xDBFF)
    (rest : List Char)
    (hrest : (¬ ∃ t, rest = '\\' :: 'u' :: t) ∨
      ∃ l0 l1 l2 l3 t, rest = '\\' :: 'u' :: l0 :: l1 :: l2 :: l3 :: t ∧
        isxdigit l0 = true ∧ isxdigit l1 = true ∧ isxdigit l2 = true ∧ isxdigit l3 = true ∧
        ¬ (0xDC00 ≤ hex4_value l0 l1 l2 l3 ∧ hex4_value l0 l1 l2 l3 ≤ 0xDFFF)) :
    ∃ p ctx, DsonParser.new.parse
        ('"' :: ((body.map body_item.text).flatten ++
          '\\' :: 'u' :: h0 :: h1 :: h2 :: h3 :: rest)) =
          some (DSON_INVALID_UNICODE_SURROGATE, p, ctx) ∧ p.root.type = DSON_NULL := by
  obtain ⟨ctx, h⟩ := parse_literal_stops DsonParser.new body hb
    ('\\' :: 'u' :: h0 :: h1 :: h2 :: h3 :: rest)
    DSON_INVALID_UNICODE_SURROGATE (by decide) (by
      intro self
      refine ⟨[], ⟨self.view_, self.vec_.take (dson_parse_context.erase_from 0)⟩, ?_⟩
      have hu : dson_parse_context.simple_escape 'u' = none := by decide
      simp only [dson_parse_context.string_step, hu, parse_hex4_eq _ _ _ _ _ x0 x1 x2 x3]
      simp only [Char.reduceEq, if_false, if_true, Bool.not_true, Bool.false_eq_true, hh,
        and_self]
      rcases hrest with hn | ⟨l0, l1, l2, l3, t, rfl, y0, y1, y2, y3, hl⟩
      · rcases rest with _ | ⟨a, _ | ⟨b, t4⟩⟩
        · rfl
        · rfl
        · have : a ≠ '\\' ∨ b ≠ 'u' := by
            by_contra hc
            simp only [not_or, not_not] at hc
            exact hn ⟨t4, by rw [hc.1, hc.2]⟩
          simp only [this, if_true]
      · simp only [parse_hex4_eq _ _ _ _ _ y0 y1 y2 y3]
        have : hex4_value l0 l1 l2 l3 < 0xDC00 ∨ hex4_value l0 l1 l2 l3 > 0xDFFF := by omega
        simp [this])
  exact ⟨_, _, h, rfl⟩

/-- C14 at the literals `"a\uD800"` and `"a\uD800\uF000"`. -/
theorem parse_unpaired_high_surrogate_witness :
    (∀ i ∈ [body_item.plain 'a'], i.valid) ∧
    (0xD800 ≤ hex4_value 'D' '8' '0' '0' ∧ hex4_value 'D' '8' '0' '0' ≤ 0xDBFF) ∧
    (∃ p ctx, DsonParser.new.parse
        ('"' :: (([body_item.plain 'a'].map body_item.text).flatten ++
          '\\' :: 'u' :: 'D' :: '8' :: '0' :: '0' :: ['"'])) =
          some (DSON_INVALID_UNICODE_SURROGATE, p, ctx) ∧ p.root.type = DSON_NULL) ∧
    (∃ p ctx, DsonParser.new.parse
        ('"' :: (([body_item.plain 'a'].map body_item.text).flatten ++
          '\\' :: 'u' :: 'D' :: '8' :: '0' :: '0' ::
            ['\\', 'u', 'F', '0', '0', '0', '"'])) =
          some (DSON_INVALID_UNICODE_SURROGATE, p, ctx) ∧ p.root.type = DSON_NULL) :=
  ⟨by decide, by decide,
    parse_unpaired_high_surrogate _ (by decide) 'D' '8' '0' '0' rfl rfl rfl rfl (by decide)
      ['"'] (Or.inl (by simp)),
    parse_unpaired_high_surrogate _ (by decide) 'D' '8' '0' '0' rfl rfl rfl rfl (by decide)
      ['\\', 'u', 'F', '0', '0', '0', '"']
      (Or.inr ⟨'F', '0', '0', '0', ['"'], rfl, rfl, rfl, rfl, rfl, by decide⟩)⟩
/-- A string literal whose body is a well-formed part followed by a text at which the round
of the loop of `parse_string()` returns `DSON_INVALID_UNICODE_HEX` and leaves `vec_` as it
is: `parse` returns that error kind, and the context still holds the bytes decoded from the
part. -/
theorem parse_literal_invalid_hex (p : DsonParser) (body : List body_item)
    (hb : ∀ i ∈ body, i.valid) (rest : List Char)
    (hstep : ∀ self : dson_parse_context,
      dson_parse_context.string_step 0 rest self = .inl (([], DSON_INVALID_UNICODE_HEX), self)) :
    p.parse ('"' :: ((body.map body_item.text).flatten ++ rest)) =
      some (DSON_INVALID_UNICODE_HEX, p,
        ⟨(body.map body_item.text).flatten ++ rest, reference_decode body⟩) := by
  have hc := hstep ⟨(body.map body_item.text).flatten ++ rest, [] ++ reference_decode body⟩
  rw [List.nil_append] at hc
  apply DsonParser.parse_error_of _ _ _ _ _ 1 (by simp only [List.length_cons]; omega)
    (by decide)
  rw [not_whitespace_dropWhile _ _ (by decide), dson_parse_context.parse_cons]
  simp only [Char.reduceEq, if_false, if_true]
  unfold dson_parse_context.parse_string_value dson_parse_context.parse_string
  simp only [List.tail_cons, List.length_nil]
  have hloop : dson_parse_context.parse_string_loop (body.length + 1) 0
      ((body.map body_item.text).flatten ++ rest)
      ⟨(body.map body_item.text).flatten ++ rest, []⟩ =
        some (([], DSON_INVALID_UNICODE_HEX),
          ⟨(body.map body_item.text).flatten ++ rest, reference_decode body⟩) := by
    rw [parse_string_loop_part body hb, dson_parse_context.parse_string_loop,
      List.nil_append, hc]
  rw [dson_parse_context.parse_string_loop_mono _ _ _ _ _ _
    (by have := text_length_ge body; rw [List.length_append]; omega) hloop]
  simp only [Option.map_some', if_neg (show DSON_INVALID_UNICODE_HEX ≠ DSON_OK by decide)]

/-- C17 fails when bytes were decoded before the escape. For every string literal whose
body is a well-formed part followed by `\u`, as a first escape or as the second escape
after a high surrogate, and then by fewer than four characters or by four characters one of
which is no hexadecimal digit, `parse_string` returns `DSON_INVALID_UNICODE_HEX` without
erasing `vec_` (dson.cpp:159 and 167). The call of `parse` on a new parser returns that error
kind when the part decodes to no byte; when it decodes to at least one byte, the final
`assert(ctx.is_empty())` fails and the call is aborted, with no error kind returned. On four
hexadecimal digits, of either case, `parse_hex4` returns their base-16 value and removes
them from the view. -/
theorem parse_invalid_hex_aborts (body : List body_item) (hb : ∀ i ∈ body, i.valid)
    (q : List Char) (hq : lacks_hex4 q) :
    DsonParser.new.parse_asserted
        ('"' :: ((body.map body_item.text).flatten ++ '\\' :: 'u' :: q)) =
      some (if reference_decode body = []
        then parse_outcome.returned DSON_INVALID_UNICODE_HEX DsonParser.new
        else parse_outcome.assertion_failed) ∧
    (∀ h0 h1 h2 h3 : Char, isxdigit h0 = true → isxdigit h1 = true → isxdigit h2 = true →
      isxdigit h3 = true →
      0xD800 ≤ hex4_value h0 h1 h2 h3 ∧ hex4_value h0 h1 h2 h3 ≤ 0xDBFF →
      DsonParser.new.parse_asserted
        ('"' :: ((body.map body_item.text).flatten ++
          '\\' :: 'u' :: h0 :: h1 :: h2 :: h3 :: '\\' :: 'u' :: q)) =
      some (if reference_decode body = []
        then parse_outcome.returned DSON_INVALID_UNICODE_HEX DsonParser.new
        else parse_outcome.assertion_failed)) ∧
    (∀ (d0 d1 d2 d3 : Char) (rest : List Char), isxdigit d0 = true → isxdigit d1 = true →
      isxdigit d2 = true → isxdigit d3 = true →
      dson_parse_context.parse_hex4 (d0 :: d1 :: d2 :: d3 :: rest) =
        ((hex4_value d0 d1 d2 d3, true), rest)) := by
  have hbad := parse_hex4_lacks q hq
  have hu : dson_parse_context.simple_escape 'u' = none := by decide
  have hend : ∀ view : List Char,
      (if (⟨view, reference_decode body⟩ : dson_parse_context).is_empty
        then parse_outcome.returned DSON_INVALID_UNICODE_HEX DsonParser.new
        else parse_outcome.assertion_failed) =
      (if reference_decode body = []
        then parse_outcome.returned DSON_INVALID_UNICODE_HEX DsonParser.new
        else parse_outcome.assertion_failed) := by
    intro view
    cases h : reference_decode body <;> simp [dson_parse_context.is_empty]
  refine ⟨?_, ?_, fun d0 d1 d2 d3 rest => parse_hex4_eq d0 d1 d2 d3 rest⟩
  · rw [DsonParser.parse_asserted, parse_literal_invalid_hex DsonParser.new body hb
      ('\\' :: 'u' :: q) (by
        intro self
        simp [dson_parse_context.string_step, hu, hbad])]
    simp only [Option.map_some', hend]
  · intro h0 h1 h2 h3 x0 x1 x2 x3 hh
    rw [DsonParser.parse_asserted, parse_literal_invalid_hex DsonParser.new body hb
      ('\\' :: 'u' :: h0 :: h1 :: h2 :: h3 :: '\\' :: 'u' :: q) (by
        intro self
        simp only [dson_parse_context.string_step, hu,
          parse_hex4_eq _ _ _ _ _ x0 x1 x2 x3]
        simp [hh, hbad])]
    simp only [Option.map_some', hend]

/-- C17 at its failing inputs, the literals `"a\u012"` and `"a\uD834\u 521"`: both calls
are aborted by the final assertion. -/
theorem parse_invalid_hex_aborts_witness :
    (∀ i ∈ [body_item.plain 'a'], i.valid) ∧ lacks_hex4 ['0', '1', '2', '"'] ∧
    lacks_hex4 [' ', '5', '2', '1', '"'] ∧
    DsonParser.new.parse_asserted ['"', 'a', '\\', 'u', '0', '1', '2', '"'] =
      some parse_outcome.assertion_failed ∧
    DsonParser.new.parse_asserted
      ['"', 'a', '\\', 'u', 'D', '8', '3', '4', '\\', 'u', ' ', '5', '2', '1', '"'] =
      some parse_outcome.assertion_failed :=
  ⟨by decide, by decide, by decide,
    (parse_invalid_hex_aborts [body_item.plain 'a'] (by decide) ['0', '1', '2', '"']
      (by decide)).1,
    (parse_invalid_hex_aborts [body_item.plain 'a'] (by decide) [' ', '5', '2', '1', '"']
      (by decide)).2.1 'D' '8' '3' '4' rfl rfl rfl rfl (by decide)⟩
/-- C13: trailing content after a valid root is rejected. For every text `s` on which
`parse` returns `DSON_OK`, every non-empty string `w` of whitespace and every text `t`
whose first character is not whitespace, `parse` of `s ++ w ++ t` returns
`DSON_ROOT_NOT_SINGULAR` and the root is of kind Null afterwards; this holds on a new
parser and on a used one. -/
theorem parse_trailing_content (p p' : DsonParser) (s w : List Char)
    (c : dson_parse_context) (h : p.parse s = some (DSON_OK, p', c))
    (hw : all_whitespace w) (hne : w ≠ []) (a : Char) (t : List Char)
    (ha : dson_parse_context.is_whitespace a = false) :
    ∃ p'' ctx, p.parse (s ++ w ++ a :: t) = some (DSON_ROOT_NOT_SINGULAR, p'', ctx) ∧
      p''.root.type = DSON_NULL := by
  obtain ⟨v⟩ := p'
  obtain ⟨rem, hp, hrem, -⟩ := DsonParser.parse_ok_inv p s v c h
  obtain ⟨-, hv, hx⟩ := dson_parse_context.parse_good _ _ _ _ _ _ hp
  have hstops : stops (w ++ a :: t) := by
    cases w with
    | nil => exact absurd rfl hne
    | cons b w' =>
      exact stops_cons _ _ (whitespace_not_num_char b (hw b (List.mem_cons_self _ _)))
  have hview : (s ++ w ++ a :: t).dropWhile dson_parse_context.is_whitespace =
      s.dropWhile dson_parse_context.is_whitespace ++ (w ++ a :: t) := by
    rw [List.append_assoc, dropWhile_append_of_ne_nil _ _ hv]
  have hleft : (rem ++ (w ++ a :: t)).dropWhile dson_parse_context.is_whitespace = a :: t := by
    rw [dropWhile_append_of_nil _ _ hrem, dropWhile_whitespace_cons w hw a t ha]
  refine ⟨⟨v.set_type DSON_NULL⟩, ⟨a :: t, []⟩, ?_, by cases v; rfl⟩
  unfold DsonParser.parse
  simp only [dson_parse_context.skip_whitespace]
  rw [hview, dson_parse_context.parse_mono _ _ _ _ _
    (by simp only [List.length_append]; omega) (hx _ hstops)]
  simp only [if_true, hleft]
  rfl

/-- C13 at the text `null`, followed by a space and `fa`. -/
theorem parse_trailing_content_witness :
    DsonParser.new.parse "null".toList = some (DSON_OK, ⟨.mk DSON_NULL none⟩, ⟨[], []⟩) ∧
    all_whitespace [' '] ∧ dson_parse_context.is_whitespace 'f' = false ∧
    ∃ p'' ctx, DsonParser.new.parse ("null".toList ++ [' '] ++ 'f' :: ['a']) =
      some (DSON_ROOT_NOT_SINGULAR, p'', ctx) ∧ p''.root.type = DSON_NULL :=
  ⟨rfl, by decide, by decide,
    parse_trailing_content DsonParser.new ⟨.mk DSON_NULL none⟩ "null".toList [' '] ⟨[], []⟩
      rfl (by decide) (by decide) 'f' ['a'] (by decide)⟩
/-! ## The generator -/

mutual
theorem readable_of_number_free (v : dson_value) (h : number_free v = true) :
    readable v = true := by
  cases v with
  | mk ty val =>
    cases ty <;> cases val with
    | none => first | rfl | simp [number_free] at h
    | some p =>
      cases p with
      | double d => simp [number_free] at h
      | string str => first | rfl | simp [number_free] at h
      | vector arr =>
        first
        | (rw [readable]
           exact readable_array_of_number_free arr (by simpa [number_free] using h))
        | simp [number_free] at h
      | unordered_map obj =>
        first
        | (have h2 : (obj.map Prod.fst).Nodup ∧ number_free_object obj = true := by
             simpa [number_free] using h
           rw [readable, Bool.and_eq_true]
           exact ⟨decide_eq_true h2.1, readable_object_of_number_free obj h2.2⟩)
        | simp [number_free] at h
theorem readable_array_of_number_free (arr : List dson_value)
    (h : number_free_array arr = true) : readable_array arr = true := by
  cases arr with
  | nil => rfl
  | cons v rest =>
    have h2 : number_free v = true ∧ number_free_array rest = true := by
      simpa [number_free_array] using h
    rw [readable_array, Bool.and_eq_true]
    exact ⟨readable_of_number_free v h2.1, readable_array_of_number_free rest h2.2⟩
theorem readable_object_of_number_free (obj : List (List Char × dson_value))
    (h : number_free_object obj = true) : readable_object obj = true := by
  cases obj with
  | nil => rfl
  | cons kv rest =>
    obtain ⟨k, v⟩ := kv
    have h2 : number_free v = true ∧ number_free_object rest = true := by
      simpa [number_free_object] using h
    rw [readable_object, Bool.and_eq_true]
    exact ⟨readable_of_number_free v h2.1, readable_object_of_number_free rest h2.2⟩
end

/-- C11: round trip without numbers. For every well-formed value `v` built only from Null,
False, True, Strings of arbitrary bytes, Arrays and Objects, `stringify_raw v` returns a
text on which `parse`, on a new parser, returns `DSON_OK` and leaves a root equal to `v`:
same kind, equal string, arrays equal element by element, objects with the same keys and
an equal value for each key. -/
theorem stringify_parse_round_trip_number_free (v : dson_value)
    (h : number_free v = true) :
    ∃ t c, dson_generator.stringify_raw v = some t ∧
      DsonParser.new.parse t = some (DSON_OK, ⟨v⟩, c) := by
  obtain ⟨t, ht, c, hc⟩ := readable_round_trips v (readable_of_number_free v h)
  exact ⟨t, c, by rw [dson_generator.stringify_raw, ht, List.nil_append], hc⟩

/-- C11 at the value `{"k\"\\":["\u0001\n\t é",null,[],{}],"":false,"t":true}`, whose
first String holds a quote and a backslash and whose second holds control bytes and bytes
above `0x7F`. -/
theorem stringify_parse_round_trip_number_free_witness :
    number_free (.mk DSON_OBJECT (some (.unordered_map
      [(['k', '"', '\\'], .mk DSON_ARRAY (some (.vector
          [.mk DSON_STRING (some (.string ['\x01', '\n', '\t', ' ', '\xc3', '\xa9'])),
            .mk DSON_NULL none, .mk DSON_ARRAY (some (.vector [])),
            .mk DSON_OBJECT (some (.unordered_map []))]))),
        ([], .mk DSON_FALSE none), (['t'], .mk DSON_TRUE none)]))) = true ∧
    ∃ t c, dson_generator.stringify_raw (.mk DSON_OBJECT (some (.unordered_map
      [(['k', '"', '\\'], .mk DSON_ARRAY (some (.vector
          [.mk DSON_STRING (some (.string ['\x01', '\n', '\t', ' ', '\xc3', '\xa9'])),
            .mk DSON_NULL none, .mk DSON_ARRAY (some (.vector [])),
            .mk DSON_OBJECT (some (.unordered_map []))]))),
        ([], .mk DSON_FALSE none), (['t'], .mk DSON_TRUE none)]))) = some t ∧
      DsonParser.new.parse t = some (DSON_OK, ⟨.mk DSON_OBJECT (some (.unordered_map
      [(['k', '"', '\\'], .mk DSON_ARRAY (some (.vector
          [.mk DSON_STRING (some (.string ['\x01', '\n', '\t', ' ', '\xc3', '\xa9'])),
            .mk DSON_NULL none, .mk DSON_ARRAY (some (.vector [])),
            .mk DSON_OBJECT (some (.unordered_map []))]))),
        ([], .mk DSON_FALSE none), (['t'], .mk DSON_TRUE none)]))⟩, c) :=
  ⟨by decide, stringify_parse_round_trip_number_free _ (by decide)⟩
theorem stringify_char_low :
    ∀ n < 32, dson_generate_context.stringify_char (Char.ofNat n) =
      escaped_byte (Char.ofNat n) := by
  decide

theorem stringify_char_eq (c : Char) :
    dson_generate_context.stringify_char c = escaped_byte c := by
  by_cases h : c.toNat < 0x20
  · have := stringify_char_low c.toNat h
    rwa [Char.ofNat_toNat] at this
  · by_cases h1 : c = '"'
    · subst h1; rfl
    · by_cases h2 : c = '\\'
      · subst h2; rfl
      · have h3 : c ≠ '\x08' := by rintro rfl; exact h (by decide)
        have h4 : c ≠ '\x0c' := by rintro rfl; exact h (by decide)
        have h5 : c ≠ '\n' := by rintro rfl; exact h (by decide)
        have h6 : c ≠ '\r' := by rintro rfl; exact h (by decide)
        have h7 : c ≠ '\t' := by rintro rfl; exact h (by decide)
        have hl : short_escapes.lookup c = none := by
          simp only [short_escapes, List.lookup]
          have e1 : (c == Char.ofNat 0x22) = false := by simpa using h1
          have e2 : (c == Char.ofNat 0x5C) = false := by simpa using h2
          have e3 : (c == Char.ofNat 8) = false := by simpa using h3
          have e4 : (c == Char.ofNat 12) = false := by simpa using h4
          have e5 : (c == Char.ofNat 10) = false := by simpa using h5
          have e6 : (c == Char.ofNat 13) = false := by simpa using h6
          have e7 : (c == Char.ofNat 9) = false := by simpa using h7
          simp only [e1, e2, e3, e4, e5, e6, e7]
        rw [dson_generate_context.stringify_char, if_neg h1, if_neg h2, if_neg h3,
          if_neg h4, if_neg h5, if_neg h6, if_neg h7, if_neg h, escaped_byte, hl]
        simp only [if_pos (Nat.not_lt.mp h)]

theorem stringify_string_escaped (s str : List Char) :
    dson_generate_context.stringify_string s str = s ++ escaped_text str := by
  unfold dson_generate_context.stringify_string escaped_text
  have : str.map dson_generate_context.stringify_char = str.map escaped_byte :=
    List.map_congr_left fun c _ => stringify_char_eq c
  rw [this]
  simp only [List.append_assoc]

mutual
theorem stringify_acc (v : dson_value) (s : List Char) :
    dson_generate_context.stringify s v =
      (dson_generate_context.stringify [] v).map (fun t => s ++ t) := by
  cases v with
  | mk ty val =>
    cases ty <;> cases val with
    | none => simp [dson_generate_context.stringify]
    | some p =>
      cases p with
      | double d => simp [dson_generate_context.stringify]
      | string str =>
        simp [dson_generate_context.stringify, stringify_string_escaped]
      | vector arr =>
        first
        | (rw [dson_generate_context.stringify, dson_generate_context.stringify,
             stringify_array_acc arr (s ++ ['[']) 0, stringify_array_acc arr ([] ++ ['[']) 0]
           cases dson_generate_context.stringify_array [] 0 arr <;> simp)
        | simp [dson_generate_context.stringify]
      | unordered_map obj =>
        first
        | (rw [dson_generate_context.stringify, dson_generate_context.stringify,
             stringify_object_acc obj (s ++ ['{']) 0, stringify_object_acc obj ([] ++ ['{']) 0]
           cases dson_generate_context.stringify_object [] 0 obj <;> simp)
        | simp [dson_generate_context.stringify]
theorem stringify_array_acc (arr : List dson_value) (s : List Char) (i : Nat) :
    dson_generate_context.stringify_array s i arr =
      (dson_generate_context.stringify_array [] i arr).map (fun t => s ++ t) := by
  cases arr with
  | nil => simp [dson_generate_context.stringify_array]
  | cons v rest =>
    rw [dson_generate_context.stringify_array, dson_generate_context.stringify_array,
      stringify_acc v (if i > 0 then s ++ [','] else s),
      stringify_acc v (if i > 0 then [] ++ [','] else [])]
    cases dson_generate_context.stringify [] v with
    | none => rfl
    | some t =>
      simp only [Option.map_some', Option.some_bind]
      rw [stringify_array_acc rest _ (i + 1),
        stringify_array_acc rest ((if i > 0 then [] ++ [','] else []) ++ t) (i + 1)]
      cases dson_generate_context.stringify_array [] (i + 1) rest with
      | none => rfl
      | some u => split_ifs <;> simp
theorem stringify_object_acc (obj : List (List Char × dson_value)) (s : List Char)
    (i : Nat) :
    dson_generate_context.stringify_object s i obj =
      (dson_generate_context.stringify_object [] i obj).map (fun t => s ++ t) := by
  cases obj with
  | nil => simp [dson_generate_context.stringify_object]
  | cons kv rest =>
    obtain ⟨k, v⟩ := kv
    rw [dson_generate_context.stringify_object, dson_generate_context.stringify_object,
      stringify_acc v (dson_generate_context.stringify_string
        (if i > 0 then s ++ [','] else s) k ++ [':']),
      stringify_acc v (dson_generate_context.stringify_string
        (if i > 0 then [] ++ [','] else []) k ++ [':'])]
    cases dson_generate_context.stringify [] v with
    | none => rfl
    | some t =>
      simp only [Option.map_some', Option.some_bind]
      rw [stringify_object_acc rest _ (i + 1),
        stringify_object_acc rest (dson_generate_context.stringify_string
          (if i > 0 then [] ++ [','] else []) k ++ [':'] ++ t) (i + 1)]
      cases dson_generate_context.stringify_object [] (i + 1) rest with
      | none => rfl
      | some u => split_ifs <;> simp [stringify_string_escaped]
end
theorem stringify_of_raw (v : dson_value) (t : List Char)
    (h : dson_generator.stringify_raw v = some t) (s : List Char) :
    dson_generate_context.stringify s v = some (s ++ t) := by
  rw [dson_generator.stringify_raw] at h
  rw [stringify_acc, h]
  rfl

theorem stringify_object_tail_texts (obj : List (List Char × dson_value))
    (ts : List (List Char))
    (h : List.Forall₂ (fun kv t => dson_generator.stringify_raw kv.2 = some t) obj ts) :
    ∀ s i, 0 < i → dson_generate_context.stringify_object s i obj =
      some (s ++ ((List.zipWith member_text obj ts).map (fun x => ',' :: x)).flatten) := by
  induction h with
  | nil =>
    intro s i _
    simp [dson_generate_context.stringify_object]
  | @cons kv t _ _ hR _ ih =>
    intro s i hi
    obtain ⟨k, v⟩ := kv
    rw [dson_generate_context.stringify_object, if_pos hi, stringify_string_escaped,
      stringify_of_raw v t hR, Option.some_bind, ih _ _ (Nat.succ_pos i)]
    simp only [List.zipWith_cons_cons, member_text, List.map_cons, List.flatten_cons,
      List.append_assoc, List.cons_append, List.nil_append]

/-- C12: `stringify_raw` equals the compact reference rendering. Null, False and True give
`null`, `false` and `true`; a String gives `"`, its escaped bytes and `"`; an Array gives
`[`, the renderings of its elements joined by `,`, and `]`; an Object gives `{`, its
members in the iteration order of the mapping, each as the escaped key, `:` and the
rendering of the value, joined by `,`, and `}`; nothing else is written. -/
theorem stringify_raw_eq_compact_text :
    (∀ o, dson_generator.stringify_raw (.mk DSON_NULL o) = some "null".toList) ∧
    (∀ o, dson_generator.stringify_raw (.mk DSON_FALSE o) = some "false".toList) ∧
    (∀ o, dson_generator.stringify_raw (.mk DSON_TRUE o) = some "true".toList) ∧
    (∀ str, dson_generator.stringify_raw (.mk DSON_STRING (some (.string str))) =
      some (escaped_text str)) ∧
    (∀ vs ts, List.Forall₂ (fun v t => dson_generator.stringify_raw v = some t) vs ts →
      dson_generator.stringify_raw (.mk DSON_ARRAY (some (.vector vs))) =
        some (['['] ++ join_commas ts ++ [']'])) ∧
    (∀ obj ts,
      List.Forall₂ (fun kv t => dson_generator.stringify_raw kv.2 = some t) obj ts →
      dson_generator.stringify_raw (.mk DSON_OBJECT (some (.unordered_map obj))) =
        some (['{'] ++ join_commas (List.zipWith member_text obj ts) ++ ['}'])) := by
  refine ⟨fun o => ?_, fun o => ?_, fun o => ?_, fun str => ?_, fun vs ts h => ?_,
    fun obj ts h => ?_⟩
  · simp [dson_generator.stringify_raw, dson_generate_context.stringify]
  · simp [dson_generator.stringify_raw, dson_generate_context.stringify]
  · simp [dson_generator.stringify_raw, dson_generate_context.stringify]
  · simp [dson_generator.stringify_raw, dson_generate_context.stringify,
      stringify_string_escaped]
  · have h' : List.Forall₂
        (fun t v => ∀ s, dson_generate_context.stringify s v = some (s ++ t)) ts vs := by
      induction h with
      | nil => exact .nil
      | cons hR _ ih => exact .cons (fun s => stringify_of_raw _ _ hR s) ih
    have := stringify_array_eq ts vs h' []
    rwa [List.nil_append] at this
  · rw [dson_generator.stringify_raw, dson_generate_context.stringify]
    cases h with
    | nil => simp [dson_generate_context.stringify_object, join_commas]
    | @cons kv t _ _ hR hrest =>
      obtain ⟨k, v⟩ := kv
      rw [dson_generate_context.stringify_object, if_neg (by decide),
        stringify_string_escaped, stringify_of_raw v t hR, Option.some_bind,
        stringify_object_tail_texts _ _ hrest _ _ (by decide)]
      simp only [List.zipWith_cons_cons, member_text, join_commas_eq, Option.map_some',
        List.append_assoc, List.cons_append, List.nil_append]

/-- C12 at the Array `["a\n",null]` and the Object `{"k":true,"\u0001":[]}`. -/
theorem stringify_raw_eq_compact_text_witness :
    dson_generator.stringify_raw (.mk DSON_ARRAY (some (.vector
      [.mk DSON_STRING (some (.string ['a', '\n'])), .mk DSON_NULL none]))) =
      some (['['] ++ join_commas [escaped_text ['a', '\n'], "null".toList] ++ [']']) ∧
    dson_generator.stringify_raw (.mk DSON_OBJECT (some (.unordered_map
      [(['k'], .mk DSON_TRUE none), (['\x01'], .mk DSON_ARRAY (some (.vector [])))]))) =
      some (['{'] ++ join_commas (List.zipWith member_text
        [(['k'], .mk DSON_TRUE none), (['\x01'], .mk DSON_ARRAY (some (.vector [])))]
        ["true".toList, "[]".toList]) ++ ['}']) ∧
    escaped_text ['a', '\n'] = "\"a\\n\"".toList ∧
    escaped_text ['\x01'] = "\"\\u0001\"".toList :=
  ⟨stringify_raw_eq_compact_text.2.2.2.2.1 _ _ (.cons rfl (.cons rfl .nil)),
    stringify_raw_eq_compact_text.2.2.2.2.2 _ _ (.cons rfl (.cons rfl .nil)),
    by decide, by decide⟩
/-! ## The code points given to `encode_utf8` -/

namespace dson_parse_context

theorem hex4_step_lt (u v : Nat) (c : Char) (n : Nat) (hu : u < 16 ^ n)
    (h : hex4_step u c = some v) : v < 16 ^ (n + 1) := by
  have hx := hex4_step_isxdigit u c v h
  rw [hex4_step_eq u c hx] at h
  have := xdigit_value_lt c hx
  simp only [Option.some.injEq] at h
  rw [pow_succ]
  omega

theorem parse_hex4_le (view : List Char) : (parse_hex4 view).1.1 ≤ 0xFFFF := by
  unfold parse_hex4
  split
  · next c0 c1 c2 c3 rest =>
    cases h : (((hex4_step 0 c0).bind (hex4_step · c1)).bind (hex4_step · c2)).bind
        (hex4_step · c3) with
    | none => simp
    | some u3 =>
      simp only [Option.bind_eq_some] at h
      obtain ⟨u2, ⟨u1, ⟨u0, h0, h1⟩, h2⟩, h3⟩ := h
      have a0 := hex4_step_lt 0 u0 c0 0 (by norm_num) h0
      have a1 := hex4_step_lt u0 u1 c1 1 a0 h1
      have a2 := hex4_step_lt u1 u2 c2 2 a1 h2
      have a3 := hex4_step_lt u2 u3 c3 3 a2 h3
      norm_num at a3
      simp only
      omega
  · simp

theorem encode_utf8_argument_le (tmp : List Char) (u : Nat)
    (h : encode_utf8_argument tmp = some u) : u ≤ 0x10FFFF := by
  unfold encode_utf8_argument at h
  split at h
  · next t2 =>
    simp only at h
    have hle := parse_hex4_le t2
    split_ifs at h with h1 h2
    · split at h
      · next a b t4 hr =>
        split_ifs at h with h3 h4 h5
        simp only [Option.some.injEq] at h
        rw [← h]
        exact surrogate_pair_le _ _ h2 (by omega)
      · simp at h
    · simp only [Option.some.injEq] at h
      omega
  · simp at h

/-- What a round of the loop that goes on has done to `vec_`: it has pushed one character,
or it has called `encode_utf8` with the argument `encode_utf8_argument tmp`. -/
theorem string_step_encodes (sz : Nat) (tmp t : List Char) (self s : dson_parse_context)
    (h : string_step sz tmp self = .inr (t, s)) :
    (encode_utf8_argument tmp = none ∧ ∃ c, s.vec_ = self.vec_ ++ [c]) ∨
    ∃ u, encode_utf8_argument tmp = some u ∧ s.vec_ = encode_utf8 self.vec_ u := by
  have hu : simple_escape 'u' = none := by decide
  have hc := string_step_cases sz tmp self
  rw [h] at hc
  cases hc with
  | simple e c t2 hs =>
    left
    refine ⟨?_, c, rfl⟩
    unfold encode_utf8_argument
    split
    · next t2' heq =>
      simp only [List.cons.injEq, true_and] at heq
      rw [heq.1, hu] at hs
      simp at hs
    · rfl
  | unicode t2 t3 u hp hs =>
    right
    refine ⟨u, ?_, rfl⟩
    simp only [encode_utf8_argument, hp]
    simp [hs]
  | pair t2 t4 t5 u un hp hs hp2 hl =>
    right
    refine ⟨(((u - 0xD800) <<< 10) ||| (un - 0xDC00)) + 0x10000, ?_, by dsimp only⟩
    simp only [encode_utf8_argument, hp]
    simp only [Bool.not_true, Bool.false_eq_true, if_false, hs, and_self, if_true, ne_eq,
      not_true_eq_false, or_self, hp2, hl]
  | plain ch t1 h1 h2 h3 =>
    left
    refine ⟨?_, ch, rfl⟩
    unfold encode_utf8_argument
    split
    · next t2' heq =>
      simp only [List.cons.injEq] at heq
      exact absurd heq.1 h2
    · rfl

end dson_parse_context
/-- C26: the assertion `u <= 0x10FFFF` of `encode_utf8` is never violated. `parse_hex4`
returns at most `0xFFFF`; the code point combined from a pair `h` in `[0xD800, 0xDBFF]` and
`l` in `[0xDC00, 0xDFFF]` lies in `[0x10000, 0x10FFFF]`; and in every round of the loop of
`parse_string()`, the only caller, the argument given to `encode_utf8` is at most
`0x10FFFF`. -/
theorem encode_utf8_argument_in_range :
    (∀ view, (dson_parse_context.parse_hex4 view).1.1 ≤ 0xFFFF) ∧
    (∀ (view : List Char) (l : Nat),
      0xD800 ≤ (dson_parse_context.parse_hex4 view).1.1 →
      (dson_parse_context.parse_hex4 view).1.1 ≤ 0xDBFF → 0xDC00 ≤ l → l ≤ 0xDFFF →
      0x10000 ≤ ((((dson_parse_context.parse_hex4 view).1.1 - 0xD800) <<< 10) |||
        (l - 0xDC00)) + 0x10000 ∧
      ((((dson_parse_context.parse_hex4 view).1.1 - 0xD800) <<< 10) |||
        (l - 0xDC00)) + 0x10000 ≤ 0x10FFFF) ∧
    (∀ tmp u, dson_parse_context.encode_utf8_argument tmp = some u → u ≤ 0x10FFFF) ∧
    (∀ (sz : Nat) (tmp t : List Char) (self s : dson_parse_context),
      dson_parse_context.string_step sz tmp self = .inr (t, s) →
      (dson_parse_context.encode_utf8_argument tmp = none ∧
        ∃ c, s.vec_ = self.vec_ ++ [c]) ∨
      ∃ u, dson_parse_context.encode_utf8_argument tmp = some u ∧ u ≤ 0x10FFFF ∧
        s.vec_ = dson_parse_context.encode_utf8 self.vec_ u) := by
  refine ⟨dson_parse_context.parse_hex4_le, fun view l h1 h2 h3 h4 => ⟨by omega, ?_⟩,
    dson_parse_context.encode_utf8_argument_le, fun sz tmp t self s h => ?_⟩
  · exact surrogate_pair_le _ _ ⟨h1, h2⟩ ⟨h3, h4⟩
  · rcases dson_parse_context.string_step_encodes sz tmp t self s h with h1 | ⟨u, h1, h2⟩
    · exact Or.inl h1
    · exact Or.inr ⟨u, h1, dson_parse_context.encode_utf8_argument_le tmp u h1, h2⟩

/-- C26 at the pair `𝄞`, whose code point is `0x1D11E`. -/
theorem encode_utf8_argument_in_range_witness :
    dson_parse_context.encode_utf8_argument "\\uD834\\uDD1E\"".toList = some 0x1D11E ∧
    0x1D11E ≤ 0x10FFFF :=
  ⟨by decide, encode_utf8_argument_in_range.2.2.1 "\\uD834\\uDD1E\"".toList 0x1D11E
    (by decide)⟩
/-! ## The root value and the error kind -/

namespace dson_parse_context

/-- The error kind and the context that `parse` returns do not depend on the value it is
handed. -/
theorem parse_value_irrelevant (d : Nat) (self : dson_parse_context) (v1 v2 : dson_value) :
    (parse d self v1).map (fun r => (r.1, r.2.2)) =
      (parse d self v2).map (fun r => (r.1, r.2.2)) := by
  cases d with
  | zero => rfl
  | succ d =>
    obtain ⟨v, vec⟩ := self
    cases v with
    | nil => rw [parse_nil, parse_nil]; rfl
    | cons ch t =>
      rw [parse_cons, parse_cons]
      split_ifs
      · simp only [parse_null, Option.map_some']
        split <;> [split_ifs <;> rfl; rfl]
      · simp only [parse_false, Option.map_some']
        split <;> [split_ifs <;> rfl; rfl]
      · simp only [parse_true, Option.map_some']
        split <;> [split_ifs <;> rfl; rfl]
      · simp only [parse_string_value, Option.map_map]
        congr 1
        funext r
        simp only [Function.comp]
        split_ifs <;> rfl
      · simp only [parse_array]
        split
        · rfl
        · simp only [Option.map_map]
          congr 1
          funext r
          simp only [Function.comp]
          split_ifs <;> rfl
      · simp only [parse_object]
        split
        · rfl
        · simp only [Option.map_map]
          congr 1
          funext r
          simp only [Function.comp]
          split_ifs <;> rfl
      · simp only [parse_number, Option.map_some']
        split
        · rfl
        · split_ifs <;> rfl

/-- An error kind other than `DSON_NUMBER_TOO_BIG` leaves the value as it was. -/
theorem parse_error_value (d : Nat) (self : dson_parse_context) (value value' : dson_value)
    (e : error_type) (c : dson_parse_context)
    (h : parse d self value = some (e, value', c)) (he : e ≠ DSON_OK)
    (hb : e ≠ DSON_NUMBER_TOO_BIG) : value' = value := by
  cases d with
  | zero => simp [parse] at h
  | succ d =>
    obtain ⟨v, vec⟩ := self
    cases v with
    | nil =>
      rw [parse_nil] at h
      simp only [Option.some.injEq, Prod.mk.injEq] at h
      exact h.2.1.symm
    | cons ch t =>
      rw [parse_cons] at h
      split_ifs at h
      · simp only [parse_null, Option.some.injEq] at h
        split at h
        · split_ifs at h
          · simp only [Prod.mk.injEq] at h; exact h.2.1.symm
          · simp only [Prod.mk.injEq] at h; exact absurd h.1.symm he
        · simp only [Prod.mk.injEq] at h; exact h.2.1.symm
      · simp only [parse_false, Option.some.injEq] at h
        split at h
        · split_ifs at h
          · simp only [Prod.mk.injEq] at h; exact h.2.1.symm
          · simp only [Prod.mk.injEq] at h; exact absurd h.1.symm he
        · simp only [Prod.mk.injEq] at h; exact h.2.1.symm
      · simp only [parse_true, Option.some.injEq] at h
        split at h
        · split_ifs at h
          · simp only [Prod.mk.injEq] at h; exact h.2.1.symm
          · simp only [Prod.mk.injEq] at h; exact absurd h.1.symm he
        · simp only [Prod.mk.injEq] at h; exact h.2.1.symm
      · simp only [parse_string_value, Option.map_eq_some'] at h
        obtain ⟨r, -, hr⟩ := h
        split_ifs at hr with hok
        · simp only [Prod.mk.injEq] at hr; exact absurd (hr.1.symm.trans hok) he
        · simp only [Prod.mk.injEq] at hr; exact hr.2.1.symm
      · simp only [parse_array] at h
        split at h
        · simp only [Option.some.injEq, Prod.mk.injEq] at h; exact absurd h.1.symm he
        · simp only [Option.map_eq_some'] at h
          obtain ⟨r, -, hr⟩ := h
          split_ifs at hr with hok
          · simp only [Prod.mk.injEq] at hr; exact absurd hr.1.symm he
          · simp only [Prod.mk.injEq] at hr; exact hr.2.1.symm
      · simp only [parse_object] at h
        split at h
        · simp only [Option.some.injEq, Prod.mk.injEq] at h; exact absurd h.1.symm he
        · simp only [Option.map_eq_some'] at h
          obtain ⟨r, -, hr⟩ := h
          split_ifs at hr with hok
          · simp only [Prod.mk.injEq] at hr; exact absurd hr.1.symm he
          · simp only [Prod.mk.injEq] at hr; exact hr.2.1.symm
      · simp only [parse_number, Option.some.injEq] at h
        split at h
        · simp only [Prod.mk.injEq] at h; exact h.2.1.symm
        · split_ifs at h
          · simp only [Prod.mk.injEq] at h; exact absurd h.1.symm hb
          · simp only [Prod.mk.injEq] at h; exact absurd h.1.symm he

end dson_parse_context

/-- C24: errors other than `DSON_ROOT_NOT_SINGULAR` and `DSON_NUMBER_TOO_BIG` are atomic on
the root. For every parser and every text on which `parse` returns an error kind other than
these two, the parser is left as it was: the kind and the payload of the root are what they
were before the call. -/
theorem parse_error_leaves_root (p p' : DsonParser) (s : List Char) (e : error_type)
    (c : dson_parse_context) (h : p.parse s = some (e, p', c)) (he : e ≠ DSON_OK)
    (hr : e ≠ DSON_ROOT_NOT_SINGULAR) (hb : e ≠ DSON_NUMBER_TOO_BIG) :
    p' = p ∧ p'.root.type = p.root.type ∧ p'.root.option_value = p.root.option_value := by
  have hp : p' = p := by
    unfold DsonParser.parse at h
    simp only [dson_parse_context.skip_whitespace] at h
    cases hq : dson_parse_context.parse (s.length + 1)
        ⟨s.dropWhile dson_parse_context.is_whitespace, []⟩ p.value_ with
    | none => simp [hq] at h
    | some r =>
      obtain ⟨ret, value, ctx⟩ := r
      rw [hq] at h
      simp only at h
      split_ifs at h with hok hc
      · simp only [Option.some.injEq, Prod.mk.injEq] at h
        exact absurd h.1.symm hr
      · simp only [Option.some.injEq, Prod.mk.injEq] at h
        exact absurd (h.1.symm.trans hok) he
      · simp only [Option.some.injEq, Prod.mk.injEq] at h
        obtain ⟨rfl, rfl, -⟩ := h
        rw [dson_parse_context.parse_error_value _ _ _ _ _ _ hq he hb]
  subst hp
  exact ⟨rfl, rfl, rfl⟩

/-- C24 at a parser that holds the Array `[1]` and fails on the text `[2,"a\q"]`. -/
theorem parse_error_leaves_root_witness :
    (DsonParser.mk (.mk DSON_ARRAY (some (.vector
        [.mk DSON_NUMBER (some (.double 0x3FF0000000000000))])))).parse
      "[2,\"a\\q\"]".toList =
      some (DSON_INVALID_STRING_ESCAPE, DsonParser.mk (.mk DSON_ARRAY (some (.vector
        [.mk DSON_NUMBER (some (.double 0x3FF0000000000000))]))),
        ⟨"a\\q\"]".toList, []⟩) ∧
    (DsonParser.mk (.mk DSON_ARRAY (some (.vector
        [.mk DSON_NUMBER (some (.double 0x3FF0000000000000))])))).root.type = DSON_ARRAY :=
  ⟨rfl, (parse_error_leaves_root (DsonParser.mk (.mk DSON_ARRAY (some (.vector
        [.mk DSON_NUMBER (some (.double 0x3FF0000000000000))]))))
      (DsonParser.mk (.mk DSON_ARRAY (some (.vector
        [.mk DSON_NUMBER (some (.double 0x3FF0000000000000))]))))
      "[2,\"a\\q\"]".toList DSON_INVALID_STRING_ESCAPE ⟨"a\\q\"]".toList, []⟩ rfl
      (by decide) (by decide) (by decide)).2.1⟩
/-! ## Progress and termination -/

namespace dson_parse_context

theorem parse_hex4_view_length (v : List Char) : (parse_hex4 v).2.length ≤ v.length := by
  unfold parse_hex4
  split
  · split
    · simp only [List.length_cons]; omega
    · exact le_refl _
  · exact le_refl _

/-- A round of the loop of `parse_string()` that goes on has removed a character of
`tmp`. -/
theorem string_step_shorter (sz : Nat) (tmp t : List Char) (self s : dson_parse_context)
    (h : string_step sz tmp self = .inr (t, s)) : t.length < tmp.length := by
  have hc := string_step_cases sz tmp self
  rw [h] at hc
  cases hc with
  | simple e c t2 hs => simp only [List.length_cons]; omega
  | unicode t2 t3 u hp hs =>
    have := parse_hex4_view_length t2
    rw [hp] at this
    simp only [List.length_cons]
    simp only at this
    omega
  | pair t2 t4 t5 u un hp hs hp2 hl =>
    have h1 := parse_hex4_view_length t2
    have h2 := parse_hex4_view_length t4
    rw [hp] at h1
    rw [hp2] at h2
    simp only [List.length_cons] at h1 h2 ⊢
    omega
  | plain ch t1 h1 h2 h3 => simp only [List.length_cons]; omega

/-- A round of the loop that returns `DSON_OK` leaves a view shorter than `tmp`. -/
theorem string_step_ok_shorter (sz : Nat) (tmp r : List Char) (self c : dson_parse_context)
    (h : string_step sz tmp self = .inl ((r, DSON_OK), c)) :
    c.view_.length < tmp.length := by
  have hc := string_step_cases sz tmp self
  rw [h] at hc
  cases hc with
  | quote t1 => simp only [List.length_cons]; omega

theorem parse_string_loop_total (sz : Nat) :
    ∀ (fuel : Nat) (tmp : List Char) (self : dson_parse_context), tmp.length < fuel →
      ∃ r, parse_string_loop fuel sz tmp self = some r := by
  intro fuel
  induction fuel with
  | zero => intro tmp self h; omega
  | succ f ih =>
    intro tmp self h
    rw [parse_string_loop_succ]
    cases hs : string_step sz tmp self with
    | inl r => exact ⟨r, rfl⟩
    | inr p =>
      obtain ⟨t, s⟩ := p
      have := string_step_shorter sz tmp t self s hs
      exact ih t s (by omega)

theorem parse_string_loop_ok_shorter (sz : Nat) :
    ∀ (fuel : Nat) (tmp r : List Char) (self c : dson_parse_context),
      parse_string_loop fuel sz tmp self = some ((r, DSON_OK), c) →
      c.view_.length < tmp.length := by
  intro fuel
  induction fuel with
  | zero => intro tmp r self c h; simp [parse_string_loop] at h
  | succ f ih =>
    intro tmp r self c h
    rw [parse_string_loop_succ] at h
    cases hs : string_step sz tmp self with
    | inl q =>
      rw [hs] at h
      simp only [Option.some.injEq] at h
      subst h
      exact string_step_ok_shorter sz tmp r self c hs
    | inr p =>
      obtain ⟨t, s⟩ := p
      rw [hs] at h
      have h1 := string_step_shorter sz tmp t self s hs
      have h2 := ih t r s c h
      omega

theorem parse_string_total (self : dson_parse_context) : ∃ r, parse_string self = some r :=
  parse_string_loop_total _ _ _ _ (Nat.lt_succ_self _)

theorem parse_string_ok_shorter (self c : dson_parse_context) (r : List Char)
    (h : parse_string self = some ((r, DSON_OK), c)) :
    c.view_.length < self.view_.length := by
  have := parse_string_loop_ok_shorter _ _ _ _ _ _ h
  simp only [List.length_tail] at this
  omega

/-- The scan of `parse_number` leaves a proper end of the view. -/
theorem number_scan_suffix (v rem : List Char) (h : number_scan v = some rem) :
    rem <:+ v ∧ rem.length < v.length := by
  unfold number_scan at h
  simp only [Option.bind_eq_some] at h
  obtain ⟨t1, h1, t2, h2, h3⟩ := h
  have a1 : t1 <:+ v ∧ t1.length < v.length := by
    unfold number_integer at h1
    simp only at h1
    have hs : (if v.head? = some '-' then v.tail else v) <:+ v := by
      split_ifs
      · exact List.tail_suffix v
      · exact List.suffix_refl v
    generalize (if v.head? = some '-' then v.tail else v) = tmp at h1 hs
    cases tmp with
    | nil => simp at h1
    | cons c t =>
      simp only at h1
      split_ifs at h1 with h0 hd
      · simp only [Option.some.injEq] at h1
        subst h1
        have := hs.length_le
        exact ⟨(List.suffix_cons c t).trans hs, by simp only [List.length_cons] at this; omega⟩
      · simp only [Option.some.injEq] at h1
        subst h1
        have hc : in_123456789 c = true := by
          have hd' : isdigit c = true := by simpa using hd
          rw [← in_0123456789_iff] at hd'
          simp only [in_0123456789, in_123456789, List.contains_iff_exists_mem_beq,
            beq_iff_eq] at hd' ⊢
          obtain ⟨a, ha, rfl⟩ := hd'
          refine ⟨c, ?_, rfl⟩
          simp only [String.toList, List.mem_cons, List.mem_singleton, List.not_mem_nil,
            or_false] at ha ⊢
          rcases ha with rfl | ha
          · exact absurd rfl h0
          · exact ha
        rw [List.dropWhile_cons, if_pos hc]
        have h4 := (List.dropWhile_suffix in_123456789 (l := t)).length_le
        have := hs.length_le
        exact ⟨((List.dropWhile_suffix _).trans (List.suffix_cons c t)).trans hs,
          by simp only [List.length_cons] at this; omega⟩
  have a2 : t2 <:+ t1 := by
    unfold number_fraction at h2
    split at h2
    · next t =>
      split at h2
      · simp at h2
      · split_ifs at h2
        simp only [Option.some.injEq] at h2
        subst h2
        exact (List.dropWhile_suffix _).trans (List.suffix_cons _ _)
    · simp only [Option.some.injEq] at h2
      subst h2
      exact List.suffix_refl _
  have a3 : rem <:+ t2 := by
    unfold number_exponent at h3
    split at h3
    · next e t =>
      split_ifs at h3
      · split at h3
        · simp at h3
        · next s t2' =>
          simp only at h3
          have hs3 : (if s = '+' ∨ s = '-' then t2' else s :: t2') <:+ s :: t2' := by
            split_ifs
            · exact List.suffix_cons _ _
            · exact List.suffix_refl _
          generalize (if s = '+' ∨ s = '-' then t2' else s :: t2') = t3 at h3 hs3
          cases t3 with
          | nil => simp at h3
          | cons d t4 =>
            simp only at h3
            split_ifs at h3
            simp only [Option.some.injEq] at h3
            subst h3
            exact ((List.dropWhile_suffix _).trans hs3).trans (List.suffix_cons _ _)
      · simp only [Option.some.injEq] at h3
        subst h3
        exact List.suffix_refl _
    · simp only [Option.some.injEq] at h3
      subst h3
      exact List.suffix_refl _
  have l2 := a2.length_le
  have l3 := a3.length_le
  exact ⟨(a3.trans a2).trans a1.1, by omega⟩

end dson_parse_context
namespace dson_parse_context

theorem length_dropWhile_le (p : Char → Bool) (l : List Char) :
    (l.dropWhile p).length ≤ l.length :=
  (List.dropWhile_suffix p).length_le

theorem parse_array_loop_total (elem : dson_parse_context → Option parse_result) (n : Nat)
    (htot : ∀ c : dson_parse_context, c.view_.length ≤ n → ∃ r, elem c = some r)
    (hprog : ∀ c ptr c', elem c = some (DSON_OK, ptr, c') →
      c'.view_.length < c.view_.length) :
    ∀ (fuel : Nat) (tmp : List dson_value) (self : dson_parse_context),
      self.view_.length < fuel → self.view_.length ≤ n →
      ∃ r, parse_array_loop elem fuel tmp self = some r := by
  intro fuel
  induction fuel with
  | zero => intro tmp self h; omega
  | succ f ih =>
    intro tmp self hf hn
    obtain ⟨⟨err, ptr, self'⟩, he⟩ := htot self hn
    rw [parse_array_loop, he]
    simp only
    split_ifs with hok
    · exact ⟨_, rfl⟩
    · have hok' : err = DSON_OK := by simpa using hok
      subst hok'
      have hp := hprog _ _ _ he
      have hd := length_dropWhile_le is_whitespace self'.view_
      simp only [skip_whitespace]
      split
      · next rest heq =>
        rw [heq] at hd
        have hd2 := length_dropWhile_le is_whitespace rest
        simp only [List.length_cons] at hd
        exact ih _ _ (by simp only; omega) (by simp only; omega)
      · exact ⟨_, rfl⟩
      · exact ⟨_, rfl⟩

theorem parse_array_loop_ok_shorter (elem : dson_parse_context → Option parse_result)
    (hprog : ∀ c ptr c', elem c = some (DSON_OK, ptr, c') →
      c'.view_.length < c.view_.length) :
    ∀ (fuel : Nat) (tmp tmp' : List dson_value) (self c : dson_parse_context),
      parse_array_loop elem fuel tmp self = some (DSON_OK, tmp', c) →
      c.view_.length < self.view_.length := by
  intro fuel
  induction fuel with
  | zero => intro tmp tmp' self c h; simp [parse_array_loop] at h
  | succ f ih =>
    intro tmp tmp' self c h
    rw [parse_array_loop] at h
    cases he : elem self with
    | none => simp [he] at h
    | some r =>
      obtain ⟨err, ptr, self'⟩ := r
      rw [he] at h
      simp only at h
      split_ifs at h with hok
      · simp only [Option.some.injEq, Prod.mk.injEq] at h
        exact absurd h.1 hok
      · have hok' : err = DSON_OK := by simpa using hok
        subst hok'
        have hp := hprog _ _ _ he
        have hd := length_dropWhile_le is_whitespace self'.view_
        simp only [skip_whitespace] at h
        split at h
        · next rest heq =>
          rw [heq] at hd
          have hd2 := length_dropWhile_le is_whitespace rest
          have := ih _ _ _ _ h
          simp only [List.length_cons] at hd this
          omega
        · next rest heq =>
          rw [heq] at hd
          simp only [Option.some.injEq, Prod.mk.injEq] at h
          obtain ⟨-, -, rfl⟩ := h
          simp only [List.length_cons] at hd ⊢
          omega
        · simp at h

theorem parse_object_loop_total (elem : dson_parse_context → Option parse_result) (n : Nat)
    (htot : ∀ c : dson_parse_context, c.view_.length ≤ n → ∃ r, elem c = some r)
    (hprog : ∀ c ptr c', elem c = some (DSON_OK, ptr, c') →
      c'.view_.length < c.view_.length) :
    ∀ (fuel : Nat) (mp : List (List Char × dson_value)) (self : dson_parse_context),
      self.view_.length < fuel → self.view_.length ≤ n →
      ∃ r, parse_object_loop elem fuel mp self = some r := by
  intro fuel
  induction fuel with
  | zero => intro mp self h; omega
  | succ f ih =>
    intro mp self hf hn
    rw [parse_object_loop]
    split_ifs with hq
    · exact ⟨_, rfl⟩
    · obtain ⟨⟨⟨str, err⟩, s1⟩, hs⟩ := parse_string_total self
      rw [hs]
      simp only
      split_ifs with hok hcolon
      · exact ⟨_, rfl⟩
      · exact ⟨_, rfl⟩
      · have hok' : err = DSON_OK := by simpa using hok
        subst hok'
        have h1 := parse_string_ok_shorter _ _ _ hs
        have h2 := length_dropWhile_le is_whitespace s1.view_
        have h3 := length_dropWhile_le is_whitespace
          (s1.view_.dropWhile is_whitespace).tail
        have h4 : (s1.view_.dropWhile is_whitespace).tail.length ≤
            (s1.view_.dropWhile is_whitespace).length := by
          rw [List.length_tail]; omega
        simp only [skip_whitespace]
        obtain ⟨⟨e, ptr, s2⟩, he⟩ := htot
          ⟨(s1.view_.dropWhile is_whitespace).tail.dropWhile is_whitespace, s1.vec_⟩
          (by simp only; omega)
        rw [he]
        simp only
        split_ifs with hok2
        · exact ⟨_, rfl⟩
        · have hok2' : e = DSON_OK := by simpa using hok2
          subst hok2'
          have hp := hprog _ _ _ he
          have hd := length_dropWhile_le is_whitespace s2.view_
          simp only at hp
          split
          · next rest heq =>
            rw [heq] at hd
            have hd2 := length_dropWhile_le is_whitespace rest
            simp only [List.length_cons] at hd
            exact ih _ _ (by simp only; omega) (by simp only; omega)
          · exact ⟨_, rfl⟩
          · exact ⟨_, rfl⟩

theorem parse_object_loop_ok_shorter (elem : dson_parse_context → Option parse_result)
    (hprog : ∀ c ptr c', elem c = some (DSON_OK, ptr, c') →
      c'.view_.length < c.view_.length) :
    ∀ (fuel : Nat) (mp mp' : List (List Char × dson_value)) (self c : dson_parse_context),
      parse_object_loop elem fuel mp self = some (DSON_OK, mp', c) →
      c.view_.length < self.view_.length := by
  intro fuel
  induction fuel with
  | zero => intro mp mp' self c h; simp [parse_object_loop] at h
  | succ f ih =>
    intro mp mp' self c h
    rw [parse_object_loop] at h
    split_ifs at h with hq
    · simp at h
    · cases hs : parse_string self with
      | none => simp [hs] at h
      | some r =>
        obtain ⟨⟨str, err⟩, s1⟩ := r
        rw [hs] at h
        simp only at h
        split_ifs at h with hok hcolon
        · simp only [Option.some.injEq, Prod.mk.injEq] at h
          exact absurd h.1 hok
        · simp at h
        · have hok' : err = DSON_OK := by simpa using hok
          subst hok'
          have h1 := parse_string_ok_shorter _ _ _ hs
          have h2 := length_dropWhile_le is_whitespace s1.view_
          have h3 := length_dropWhile_le is_whitespace
            (s1.view_.dropWhile is_whitespace).tail
          have h4 : (s1.view_.dropWhile is_whitespace).tail.length ≤
              (s1.view_.dropWhile is_whitespace).length := by
            rw [List.length_tail]; omega
          simp only [skip_whitespace] at h
          cases he : elem
              ⟨(s1.view_.dropWhile is_whitespace).tail.dropWhile is_whitespace, s1.vec_⟩ with
          | none => simp [he] at h
          | some r2 =>
            obtain ⟨e, ptr, s2⟩ := r2
            rw [he] at h
            simp only at h
            split_ifs at h with hok2
            · simp only [Option.some.injEq, Prod.mk.injEq] at h
              exact absurd h.1 hok2
            · have hok2' : e = DSON_OK := by simpa using hok2
              subst hok2'
              have hp := hprog _ _ _ he
              have hd := length_dropWhile_le is_whitespace s2.view_
              simp only at hp
              split at h
              · next rest heq =>
                rw [heq] at hd
                have hd2 := length_dropWhile_le is_whitespace rest
                have := ih _ _ _ _ h
                simp only [List.length_cons] at hd this
                omega
              · next rest heq =>
                rw [heq] at hd
                simp only [Option.some.injEq, Prod.mk.injEq] at h
                obtain ⟨-, -, rfl⟩ := h
                simp only [List.length_cons] at hd ⊢
                omega
              · simp at h

end dson_parse_context
namespace dson_parse_context

/-- A call of `parse` that returns `DSON_OK` has removed at least one character of the
view. -/
theorem parse_ok_shorter :
    ∀ (d : Nat) (self : dson_parse_context) (value value' : dson_value)
      (c : dson_parse_context),
      parse d self value = some (DSON_OK, value', c) →
      c.view_.length < self.view_.length := by
  intro d
  induction d with
  | zero => intro self value value' c h; simp [parse] at h
  | succ d ih =>
    intro self value value' c h
    obtain ⟨v, vec⟩ := self
    cases v with
    | nil => rw [parse_nil] at h; simp at h
    | cons ch t =>
      have hel : ∀ (x : dson_parse_context) (ptr : dson_value) (x' : dson_parse_context),
          (fun c => parse d c dson_value.new) x = some (DSON_OK, ptr, x') →
          x'.view_.length < x.view_.length := fun x ptr x' hx => ih _ _ _ _ hx
      have hws := length_dropWhile_le is_whitespace t
      rw [parse_cons] at h
      split_ifs at h
      · simp only [parse_null, Option.some.injEq] at h
        split at h
        · next heq =>
          split_ifs at h
          · simp at h
          · simp only [Prod.mk.injEq, true_and] at h
            rw [← h.2]
            simp only [List.cons.injEq] at heq
            rw [heq.2]
            simp only [List.length_cons]
            omega
        · simp at h
      · simp only [parse_false, Option.some.injEq] at h
        split at h
        · next heq =>
          split_ifs at h
          · simp at h
          · simp only [Prod.mk.injEq, true_and] at h
            rw [← h.2]
            simp only [List.cons.injEq] at heq
            rw [heq.2]
            simp only [List.length_cons]
            omega
        · simp at h
      · simp only [parse_true, Option.some.injEq] at h
        split at h
        · next heq =>
          split_ifs at h
          · simp at h
          · simp only [Prod.mk.injEq, true_and] at h
            rw [← h.2]
            simp only [List.cons.injEq] at heq
            rw [heq.2]
            simp only [List.length_cons]
            omega
        · simp at h
      · obtain ⟨s, hs, -⟩ := parse_string_value_ok _ _ _ _ h
        exact parse_string_ok_shorter _ _ _ hs
      · simp only [parse_array, List.tail_cons, skip_whitespace] at h
        split at h
        · next rest heq =>
          simp only [Option.some.injEq, Prod.mk.injEq, true_and] at h
          rw [← h.2]
          simp only at heq ⊢
          rw [heq] at hws
          simp only [List.length_cons] at hws ⊢
          omega
        · simp only [Option.map_eq_some'] at h
          obtain ⟨⟨e, tmp, c'⟩, hl, hr⟩ := h
          simp only at hr
          split_ifs at hr with hok
          · simp only at hok
            subst hok
            simp only [Prod.mk.injEq, true_and] at hr
            have := parse_array_loop_ok_shorter _ hel _ _ _ _ _ hl
            rw [← hr.2]
            simp only [List.length_cons] at this ⊢
            omega
          · simp only [Prod.mk.injEq] at hr
            exact absurd hr.1 hok
      · simp only [parse_object, List.tail_cons, skip_whitespace] at h
        split at h
        · next rest heq =>
          simp only [Option.some.injEq, Prod.mk.injEq, true_and] at h
          rw [← h.2]
          simp only at heq ⊢
          rw [heq] at hws
          simp only [List.length_cons] at hws ⊢
          omega
        · simp only [Option.map_eq_some'] at h
          obtain ⟨⟨e, tmp, c'⟩, hl, hr⟩ := h
          simp only at hr
          split_ifs at hr with hok
          · simp only at hok
            subst hok
            simp only [Prod.mk.injEq, true_and] at hr
            have := parse_object_loop_ok_shorter _ hel _ _ _ _ _ hl
            rw [← hr.2]
            simp only [List.length_cons] at this ⊢
            omega
          · simp only [Prod.mk.injEq] at hr
            exact absurd hr.1 hok
      · simp only [parse_number, Option.some.injEq] at h
        split at h
        · simp at h
        · next tmp hs =>
          split_ifs at h
          · simp at h
          · simp only [Prod.mk.injEq, true_and] at h
            rw [← h.2]
            exact (number_scan_suffix _ _ hs).2

/-- The depth of the recursion is enough when it exceeds the length of the view: `parse`
then returns. -/
theorem parse_total :
    ∀ (d : Nat) (self : dson_parse_context) (value : dson_value),
      self.view_.length < d → ∃ r, parse d self value = some r := by
  intro d
  induction d with
  | zero => intro self value h; omega
  | succ d ih =>
    intro self value hd
    obtain ⟨v, vec⟩ := self
    cases v with
    | nil => exact ⟨_, parse_nil _ _ _⟩
    | cons ch t =>
      have hel : ∀ (x : dson_parse_context) (ptr : dson_value) (x' : dson_parse_context),
          (fun c => parse d c dson_value.new) x = some (DSON_OK, ptr, x') →
          x'.view_.length < x.view_.length := fun x ptr x' hx => parse_ok_shorter _ _ _ _ _ hx
      have hvd : t.length < d := by simpa using hd
      have htot : ∀ x : dson_parse_context, x.view_.length ≤ t.length →
          ∃ r, (fun c => parse d c dson_value.new) x = some r :=
        fun x hx => ih x dson_value.new (by omega)
      have hws := length_dropWhile_le is_whitespace t
      rw [parse_cons]
      split_ifs
      · exact ⟨_, rfl⟩
      · exact ⟨_, rfl⟩
      · exact ⟨_, rfl⟩
      · obtain ⟨r, hr⟩ := parse_string_total ⟨ch :: t, vec⟩
        simp only [parse_string_value, hr, Option.map_some']
        exact ⟨_, rfl⟩
      · simp only [parse_array, List.tail_cons, skip_whitespace]
        split
        · exact ⟨_, rfl⟩
        · obtain ⟨r, hr⟩ := parse_array_loop_total _ t.length htot hel
            ((t.dropWhile is_whitespace).length + 1) []
            ⟨t.dropWhile is_whitespace, vec⟩ (Nat.lt_succ_self _) hws
          rw [hr]
          exact ⟨_, rfl⟩
      · simp only [parse_object, List.tail_cons, skip_whitespace]
        split
        · exact ⟨_, rfl⟩
        · obtain ⟨r, hr⟩ := parse_object_loop_total _ t.length htot hel
            ((t.dropWhile is_whitespace).length + 1) []
            ⟨t.dropWhile is_whitespace, vec⟩ (Nat.lt_succ_self _) hws
          rw [hr]
          exact ⟨_, rfl⟩
      · exact ⟨_, rfl⟩

end dson_parse_context

namespace DsonParser

/-- The member function `parse` returns for every parser and every text. -/
theorem parse_returns (p : DsonParser) (s : List Char) : ∃ r, p.parse s = some r := by
  obtain ⟨⟨ret, value, ctx⟩, hr⟩ := dson_parse_context.parse_total (s.length + 1)
    ⟨s.dropWhile dson_parse_context.is_whitespace, []⟩ p.value_
    (Nat.lt_succ_of_le (dson_parse_context.length_dropWhile_le _ s))
  unfold parse
  simp only [dson_parse_context.skip_whitespace, hr]
  split_ifs <;> exact ⟨_, rfl⟩

end DsonParser

/-- C25: the parser makes progress and terminates. A call of `dson_parse_context::parse`
that returns `DSON_OK`, for a literal, a number, a string, an array or an object, leaves a
view shorter than the one it was given; with a depth above the length of the view it
returns; and the member function `parse` returns for every parser and every text. -/
theorem parse_progress_and_termination :
    (∀ (d : Nat) (self : dson_parse_context) (value value' : dson_value)
      (c : dson_parse_context),
      dson_parse_context.parse d self value = some (DSON_OK, value', c) →
      c.view_.length < self.view_.length) ∧
    (∀ (d : Nat) (self : dson_parse_context) (value : dson_value),
      self.view_.length < d → ∃ r, dson_parse_context.parse d self value = some r) ∧
    (∀ (p : DsonParser) (s : List Char), ∃ r, p.parse s = some r) :=
  ⟨dson_parse_context.parse_ok_shorter, dson_parse_context.parse_total,
    DsonParser.parse_returns⟩

/-- C25 at the text `[1,{"a":[]}] x`, parsed as a value at depth 3: the view left is ` x`. -/
theorem parse_progress_and_termination_witness :
    dson_parse_context.parse 3 ⟨"[1,\x7b\"a\":[]\x7d] x".toList, []⟩ dson_value.new =
      some (DSON_OK, .mk DSON_ARRAY (some (.vector
        [.mk DSON_NUMBER (some (.double 0x3FF0000000000000)),
          .mk DSON_OBJECT (some (.unordered_map
            [(['a'], .mk DSON_ARRAY (some (.vector [])))]))])), ⟨" x".toList, []⟩) ∧
    " x".toList.length < "[1,\x7b\"a\":[]\x7d] x".toList.length :=
  ⟨rfl, parse_progress_and_termination.1 3 ⟨"[1,\x7b\"a\":[]\x7d] x".toList, []⟩ dson_value.new _
    ⟨" x".toList, []⟩ rfl⟩
/-- C21: the error kind returned by `parse` depends only on the text. For every parser,
whatever earlier calls have left in it, and every text, `parse` returns, and it returns the
error kind, and leaves the context, that `parse` of the same text returns on a new
parser. -/
theorem parse_error_kind_depends_on_text (p : DsonParser) (s : List Char) :
    ∃ e c p' q', p.parse s = some (e, p', c) ∧ DsonParser.new.parse s = some (e, q', c) := by
  obtain ⟨⟨e1, v1, c1⟩, h1⟩ := dson_parse_context.parse_total (s.length + 1)
    ⟨s.dropWhile dson_parse_context.is_whitespace, []⟩ p.value_
    (Nat.lt_succ_of_le (dson_parse_context.length_dropWhile_le _ s))
  obtain ⟨⟨e2, v2, c2⟩, h2⟩ := dson_parse_context.parse_total (s.length + 1)
    ⟨s.dropWhile dson_parse_context.is_whitespace, []⟩ DsonParser.new.value_
    (Nat.lt_succ_of_le (dson_parse_context.length_dropWhile_le _ s))
  have hirr := dson_parse_context.parse_value_irrelevant (s.length + 1)
    ⟨s.dropWhile dson_parse_context.is_whitespace, []⟩ p.value_ DsonParser.new.value_
  rw [h1, h2] at hirr
  simp only [Option.map_some', Option.some.injEq, Prod.mk.injEq] at hirr
  obtain ⟨rfl, rfl⟩ := hirr
  unfold DsonParser.parse
  simp only [dson_parse_context.skip_whitespace, h1, h2]
  split_ifs
  · exact ⟨_, _, _, _, rfl, rfl⟩
  · exact ⟨_, _, _, _, rfl, rfl⟩
  · exact ⟨_, _, _, _, rfl, rfl⟩
/-! ## Numbers -/

/-- A zero followed directly by more input, when `strtod` does not report an overflow: for
every text made of an optional `-`, `0`, and a character that is neither `.`, `e`, `E` nor
whitespace, followed by anything, `parse` on a new parser returns `DSON_ROOT_NOT_SINGULAR`
with a root of kind Null unless `strtod`, which reads on after the `0`, sets `ERANGE` with
an infinite result; it then returns `DSON_NUMBER_TOO_BIG`. -/
theorem parse_zero_then_more (minus : Bool) (a : Char) (r : List Char)
    (h1 : a ≠ '.') (h2 : a ≠ 'e') (h3 : a ≠ 'E')
    (hw : dson_parse_context.is_whitespace a = false) :
    ∃ p c, DsonParser.new.parse ((if minus then ['-'] else []) ++ '0' :: a :: r) =
      some (if (strtod ((if minus then ['-'] else []) ++ '0' :: a :: r)).2 &&
            ((strtod ((if minus then ['-'] else []) ++ '0' :: a :: r)).1 == HUGE_VAL ||
              (strtod ((if minus then ['-'] else []) ++ '0' :: a :: r)).1 ==
                Double.neg HUGE_VAL)
          then DSON_NUMBER_TOO_BIG else DSON_ROOT_NOT_SINGULAR, p, c) ∧
      p.root.type = DSON_NULL := by
  have hscan : dson_parse_context.number_scan
      ((if minus then ['-'] else []) ++ '0' :: a :: r) = some (a :: r) := by
    cases minus <;>
      simp [dson_parse_context.number_scan, dson_parse_context.number_integer,
        dson_parse_context.number_fraction, dson_parse_context.number_exponent, h1, h2, h3]
  have hview : ∀ x : Char, dson_parse_context.is_whitespace x = false → ∀ t,
      (x :: t).dropWhile dson_parse_context.is_whitespace = x :: t :=
    fun x hx t => not_whitespace_dropWhile x t hx
  have hdisp : ∀ (t vec : List Char) (value : dson_value),
      dson_parse_context.parse (t.length + 1)
          ⟨(if minus then ['-'] else []) ++ '0' :: a :: r, vec⟩ value =
        some (dson_parse_context.parse_number
          ⟨(if minus then ['-'] else []) ++ '0' :: a :: r, vec⟩ value) := by
    intro t vec value
    cases minus
    · simp only [Bool.false_eq_true, if_false, List.nil_append]
      rw [dson_parse_context.parse_cons]
      simp only [Char.reduceEq, if_false]
    · simp only [if_true, List.cons_append, List.nil_append]
      rw [dson_parse_context.parse_cons]
      simp only [Char.reduceEq, if_false]
  have hdrop : ((if minus then ['-'] else []) ++ '0' :: a :: r).dropWhile
      dson_parse_context.is_whitespace = (if minus then ['-'] else []) ++ '0' :: a :: r := by
    cases minus
    · exact hview '0' (by decide) _
    · exact hview '-' (by decide) _
  generalize hT : (if minus then ['-'] else []) ++ '0' :: a :: r = T at hscan hdisp hdrop ⊢
  have hlen : T.length + 1 ≤ T.length + 1 := le_refl _
  by_cases hov : ((strtod T).2 && ((strtod T).1 == HUGE_VAL ||
      (strtod T).1 == Double.neg HUGE_VAL)) = true
  · rw [if_pos hov]
    refine ⟨⟨DsonParser.new.value_.set_option_value (value_type.double (strtod T).1)⟩,
      ⟨T, []⟩, ?_, rfl⟩
    apply DsonParser.parse_error_of _ _ _ _ _ (T.length + 1) hlen (by decide)
    rw [hdrop, hdisp T]
    simp only [dson_parse_context.parse_number, hscan, if_pos hov]
  · rw [if_neg hov]
    refine ⟨⟨((DsonParser.new.value_.set_option_value
      (value_type.double (strtod T).1)).set_type DSON_NUMBER).set_type DSON_NULL⟩,
      ⟨a :: r, []⟩, ?_, rfl⟩
    have hp : dson_parse_context.parse (T.length + 1) ⟨T, []⟩ DsonParser.new.value_ =
        some (DSON_OK, (DsonParser.new.value_.set_option_value
          (value_type.double (strtod T).1)).set_type DSON_NUMBER, ⟨a :: r, []⟩) := by
      rw [hdisp T]
      simp only [dson_parse_context.parse_number, hscan, if_neg hov]
    unfold DsonParser.parse
    simp only [dson_parse_context.skip_whitespace, hdrop, hp, if_true, hview a hw,
      dson_parse_context.is_completed, List.isEmpty_cons, Bool.not_false]
theorem number_grammar_rest_eq (s : List Char) :
    number_grammar_rest s =
      (grammar_integer s).map fun s2 => grammar_exponent (grammar_fraction s2) := rfl

theorem one_to_nine (c : Char) : ('1' ≤ c ∧ c ≤ '9') ↔ (isdigit c = true ∧ c ≠ '0') := by
  have h0 : ('0' ≤ c) ↔ 48 ≤ c.toNat := Iff.rfl
  have h1 : ('1' ≤ c) ↔ 49 ≤ c.toNat := Iff.rfl
  have h9 : (c ≤ '9') ↔ c.toNat ≤ 57 := Iff.rfl
  have hz : c = '0' ↔ c.toNat = 48 := by
    constructor
    · rintro rfl; rfl
    · intro h; exact Char.ext (UInt32.ext h)
  simp only [isdigit, decide_eq_true_eq, h0, h1, h9, ne_eq, hz]
  omega
theorem in_123456789_iff (c : Char) :
    dson_parse_context.in_123456789 c = true ↔ (isdigit c = true ∧ c ≠ '0') := by
  constructor
  · intro h
    refine ⟨in_123456789_digit c h, ?_⟩
    rintro rfl
    revert h
    decide
  · rintro ⟨hd, h0⟩
    rw [← in_0123456789_iff] at hd
    simp only [dson_parse_context.in_0123456789, dson_parse_context.in_123456789,
      List.contains_iff_exists_mem_beq, beq_iff_eq] at hd ⊢
    obtain ⟨a, ha, rfl⟩ := hd
    refine ⟨c, ?_, rfl⟩
    simp only [String.toList, List.mem_cons, List.mem_singleton, List.not_mem_nil,
      or_false] at ha ⊢
    rcases ha with rfl | ha
    · exact absurd rfl h0
    · exact ha

theorem dropWhile_in_0123456789 (t : List Char) :
    t.dropWhile dson_parse_context.in_0123456789 = t.dropWhile isdigit := by
  have : dson_parse_context.in_0123456789 = isdigit := funext in_0123456789_iff
  rw [this]

theorem dropWhile_head_not (p : Char → Bool) (t : List Char) (c : Char)
    (h : (t.dropWhile p).head? = some c) : p c = false := by
  induction t with
  | nil => simp at h
  | cons a t ih =>
    by_cases ha : p a = true
    · rw [List.dropWhile_cons, if_pos ha] at h
      exact ih h
    · rw [List.dropWhile_cons, if_neg ha] at h
      simp only [List.head?_cons, Option.some.injEq] at h
      subst h
      simpa using ha

theorem dropWhile_eq_of_imp (p q : Char → Bool) (t : List Char)
    (hpq : ∀ c, p c = true → q c = true)
    (hq : ∀ c, (t.dropWhile p).head? = some c → q c = false) :
    t.dropWhile q = t.dropWhile p := by
  induction t with
  | nil => rfl
  | cons a t ih =>
    by_cases ha : p a = true
    · rw [List.dropWhile_cons, if_pos ha] at hq
      rw [List.dropWhile_cons, if_pos (hpq a ha), List.dropWhile_cons, if_pos ha]
      exact ih hq
    · rw [List.dropWhile_cons, if_neg ha] at hq
      have := hq a rfl
      rw [List.dropWhile_cons, if_neg (by simp [this]), List.dropWhile_cons, if_neg ha]

namespace dson_parse_context

theorem number_fraction_grammar (t1 t2 : List Char) (h : number_fraction t1 = some t2) :
    grammar_fraction t1 = t2 := by
  unfold number_fraction at h
  unfold grammar_fraction
  split at h
  · next t =>
    cases t with
    | nil => simp at h
    | cons d t' =>
      simp only at h
      split_ifs at h with hd
      simp only [Option.some.injEq] at h
      have hd' : isdigit d = true := by simpa using hd
      simp only [hd', if_true]
      rw [← h, dropWhile_in_0123456789, List.dropWhile_cons, if_pos hd']
  · next hne =>
    simp only [Option.some.injEq] at h
    subst h
    split
    · next d t heq => exact absurd rfl (hne _)
    · rfl

theorem number_exponent_grammar (t2 rem : List Char) (h : number_exponent t2 = some rem) :
    grammar_exponent t2 = rem := by
  unfold number_exponent at h
  unfold grammar_exponent
  cases t2 with
  | nil =>
    simp only [Option.some.injEq] at h
    exact h
  | cons e t =>
    simp only at h ⊢
    by_cases he : e = 'e' ∨ e = 'E'
    · rw [if_pos he] at h ⊢
      cases t with
      | nil => simp at h
      | cons s t' =>
        simp only [List.head?_cons, Option.some.injEq, List.tail_cons] at h ⊢
        by_cases hs : s = '+' ∨ s = '-'
        · rw [if_pos hs] at h ⊢
          cases t' with
          | nil => simp at h
          | cons d t'' =>
            simp only at h ⊢
            split_ifs at h with hd
            have hd' : isdigit d = true := by simpa using hd
            simp only [Option.some.injEq] at h
            rw [if_pos hd', ← h, dropWhile_in_0123456789, List.dropWhile_cons, if_pos hd']
        · rw [if_neg hs] at h ⊢
          simp only at h ⊢
          split_ifs at h with hd
          have hd' : isdigit s = true := by simpa using hd
          simp only [Option.some.injEq] at h
          rw [if_pos hd', ← h, dropWhile_in_0123456789, List.dropWhile_cons, if_pos hd']
    · rw [if_neg he] at h ⊢
      simp only [Option.some.injEq] at h
      exact h

theorem number_integer_grammar (v t1 : List Char) (h : number_integer v = some t1)
    (h0 : t1.head? ≠ some '0') : grammar_integer v = some t1 := by
  unfold number_integer at h
  unfold grammar_integer
  simp only at h ⊢
  generalize (if v.head? = some '-' then v.tail else v) = tmp at h ⊢
  cases tmp with
  | nil => simp at h
  | cons c t =>
    simp only at h ⊢
    by_cases hc : c = '0'
    · rw [if_pos hc] at h ⊢
      exact h
    · rw [if_neg hc] at h ⊢
      split_ifs at h with hd
      have hd' : isdigit c = true := by simpa using hd
      simp only [Option.some.injEq] at h
      rw [if_pos ((one_to_nine c).mpr ⟨hd', hc⟩)]
      have hin : in_123456789 c = true := (in_123456789_iff c).mpr ⟨hd', hc⟩
      rw [List.dropWhile_cons, if_pos hin] at h
      rw [← h]
      congr 1
      apply dropWhile_eq_of_imp
      · intro x hx
        exact in_123456789_digit x hx
      · intro x hx
        have hnot := dropWhile_head_not _ _ _ hx
        cases hdx : isdigit x with
        | false => rfl
        | true =>
          exfalso
          have hx0 : x = '0' := by
            by_contra hne
            rw [(in_123456789_iff x).mpr ⟨hdx, hne⟩] at hnot
            cases hnot
          rw [h, hx0] at hx
          exact h0 hx

/-- The scan of `parse_number` agrees with the number grammar when what it leaves cannot
continue a number. -/
theorem number_scan_grammar (v rem : List Char) (h : number_scan v = some rem)
    (hrem : stops rem) : number_grammar_rest v = some rem := by
  unfold number_scan at h
  simp only [Option.bind_eq_some] at h
  obtain ⟨t1, h1, t2, h2, h3⟩ := h
  have e2 := number_fraction_grammar _ _ h2
  have e3 := number_exponent_grammar _ _ h3
  have h0 : t1.head? ≠ some '0' := by
    intro hh
    cases t1 with
    | nil => simp at hh
    | cons c t =>
      simp only [List.head?_cons, Option.some.injEq] at hh
      subst hh
      have : grammar_exponent (grammar_fraction ('0' :: t)) = '0' :: t := rfl
      rw [e2, e3] at this
      have := (stops_head hrem '0' (by rw [this]; rfl)).1
      revert this
      decide
  rw [number_grammar_rest_eq, number_integer_grammar _ _ h1 h0, Option.map_some', e2, e3]

end dson_parse_context
theorem dropWhile_isdigit_append (t w : List Char) (hw : stops w) :
    (t ++ w).dropWhile isdigit = t.dropWhile isdigit ++ w :=
  dropWhile_append_stop t w fun c hc => (stops_head hw c hc).1

theorem grammar_integer_stops (w : List Char) (hw : stops w) : grammar_integer w = none := by
  cases w with
  | nil => rfl
  | cons c t =>
    obtain ⟨hd, -, -, -, -, -, -, hm⟩ := stops_head hw c rfl
    have h19 : ¬ ('1' ≤ c ∧ c ≤ '9') := fun h => by
      rw [((one_to_nine c).mp h).1] at hd; cases hd
    have h0 : c ≠ '0' := by rintro rfl; revert hd; decide
    simp [grammar_integer, hm, h0, h19]

theorem grammar_integer_append (x w : List Char) (hw : stops w) :
    grammar_integer (x ++ w) = (grammar_integer x).map (fun t => t ++ w) := by
  have core : ∀ c t, (if c = '0' then some (t ++ w)
      else if '1' ≤ c ∧ c ≤ '9' then some ((t ++ w).dropWhile isdigit) else none) =
      (if c = '0' then some t
        else if '1' ≤ c ∧ c ≤ '9' then some (t.dropWhile isdigit) else none).map
          (fun t => t ++ w) := by
    intro c t
    split_ifs
    · rfl
    · rw [dropWhile_isdigit_append t w hw]; rfl
    · rfl
  cases x with
  | nil => rw [List.nil_append, grammar_integer_stops w hw]; rfl
  | cons a x' =>
    by_cases ha : a = '-'
    · subst ha
      cases x' with
      | nil =>
        have := grammar_integer_stops w hw
        cases w with
        | nil => rfl
        | cons c t =>
          obtain ⟨hd, -, -, -, -, -, -, hm⟩ := stops_head hw c rfl
          have h19 : ¬ ('1' ≤ c ∧ c ≤ '9') := fun h => by
            rw [((one_to_nine c).mp h).1] at hd; cases hd
          have h0 : c ≠ '0' := by rintro rfl; revert hd; decide
          simp [grammar_integer, h0, h19]
      | cons c t =>
        simp only [grammar_integer, List.cons_append, List.head?_cons, if_true,
          List.tail_cons]
        exact core c t
    · simp only [grammar_integer, List.cons_append, List.head?_cons, Option.some.injEq, ha,
        if_false]
      exact core a x'

theorem grammar_fraction_append (y w : List Char) (hw : stops w) :
    grammar_fraction (y ++ w) = grammar_fraction y ++ w := by
  have hw0 : grammar_fraction w = w := by
    cases w with
    | nil => rfl
    | cons c t =>
      have hc := (stops_head hw c rfl).2.2.2.1
      unfold grammar_fraction
      split
      · next heq => simp only [List.cons.injEq] at heq; exact absurd heq.1 hc
      · rfl
  rcases y with _ | ⟨c, _ | ⟨d, t⟩⟩
  · exact hw0
  · by_cases hc : c = '.'
    · subst hc
      cases w with
      | nil => rfl
      | cons d t =>
        have hd := (stops_head hw d rfl).1
        simp [grammar_fraction, hd]
    · unfold grammar_fraction
      split
      · next heq => simp only [List.cons_append, List.cons.injEq] at heq; exact absurd heq.1 hc
      · split
        · next heq => simp at heq
        · rfl
  · by_cases hc : c = '.'
    · subst hc
      simp only [grammar_fraction, List.cons_append]
      split_ifs
      · exact dropWhile_isdigit_append t w hw
      · rfl
    · unfold grammar_fraction
      split
      · next heq => simp only [List.cons_append, List.cons.injEq] at heq; exact absurd heq.1 hc
      · split
        · next heq => simp only [List.cons.injEq] at heq; exact absurd heq.1 hc
        · rfl

theorem grammar_exponent_append (y w : List Char) (hw : stops w) :
    grammar_exponent (y ++ w) = grammar_exponent y ++ w := by
  have hdig : ∀ (d : Char) (t s3 : List Char),
      (if isdigit d = true then (t ++ w).dropWhile isdigit else s3 ++ w) =
        (if isdigit d = true then t.dropWhile isdigit else s3) ++ w := by
    intro d t s3
    split_ifs
    · exact dropWhile_isdigit_append t w hw
    · rfl
  have hwh : ¬ (w.head? = some '+' ∨ w.head? = some '-') := by
    cases w with
    | nil => simp
    | cons c t =>
      obtain ⟨-, -, -, -, -, -, hp, hm⟩ := stops_head hw c rfl
      simp [hp, hm]
  cases y with
  | nil =>
    cases w with
    | nil => rfl
    | cons c t =>
      obtain ⟨-, -, -, -, he, hE, -, -⟩ := stops_head hw c rfl
      simp [grammar_exponent, he, hE]
  | cons e t =>
    by_cases he : e = 'e' ∨ e = 'E'
    · simp only [grammar_exponent, List.cons_append, if_pos he]
      rcases t with _ | ⟨s, _ | ⟨d, t''⟩⟩
      · simp only [List.nil_append, if_neg hwh, List.head?_nil, List.tail_nil]
        cases w with
        | nil => simp
        | cons d t2 => simp [(stops_head hw d rfl).1]
      · by_cases hs : s = '+' ∨ s = '-'
        · simp only [List.cons_append, List.nil_append, List.head?_cons, Option.some.injEq,
            hs, if_true, List.tail_cons]
          cases w with
          | nil => rfl
          | cons d t2 => simp [(stops_head hw d rfl).1]
        · simp only [List.cons_append, List.nil_append, List.head?_cons, Option.some.injEq,
            hs, if_false]
          exact hdig s [] [e, s]
      · by_cases hs : s = '+' ∨ s = '-'
        · simp only [List.cons_append, List.head?_cons, Option.some.injEq,
            hs, if_true, List.tail_cons]
          exact hdig d t'' (e :: s :: d :: t'')
        · simp only [List.cons_append, List.head?_cons, Option.some.injEq,
            hs, if_false]
          exact hdig s (d :: t'') (e :: s :: d :: t'')
    · simp only [grammar_exponent, List.cons_append, if_neg he]

theorem number_grammar_rest_append (x w : List Char) (hw : stops w) :
    number_grammar_rest (x ++ w) = (number_grammar_rest x).map (fun t => t ++ w) := by
  rw [number_grammar_rest_eq, number_grammar_rest_eq, grammar_integer_append x w hw]
  cases grammar_integer x with
  | none => rfl
  | some s2 =>
    simp only [Option.map_some']
    rw [grammar_fraction_append _ _ hw, grammar_exponent_append _ _ hw]
/-- A text that matches the number grammar in full does not end in whitespace. -/
theorem grammar_reverse_dropWhile (num : List Char)
    (h : number_grammar_rest num = some []) :
    num.reverse.dropWhile dson_parse_context.is_whitespace = num.reverse := by
  cases hr : num.reverse with
  | nil =>
    have : num = [] := by simpa using hr
    subst this
    simp [number_grammar_rest] at h
  | cons c t =>
    have hnum : num = t.reverse ++ [c] := by
      have := congrArg List.reverse hr
      simpa using this
    cases hc : dson_parse_context.is_whitespace c with
    | false => rw [List.dropWhile_cons, hc]; rfl
    | true =>
      exfalso
      rw [hnum, number_grammar_rest_append _ _
        (stops_cons c [] (whitespace_not_num_char c hc))] at h
      cases hg : number_grammar_rest t.reverse with
      | none => simp [hg] at h
      | some y => simp [hg] at h

/-- The scan of `parse_number` on a view that is a number followed by whitespace only:
the part removed matches the number grammar in full and is the view without the
whitespace at its end. -/
theorem number_scan_trim (v rem : List Char)
    (h : dson_parse_context.number_scan v = some rem) (hrem : all_whitespace rem) :
    matches_number_grammar
      (v.reverse.dropWhile dson_parse_context.is_whitespace).reverse = true := by
  have hstops := all_whitespace_stops rem hrem
  obtain ⟨⟨num, hnum⟩, -⟩ := dson_parse_context.number_scan_suffix v rem h
  have hg := dson_parse_context.number_scan_grammar v rem h hstops
  rw [← hnum, number_grammar_rest_append num rem hstops] at hg
  have hn : number_grammar_rest num = some [] := by
    cases hx : number_grammar_rest num with
    | none => simp [hx] at hg
    | some y =>
      rw [hx] at hg
      simp only [Option.map_some', Option.some.injEq, List.append_left_eq_self] at hg
      rw [hg]
  have hrev : (rem.reverse).dropWhile dson_parse_context.is_whitespace = [] :=
    all_whitespace_dropWhile _ (fun c hc => hrem c (List.mem_reverse.mp hc))
  rw [← hnum, List.reverse_append, dropWhile_append_of_nil _ _ hrev,
    grammar_reverse_dropWhile num hn, List.reverse_reverse]
  simp [matches_number_grammar, hn]

namespace dson_parse_context

/-- A call of `parse` that returns `DSON_OK` with a value of kind Number is a call of
`parse_number` whose scan has succeeded. -/
theorem parse_number_inv (d : Nat) (v vec : List Char) (value value' : dson_value)
    (c : dson_parse_context) (h : parse d ⟨v, vec⟩ value = some (DSON_OK, value', c))
    (ht : value'.type = DSON_NUMBER) : number_scan v = some c.view_ := by
  cases d with
  | zero => simp [parse] at h
  | succ d =>
    cases v with
    | nil => rw [parse_nil] at h; simp at h
    | cons ch t =>
      rw [parse_cons] at h
      split_ifs at h
      · simp only [Option.some.injEq] at h
        rw [parse_null_type _ _ _ _ h] at ht; cases ht
      · simp only [Option.some.injEq] at h
        rw [parse_false_type _ _ _ _ h] at ht; cases ht
      · simp only [Option.some.injEq] at h
        rw [parse_true_type _ _ _ _ h] at ht; cases ht
      · obtain ⟨s, -, hv⟩ := parse_string_value_ok _ _ _ _ h
        rw [hv] at ht
        cases value; cases ht
      · rw [(parse_array_type _ _ _ _ _ h).1] at ht; cases ht
      · rw [(parse_object_type _ _ _ _ _ h).1] at ht; cases ht
      · simp only [parse_number, Option.some.injEq] at h
        split at h
        · simp at h
        · next tmp hs =>
          split_ifs at h
          · simp at h
          · simp only [Prod.mk.injEq, true_and] at h
            rw [← h.2]
            exact hs

end dson_parse_context

/-- C23: number acceptance is sound. For every text on which `parse` returns `DSON_OK`
with a root of kind Number, on a new or a used parser, the text without its leading and
trailing whitespace matches `-?(0|[1-9][0-9]*)(\.[0-9]+)?([eE][+-]?[0-9]+)?` in full. -/
theorem parse_number_matches_grammar (p p' : DsonParser) (s : List Char)
    (c : dson_parse_context) (h : p.parse s = some (DSON_OK, p', c))
    (ht : p'.root.type = DSON_NUMBER) : matches_number_grammar (trim s) = true := by
  obtain ⟨v'⟩ := p'
  obtain ⟨rem, hp, hrem, -⟩ := DsonParser.parse_ok_inv p s v' c h
  have hs := dson_parse_context.parse_number_inv _ _ _ _ _ _ hp ht
  exact number_scan_trim _ rem hs (List.dropWhile_eq_nil_iff.mp hrem)

/-- C23 at the text ` -1.5e+3 `, which is accepted as a Number and, trimmed, matches the
grammar. -/
theorem parse_number_matches_grammar_witness :
    DsonParser.new.parse " -1.5e+3 ".toList =
      some (DSON_OK, ⟨.mk DSON_NUMBER (some (.double 0xC097700000000000))⟩, ⟨[], []⟩) ∧
    trim " -1.5e+3 ".toList = "-1.5e+3".toList ∧
    matches_number_grammar (trim " -1.5e+3 ".toList) = true :=
  ⟨rfl, by decide,
    parse_number_matches_grammar DsonParser.new
      ⟨.mk DSON_NUMBER (some (.double 0xC097700000000000))⟩ " -1.5e+3 ".toList ⟨[], []⟩
      rfl rfl⟩

set_option exponentiation.threshold 2000 in
set_option maxRecDepth 20000 in
/-- C22, at its failing input: on the text `01e309`, a zero followed directly by more
input, `parse` on a new parser returns `DSON_NUMBER_TOO_BIG`, not
`DSON_ROOT_NOT_SINGULAR`: the scan of `parse_number` stops after the `0`, and `strtod`,
which is given the whole view, reads `01e309` and overflows. -/
theorem parse_zero_then_overflow :
    (DsonParser.new.parse "01e309".toList).map (fun r => (r.1, r.2.1.root.type)) =
      some (DSON_NUMBER_TOO_BIG, DSON_NULL) ∧
    dson_parse_context.number_scan "01e309".toList = some "1e309".toList ∧
    strtod "01e309".toList = (HUGE_VAL, true) := by
  decide
/-! ## The text written for a Number -/

theorem put_double_eq (v : Double) :
    put_double v =
      if v.exponent_field = 2047 then
        (if 2 ^ 63 ≤ v then ['-'] else []) ++
          (if v % 2 ^ 52 = 0 then "inf".toList else "nan".toList)
      else if v.significand = 0 then (if 2 ^ 63 ≤ v then ['-'] else []) ++ ['0']
      else
        format_six (if 2 ^ 63 ≤ v then ['-'] else [])
          (six_digits (scale v.significand 2 v.binary_exponent).1
            (scale v.significand 2 v.binary_exponent).2).1
          (six_digits (scale v.significand 2 v.binary_exponent).1
            (scale v.significand 2 v.binary_exponent).2).2 := by
  unfold put_double Double.exponent_field Double.significand Double.binary_exponent
    format_six six_digits
  simp only [decide_eq_true_eq]
  rfl


/-! ### Arithmetic of the conversions -/

theorem scale_snd_pos (m b : Nat) (x : Int) (hb : 0 < b) : 0 < (scale m b x).2 := by
  unfold scale
  split_ifs
  · exact Nat.one_pos
  · exact pow_pos hb _

theorem scale_fst_pos (m b : Nat) (x : Int) (hm : 0 < m) (hb : 0 < b) :
    0 < (scale m b x).1 := by
  unfold scale
  split_ifs
  · exact Nat.mul_pos hm (pow_pos hb _)
  · exact hm

theorem scale_val (m b : Nat) (x : Int) (hb : 0 < b) :
    ((scale m b x).1 : ℚ) / (scale m b x).2 = (m : ℚ) * (b : ℚ) ^ x := by
  have hb' : (b : ℚ) ≠ 0 := by positivity
  unfold scale
  split_ifs with h
  · have hx : x = (x.toNat : Int) := (Int.toNat_of_nonneg h).symm
    simp only [Nat.cast_mul, Nat.cast_pow, Nat.cast_one, div_one]
    conv_rhs => rw [hx, zpow_natCast]
  · have hx : x = - ((-x).toNat : Int) := by
      rw [Int.toNat_of_nonneg (by omega)]; omega
    simp only [Nat.cast_pow]
    conv_rhs => rw [hx, zpow_neg, zpow_natCast]
    rw [div_eq_mul_inv]

theorem dec_length_le (fuel n : Nat) : dec_length fuel n ≤ fuel := by
  induction fuel generalizing n with
  | zero => simp [dec_length]
  | succ f ih =>
    rw [dec_length]
    split_ifs
    · omega
    · have := ih (n / 10); omega

theorem dec_length_spec (fuel n : Nat) (hn : 0 < n) (hf : n < 10 ^ fuel) :
    0 < dec_length fuel n ∧ 10 ^ (dec_length fuel n - 1) ≤ n ∧ n < 10 ^ dec_length fuel n := by
  induction fuel generalizing n with
  | zero => simp at hf; omega
  | succ f ih =>
    rw [dec_length, if_neg (by omega)]
    by_cases h10 : n < 10
    · have h0 : n / 10 = 0 := by omega
      have hz : dec_length f (n / 10) = 0 := by
        rw [h0]; cases f <;> simp [dec_length]
      rw [hz]
      refine ⟨by omega, ?_, ?_⟩
      · simpa using hn
      · simpa using h10
    · have hq : 0 < n / 10 := by omega
      have hf' : n / 10 < 10 ^ f := by
        rw [pow_succ] at hf
        omega
      obtain ⟨h1, h2, h3⟩ := ih (n / 10) hq hf'
      refine ⟨by omega, ?_, ?_⟩
      · have : dec_length f (n / 10) + 1 - 1 = (dec_length f (n / 10) - 1) + 1 := by omega
        rw [this, pow_succ]
        omega
      · rw [pow_succ]
        omega

theorem dec_shift_le (fuel n d : Nat) : dec_shift fuel n d ≤ fuel := by
  induction fuel generalizing n with
  | zero => simp [dec_shift]
  | succ f ih =>
    rw [dec_shift]
    split_ifs
    · omega
    · have := ih (n * 10); omega

theorem dec_shift_spec (fuel n d : Nat) (hf : d ≤ n * 10 ^ fuel) :
    d ≤ n * 10 ^ dec_shift fuel n d ∧
      (dec_shift fuel n d = 0 ∨ n * 10 ^ (dec_shift fuel n d - 1) < d) := by
  induction fuel generalizing n with
  | zero => simpa [dec_shift] using hf
  | succ f ih =>
    rw [dec_shift]
    split_ifs with h
    · simpa using h
    · have hf' : d ≤ n * 10 * 10 ^ f := by
        rw [pow_succ] at hf
        calc d ≤ n * (10 ^ f * 10) := hf
          _ = n * 10 * 10 ^ f := by ring
      obtain ⟨h1, h2⟩ := ih (n * 10) hf'
      refine ⟨?_, Or.inr ?_⟩
      · calc d ≤ n * 10 * 10 ^ dec_shift f (n * 10) d := h1
          _ = n * 10 ^ (dec_shift f (n * 10) d + 1) := by rw [pow_succ]; ring
      · simp only [Nat.add_sub_cancel]
        rcases h2 with h2 | h2
        · rw [h2]; simpa using Nat.lt_of_not_le h
        · have : dec_shift f (n * 10) d = (dec_shift f (n * 10) d - 1) + 1 := by
            by_contra hc
            have h0 : dec_shift f (n * 10) d = 0 := by omega
            rw [h0] at h2
            simp only [Nat.zero_sub, pow_zero, mul_one] at h2
            rw [h0] at h1
            simp only [pow_zero, mul_one] at h1
            omega
          rw [this, pow_succ]
          calc n * (10 ^ (dec_shift f (n * 10) d - 1) * 10)
              = n * 10 * 10 ^ (dec_shift f (n * 10) d - 1) := by ring
            _ < d := h2

theorem round_half_even_spec (a b : Nat) (hb : 0 < b) :
    2 * a ≤ (2 * round_half_even a b + 1) * b ∧ 2 * round_half_even a b * b ≤ 2 * a + b := by
  have hdm := Nat.div_add_mod a b
  have hlt := Nat.mod_lt a hb
  unfold round_half_even
  simp only
  generalize a / b = q at *
  generalize a % b = r at *
  have hP : (2 * q + 1) * b = 2 * (b * q) + b := by ring
  have hP2 : (2 * (q + 1) + 1) * b = 2 * (b * q) + 3 * b := by ring
  have hP3 : 2 * (q + 1) * b = 2 * (b * q) + 2 * b := by ring
  have hP4 : 2 * q * b = 2 * (b * q) := by ring
  split_ifs with h
  · rw [hP2, hP3]
    rcases h with h | ⟨h, -⟩ <;> omega
  · rw [hP, hP4]
    have : ¬ b < 2 * r := fun hh => h (Or.inl hh)
    omega

theorem round_half_even_near (a b : Nat) (hb : 0 < b) :
    |(a : ℚ) / b - round_half_even a b| ≤ 1 / 2 := by
  obtain ⟨h1, h2⟩ := round_half_even_spec a b hb
  have hb' : (0 : ℚ) < b := by exact_mod_cast hb
  have h1' : (2 : ℚ) * a ≤ (2 * round_half_even a b + 1) * b := by exact_mod_cast h1
  have h2' : (2 : ℚ) * round_half_even a b * b ≤ 2 * a + b := by exact_mod_cast h2
  rw [abs_le]
  constructor
  · rw [le_sub_iff_add_le, le_div_iff₀ hb']
    nlinarith
  · rw [sub_le_iff_le_add, div_le_iff₀ hb']
    nlinarith

/-- The decimal exponent found by `six_digits`: `10 ^ X0 ≤ n / d < 10 ^ (X0 + 1)`. -/
theorem decimal_exponent_spec (n d : Nat) (_hn : 0 < n) (hd : 0 < d)
    (hlow : d ≤ n * 10 ^ 400) (hhigh : n / d < 10 ^ 400) :
    ∃ X0 : Int, X0 = (if d ≤ n then (dec_length 400 (n / d) : Int) - 1
        else - (dec_shift 400 n d : Int)) ∧
      (10 : ℚ) ^ X0 ≤ (n : ℚ) / d ∧ (n : ℚ) / d < 10 ^ (X0 + 1) ∧ -400 ≤ X0 ∧ X0 < 400 := by
  have hd' : (0 : ℚ) < d := by exact_mod_cast hd
  refine ⟨_, rfl, ?_⟩
  split_ifs with h
  · have hq : 0 < n / d := Nat.div_pos h hd
    obtain ⟨h1, h2, h3⟩ := dec_length_spec 400 (n / d) hq hhigh
    have hle := dec_length_le 400 (n / d)
    generalize dec_length 400 (n / d) = L at *
    have e1 : ((L : Int) - 1) = ((L - 1 : Nat) : Int) := by omega
    have e2 : ((L : Int) - 1 + 1) = ((L : Nat) : Int) := by omega
    rw [e2, e1, zpow_natCast, zpow_natCast]
    refine ⟨?_, ?_, by omega, by omega⟩
    · rw [le_div_iff₀ hd']
      have : 10 ^ (L - 1) * d ≤ n :=
        le_trans (Nat.mul_le_mul_right d h2) (Nat.div_mul_le_self n d)
      exact_mod_cast this
    · rw [div_lt_iff₀ hd']
      have : n < 10 ^ L * d := (Nat.div_lt_iff_lt_mul hd).mp h3
      exact_mod_cast this
  · obtain ⟨h1, h2⟩ := dec_shift_spec 400 n d hlow
    have hle := dec_shift_le 400 n d
    generalize dec_shift 400 n d = k at *
    have hk : k ≠ 0 := by
      rintro rfl
      simp only [pow_zero, mul_one] at h1
      exact h h1
    have h2' : n * 10 ^ (k - 1) < d := by
      rcases h2 with h2 | h2
      · exact absurd h2 hk
      · exact h2
    have e2 : (-(k : Int) + 1) = -((k - 1 : Nat) : Int) := by omega
    rw [e2, zpow_neg, zpow_neg, zpow_natCast, zpow_natCast]
    have hp1 : (0 : ℚ) < 10 ^ k := by positivity
    have hp2 : (0 : ℚ) < 10 ^ (k - 1) := by positivity
    refine ⟨?_, ?_, by omega, by omega⟩
    · rw [le_div_iff₀ hd', inv_mul_le_iff₀ hp1]
      have : (d : ℚ) ≤ n * 10 ^ k := by exact_mod_cast h1
      linarith
    · rw [div_lt_iff₀ hd', lt_inv_mul_iff₀ hp2]
      have : (n : ℚ) * 10 ^ (k - 1) < d := by exact_mod_cast h2'
      linarith

/-- The six digits found by `six_digits`. -/
theorem six_digits_spec (n d : Nat) (hn : 0 < n) (hd : 0 < d)
    (hlow : d ≤ n * 10 ^ 400) (hhigh : n / d < 10 ^ 400) :
    ∃ (X0 : Int) (D0 : Nat),
      (10 : ℚ) ^ X0 ≤ (n : ℚ) / d ∧ (n : ℚ) / d < 10 ^ (X0 + 1) ∧ -400 ≤ X0 ∧ X0 < 400 ∧
      |(n : ℚ) / d * 10 ^ (5 - X0) - D0| ≤ 1 / 2 ∧ D0 ≤ 10 ^ 6 ∧
      ((six_digits n d).1 : ℚ) * 10 ^ ((six_digits n d).2 - 5) = (D0 : ℚ) * 10 ^ (X0 - 5) ∧
      X0 ≤ (six_digits n d).2 ∧ (six_digits n d).2 ≤ X0 + 1 ∧
      (D0 < 10 ^ 6 → (six_digits n d).2 = X0 ∧ (six_digits n d).1 = D0) ∧
      10 ^ 5 ≤ (six_digits n d).1 ∧ (six_digits n d).1 < 10 ^ 6 := by
  obtain ⟨X0, hX0, h1, h2, h3, h4⟩ := decimal_exponent_spec n d hn hd hlow hhigh
  have hd' : (0 : ℚ) < d := by exact_mod_cast hd
  have hs2 := scale_snd_pos n 10 (5 - X0) (by norm_num)
  have hsv := scale_val n 10 (5 - X0) (by norm_num)
  have hnear := round_half_even_near (scale n 10 (5 - X0)).1 ((scale n 10 (5 - X0)).2 * d)
    (Nat.mul_pos hs2 hd)
  have hR : ((scale n 10 (5 - X0)).1 : ℚ) / (((scale n 10 (5 - X0)).2 * d : Nat) : ℚ) =
      (n : ℚ) / d * 10 ^ (5 - X0) := by
    have hs2' : ((scale n 10 (5 - X0)).2 : ℚ) ≠ 0 := by
      have : (0 : ℚ) < (scale n 10 (5 - X0)).2 := by exact_mod_cast hs2
      exact ne_of_gt this
    rw [Nat.cast_mul, ← div_div, hsv]
    push_cast
    ring
  rw [hR] at hnear
  have hsix : six_digits n d =
      (if round_half_even (scale n 10 (5 - X0)).1 ((scale n 10 (5 - X0)).2 * d) = 10 ^ 6
        then 10 ^ 5
        else round_half_even (scale n 10 (5 - X0)).1 ((scale n 10 (5 - X0)).2 * d),
       if round_half_even (scale n 10 (5 - X0)).1 ((scale n 10 (5 - X0)).2 * d) = 10 ^ 6
        then X0 + 1 else X0) := by
    rw [hX0]; rfl
  generalize round_half_even (scale n 10 (5 - X0)).1 ((scale n 10 (5 - X0)).2 * d) = D0
    at hnear hsix
  -- the scaled value lies in [10^5, 10^6)
  have hp : (0 : ℚ) < 10 ^ (5 - X0) := by positivity
  have e5 : (10 : ℚ) ^ X0 * 10 ^ (5 - X0) = 10 ^ (5 : ℕ) := by
    rw [← zpow_add₀ (by norm_num), ← zpow_natCast]; congr 1; omega
  have e6 : (10 : ℚ) ^ (X0 + 1) * 10 ^ (5 - X0) = 10 ^ (6 : ℕ) := by
    rw [← zpow_add₀ (by norm_num), ← zpow_natCast]; congr 1; omega
  have hRlo : (10 : ℚ) ^ (5 : ℕ) ≤ (n : ℚ) / d * 10 ^ (5 - X0) := by
    rw [← e5]; exact mul_le_mul_of_nonneg_right h1 (le_of_lt hp)
  have hRhi : (n : ℚ) / d * 10 ^ (5 - X0) < 10 ^ (6 : ℕ) := by
    rw [← e6]; exact mul_lt_mul_of_pos_right h2 hp
  rw [abs_le] at hnear
  have hD0lo : 10 ^ 5 ≤ D0 := by
    have : ((10 ^ 5 : ℕ) : ℚ) - 1 < D0 := by push_cast; linarith [hnear.2]
    have h' : ((10 ^ 5 - 1 : ℕ) : ℚ) < D0 := by
      have e : ((10 ^ 5 - 1 : ℕ) : ℚ) = ((10 ^ 5 : ℕ) : ℚ) - 1 := by norm_num
      rw [e]; exact this
    have := Nat.cast_lt.mp h'
    omega
  have hD0hi : D0 ≤ 10 ^ 6 := by
    have : (D0 : ℚ) < ((10 ^ 6 : ℕ) : ℚ) + 1 := by push_cast; linarith [hnear.1]
    have h' : (D0 : ℚ) < ((10 ^ 6 + 1 : ℕ) : ℚ) := by
      have e : ((10 ^ 6 + 1 : ℕ) : ℚ) = ((10 ^ 6 : ℕ) : ℚ) + 1 := by norm_num
      rw [e]; exact this
    have := Nat.cast_lt.mp h'
    omega
  refine ⟨X0, D0, h1, h2, h3, h4, abs_le.mpr hnear, hD0hi, ?_, ?_, ?_, ?_, ?_, ?_⟩
  · rw [hsix]
    split_ifs with hc
    · simp only
      rw [hc]
      have : X0 + 1 - 5 = (X0 - 5) + 1 := by ring
      rw [this, zpow_add₀ (by norm_num)]
      push_cast
      ring
    · rfl
  · rw [hsix]; split_ifs <;> simp
  · rw [hsix]; split_ifs <;> simp
  · intro hlt
    rw [hsix]
    have hne : D0 ≠ 10 ^ 6 := by omega
    rw [if_neg hne, if_neg hne]
    exact ⟨rfl, rfl⟩
  · rw [hsix]
    split_ifs with hc
    · exact le_refl _
    · exact hD0lo
  · rw [hsix]
    split_ifs with hc
    · norm_num
    · simp only
      omega

/-! ## Decimal digits -/

theorem digit_char (k : Nat) (hk : k < 10) :
    isdigit (Char.ofNat ('0'.toNat + k)) = true ∧
      xdigit_value (Char.ofNat ('0'.toNat + k)) = k ∧
      (Char.ofNat ('0'.toNat + k) = '0' ↔ k = 0) := by
  interval_cases k <;> decide

theorem digits_value_acc (base : Nat) (l : List Char) (acc : Nat) :
    l.foldl (fun acc c => acc * base + xdigit_value c) acc =
      acc * base ^ l.length + digits_value base l := by
  induction l generalizing acc with
  | nil => simp [digits_value]
  | cons c t ih =>
    have e : digits_value base (c :: t) =
        t.foldl (fun acc c => acc * base + xdigit_value c) (0 * base + xdigit_value c) := rfl
    rw [List.foldl_cons, ih, e, ih (0 * base + xdigit_value c), List.length_cons]
    ring

theorem digits_value_append (base : Nat) (l1 l2 : List Char) :
    digits_value base (l1 ++ l2) =
      digits_value base l1 * base ^ l2.length + digits_value base l2 := by
  rw [digits_value, List.foldl_append, digits_value_acc]
  rfl

theorem digits_value_zeros (base z : Nat) : digits_value base (List.replicate z '0') = 0 := by
  induction z with
  | zero => rfl
  | succ z ih =>
    rw [List.replicate_succ, ← List.singleton_append, digits_value_append, ih]
    simp [digits_value, xdigit_value, isdigit]

theorem digits_value_lt (l : List Char) (h : ∀ c ∈ l, isdigit c = true) :
    digits_value 10 l < 10 ^ l.length := by
  induction l using List.reverseRecOn with
  | nil => simp [digits_value]
  | append_singleton l c ih =>
    rw [digits_value_append, List.length_append, List.length_singleton, pow_succ]
    have h1 := ih (fun x hx => h x (List.mem_append_left _ hx))
    have hc : isdigit c = true := h c (by simp)
    have h2 : digits_value 10 [c] < 10 := by
      simp only [digits_value, List.foldl_cons, List.foldl_nil, zero_mul, zero_add,
        xdigit_value, hc, if_true]
      simp only [isdigit, decide_eq_true_eq, Char.le_def] at hc
      have e0 : ('0' : Char).toNat = 48 := rfl
      have : c.val.toNat ≤ 57 := hc.2
      have e1 : c.toNat = c.val.toNat := rfl
      omega
    omega

theorem dec_digits_length (w n : Nat) : (dec_digits w n).length = w := by
  induction w generalizing n with
  | zero => rfl
  | succ w ih => simp [dec_digits, ih]

theorem dec_digits_isdigit (w n : Nat) : ∀ c ∈ dec_digits w n, isdigit c = true := by
  induction w generalizing n with
  | zero => intro c hc; cases hc
  | succ w ih =>
    intro c hc
    rw [dec_digits, List.mem_append, List.mem_singleton] at hc
    rcases hc with hc | rfl
    · exact ih _ c hc
    · exact (digit_char (n % 10) (Nat.mod_lt _ (by norm_num))).1

theorem dec_digits_value (w n : Nat) : digits_value 10 (dec_digits w n) = n % 10 ^ w := by
  induction w generalizing n with
  | zero => simp [dec_digits, digits_value, Nat.mod_one]
  | succ w ih =>
    rw [dec_digits, digits_value_append, ih]
    have h1 : digits_value 10 [Char.ofNat ('0'.toNat + n % 10)] = n % 10 := by
      simp only [digits_value, List.foldl_cons, List.foldl_nil, zero_mul, zero_add]
      exact (digit_char (n % 10) (Nat.mod_lt _ (by norm_num))).2.1
    rw [h1, List.length_singleton, pow_one, pow_succ, Nat.mul_comm (10 ^ w) 10, Nat.mod_mul]
    omega

/-- The first of the digits of a number with exactly `w + 1` digits is not `0`. -/
theorem dec_digits_head (w n : Nat) (h : 10 ^ w ≤ n) (h2 : n < 10 ^ (w + 1)) :
    ∃ c r, dec_digits (w + 1) n = c :: r ∧ c ≠ '0' ∧ isdigit c = true := by
  have hl := dec_digits_length (w + 1) n
  have hd := dec_digits_isdigit (w + 1) n
  have hv := dec_digits_value (w + 1) n
  rw [Nat.mod_eq_of_lt h2] at hv
  generalize dec_digits (w + 1) n = l at hl hd hv
  cases l with
  | nil => simp at hl
  | cons c r =>
    refine ⟨c, r, rfl, ?_, hd c (List.mem_cons_self _ _)⟩
    rintro rfl
    have hr : r.length = w := by simpa using hl
    have h3 := digits_value_lt r (fun x hx => hd x (List.mem_cons_of_mem _ hx))
    rw [← List.singleton_append, digits_value_append, hr] at hv
    have h4 : digits_value 10 ['0'] = 0 := by decide
    rw [h4, Nat.zero_mul, Nat.zero_add] at hv
    rw [hr] at h3
    omega

/-! ## Trailing zeros -/

theorem strip_zeros_spec (ds : List Char) :
    ∃ z, ds = strip_zeros ds ++ List.replicate z '0' := by
  refine ⟨(ds.reverse.takeWhile (fun c => c == '0')).length, ?_⟩
  have h1 : ds.reverse.takeWhile (fun c => c == '0') =
      List.replicate (ds.reverse.takeWhile (fun c => c == '0')).length '0' := by
    rw [List.eq_replicate_iff]
    refine ⟨rfl, fun b hb => ?_⟩
    have := List.mem_takeWhile_imp hb
    simpa using this
  have h2 := List.takeWhile_append_dropWhile (fun c => c == '0') ds.reverse
  have h3 : ds = (ds.reverse.dropWhile (fun c => c == '0')).reverse ++
      (ds.reverse.takeWhile (fun c => c == '0')).reverse := by
    rw [← List.reverse_append, h2, List.reverse_reverse]
  rw [h1, List.reverse_replicate] at h3
  exact h3

theorem strip_zeros_mem (ds : List Char) (c : Char) (h : c ∈ strip_zeros ds) : c ∈ ds := by
  obtain ⟨z, hz⟩ := strip_zeros_spec ds
  rw [hz]
  exact List.mem_append_left _ h

theorem strip_zeros_ne_nil (c : Char) (r : List Char) (hc : c ≠ '0') :
    strip_zeros (c :: r) ≠ [] := by
  obtain ⟨z, hz⟩ := strip_zeros_spec (c :: r)
  intro h
  rw [h, List.nil_append] at hz
  have : c ∈ List.replicate z '0' := by rw [← hz]; exact List.mem_cons_self _ _
  exact hc (List.eq_of_mem_replicate this)

/-- The value of a digit string with its trailing zeros removed. -/
theorem strip_zeros_value (a b : List Char) :
    ∃ z, z + (strip_zeros b).length = b.length ∧
      digits_value 10 (a ++ b) = digits_value 10 (a ++ strip_zeros b) * 10 ^ z := by
  obtain ⟨z, hz⟩ := strip_zeros_spec b
  refine ⟨z, ?_, ?_⟩
  · conv_rhs => rw [hz]
    simp [Nat.add_comm]
  · conv_lhs => rw [hz]
    rw [← List.append_assoc, digits_value_append, digits_value_zeros, List.length_replicate,
      Nat.add_zero]

/-! ## `strtod` on a decimal constant -/

theorem takeWhile_all {p : Char → Bool} (l : List Char) (h : ∀ c ∈ l, p c = true) :
    l.takeWhile p = l := List.takeWhile_eq_self_iff.mpr h

theorem dropWhile_all {p : Char → Bool} (l : List Char) (h : ∀ c ∈ l, p c = true) :
    l.dropWhile p = [] := List.dropWhile_eq_nil_iff.mpr h

theorem exponent_part_head (ex : List Char) (E : Int) (h : exponent_part ex E) :
    ∀ c, ex.head? = some c → c = 'e' := by
  intro c hc
  rcases h with ⟨rfl, -⟩ | ⟨es, -, -, ⟨rfl, -⟩ | ⟨rfl, -⟩⟩
  · cases hc
  · simpa using hc.symm
  · simpa using hc.symm

theorem exponent_part_num_char (ex : List Char) (E : Int) (h : exponent_part ex E) :
    ∀ c ∈ ex, is_num_char c = true := by
  intro c hc
  rcases h with ⟨rfl, -⟩ | ⟨es, -, hes, ⟨rfl, -⟩ | ⟨rfl, -⟩⟩
  · cases hc
  · simp only [List.mem_cons] at hc
    rcases hc with rfl | rfl | hc
    · decide
    · decide
    · exact isdigit_num_char c (hes c hc)
  · simp only [List.mem_cons] at hc
    rcases hc with rfl | rfl | hc
    · decide
    · decide
    · exact isdigit_num_char c (hes c hc)

theorem strtod_exponent_part (ex : List Char) (E : Int) (h : exponent_part ex E) :
    strtod_exponent ['e', 'E'] ex = E := by
  rcases h with ⟨rfl, rfl⟩ | ⟨es, hne, hes, ⟨rfl, rfl⟩ | ⟨rfl, rfl⟩⟩
  · rfl
  · have h1 : es.takeWhile isdigit = es := takeWhile_all es hes
    have h2 : es.isEmpty = false := by cases es with
      | nil => exact absurd rfl hne
      | cons _ _ => rfl
    simp [strtod_exponent, h1, h2]
  · have h1 : es.takeWhile isdigit = es := takeWhile_all es hes
    have h2 : es.isEmpty = false := by cases es with
      | nil => exact absurd rfl hne
      | cons _ _ => rfl
    simp [strtod_exponent, h1, h2]

/-- The fraction part of a decimal constant and what follows it start with no digit. -/
theorem fraction_head (fp ex : List Char) (E : Int) (h : exponent_part ex E) :
    ∀ c, ((if fp.isEmpty then [] else '.' :: fp) ++ ex).head? = some c → c = '.' ∨ c = 'e' := by
  intro c hc
  cases fp with
  | nil => exact Or.inr (exponent_part_head ex E h c (by simpa using hc))
  | cons d fp => exact Or.inl (by simpa using hc.symm)

theorem strtod_magnitude_not_hex (s : List Char)
    (h : ∀ x t, s = '0' :: x :: t → (x == 'x' || x == 'X') = false) :
    strtod_magnitude s =
      (if (s.takeWhile isdigit).isEmpty &&
          (if (s.dropWhile isdigit).head? == some '.'
            then (s.dropWhile isdigit).tail.takeWhile isdigit else []).isEmpty then (0, 1)
        else
          scale (digits_value 10 (s.takeWhile isdigit ++
            (if (s.dropWhile isdigit).head? == some '.'
              then (s.dropWhile isdigit).tail.takeWhile isdigit else []))) 10
            (strtod_exponent ['e', 'E']
              (if (s.dropWhile isdigit).head? == some '.'
                then (s.dropWhile isdigit).tail.dropWhile isdigit else s.dropWhile isdigit) -
              ((if (s.dropWhile isdigit).head? == some '.'
                then (s.dropWhile isdigit).tail.takeWhile isdigit else []).length : Int))) := by
  unfold strtod_magnitude
  split
  · next x t =>
    simp only [h x t rfl, Bool.false_and, Bool.false_eq_true, if_false]
  · rfl

theorem strtod_magnitude_decimal (ip fp ex : List Char) (E : Int)
    (hip : ip ≠ []) (hipd : ∀ c ∈ ip, isdigit c = true)
    (hfp : ∀ c ∈ fp, isdigit c = true) (hex : exponent_part ex E) :
    strtod_magnitude (ip ++ ((if fp.isEmpty then [] else '.' :: fp) ++ ex)) =
      scale (digits_value 10 (ip ++ fp)) 10 (E - (fp.length : Int)) := by
  have hstop : ∀ c, ((if fp.isEmpty then [] else '.' :: fp) ++ ex).head? = some c →
      isdigit c = false := by
    intro c hc
    rcases fraction_head fp ex E hex c hc with rfl | rfl <;> decide
  have hexstop : ∀ c, ex.head? = some c → isdigit c = false := by
    intro c hc
    rw [exponent_part_head ex E hex c hc]
    decide
  have htake : (ip ++ ((if fp.isEmpty then [] else '.' :: fp) ++ ex)).takeWhile isdigit = ip := by
    rw [takeWhile_append_stop _ _ hstop, takeWhile_all ip hipd]
  have hdrop : (ip ++ ((if fp.isEmpty then [] else '.' :: fp) ++ ex)).dropWhile isdigit =
      (if fp.isEmpty then [] else '.' :: fp) ++ ex := by
    rw [dropWhile_append_stop _ _ hstop, dropWhile_all ip hipd, List.nil_append]
  have hhex : ∀ x t, ip ++ ((if fp.isEmpty then [] else '.' :: fp) ++ ex) = '0' :: x :: t →
      (x == 'x' || x == 'X') = false := by
    intro x t heq
    have hx : isdigit x = true ∨ x = '.' ∨ x = 'e' := by
      cases ip with
      | nil => exact absurd rfl hip
      | cons c ip' =>
        cases ip' with
        | nil =>
          rw [List.singleton_append] at heq
          have h1 := (List.cons.inj heq).2
          rcases fraction_head fp ex E hex x (by rw [h1]; rfl) with rfl | rfl
          · exact Or.inr (Or.inl rfl)
          · exact Or.inr (Or.inr rfl)
        | cons y t' =>
          simp only [List.cons_append, List.cons.injEq] at heq
          obtain ⟨-, rfl, -⟩ := heq
          exact Or.inl (hipd y (by simp))
    rcases hx with hx | rfl | rfl
    · cases h : (x == 'x' || x == 'X')
      · rfl
      · rw [Bool.or_eq_true, beq_iff_eq, beq_iff_eq] at h
        rcases h with rfl | rfl <;> exact absurd hx (by decide)
    · rfl
    · rfl
  rw [strtod_magnitude_not_hex _ hhex]
  simp only [htake, hdrop]
  have hipe : ip.isEmpty = false := by
    cases ip with
    | nil => exact absurd rfl hip
    | cons _ _ => rfl
  cases fp with
  | nil =>
    have h1 : (ex.head? == some '.') = false := by
      cases hh : ex.head? with
      | none => rfl
      | some c => rw [exponent_part_head ex E hex c hh]; rfl
    simp only [List.isEmpty_nil, if_true, List.nil_append, h1, Bool.false_eq_true, if_false,
      hipe, Bool.false_and, List.append_nil, List.length_nil, strtod_exponent_part ex E hex]
  | cons d fp =>
    have h2 : ((d :: fp) ++ ex).takeWhile isdigit = d :: fp := by
      rw [takeWhile_append_stop _ _ hexstop, takeWhile_all _ hfp]
    have h3 : ((d :: fp) ++ ex).dropWhile isdigit = ex := by
      rw [dropWhile_append_stop _ _ hexstop, dropWhile_all _ hfp, List.nil_append]
    simp only [List.isEmpty_cons, Bool.false_eq_true, if_false, List.cons_append,
      List.head?_cons, beq_self_eq_true, if_true, List.tail_cons, hipe, Bool.false_and]
    rw [← List.cons_append, h2, h3, strtod_exponent_part ex E hex]

theorem strtod_decimal_text (sgn ip fp ex : List Char) (E : Int)
    (hs : sgn = [] ∨ sgn = ['-']) (hip : ip ≠ []) (hipd : ∀ c ∈ ip, isdigit c = true)
    (hfp : ∀ c ∈ fp, isdigit c = true) (hex : exponent_part ex E) :
    strtod (decimal_text sgn ip fp ex) =
      round_to_double (decide (sgn = ['-']))
        (scale (digits_value 10 (ip ++ fp)) 10 (E - (fp.length : Int))).1
        (scale (digits_value 10 (ip ++ fp)) 10 (E - (fp.length : Int))).2 := by
  have hall : ∀ c ∈ decimal_text sgn ip fp ex, is_num_char c = true := by
    intro c hc
    simp only [decimal_text, List.mem_append] at hc
    rcases hc with ((hc | hc) | hc) | hc
    · rcases hs with rfl | rfl
      · cases hc
      · rw [List.mem_singleton.mp hc]; decide
    · exact isdigit_num_char c (hipd c hc)
    · cases fp with
      | nil => simp at hc
      | cons d fp =>
        simp only [List.isEmpty_cons, Bool.false_eq_true, if_false, List.mem_cons] at hc
        rcases hc with rfl | rfl | hc
        · decide
        · exact isdigit_num_char _ (hfp _ (by simp))
        · exact isdigit_num_char c (hfp c (by simp [hc]))
    · exact exponent_part_num_char ex E hex c hc
  have hmag := strtod_magnitude_decimal ip fp ex E hip hipd hfp hex
  unfold strtod
  rw [takeWhile_all _ hall]
  obtain ⟨c, ip', rfl⟩ := List.exists_cons_of_ne_nil hip
  have hc : isdigit c = true := hipd c (by simp)
  have hc1 : c ≠ '-' := by rintro rfl; exact absurd hc (by decide)
  have hc2 : c ≠ '+' := by rintro rfl; exact absurd hc (by decide)
  have b1 : (some c == some '-') = false := by simp [hc1]
  have b2 : (some c == some '+') = false := by simp [hc2]
  rcases hs with rfl | rfl
  · have e : decimal_text [] (c :: ip') fp ex =
        c :: ip' ++ ((if fp.isEmpty then [] else '.' :: fp) ++ ex) := by
      simp [decimal_text]
    rw [e]
    have e2 : (c :: ip' ++ ((if fp.isEmpty then [] else '.' :: fp) ++ ex)).head? = some c := rfl
    simp only [e2, b1, b2, Bool.or_self, Bool.false_eq_true, if_false]
    rw [hmag]
    rfl
  · have e : decimal_text ['-'] (c :: ip') fp ex =
        '-' :: (c :: ip' ++ ((if fp.isEmpty then [] else '.' :: fp) ++ ex)) := by
      simp [decimal_text]
    rw [e]
    simp only [List.head?_cons, beq_self_eq_true, Bool.true_or, if_true, List.tail_cons]
    rw [hmag]
    rfl

/-! ## `parse` on a decimal constant -/

theorem number_exponent_part (ex : List Char) (E : Int) (h : exponent_part ex E) :
    dson_parse_context.number_exponent ex = some [] := by
  have key : ∀ es : List Char, es ≠ [] → (∀ c ∈ es, isdigit c = true) →
      ∀ s, s = '+' ∨ s = '-' → dson_parse_context.number_exponent ('e' :: s :: es) = some [] := by
    intro es hne hes s hs
    obtain ⟨d, es', rfl⟩ := List.exists_cons_of_ne_nil hne
    have hd : isdigit d = true := hes d (by simp)
    have h2 : (d :: es').dropWhile dson_parse_context.in_0123456789 = [] := by
      rw [dropWhile_in_0123456789]
      exact dropWhile_all _ hes
    simp only [dson_parse_context.number_exponent, true_or, if_true, hs, hd, Bool.not_true,
      Bool.false_eq_true, if_false, h2]
  rcases h with ⟨rfl, -⟩ | ⟨es, hne, hes, ⟨rfl, -⟩ | ⟨rfl, -⟩⟩
  · rfl
  · exact key es hne hes '+' (Or.inl rfl)
  · exact key es hne hes '-' (Or.inr rfl)

theorem number_fraction_part (fp ex : List Char) (E : Int)
    (hfp : ∀ c ∈ fp, isdigit c = true) (hex : exponent_part ex E) :
    dson_parse_context.number_fraction ((if fp.isEmpty then [] else '.' :: fp) ++ ex) =
      some ex := by
  have hexstop : ∀ c, ex.head? = some c → isdigit c = false := by
    intro c hc
    rw [exponent_part_head ex E hex c hc]
    decide
  cases fp with
  | nil =>
    simp only [List.isEmpty_nil, if_true, List.nil_append]
    unfold dson_parse_context.number_fraction
    split
    · next t1 => exact absurd (exponent_part_head _ E hex '.' rfl) (by decide)
    · rfl
  | cons d fp =>
    have hd : isdigit d = true := hfp d (by simp)
    have h2 : (d :: fp ++ ex).dropWhile dson_parse_context.in_0123456789 = ex := by
      rw [dropWhile_in_0123456789, dropWhile_append_stop _ _ hexstop, dropWhile_all _ hfp,
        List.nil_append]
    simp only [List.isEmpty_cons, Bool.false_eq_true, if_false, List.cons_append,
      dson_parse_context.number_fraction, hd, Bool.not_true]
    rw [← List.cons_append, h2]

theorem number_scan_decimal_text (sgn ip fp ex : List Char) (E : Int)
    (hs : sgn = [] ∨ sgn = ['-']) (hip : ip ≠ []) (hipd : ∀ c ∈ ip, isdigit c = true)
    (hipz : ip = ['0'] ∨ ∀ c ∈ ip, c ≠ '0')
    (hfp : ∀ c ∈ fp, isdigit c = true) (hex : exponent_part ex E) :
    dson_parse_context.number_scan (decimal_text sgn ip fp ex) = some [] := by
  have hstop : ∀ c, ((if fp.isEmpty then [] else '.' :: fp) ++ ex).head? = some c →
      dson_parse_context.in_123456789 c = false := by
    intro c hc
    rcases fraction_head fp ex E hex c hc with rfl | rfl <;> decide
  obtain ⟨c, ip', rfl⟩ := List.exists_cons_of_ne_nil hip
  have hc : isdigit c = true := hipd c (by simp)
  have hc1 : c ≠ '-' := by rintro rfl; exact absurd hc (by decide)
  have hint : dson_parse_context.number_integer (decimal_text sgn (c :: ip') fp ex) =
      some ((if fp.isEmpty then [] else '.' :: fp) ++ ex) := by
    have htmp : (if (decimal_text sgn (c :: ip') fp ex).head? = some '-'
        then (decimal_text sgn (c :: ip') fp ex).tail else decimal_text sgn (c :: ip') fp ex) =
        c :: (ip' ++ ((if fp.isEmpty then [] else '.' :: fp) ++ ex)) := by
      rcases hs with rfl | rfl
      · simp [decimal_text, hc1]
      · simp [decimal_text]
    unfold dson_parse_context.number_integer
    simp only [htmp]
    rcases hipz with hz | hnz
    · simp only [List.cons.injEq] at hz
      obtain ⟨rfl, rfl⟩ := hz
      simp
    · have hc0 : c ≠ '0' := hnz c (by simp)
      have hall : ∀ x ∈ c :: ip', dson_parse_context.in_123456789 x = true := by
        intro x hx
        exact (in_123456789_iff x).mpr ⟨hipd x hx, hnz x hx⟩
      simp only [hc0, if_false, hc, Bool.not_true, Bool.false_eq_true]
      rw [← List.cons_append, dropWhile_append_stop _ _ hstop, dropWhile_all _ hall,
        List.nil_append]
  rw [dson_parse_context.number_scan, hint, Option.some_bind,
    number_fraction_part fp ex E hfp hex, Option.some_bind, number_exponent_part ex E hex]

/-- On a decimal constant whose integer part is `0` or has no digit `0`, and that `strtod`
does not take to an infinity, `parse` returns `DSON_OK` with the Number that `strtod`
reads. -/
theorem parse_decimal_text (sgn ip fp ex : List Char) (E : Int)
    (hs : sgn = [] ∨ sgn = ['-']) (hip : ip ≠ []) (hipd : ∀ c ∈ ip, isdigit c = true)
    (hipz : ip = ['0'] ∨ ∀ c ∈ ip, c ≠ '0')
    (hfp : ∀ c ∈ fp, isdigit c = true) (hex : exponent_part ex E)
    (hfin : (strtod (decimal_text sgn ip fp ex)).1 ≠ HUGE_VAL ∧
      (strtod (decimal_text sgn ip fp ex)).1 ≠ Double.neg HUGE_VAL) :
    DsonParser.new.parse (decimal_text sgn ip fp ex) =
      some (DSON_OK, ⟨.mk DSON_NUMBER (some (.double (strtod (decimal_text sgn ip fp ex)).1))⟩,
        ⟨[], []⟩) := by
  have hscan := number_scan_decimal_text sgn ip fp ex E hs hip hipd hipz hfp hex
  obtain ⟨c, ip', rfl⟩ := List.exists_cons_of_ne_nil hip
  have hc : isdigit c = true := hipd c (by simp)
  obtain ⟨a, t, ht, ha⟩ : ∃ a t, decimal_text sgn (c :: ip') fp ex = a :: t ∧
      (a = '-' ∨ isdigit a = true) := by
    rcases hs with rfl | rfl
    · exact ⟨c, ip' ++ ((if fp.isEmpty then [] else '.' :: fp) ++ ex),
        by simp [decimal_text], Or.inr hc⟩
    · exact ⟨'-', c :: (ip' ++ ((if fp.isEmpty then [] else '.' :: fp) ++ ex)),
        by simp [decimal_text], Or.inl rfl⟩
  rw [ht] at hscan hfin ⊢
  apply DsonParser.parse_ok_of _ _ _ 1 [] (by simp) _ rfl
  have hws : dson_parse_context.is_whitespace a = false := by
    rcases ha with rfl | ha
    · decide
    · cases hw : dson_parse_context.is_whitespace a
      · rfl
      · simp only [dson_parse_context.is_whitespace, Bool.or_eq_true, beq_iff_eq] at hw
        rcases hw with ((rfl | rfl) | rfl) | rfl <;> exact absurd ha (by decide)
  rw [not_whitespace_dropWhile a t hws, dson_parse_context.parse_cons]
  have hne : a ≠ 'n' ∧ a ≠ 'f' ∧ a ≠ 't' ∧ a ≠ '"' ∧ a ≠ '[' ∧ a ≠ '{' := by
    rcases ha with rfl | ha
    · decide
    · refine ⟨?_, ?_, ?_, ?_, ?_, ?_⟩ <;> rintro rfl <;> exact absurd ha (by decide)
  rw [if_neg hne.1, if_neg hne.2.1, if_neg hne.2.2.1, if_neg hne.2.2.2.1,
    if_neg hne.2.2.2.2.1, if_neg hne.2.2.2.2.2]
  have hb1 : ((strtod (a :: t)).1 == HUGE_VAL) = false := by
    simpa using hfin.1
  have hb2 : ((strtod (a :: t)).1 == Double.neg HUGE_VAL) = false := by
    simpa using hfin.2
  simp only [dson_parse_context.parse_number, hscan, hb1, hb2, Bool.or_self, Bool.and_false,
    Bool.false_eq_true, if_false]
  rfl

/-! ## `round_to_double` below the largest finite `double` -/

theorem round_to_double_fst (neg : Bool) (n d : Nat) :
    (round_to_double neg n d).1 =
      if n = 0 then (if neg then 2 ^ 63 else 0)
      else if 2047 * 2 ^ 52 ≤ rounded_fields n d then (if neg then 2 ^ 63 else 0) + 2047 * 2 ^ 52
      else (if neg then 2 ^ 63 else 0) + rounded_fields n d := by
  unfold round_to_double
  by_cases hn : n = 0
  · simp only [hn, if_true]
  · simp only [hn, if_false]
    by_cases hov : 2047 * 2 ^ 52 ≤ rounded_fields n d
    · rw [if_pos hov]
      unfold rounded_fields binary_order at hov
      rw [if_pos hov]
    · rw [if_neg hov]
      unfold rounded_fields binary_order at hov
      rw [if_neg hov]
      rfl

theorem bit_length_spec (fuel n : Nat) (hn : 0 < n) (hf : n < 2 ^ fuel) :
    0 < bit_length fuel n ∧ 2 ^ bit_length fuel n ≤ 2 * n ∧ n < 2 ^ bit_length fuel n := by
  induction fuel generalizing n with
  | zero => simp at hf; omega
  | succ f ih =>
    rw [bit_length, if_neg (by omega)]
    by_cases h2 : n < 2
    · have h0 : n / 2 = 0 := by omega
      have hz : bit_length f (n / 2) = 0 := by
        rw [h0]; cases f <;> simp [bit_length]
      rw [hz]
      refine ⟨by omega, ?_, ?_⟩
      · simp only [Nat.zero_add, pow_one]; omega
      · simpa using h2
    · have hq : 0 < n / 2 := by omega
      have hf' : n / 2 < 2 ^ f := by
        rw [pow_succ] at hf
        omega
      obtain ⟨h1, h2, h3⟩ := ih (n / 2) hq hf'
      refine ⟨by omega, ?_, ?_⟩
      · rw [pow_succ]; omega
      · rw [pow_succ]; omega

theorem bit_length_self (n : Nat) (hn : 0 < n) :
    2 ^ bit_length n n ≤ 2 * n ∧ n < 2 ^ bit_length n n :=
  (bit_length_spec n n hn (Nat.lt_two_pow n)).2

theorem binary_order_spec (n d : Nat) (hn : 0 < n) (hd : 0 < d) :
    (2 : ℚ) ^ binary_order n d ≤ (n : ℚ) / d ∧ (n : ℚ) / d < 2 ^ (binary_order n d + 1) := by
  obtain ⟨hn1, hn2⟩ := bit_length_self n hn
  obtain ⟨hd1, hd2⟩ := bit_length_self d hd
  unfold binary_order
  generalize bit_length n n = bn at *
  generalize bit_length d d = bd at *
  have hd' : (0 : ℚ) < d := by exact_mod_cast hd
  have hn' : (0 : ℚ) < n := by exact_mod_cast hn
  have hT : (0 : ℚ) < 2 ^ bn := by positivity
  have hU : (0 : ℚ) < 2 ^ bd := by positivity
  have qn1 : (2 : ℚ) ^ bn ≤ 2 * n := by exact_mod_cast hn1
  have qn2 : (n : ℚ) < 2 ^ bn := by exact_mod_cast hn2
  have qd1 : (2 : ℚ) ^ bd ≤ 2 * d := by exact_mod_cast hd1
  have qd2 : (d : ℚ) < 2 ^ bd := by exact_mod_cast hd2
  have el : (2 : ℚ) ^ ((bn : Int) - (bd : Int)) = 2 ^ bn / 2 ^ bd := by
    rw [zpow_sub₀ (by norm_num), zpow_natCast, zpow_natCast]
  have el1 : (2 : ℚ) ^ ((bn : Int) - (bd : Int) + 1) = 2 * 2 ^ bn / 2 ^ bd := by
    rw [zpow_add₀ (by norm_num), el, zpow_one]; ring
  have el2 : (2 : ℚ) ^ ((bn : Int) - (bd : Int) - 1) = 2 ^ bn / (2 * 2 ^ bd) := by
    rw [zpow_sub₀ (by norm_num), el, zpow_one]; field_simp; ring
  have hhi : (n : ℚ) / d < 2 * 2 ^ bn / 2 ^ bd := by
    rw [div_lt_div_iff₀ hd' hU]
    nlinarith
  have hlo : (2 : ℚ) ^ bn / (2 * 2 ^ bd) < (n : ℚ) / d := by
    rw [div_lt_div_iff₀ (by positivity) hd']
    nlinarith
  have hge : (if 0 ≤ (bn : Int) - (bd : Int)
        then decide (d * 2 ^ ((bn : Int) - (bd : Int)).toNat ≤ n)
        else decide (d ≤ n * 2 ^ (-((bn : Int) - (bd : Int))).toNat)) = true ↔
      (2 : ℚ) ^ bn / 2 ^ bd ≤ (n : ℚ) / d := by
    rw [div_le_div_iff₀ hU hd']
    split_ifs with h
    · have e : ((bn : Int) - (bd : Int)).toNat + bd = bn := by omega
      rw [decide_eq_true_eq]
      have key : (d * 2 ^ ((bn : Int) - (bd : Int)).toNat ≤ n) ↔
          (d * 2 ^ ((bn : Int) - (bd : Int)).toNat * 2 ^ bd ≤ n * 2 ^ bd) :=
        ⟨fun h => Nat.mul_le_mul_right _ h,
          fun h => Nat.le_of_mul_le_mul_right h (by positivity)⟩
      rw [key, Nat.mul_assoc, ← pow_add, e]
      constructor
      · intro h'
        have : ((d * 2 ^ bn : ℕ) : ℚ) ≤ ((n * 2 ^ bd : ℕ) : ℚ) := by exact_mod_cast h'
        push_cast at this
        linarith
      · intro h'
        have : ((d * 2 ^ bn : ℕ) : ℚ) ≤ ((n * 2 ^ bd : ℕ) : ℚ) := by
          push_cast; linarith
        exact_mod_cast this
    · have e : (-((bn : Int) - (bd : Int))).toNat + bn = bd := by omega
      rw [decide_eq_true_eq]
      have key : (d ≤ n * 2 ^ (-((bn : Int) - (bd : Int))).toNat) ↔
          (d * 2 ^ bn ≤ n * 2 ^ (-((bn : Int) - (bd : Int))).toNat * 2 ^ bn) :=
        ⟨fun h => Nat.mul_le_mul_right _ h,
          fun h => Nat.le_of_mul_le_mul_right h (by positivity)⟩
      rw [key, Nat.mul_assoc, ← pow_add, e]
      constructor
      · intro h'
        have : ((d * 2 ^ bn : ℕ) : ℚ) ≤ ((n * 2 ^ bd : ℕ) : ℚ) := by exact_mod_cast h'
        push_cast at this
        linarith
      · intro h'
        have : ((d * 2 ^ bn : ℕ) : ℚ) ≤ ((n * 2 ^ bd : ℕ) : ℚ) := by
          push_cast; linarith
        exact_mod_cast this
  simp only
  by_cases hg : (if 0 ≤ (bn : Int) - (bd : Int)
        then decide (d * 2 ^ ((bn : Int) - (bd : Int)).toNat ≤ n)
        else decide (d ≤ n * 2 ^ (-((bn : Int) - (bd : Int))).toNat)) = true
  · rw [if_pos hg, el, el1]
    exact ⟨hge.mp hg, hhi⟩
  · rw [if_neg hg]
    have e3 : (bn : Int) - (bd : Int) - 1 + 1 = (bn : Int) - (bd : Int) := by ring
    rw [e3, el, el2]
    exact ⟨le_of_lt hlo, lt_of_not_le (fun h => hg (hge.mpr h))⟩

theorem rounded_fields_lt (n d : Nat) (hn : 0 < n) (hd : 0 < d)
    (hlt : (n : ℚ) / d < (2 ^ 53 - 1) * 2 ^ 971) : rounded_fields n d < 2047 * 2 ^ 52 := by
  obtain ⟨hk1, hk2⟩ := binary_order_spec n d hn hd
  unfold rounded_fields
  generalize binary_order n d = k at *
  have hd' : (0 : ℚ) < d := by exact_mod_cast hd
  have hk : k < 1024 := by
    have h1 : (2 : ℚ) ^ k < 2 ^ (1024 : Int) := by
      refine lt_of_le_of_lt hk1 (lt_trans hlt ?_)
      norm_num
    exact (zpow_lt_zpow_iff_right₀ (by norm_num)).mp h1
  simp only
  generalize he : max (k - 52) (-1074) = e
  have he1 : e ≤ 971 := by omega
  have he2 : -1074 ≤ e := by omega
  have he3 : k + 1 - e ≤ 53 := by omega
  -- the quotient is at most the value scaled by `2 ^ (-e)`
  have hq : (((if 0 ≤ e then n else n * 2 ^ (-e).toNat) /
      (if 0 ≤ e then d * 2 ^ e.toNat else d) : ℕ) : ℚ) ≤ (n : ℚ) / d * 2 ^ (-e) := by
    refine le_trans Nat.cast_div_le ?_
    split_ifs with h
    · have hx : e = (e.toNat : Int) := (Int.toNat_of_nonneg h).symm
      conv_rhs => rw [hx, zpow_neg, zpow_natCast]
      push_cast
      rw [div_mul_eq_div_div, div_eq_mul_inv ((n : ℚ) / d)]
    · have hx : -e = ((-e).toNat : Int) := (Int.toNat_of_nonneg (by omega)).symm
      conv_rhs => rw [hx, zpow_natCast]
      push_cast
      rw [div_mul_eq_mul_div]
  generalize (if 0 ≤ e then n else n * 2 ^ (-e).toNat) /
      (if 0 ≤ e then d * 2 ^ e.toNat else d) = q at hq ⊢
  generalize (if 0 ≤ e then n else n * 2 ^ (-e).toNat) %
      (if 0 ≤ e then d * 2 ^ e.toNat else d) = r
  generalize (if 0 ≤ e then d * 2 ^ e.toNat else d) = den
  have hpe : (0 : ℚ) < 2 ^ (-e) := by positivity
  have hq53 : q < 2 ^ 53 := by
    have h1 : (q : ℚ) < 2 ^ (53 : Int) := by
      refine lt_of_le_of_lt hq ?_
      calc (n : ℚ) / d * 2 ^ (-e) < 2 ^ (k + 1) * 2 ^ (-e) := mul_lt_mul_of_pos_right hk2 hpe
        _ = 2 ^ (k + 1 - e) := by rw [← zpow_add₀ (by norm_num)]; rfl
        _ ≤ 2 ^ (53 : Int) := zpow_le_zpow_right₀ (by norm_num) he3
    have h2 : (q : ℚ) < ((2 ^ 53 : ℕ) : ℚ) := by
      rw [show (53 : Int) = ((53 : ℕ) : Int) from rfl, zpow_natCast] at h1
      exact_mod_cast h1
    exact_mod_cast h2
  have hqmax : e = 971 → q + 1 < 2 ^ 53 := by
    intro h971
    subst h971
    have h1 : (q : ℚ) < 2 ^ 53 - 1 := by
      refine lt_of_le_of_lt hq ?_
      have e1 : ((2 : ℚ) ^ 53 - 1) = ((2 ^ 53 - 1) * 2 ^ 971) * 2 ^ (-(971 : Int)) := by
        rw [mul_assoc, zpow_neg, show (971 : Int) = ((971 : ℕ) : Int) from rfl, zpow_natCast,
          mul_inv_cancel₀ (by positivity), mul_one]
      rw [e1]
      exact mul_lt_mul_of_pos_right hlt hpe
    have h2 : ((q + 1 : ℕ) : ℚ) < ((2 ^ 53 : ℕ) : ℚ) := by
      push_cast; linarith
    exact_mod_cast h2
  have hE : ((e + 1074).toNat : Int) = e + 1074 := Int.toNat_of_nonneg (by omega)
  generalize (e + 1074).toNat = E at hE ⊢
  have hq1 : (if den < 2 * r ∨ 2 * r = den ∧ q % 2 = 1 then q + 1 else q) ≤ q + 1 := by
    split_ifs <;> omega
  generalize (if den < 2 * r ∨ 2 * r = den ∧ q % 2 = 1 then q + 1 else q) = q1 at hq1 ⊢
  by_cases h971 : e = 971
  · have := hqmax h971
    omega
  · omega

/-- A fraction below the largest finite `double` is not read as an infinity. -/
theorem round_to_double_finite (neg : Bool) (n d : Nat) (hd : 0 < d)
    (hlt : (n : ℚ) / d < (2 ^ 53 - 1) * 2 ^ 971) :
    (round_to_double neg n d).1 ≠ HUGE_VAL ∧
      (round_to_double neg n d).1 ≠ Double.neg HUGE_VAL := by
  have hH : HUGE_VAL = 2047 * 2 ^ 52 := rfl
  have hN : Double.neg HUGE_VAL = 2047 * 2 ^ 52 + 2 ^ 63 := by decide
  rw [hN, hH, round_to_double_fst]
  by_cases hn : n = 0
  · rw [if_pos hn]
    cases neg <;> simp
  · rw [if_neg hn]
    have hb := rounded_fields_lt n d (Nat.pos_of_ne_zero hn) hd hlt
    rw [if_neg (by omega)]
    cases neg
    · simp only [Bool.false_eq_true, if_false]
      refine ⟨fun h => ?_, fun h => ?_⟩
      · have h' : (0 + rounded_fields n d : Nat) = 2047 * 2 ^ 52 := h
        omega
      · have h' : (0 + rounded_fields n d : Nat) = 2047 * 2 ^ 52 + 2 ^ 63 := h
        omega
    · simp only [if_true]
      refine ⟨fun h => ?_, fun h => ?_⟩
      · have h' : (2 ^ 63 + rounded_fields n d : Nat) = 2047 * 2 ^ 52 := h
        omega
      · have h' : (2 ^ 63 + rounded_fields n d : Nat) = 2047 * 2 ^ 52 + 2 ^ 63 := h
        omega

/-! ## The parts of the text written for a Number -/

theorem digits_value_leading_zeros (z : Nat) (l : List Char) :
    digits_value 10 (List.replicate z '0' ++ l) = digits_value 10 l := by
  rw [digits_value_append, digits_value_zeros, Nat.zero_mul, Nat.zero_add]

/-- The value of the digits written, against the six digits `D`: with `z` trailing zeros
removed, `digits * 10 ^ z = D`. -/
theorem written_value (v D : Nat) (z : Nat) (p X : Int) (hv : D = v * 10 ^ z)
    (hp : p = X - 5 + z) : (v : ℚ) * 10 ^ p = (D : ℚ) * 10 ^ (X - 5) := by
  rw [hv, hp, zpow_add₀ (by norm_num), zpow_natCast]
  push_cast
  ring

theorem format_six_parts (sgn : List Char) (D : Nat) (X : Int)
    (hD1 : 10 ^ 5 ≤ D) (hD2 : D < 10 ^ 6) (hX : X.natAbs < 10 ^ 400) :
    ∃ (ip fp ex : List Char) (E : Int),
      format_six sgn D X = decimal_text sgn ip fp ex ∧
      ip ≠ [] ∧ (∀ c ∈ ip, isdigit c = true) ∧ (∀ c ∈ fp, isdigit c = true) ∧
      exponent_part ex E ∧ (ip = ['0'] ∨ ip.head? ≠ some '0') ∧
      (digits_value 10 (ip ++ fp) : ℚ) * 10 ^ (E - (fp.length : Int)) =
        (D : ℚ) * 10 ^ (X - 5) := by
  obtain ⟨c, r, hds, hc0, hcd⟩ := dec_digits_head 5 D hD1 hD2
  have hlen := dec_digits_length 6 D
  have hdig := dec_digits_isdigit 6 D
  have hval : digits_value 10 (dec_digits 6 D) = D := by
    rw [dec_digits_value, Nat.mod_eq_of_lt hD2]
  unfold format_six
  simp only
  generalize dec_digits 6 D = ds at *
  subst hds
  have hr : r.length = 5 := by simpa using hlen
  by_cases hfix : -4 ≤ X ∧ X < 6
  · rw [if_pos hfix]
    by_cases hX0 : 0 ≤ X
    · rw [if_pos hX0]
      obtain ⟨z, hz1, hz2⟩ := strip_zeros_value ((c :: r).take (X.toNat + 1))
        ((c :: r).drop (X.toNat + 1))
      rw [List.take_append_drop, hval] at hz2
      refine ⟨(c :: r).take (X.toNat + 1), strip_zeros ((c :: r).drop (X.toNat + 1)), [], 0,
        ?_, ?_, ?_, ?_, Or.inl ⟨rfl, rfl⟩, Or.inr ?_, ?_⟩
      · rw [decimal_text, List.append_nil]
      · simp
      · intro x hx
        exact hdig x (List.mem_of_mem_take hx)
      · intro x hx
        exact hdig x (List.mem_of_mem_drop (strip_zeros_mem _ x hx))
      · simp only [List.take_succ_cons, List.head?_cons, ne_eq, Option.some.injEq]
        exact hc0
      · refine written_value _ D z _ X hz2 ?_
        have h3 : ((c :: r).drop (X.toNat + 1)).length = 5 - X.toNat := by
          simp [hr]
        rw [h3] at hz1
        omega
    · rw [if_neg hX0]
      obtain ⟨z, hz1, hz2⟩ := strip_zeros_value [] (c :: r)
      rw [List.nil_append, List.nil_append, hval] at hz2
      have hne := strip_zeros_ne_nil c r hc0
      refine ⟨['0'], List.replicate ((-X).toNat - 1) '0' ++ strip_zeros (c :: r), [], 0,
        ?_, by simp, ?_, ?_, Or.inl ⟨rfl, rfl⟩, Or.inl rfl, ?_⟩
      · have he : (List.replicate ((-X).toNat - 1) '0' ++ strip_zeros (c :: r)).isEmpty
            = false := by
          cases h : strip_zeros (c :: r) with
          | nil => exact absurd h hne
          | cons a t => cases (List.replicate ((-X).toNat - 1) '0') <;> rfl
        rw [decimal_text, he]
        simp
      · intro x hx
        rw [List.mem_singleton.mp hx]; decide
      · intro x hx
        rcases List.mem_append.mp hx with h | h
        · rw [List.eq_of_mem_replicate h]; decide
        · exact hdig x (strip_zeros_mem _ x h)
      · rw [show (['0'] : List Char) = List.replicate 1 '0' from rfl, ← List.append_assoc,
          ← List.replicate_add, digits_value_leading_zeros]
        refine written_value _ D z _ X hz2 ?_
        rw [List.length_append, List.length_replicate]
        have h3 : (c :: r).length = 6 := hlen
        rw [h3] at hz1
        push_cast
        omega
  · rw [if_neg hfix]
    obtain ⟨z, hz1, hz2⟩ := strip_zeros_value ((c :: r).take 1) ((c :: r).drop 1)
    rw [List.take_append_drop, hval] at hz2
    have hax : 0 < X.natAbs := by omega
    obtain ⟨hl1, hl2, hl3⟩ := dec_length_spec 400 X.natAbs hax hX
    have hw : dec_length 400 X.natAbs ≤ max 2 (dec_length 400 X.natAbs) := le_max_right _ _
    have hes : digits_value 10 (dec_digits (max 2 (dec_length 400 X.natAbs)) X.natAbs) =
        X.natAbs := by
      rw [dec_digits_value]
      exact Nat.mod_eq_of_lt (lt_of_lt_of_le hl3 (Nat.pow_le_pow_right (by norm_num) hw))
    have hesne : dec_digits (max 2 (dec_length 400 X.natAbs)) X.natAbs ≠ [] := by
      intro h
      have := dec_digits_length (max 2 (dec_length 400 X.natAbs)) X.natAbs
      rw [h] at this
      have h2 : 2 ≤ max 2 (dec_length 400 X.natAbs) := le_max_left _ _
      simp at this
      omega
    refine ⟨(c :: r).take 1, strip_zeros ((c :: r).drop 1),
      'e' :: (if X < 0 then '-' else '+') ::
        dec_digits (max 2 (dec_length 400 X.natAbs)) X.natAbs, X,
      ?_, by simp, ?_, ?_, Or.inr ⟨_, hesne, dec_digits_isdigit _ _, ?_⟩, Or.inr ?_, ?_⟩
    · simp [decimal_text]
    · intro x hx
      exact hdig x (List.mem_of_mem_take hx)
    · intro x hx
      exact hdig x (List.mem_of_mem_drop (strip_zeros_mem _ x hx))
    · rw [hes]
      by_cases hneg : X < 0
      · rw [if_pos hneg]
        exact Or.inr ⟨rfl, by omega⟩
      · rw [if_neg hneg]
        exact Or.inl ⟨rfl, by omega⟩
    · simp only [List.take_succ_cons, List.head?_cons, ne_eq, Option.some.injEq]
      exact hc0
    · refine written_value _ D z _ X hz2 ?_
      have h3 : ((c :: r).drop 1).length = 5 := by simp [hr]
      rw [h3] at hz1
      omega

/-! ## The Number read from the text written for a Number -/

theorem significand_lt (x : Double) : x.significand < 2 ^ 53 := by
  unfold Double.significand
  have := Nat.mod_lt x (show 0 < 2 ^ 52 by norm_num)
  split_ifs <;> omega

theorem binary_exponent_bounds (x : Double) (hfin : x.is_finite = true) :
    -1074 ≤ x.binary_exponent ∧ x.binary_exponent ≤ 971 := by
  have h1 : x.exponent_field < 2048 := Nat.mod_lt _ (by norm_num)
  have h2 : x.exponent_field ≠ 2047 := by
    simp only [Double.is_finite, Bool.and_eq_true, decide_eq_true_eq, bne_iff_ne] at hfin
    exact hfin.2
  unfold Double.binary_exponent
  generalize x.exponent_field = ef at *
  omega

set_option exponentiation.threshold 2000 in
/-- The magnitude of a finite `double` that is not zero, as the fraction that `put_double`
works with. -/
theorem finite_scale_bounds (x : Double) (hfin : x.is_finite = true)
    (hs : x.significand ≠ 0) :
    0 < (scale x.significand 2 x.binary_exponent).1 ∧
    0 < (scale x.significand 2 x.binary_exponent).2 ∧
    (scale x.significand 2 x.binary_exponent).2 ≤
      (scale x.significand 2 x.binary_exponent).1 * 10 ^ 400 ∧
    (scale x.significand 2 x.binary_exponent).1 / (scale x.significand 2 x.binary_exponent).2
      < 10 ^ 400 ∧
    ((scale x.significand 2 x.binary_exponent).1 : ℚ) /
      (scale x.significand 2 x.binary_exponent).2 = x.magnitude ∧
    x.magnitude ≤ (2 ^ 53 - 1) * 2 ^ 971 := by
  have hm := significand_lt x
  obtain ⟨hb1, hb2⟩ := binary_exponent_bounds x hfin
  have hpos : 0 < x.significand := Nat.pos_of_ne_zero hs
  have hval := scale_val x.significand 2 x.binary_exponent (by norm_num)
  refine ⟨scale_fst_pos _ _ _ hpos (by norm_num), scale_snd_pos _ _ _ (by norm_num), ?_, ?_,
    ?_, ?_⟩
  · unfold scale
    split_ifs with h
    · exact Nat.mul_pos (Nat.mul_pos hpos (by positivity)) (by positivity)
    · simp only
      have h1 : 2 ^ (-x.binary_exponent).toNat ≤ 2 ^ 1074 :=
        Nat.pow_le_pow_right (by norm_num) (by omega)
      have h2 : (2 : ℕ) ^ 1074 ≤ 10 ^ 400 := by norm_num
      calc 2 ^ (-x.binary_exponent).toNat ≤ 10 ^ 400 := le_trans h1 h2
        _ = 1 * 10 ^ 400 := (Nat.one_mul _).symm
        _ ≤ x.significand * 10 ^ 400 := Nat.mul_le_mul_right _ hpos
  · refine lt_of_le_of_lt (Nat.div_le_self _ _) ?_
    unfold scale
    split_ifs with h
    · simp only
      have h1 : 2 ^ x.binary_exponent.toNat ≤ 2 ^ 971 :=
        Nat.pow_le_pow_right (by norm_num) (by omega)
      have h2 : (2 : ℕ) ^ 53 * 2 ^ 971 < 10 ^ 400 := by norm_num
      calc x.significand * 2 ^ x.binary_exponent.toNat
          ≤ 2 ^ 53 * 2 ^ 971 := Nat.mul_le_mul (le_of_lt hm) h1
        _ < 10 ^ 400 := h2
    · simp only
      have h2 : (2 : ℕ) ^ 53 < 10 ^ 400 := by norm_num
      exact lt_trans hm h2
  · rw [hval]
    rfl
  · unfold Double.magnitude
    have h1 : ((x.significand : ℚ)) ≤ 2 ^ 53 - 1 := by
      have : x.significand + 1 ≤ 2 ^ 53 := hm
      have h' : ((x.significand + 1 : ℕ) : ℚ) ≤ ((2 ^ 53 : ℕ) : ℚ) := by exact_mod_cast this
      push_cast at h'
      linarith
    have h2 : (2 : ℚ) ^ x.binary_exponent ≤ 2 ^ (971 : Int) :=
      zpow_le_zpow_right₀ (by norm_num) hb2
    have h3 : (2 : ℚ) ^ (971 : Int) = 2 ^ (971 : ℕ) := by
      rw [show (971 : Int) = ((971 : ℕ) : Int) from rfl, zpow_natCast]
    rw [h3] at h2
    have h4 : (0 : ℚ) ≤ x.significand := by positivity
    have h5 : (0 : ℚ) ≤ 2 ^ x.binary_exponent := by positivity
    calc (x.significand : ℚ) * 2 ^ x.binary_exponent
        ≤ (2 ^ 53 - 1) * 2 ^ x.binary_exponent := mul_le_mul_of_nonneg_right h1 h5
      _ ≤ (2 ^ 53 - 1) * 2 ^ (971 : ℕ) := mul_le_mul_of_nonneg_left h2 (by norm_num)

/-- The six digits written for a finite `double` that is not zero: they lie within half a
unit of the sixth digit from its magnitude, and below the largest finite `double`. -/
theorem six_digits_near (x : Double) (hfin : x.is_finite = true) (hs : x.significand ≠ 0) :
    ∀ D X, (D, X) = six_digits (scale x.significand 2 x.binary_exponent).1
        (scale x.significand 2 x.binary_exponent).2 →
      10 ^ 5 ≤ D ∧ D < 10 ^ 6 ∧ X.natAbs < 10 ^ 400 ∧
      |x.magnitude - (D : ℚ) * 10 ^ (X - 5)| ≤ 10 ^ (X - 5) / 2 ∧
      (D : ℚ) * 10 ^ (X - 5) < (2 ^ 53 - 1) * 2 ^ 971 := by
  intro D X hDX
  obtain ⟨hn, hd, hlow, hhigh, hmag, hmax⟩ := finite_scale_bounds x hfin hs
  obtain ⟨X0, D0, h1, h2, h3, h4, hnear, hD0, heq, hX1, hX2, -, hD1, hD2⟩ :=
    six_digits_spec _ _ hn hd hlow hhigh
  rw [← hDX] at heq hX1 hX2 hD1 hD2
  simp only at heq hX1 hX2 hD1 hD2
  rw [hmag] at h1 h2 hnear
  generalize x.magnitude = v at *
  have hp5 : (0 : ℚ) < 10 ^ (X0 - 5) := by positivity
  have e1 : (10 : ℚ) ^ (5 - X0) * 10 ^ (X0 - 5) = 1 := by
    rw [← zpow_add₀ (by norm_num)]
    have : (5 - X0) + (X0 - 5) = 0 := by ring
    rw [this, zpow_zero]
  refine ⟨hD1, hD2, ?_, ?_, ?_⟩
  · have : X.natAbs ≤ 401 := by omega
    have h401 : (401 : ℕ) < 10 ^ 400 := by norm_num
    exact lt_of_le_of_lt this h401
  · rw [heq]
    have e2 : v - (D0 : ℚ) * 10 ^ (X0 - 5) = (v * 10 ^ (5 - X0) - D0) * 10 ^ (X0 - 5) := by
      rw [sub_mul, mul_assoc, e1, mul_one]
    rw [e2, abs_mul, abs_of_pos hp5]
    have h5 : (10 : ℚ) ^ (X0 - 5) ≤ 10 ^ (X - 5) :=
      zpow_le_zpow_right₀ (by norm_num) (by omega)
    calc |v * 10 ^ (5 - X0) - ↑D0| * 10 ^ (X0 - 5) ≤ 1 / 2 * 10 ^ (X0 - 5) :=
          mul_le_mul_of_nonneg_right hnear (le_of_lt hp5)
      _ ≤ 1 / 2 * 10 ^ (X - 5) := mul_le_mul_of_nonneg_left h5 (by norm_num)
      _ = 10 ^ (X - 5) / 2 := by ring
  · rw [heq]
    by_cases hX308 : X0 < 308
    · have h6 : (D0 : ℚ) ≤ 10 ^ (6 : Int) := by
        have : ((D0 : ℕ) : ℚ) ≤ ((10 ^ 6 : ℕ) : ℚ) := by exact_mod_cast hD0
        rw [show (6 : Int) = ((6 : ℕ) : Int) from rfl, zpow_natCast]
        exact_mod_cast this
      have h7 : (10 : ℚ) ^ (X0 - 5) ≤ 10 ^ (302 : Int) :=
        zpow_le_zpow_right₀ (by norm_num) (by omega)
      have h8 : (10 : ℚ) ^ (6 : Int) * 10 ^ (302 : Int) < (2 ^ 53 - 1) * 2 ^ 971 := by
        rw [← zpow_add₀ (by norm_num), show (6 : Int) + 302 = ((308 : ℕ) : Int) from rfl,
          zpow_natCast]
        norm_num
      calc (D0 : ℚ) * 10 ^ (X0 - 5) ≤ 10 ^ (6 : Int) * 10 ^ (302 : Int) :=
            mul_le_mul h6 h7 (le_of_lt hp5) (by positivity)
        _ < (2 ^ 53 - 1) * 2 ^ 971 := h8
    · have hX0 : X0 = 308 := by
        have h9 : (10 : ℚ) ^ X0 < 10 ^ (309 : Int) := by
          refine lt_of_le_of_lt h1 (lt_of_le_of_lt hmax ?_)
          rw [show (309 : Int) = ((309 : ℕ) : Int) from rfl, zpow_natCast]
          norm_num
        have := (zpow_lt_zpow_iff_right₀ (show (1 : ℚ) < 10 by norm_num)).mp h9
        omega
      subst hX0
      have e3 : (10 : ℚ) ^ ((5 : Int) - 308) = 1 / 10 ^ (303 : ℕ) := by
        rw [show (5 : Int) - 308 = -((303 : ℕ) : Int) from rfl, zpow_neg, zpow_natCast,
          one_div]
      have e4 : (10 : ℚ) ^ ((308 : Int) - 5) = 10 ^ (303 : ℕ) := by
        rw [show (308 : Int) - 5 = ((303 : ℕ) : Int) from rfl, zpow_natCast]
      rw [e3] at hnear
      rw [e4]
      have h10 : (D0 : ℚ) ≤ v * (1 / 10 ^ (303 : ℕ)) + 1 / 2 := by
        have := (abs_le.mp hnear).1
        linarith
      have h11 : v * (1 / 10 ^ (303 : ℕ)) ≤ (2 ^ 53 - 1) * 2 ^ 971 * (1 / 10 ^ (303 : ℕ)) :=
        mul_le_mul_of_nonneg_right hmax (by positivity)
      have h12 : ((2 : ℚ) ^ 53 - 1) * 2 ^ 971 * (1 / 10 ^ (303 : ℕ)) + 1 / 2 < 179770 := by
        norm_num
      have h13 : D0 < 179770 := by
        have : (D0 : ℚ) < ((179770 : ℕ) : ℚ) := by push_cast; linarith
        exact_mod_cast this
      have h14 : (D0 : ℚ) ≤ 179769 := by
        have : D0 ≤ 179769 := by omega
        exact_mod_cast this
      have h15 : (179769 : ℚ) * 10 ^ (303 : ℕ) < (2 ^ 53 - 1) * 2 ^ 971 := by norm_num
      calc (D0 : ℚ) * 10 ^ (303 : ℕ) ≤ 179769 * 10 ^ (303 : ℕ) :=
            mul_le_mul_of_nonneg_right h14 (by positivity)
        _ < (2 ^ 53 - 1) * 2 ^ 971 := h15

/-- The text written for a finite Number is a decimal constant; its digits denote zero for
a zero, and otherwise a decimal of six digits next to the magnitude of the Number. -/
theorem put_double_parts (x : Double) (hfin : x.is_finite = true) :
    ∃ (ip fp ex : List Char) (E : Int),
      put_double x = decimal_text (if 2 ^ 63 ≤ x then ['-'] else []) ip fp ex ∧
      ip ≠ [] ∧ (∀ c ∈ ip, isdigit c = true) ∧ (∀ c ∈ fp, isdigit c = true) ∧
      exponent_part ex E ∧ (ip = ['0'] ∨ ip.head? ≠ some '0') ∧
      (if x.significand = 0 then digits_value 10 (ip ++ fp) = 0
        else ∃ (D : Nat) (X : Int), 10 ^ 5 ≤ D ∧ D < 10 ^ 6 ∧
          |x.magnitude - (D : ℚ) * 10 ^ (X - 5)| ≤ 10 ^ (X - 5) / 2 ∧
          (digits_value 10 (ip ++ fp) : ℚ) * 10 ^ (E - (fp.length : Int)) =
            (D : ℚ) * 10 ^ (X - 5) ∧
          (D : ℚ) * 10 ^ (X - 5) < (2 ^ 53 - 1) * 2 ^ 971) := by
  have hef : x.exponent_field ≠ 2047 := by
    simp only [Double.is_finite, Bool.and_eq_true, decide_eq_true_eq, bne_iff_ne] at hfin
    exact hfin.2
  rw [put_double_eq, if_neg hef]
  by_cases hs : x.significand = 0
  · rw [if_pos hs]
    refine ⟨['0'], [], [], 0, ?_, by simp, ?_, ?_, Or.inl ⟨rfl, rfl⟩, Or.inl rfl, ?_⟩
    · simp [decimal_text]
    · intro c hc
      rw [List.mem_singleton.mp hc]; decide
    · intro c hc
      cases hc
    · rw [if_pos hs]
      decide
  · rw [if_neg hs]
    obtain ⟨hD1, hD2, hX, hnear, hmax⟩ := six_digits_near x hfin hs _ _ rfl
    obtain ⟨ip, fp, ex, E, h1, h2, h3, h4, h5, h6, h7⟩ :=
      format_six_parts (if 2 ^ 63 ≤ x then ['-'] else []) _ _ hD1 hD2 hX
    refine ⟨ip, fp, ex, E, h1, h2, h3, h4, h5, h6, ?_⟩
    rw [if_neg hs]
    exact ⟨_, _, hD1, hD2, hnear, h7, hmax⟩

theorem sign_text (x : Double) :
    ((if 2 ^ 63 ≤ x then ['-'] else [] : List Char) = [] ∨
      (if 2 ^ 63 ≤ x then ['-'] else [] : List Char) = ['-']) ∧
    decide ((if 2 ^ 63 ≤ x then ['-'] else [] : List Char) = ['-']) = decide (2 ^ 63 ≤ x) := by
  by_cases h : 2 ^ 63 ≤ x
  · rw [if_pos h]
    exact ⟨Or.inr rfl, by rw [decide_eq_true h]; rfl⟩
  · rw [if_neg h]
    exact ⟨Or.inl rfl, by rw [decide_eq_false h]; rfl⟩

theorem zero_fields (x : Nat) (hlt : x < 18446744073709551616)
    (hs : (if x / 4503599627370496 % 2048 = 0 then x % 4503599627370496
      else x % 4503599627370496 + 4503599627370496) = 0) :
    x = if 9223372036854775808 ≤ x then 9223372036854775808 else 0 := by
  split_ifs at hs with h1
  split_ifs <;> omega

/-- A finite `double` whose significand is zero is `0.0` or `-0.0`. -/
theorem finite_zero (x : Double) (hfin : x.is_finite = true) (hs : x.significand = 0) :
    x = if 2 ^ 63 ≤ x then 2 ^ 63 else 0 := by
  simp only [Double.is_finite, Bool.and_eq_true, decide_eq_true_eq, bne_iff_ne] at hfin
  obtain ⟨hlt, -⟩ := hfin
  exact zero_fields x hlt hs

/-- The Number read back from the text written for a finite Number is the Number rounded
to six significant decimal digits. -/
theorem reread_six_digits (x : Double) (hfin : x.is_finite = true) :
    six_digit_rounding x (reread x) := by
  obtain ⟨ip, fp, ex, E, htext, hip, hipd, hfp, hex, -, hval⟩ := put_double_parts x hfin
  obtain ⟨hsgn, hneg⟩ := sign_text x
  have hre : reread x = (round_to_double (decide (2 ^ 63 ≤ x))
      (scale (digits_value 10 (ip ++ fp)) 10 (E - (fp.length : Int))).1
      (scale (digits_value 10 (ip ++ fp)) 10 (E - (fp.length : Int))).2).1 := by
    rw [reread, htext, strtod_decimal_text _ ip fp ex E hsgn hip hipd hfp hex, hneg]
  unfold six_digit_rounding
  by_cases hs : x.significand = 0
  · rw [if_pos hs]
    rw [if_pos hs] at hval
    rw [hre, round_to_double_fst, hval]
    have h0 : (scale 0 10 (E - (fp.length : Int))).1 = 0 := by
      unfold scale; split_ifs <;> simp
    rw [if_pos h0]
    have := finite_zero x hfin hs
    by_cases h : 2 ^ 63 ≤ x
    · simp only [h, decide_True, if_true] at this ⊢
      exact this.symm
    · simp only [h, decide_False, if_false, Bool.false_eq_true] at this ⊢
      exact this.symm
  · rw [if_neg hs]
    rw [if_neg hs] at hval
    obtain ⟨D, X, hD1, hD2, hnear, hdv, -⟩ := hval
    refine ⟨D, X, _, _, hD1, hD2, hnear, scale_snd_pos _ _ _ (by norm_num), ?_, hre⟩
    rw [scale_val _ _ _ (by norm_num)]
    exact_mod_cast hdv

/-- The integer part of a decimal constant, found again in its text. -/
theorem integer_part_of_text (sgn ip fp ex : List Char) (E : Int)
    (hs : sgn = [] ∨ sgn = ['-']) (hip : ip ≠ []) (hipd : ∀ c ∈ ip, isdigit c = true)
    (hex : exponent_part ex E) :
    ((decimal_text sgn ip fp ex).dropWhile (fun c => c == '-')).takeWhile isdigit = ip := by
  have hstop : ∀ c, ((if fp.isEmpty then [] else '.' :: fp) ++ ex).head? = some c →
      isdigit c = false := by
    intro c hc
    rcases fraction_head fp ex E hex c hc with rfl | rfl <;> decide
  obtain ⟨c, ip', rfl⟩ := List.exists_cons_of_ne_nil hip
  have hc : isdigit c = true := hipd c (by simp)
  have hc1 : (c == '-') = false := by
    cases h : c == '-'
    · rfl
    · rw [beq_iff_eq] at h; subst h; exact absurd hc (by decide)
  have hdrop : (decimal_text sgn (c :: ip') fp ex).dropWhile (fun c => c == '-') =
      (c :: ip') ++ ((if fp.isEmpty then [] else '.' :: fp) ++ ex) := by
    rcases hs with rfl | rfl
    · simp [decimal_text, List.dropWhile_cons, hc1]
    · simp [decimal_text, List.dropWhile_cons, hc1]
  rw [hdrop, takeWhile_append_stop _ _ hstop, takeWhile_all _ hipd]

/-- On the text written for a finite Number whose integer part has no digit `0` after its
first digit, `parse` returns `DSON_OK` with the Number that `strtod` reads from it. -/
theorem parse_put_double (x : Double) (hfin : x.is_finite = true)
    (hz : inner_zero_free x = true) :
    DsonParser.new.parse (put_double x) =
      some (DSON_OK, ⟨.mk DSON_NUMBER (some (.double (reread x)))⟩, ⟨[], []⟩) := by
  obtain ⟨ip, fp, ex, E, htext, hip, hipd, hfp, hex, hhead, hval⟩ := put_double_parts x hfin
  obtain ⟨hsgn, hneg⟩ := sign_text x
  have hipz : ip = ['0'] ∨ ∀ c ∈ ip, c ≠ '0' := by
    rcases hhead with h | h
    · exact Or.inl h
    · right
      unfold inner_zero_free at hz
      rw [htext, integer_part_of_text _ ip fp ex E hsgn hip hipd hex] at hz
      obtain ⟨c, ip', rfl⟩ := List.exists_cons_of_ne_nil hip
      intro a ha
      rcases List.mem_cons.mp ha with rfl | ha
      · simpa using h
      · have := List.all_eq_true.mp hz a ha
        simpa using this
  have hstr := strtod_decimal_text _ ip fp ex E hsgn hip hipd hfp hex
  have hlt : ((scale (digits_value 10 (ip ++ fp)) 10 (E - (fp.length : Int))).1 : ℚ) /
      (scale (digits_value 10 (ip ++ fp)) 10 (E - (fp.length : Int))).2 <
        (2 ^ 53 - 1) * 2 ^ 971 := by
    rw [scale_val _ _ _ (by norm_num)]
    by_cases hs : x.significand = 0
    · rw [if_pos hs] at hval
      rw [hval]
      norm_num
    · rw [if_neg hs] at hval
      obtain ⟨D, X, -, -, -, hdv, hmax⟩ := hval
      have : ((digits_value 10 (ip ++ fp) : ℕ) : ℚ) * ((10 : ℕ) : ℚ) ^ (E - (fp.length : Int)) =
          (D : ℚ) * 10 ^ (X - 5) := by exact_mod_cast hdv
      rw [this]
      exact hmax
  have hfinite := round_to_double_finite (decide ((if 2 ^ 63 ≤ x then ['-'] else [] : List Char)
    = ['-'])) _ _ (scale_snd_pos _ _ _ (by norm_num)) hlt
  rw [← hstr] at hfinite
  have := parse_decimal_text _ ip fp ex E hsgn hip hipd hipz hfp hex hfinite
  rw [← htext] at this
  exact this

/-! ## The round trip with Numbers of six digits -/

theorem reread_numbers_number (d : Double) :
    reread_numbers (.mk DSON_NUMBER (some (.double d))) =
      .mk DSON_NUMBER (some (.double (reread d))) := by
  simp [reread_numbers]

theorem reread_numbers_string (str : List Char) :
    reread_numbers (.mk DSON_STRING (some (.string str))) =
      .mk DSON_STRING (some (.string str)) := by
  simp [reread_numbers]

theorem reread_numbers_vector (arr : List dson_value) :
    reread_numbers (.mk DSON_ARRAY (some (.vector arr))) =
      .mk DSON_ARRAY (some (.vector (reread_numbers_array arr))) := by
  simp [reread_numbers]

theorem reread_numbers_map (obj : List (List Char × dson_value)) :
    reread_numbers (.mk DSON_OBJECT (some (.unordered_map obj))) =
      .mk DSON_OBJECT (some (.unordered_map (reread_numbers_object obj))) := by
  simp [reread_numbers]

theorem reread_numbers_array_eq (arr : List dson_value) :
    reread_numbers_array arr = arr.map reread_numbers := by
  induction arr with
  | nil => rfl
  | cons v rest ih => rw [reread_numbers_array, ih, List.map_cons]

theorem reread_numbers_object_eq (obj : List (List Char × dson_value)) :
    reread_numbers_object obj = obj.map (fun kv => (kv.1, reread_numbers kv.2)) := by
  induction obj with
  | nil => rfl
  | cons kv rest ih =>
    obtain ⟨k, v⟩ := kv
    rw [reread_numbers_object, ih, List.map_cons]

theorem stringify_members_tail (ms : List member) (obj : List (List Char × dson_value))
    (h : List.Forall₂ member_reread ms obj) :
    ∀ s i, 0 < i → dson_generate_context.stringify_object s i obj =
      some (s ++ (ms.map (fun x => ',' :: (x.key_text ++ ':' :: x.value_text))).flatten) := by
  induction h with
  | nil =>
    intro s i _
    simp [dson_generate_context.stringify_object]
  | @cons m kv _ _ hR _ ih =>
    intro s i hi
    obtain ⟨k, v⟩ := kv
    obtain ⟨hk, -, -, hv, -⟩ := hR
    rw [dson_generate_context.stringify_object, if_pos hi, stringify_string_eq, hv,
      Option.some_bind, ih _ _ (Nat.succ_pos i)]
    simp only [hk, List.map_cons, List.flatten_cons, List.append_assoc, List.cons_append,
      List.nil_append]

theorem stringify_members (ms : List member) (obj : List (List Char × dson_value))
    (h : List.Forall₂ member_reread ms obj) (s : List Char) :
    dson_generate_context.stringify s (.mk DSON_OBJECT (some (.unordered_map obj))) =
      some (s ++ object_text ms) := by
  rw [dson_generate_context.stringify]
  cases h with
  | nil => simp [dson_generate_context.stringify_object, object_text, join_members]
  | @cons m kv _ _ hR hrest =>
    obtain ⟨k, v⟩ := kv
    obtain ⟨hk, -, -, hv, -⟩ := hR
    rw [dson_generate_context.stringify_object, if_neg (by decide), stringify_string_eq, hv,
      Option.some_bind, stringify_members_tail _ _ hrest _ _ (by decide)]
    simp only [object_text, join_members_eq, hk, Option.map_some', List.append_assoc,
      List.cons_append, List.nil_append]

theorem members_map_reread (ms : List member) (obj : List (List Char × dson_value))
    (h : List.Forall₂ member_reread ms obj) :
    ∀ acc : List (List Char × dson_value), ((acc ++ obj).map Prod.fst).Nodup →
      ms.foldl (fun mp m => map_assign mp m.key m.value) acc =
        acc ++ reread_numbers_object obj := by
  induction h with
  | nil =>
    intro acc _
    simp [reread_numbers_object]
  | @cons m kv _ _ hR _ ih =>
    intro acc hnd
    obtain ⟨k, v⟩ := kv
    obtain ⟨-, hk, hv, -⟩ := hR
    simp only at hk hv
    have hnew : k ∉ acc.map Prod.fst := by
      intro hmem
      rw [List.map_append, List.map_cons] at hnd
      exact (List.nodup_append.mp hnd).2.2 hmem (List.mem_cons_self _ _)
    rw [List.foldl_cons, hk, hv, map_assign_new _ _ _ hnew, ih]
    · simp only [reread_numbers_object, List.append_assoc, List.cons_append, List.nil_append]
    · simpa only [List.map_append, List.map_cons, List.map_nil, List.append_assoc,
        List.cons_append, List.nil_append] using hnd

theorem number_round_trips_reread (d : Double) (hfin : d.is_finite = true)
    (hz : inner_zero_free d = true) :
    round_trips_reread (put_double d) (.mk DSON_NUMBER (some (.double d))) :=
  ⟨fun s => by rw [dson_generate_context.stringify],
    ⟨_, by rw [reread_numbers_number]; exact parse_put_double d hfin hz⟩⟩

theorem array_round_trips_reread (ts : List (List Char)) (vs : List dson_value)
    (h : List.Forall₂ round_trips_reread ts vs) :
    round_trips_reread (array_text ts) (.mk DSON_ARRAY (some (.vector vs))) := by
  refine ⟨fun s => stringify_array_eq ts vs (forall₂_imp_mem h fun _ _ _ hr => hr.1) s,
    ⟨[], []⟩, ?_⟩
  rw [reread_numbers_vector]
  refine parse_array_text ts (reread_numbers_array vs) ?_
  rw [reread_numbers_array_eq, List.forall₂_map_right_iff]
  exact forall₂_imp_mem h fun _ _ _ hr => hr.2

theorem object_round_trips_reread (ms : List member) (obj : List (List Char × dson_value))
    (h : List.Forall₂ member_reread ms obj) (hnd : (obj.map Prod.fst).Nodup) :
    round_trips_reread (object_text ms) (.mk DSON_OBJECT (some (.unordered_map obj))) := by
  have hvalid : ∀ m ∈ ms, m.valid := by
    intro m hm
    obtain ⟨kv, hkv⟩ := forall₂_left_mem h m hm
    obtain ⟨hk, hkey, hval, -, c, hc⟩ := hkv
    refine ⟨⟨⟨[], []⟩, ?_⟩, c, ?_⟩
    · rw [hk, hkey]; exact parse_stringify_string kv.1
    · rw [hval]; exact hc
  have hmap : members_map ms = reread_numbers_object obj := by
    have := members_map_reread ms obj h [] (by simpa using hnd)
    simpa [members_map] using this
  have hp := parse_object_text ms hvalid
  rw [hmap] at hp
  exact ⟨fun s => stringify_members ms obj h s, _, by rw [reread_numbers_map]; exact hp⟩

mutual
theorem writable_round_trips (v : dson_value) (h : writable v = true) :
    ∃ t, round_trips_reread t v := by
  cases v with
  | mk ty val =>
    cases ty <;> cases val with
    | none =>
      first
      | exact ⟨"null".toList, fun s => by rw [dson_generate_context.stringify], _, rfl⟩
      | exact ⟨"true".toList, fun s => by rw [dson_generate_context.stringify], _, rfl⟩
      | exact ⟨"false".toList, fun s => by rw [dson_generate_context.stringify], _, rfl⟩
      | simp [writable] at h
    | some p =>
      cases p with
      | double d =>
        first
        | (have h2 : d.is_finite = true ∧ inner_zero_free d = true := by
             simpa [writable] using h
           exact ⟨_, number_round_trips_reread d h2.1 h2.2⟩)
        | simp [writable] at h
      | string str =>
        first
        | exact ⟨_, (string_round_trips str).1, _, by
            rw [reread_numbers_string]; exact parse_stringify_string str⟩
        | simp [writable] at h
      | vector arr =>
        first
        | (obtain ⟨ts, hts⟩ := writable_array_round_trips arr (by simpa [writable] using h)
           exact ⟨_, array_round_trips_reread ts arr hts⟩)
        | simp [writable] at h
      | unordered_map obj =>
        first
        | (have h2 : (obj.map Prod.fst).Nodup ∧ writable_object obj = true := by
             simpa [writable] using h
           obtain ⟨ms, hms⟩ := writable_object_round_trips obj h2.2
           exact ⟨_, object_round_trips_reread ms obj hms h2.1⟩)
        | simp [writable] at h
theorem writable_array_round_trips (arr : List dson_value) (h : writable_array arr = true) :
    ∃ ts, List.Forall₂ round_trips_reread ts arr := by
  cases arr with
  | nil => exact ⟨[], .nil⟩
  | cons v rest =>
    have h2 : writable v = true ∧ writable_array rest = true := by
      simpa [writable_array] using h
    obtain ⟨t, ht⟩ := writable_round_trips v h2.1
    obtain ⟨ts, hts⟩ := writable_array_round_trips rest h2.2
    exact ⟨t :: ts, .cons ht hts⟩
theorem writable_object_round_trips (obj : List (List Char × dson_value))
    (h : writable_object obj = true) :
    ∃ ms, List.Forall₂ member_reread ms obj := by
  cases obj with
  | nil => exact ⟨[], .nil⟩
  | cons kv rest =>
    obtain ⟨k, v⟩ := kv
    have h2 : writable v = true ∧ writable_object rest = true := by
      simpa [writable_object] using h
    obtain ⟨t, ht⟩ := writable_round_trips v h2.1
    obtain ⟨ms, hms⟩ := writable_object_round_trips rest h2.2
    exact ⟨⟨literal_text (k.map char_item), k, t, reread_numbers v⟩ :: ms,
      .cons ⟨rfl, rfl, rfl, ht⟩ hms⟩
end

/-- C1, amended: the round trip holds up to the six significant digits that are written
for a Number. Let `v` be a well-formed value (kind and payload agree at every level, no
Object holds a key twice) in which every Number is finite and is written with no digit `0`
after the first digit of its integer part (as `1.5`, `0.001`, `123456` and `1e+21` are, and
`10`, `1024.5` and `100000` are not). Then `stringify_raw v` returns a text on which
`parse`, on a new parser, returns `DSON_OK` and leaves a root equal to `v` but for its
Numbers: same kinds, equal strings, arrays equal element by element, objects with the same
keys, and in the place of each Number `x` the Number `reread x` that `strtod` reads from
the text written for `x`. For every finite `x`, `reread x` is `x` rounded to six
significant decimal digits: `x` itself for a zero, and otherwise the `double` nearest to a
decimal `D * 10 ^ (X - 5)`, `10 ^ 5 ≤ D < 10 ^ 6`, within half a unit of its sixth digit
from `x`. -/
theorem stringify_parse_six_digits (v : dson_value) (h : writable v = true) :
    (∃ t c, dson_generator.stringify_raw v = some t ∧
      DsonParser.new.parse t = some (DSON_OK, ⟨reread_numbers v⟩, c)) ∧
    ∀ x : Double, x.is_finite = true → six_digit_rounding x (reread x) := by
  obtain ⟨t, ht, c, hc⟩ := writable_round_trips v h
  exact ⟨⟨t, c, by rw [dson_generator.stringify_raw, ht, List.nil_append], hc⟩,
    reread_six_digits⟩

set_option maxRecDepth 20000 in
/-- C1, amended, at the value `{"a":[0.1234567,null,"x\n",-3.25],"n":6.02214076e23,"":{}}`:
the root left is `{"a":[0.123457,null,"x\n",-3.25],"n":6.02214e+23,"":{}}`. -/
theorem stringify_parse_six_digits_witness :
    writable (.mk DSON_OBJECT (some (.unordered_map
      [("a".toList, .mk DSON_ARRAY (some (.vector
          [.mk DSON_NUMBER (some (.double 0x3fbf9adbb8f8da72)), .mk DSON_NULL none,
            .mk DSON_STRING (some (.string "x\n".toList)),
            .mk DSON_NUMBER (some (.double 0xc00a000000000000))]))),
        ("n".toList, .mk DSON_NUMBER (some (.double 0x44dfe185ca57c517))),
        ([], .mk DSON_OBJECT (some (.unordered_map [])))]))) = true ∧
    ((∃ t c, dson_generator.stringify_raw (.mk DSON_OBJECT (some (.unordered_map
      [("a".toList, .mk DSON_ARRAY (some (.vector
          [.mk DSON_NUMBER (some (.double 0x3fbf9adbb8f8da72)), .mk DSON_NULL none,
            .mk DSON_STRING (some (.string "x\n".toList)),
            .mk DSON_NUMBER (some (.double 0xc00a000000000000))]))),
        ("n".toList, .mk DSON_NUMBER (some (.double 0x44dfe185ca57c517))),
        ([], .mk DSON_OBJECT (some (.unordered_map [])))]))) = some t ∧
      DsonParser.new.parse t = some (DSON_OK, ⟨.mk DSON_OBJECT (some (.unordered_map
      [("a".toList, .mk DSON_ARRAY (some (.vector
          [.mk DSON_NUMBER (some (.double 0x3fbf9ae0c1765775)), .mk DSON_NULL none,
            .mk DSON_STRING (some (.string "x\n".toList)),
            .mk DSON_NUMBER (some (.double 0xc00a000000000000))]))),
        ("n".toList, .mk DSON_NUMBER (some (.double 0x44dfe18586d75edc))),
        ([], .mk DSON_OBJECT (some (.unordered_map [])))]))⟩, c)) ∧
    ∀ x : Double, x.is_finite = true → six_digit_rounding x (reread x)) :=
  ⟨by decide, stringify_parse_six_digits _ (by decide)⟩
end dson
